import Mathlib

/-! Partition state of the compute node (`pkg/vm/engine/disttae/partition_state.go`).

A shallow embedding of the in-memory partition state: the three ordered
indices (`Rows`, `Blocks`, `PrimaryIndex`), the checkpoint list, the snapshot
query `RowExists` and the four log-tail handlers.

Conventions of the embedding.

* Modelled from the spec: a row id (`types.Rowid`, a fixed-size byte array
  compared bytewise) is the natural number its bytes spell in big-endian
  order, and a timestamp (`types.TS`) is a natural number whose zero value is
  the empty timestamp. Both orders are the numeric ones. Fields and arguments
  of these types are declared `Nat`.
* A `btree.BTreeG` is represented by the sequence of its items in iteration
  order; the operations of the library used by the source (`Set`, `Get`,
  `Delete`, `Copy`, `Iter.Seek` / `Iter.Next`) act on that sequence.
* Helpers of the repository that the source file calls but does not define
  (`blockIDFromRowID`, `isMetaTable`, `encodePrimaryKeyVector`,
  `types.DecodeUint64`) are fields of an environment `Env`.
* A Go panic is an `Outcome.panicked` value that carries the state as the
  panic left it.
* Where it matters which objects two partition states share (`Copy`), the trees
  and the arrays of the checkpoint slices are objects of a `Process`, addressed
  by number, and a partition state object holds the addresses of its trees.
-/

namespace disttae

/-! ## Wire data -/

/-- Byte strings (`[]byte`), one natural number per byte. -/
abbrev Bytes := List Nat

/-- Modelled from the spec: `Rowid.Less` of package `types`, the order of row ids. -/
def Rowid.Less (a b : Nat) : Bool := decide (a < b)

/-- Modelled from the spec: `TS.Less` of package `types`. -/
def TS.Less (a b : Nat) : Bool := decide (a < b)

/-- Modelled from the spec: `TS.LessEq` of package `types`. -/
def TS.LessEq (a b : Nat) : Bool := decide (a ≤ b)

/-- Modelled from the spec: `TS.Greater` of package `types`. -/
def TS.Greater (a b : Nat) : Bool := decide (a > b)

/-- Modelled from the spec: `TS.IsEmpty` of package `types`, true of the zero
timestamp only. -/
def TS.IsEmpty (a : Nat) : Bool := decide (a = 0)

/-- A column of a wire batch (`api.Vector`), by the type of its cells. `bad`
is a vector that `mustVectorFromProto` cannot decode. -/
inductive Vec where
  | rowids (col : List Nat)
  | tss (col : List Nat)
  | uint64s (col : List Nat)
  | bools (col : List Bool)
  | strs (col : List String)
  | bad
deriving DecidableEq, Repr

/-- A columnar batch (`api.Batch`, and `batch.Batch` once decoded). -/
structure Batch where
  Vecs : List Vec
deriving DecidableEq, Repr

/-- The reasons for which the handlers panic. -/
inductive Panic where
  | unknownEntryType
  | invalidBlockID (rowID : Nat)
  | indexOutOfRange
  | badVector
  | typeMismatch
  | decodeError
deriving DecidableEq, Repr

/-- Helpers of the repository that `partition_state.go` calls and does not
define. -/
structure Env where
  /-- The block a row id belongs to (`blockIDFromRowID`). -/
  blockIDFromRowID : Nat → Nat
  /-- What `types.DecodeUint64(rowID[:8])` yields for a row id. -/
  DecodeUint64 : Nat → Nat
  /-- Whether a table name names the metadata table (`isMetaTable`). -/
  isMetaTable : String → Bool
  /-- The encoded primary keys of a column, one byte string per row
  (`encodePrimaryKeyVector`, the packer being scratch space). -/
  encodePrimaryKeyVector : Vec → List Bytes

/-! ## The ordered index -/

namespace btree

variable {α : Type}

/-- `BTreeG.Set`: insert `item`, replacing the item equal to it under `less`. -/
def Set (less : α → α → Bool) (item : α) : List α → List α
  | [] => [item]
  | x :: xs =>
    if less x item then x :: Set less item xs
    else if less item x then item :: x :: xs
    else item :: xs

/-- `BTreeG.Get`: the item equal to `key` under `less`, if any. -/
def Get (less : α → α → Bool) (key : α) (xs : List α) : Option α :=
  xs.find? (fun x => !less x key && !less key x)

/-- `BTreeG.Delete`: remove the item equal to `key` under `less`. -/
def Delete (less : α → α → Bool) (key : α) (xs : List α) : List α :=
  xs.filter (fun x => less x key || less key x)

/-- `IterG.Seek` followed by `IterG.Next` until exhaustion: the items from the
first one that is not less than `pivot` on. -/
def Seek (less : α → α → Bool) (pivot : α) (xs : List α) : List α :=
  xs.dropWhile (fun x => less x pivot)

/-- `BTreeG.Copy`: the items of the copy, which are those of its source. That
the copy is a tree of its own is in `Process.Copy`. -/
def Copy (xs : List α) : List α := xs

/-- The invariant of a tree: its items are strictly ascending under `less`. -/
def Sorted (less : α → α → Bool) (xs : List α) : Prop :=
  xs.Pairwise (fun a b => less a b = true)

instance Sorted.decidable (less : α → α → Bool) (xs : List α) : Decidable (Sorted less xs) :=
  inferInstanceAs (Decidable (xs.Pairwise (fun a b => less a b = true)))

/-- What the library asks of a comparison function: a strict weak order. -/
structure IsOrder (less : α → α → Bool) : Prop where
  irrefl : ∀ a, less a a = false
  trans : ∀ a b c, less a b = true → less b c = true → less a c = true
  cotrans : ∀ a b c, less a c = true → less a b = true ∨ less b c = true

end btree

/-! ## Entries and their orders -/

/-- A version of a row. -/
structure RowEntry where
  BlockID : Nat := 0
  RowID : Nat := 0
  Time : Nat := 0
  ID : Int := 0
  Deleted : Bool := false
  Batch : Option Batch := none
  Offset : Int := 0
  PrimaryIndexBytes : Bytes := []
deriving DecidableEq, Repr

/-- The version sits at the triple `(blockID, rowID, time)`. -/
def RowEntry.isAt (v : RowEntry) (blockID rowID time : Nat) : Prop :=
  v.BlockID = blockID ∧ v.RowID = rowID ∧ v.Time = time

instance RowEntry.isAt.decidable (v : RowEntry) (blockID rowID time : Nat) :
    Decidable (v.isAt blockID rowID time) :=
  inferInstanceAs (Decidable (v.BlockID = blockID ∧ v.RowID = rowID ∧ v.Time = time))

/-- `RowEntry.Less`: block id ascending, row id ascending, time descending. -/
def RowEntry.Less (r than : RowEntry) : Bool :=
  if r.BlockID < than.BlockID then true
  else if than.BlockID < r.BlockID then false
  else if Rowid.Less r.RowID than.RowID then true
  else if Rowid.Less than.RowID r.RowID then false
  else if TS.Less than.Time r.Time then true
  else if TS.Less r.Time than.Time then false
  else false

/-- A block: the fields of `catalog.BlockInfo` that the source uses, with the
create and delete timestamps. -/
structure BlockEntry where
  BlockID : Nat := 0
  EntryState : Bool := false
  Sorted : Bool := false
  MetaLoc : String := ""
  DeltaLoc : String := ""
  CommitTs : Nat := 0
  SegmentID : Nat := 0
  CreateTime : Nat := 0
  DeleteTime : Nat := 0
deriving DecidableEq, Repr

/-- `BlockEntry.Less`: by block id. -/
def BlockEntry.Less (b than : BlockEntry) : Bool :=
  if b.BlockID < than.BlockID then true
  else if than.BlockID < b.BlockID then false
  else false

/-- `BlockEntry.Visible`. -/
def BlockEntry.Visible (b : BlockEntry) (ts : Nat) : Bool :=
  TS.LessEq b.CreateTime ts && (TS.IsEmpty b.DeleteTime || TS.Less ts b.DeleteTime)

/-- An entry of the primary-key index. -/
structure PrimaryIndexEntry where
  Bytes : Bytes := []
  RowEntryID : Int := 0
  BlockID : Nat := 0
  RowID : Nat := 0
deriving DecidableEq, Repr

/-- `bytes.Compare`: lexicographic comparison of byte strings. -/
def bytesCompare : Bytes → Bytes → Ordering
  | [], [] => .eq
  | [], _ :: _ => .lt
  | _ :: _, [] => .gt
  | a :: as, b :: bs =>
    if a < b then .lt else if b < a then .gt else bytesCompare as bs

/-- `PrimaryIndexEntry.Less`: by key bytes, then by row entry id. -/
def PrimaryIndexEntry.Less (p than : PrimaryIndexEntry) : Bool :=
  match bytesCompare p.Bytes than.Bytes with
  | .lt => true
  | .gt => false
  | .eq => decide (p.RowEntryID < than.RowEntryID)

/-! ## The partition state -/

/-- The state of a partition. -/
structure PartitionState where
  Rows : List RowEntry := []
  Blocks : List BlockEntry := []
  PrimaryIndex : List PrimaryIndexEntry := []
  Checkpoints : List String := []
deriving DecidableEq, Repr

/-- `NewPartitionState`: three empty trees and no checkpoint. -/
def NewPartitionState : PartitionState := {}

/-- What the object that `PartitionState.Copy` returns holds: the items of the
copies of the three trees and the checkpoints copied to the new slice. The
objects themselves, and which of them two partition states share, are in
`Process.Copy`. -/
def PartitionState.Copy (p : PartitionState) : PartitionState :=
  { Rows := btree.Copy p.Rows
    Blocks := btree.Copy p.Blocks
    PrimaryIndex := btree.Copy p.PrimaryIndex
    Checkpoints := p.Checkpoints.map id }

/-- The loop of `RowExists` over the items the iterator yields from the seek
position on. -/
def RowExists.loop (blockID : Nat) (rowID : Nat) (ts : Nat) : List RowEntry → Bool
  | [] => false
  | entry :: rest =>
    if entry.BlockID != blockID then false
    else if entry.RowID != rowID then false
    else if TS.Greater entry.Time ts then RowExists.loop blockID rowID ts rest
    else if entry.Deleted then false
    else true

/-- `PartitionState.RowExists`. -/
def PartitionState.RowExists (env : Env) (p : PartitionState) (rowID : Nat) (ts : Nat) : Bool :=
  let blockID := env.blockIDFromRowID rowID
  RowExists.loop blockID rowID ts
    (btree.Seek RowEntry.Less { BlockID := blockID, RowID := rowID, Time := ts } p.Rows)

/-! ## Handler state, panics and decoding -/

/-- What a handler reads and writes: the process-wide counter
`nextRowEntryID` and the partition state. -/
structure St where
  nextRowEntryID : Int := 1
  p : PartitionState := {}
deriving DecidableEq, Repr

/-- How a handler call ends: it returns, or it panics; either way `s` is the
state it leaves. -/
inductive Outcome where
  | done (s : St)
  | panicked (why : Panic) (s : St)
deriving DecidableEq, Repr

/-- The state a call leaves behind. -/
def Outcome.state : Outcome → St
  | .done s => s
  | .panicked _ s => s

/-- Whether the call panicked. -/
def Outcome.failed : Outcome → Bool
  | .done _ => false
  | .panicked _ _ => true

/-- Two's complement wrap-around of a 64-bit signed integer. -/
def wrapInt64 (x : Int) : Int :=
  (x + 9223372036854775808) % 18446744073709551616 - 9223372036854775808

/-- `atomic.AddInt64`: the new value of the counter. -/
def atomicAddInt64 (addr delta : Int) : Int := wrapInt64 (addr + delta)

/-- `mustVectorFromProto(input.Vecs[k])`: panics when the batch has no such
column and when the column cannot be decoded. -/
def mustVectorFromProto : Option Vec → Except Panic Vec
  | none => .error .indexOutOfRange
  | some .bad => .error .badVector
  | some v => .ok v

/-- `vector.MustFixedCol[types.Rowid]`. -/
def MustFixedCol.rowid : Vec → Except Panic (List Nat)
  | .rowids col => .ok col
  | _ => .error .typeMismatch

/-- `vector.MustFixedCol[types.TS]`. -/
def MustFixedCol.ts : Vec → Except Panic (List Nat)
  | .tss col => .ok col
  | _ => .error .typeMismatch

/-- `vector.MustFixedCol[uint64]`. -/
def MustFixedCol.uint64 : Vec → Except Panic (List Nat)
  | .uint64s col => .ok col
  | _ => .error .typeMismatch

/-- `vector.MustFixedCol[bool]`. -/
def MustFixedCol.bool : Vec → Except Panic (List Bool)
  | .bools col => .ok col
  | _ => .error .typeMismatch

/-- `vector.MustStrCol`. -/
def MustStrCol : Vec → Except Panic (List String)
  | .strs col => .ok col
  | _ => .error .typeMismatch

/-- `batch.ProtoBatchToBatch`: fails when a column cannot be decoded. -/
def ProtoBatchToBatch (input : Batch) : Except Panic Batch :=
  if input.Vecs.any (fun v => v == Vec.bad) then .error .decodeError else .ok input

/-- The shape of the row loops, `for i, x := range xs { body }`: the body
either panics, which ends the call with the state as it stands, or yields the
next state. -/
def forRange {α : Type} (body : Nat → α → St → Except Panic St) :
    Nat → List α → St → Outcome
  | _, [], s => .done s
  | i, x :: xs, s =>
    match body i x s with
    | .error why => .panicked why s
    | .ok s' => forRange body (i + 1) xs s'

/-! ## Data insert and data delete -/

/-- The vectors `HandleRowsInsert` reads before its loop. -/
structure RowsInsertInput where
  rowIDVector : List Nat
  timeVector : List Nat
  batch : Batch
  primaryKeyBytesSet : List Bytes
deriving DecidableEq, Repr

/-- Lines 214-226 of `HandleRowsInsert`. -/
def HandleRowsInsert.decode (env : Env) (input : Batch) (primaryKeyIndex : Int) :
    Except Panic RowsInsertInput :=
  match mustVectorFromProto input.Vecs[0]? >>= MustFixedCol.rowid with
  | .error why => .error why
  | .ok rowIDVector =>
    match mustVectorFromProto input.Vecs[1]? >>= MustFixedCol.ts with
    | .error why => .error why
    | .ok timeVector =>
      match ProtoBatchToBatch input with
      | .error why => .error why
      | .ok batch =>
        if primaryKeyIndex ≥ 0 then
          match batch.Vecs[(2 + primaryKeyIndex).toNat]? with
          | none => .error .indexOutOfRange
          | some col =>
            .ok { rowIDVector := rowIDVector, timeVector := timeVector, batch := batch,
                  primaryKeyBytesSet := env.encodePrimaryKeyVector col }
        else
          .ok { rowIDVector := rowIDVector, timeVector := timeVector, batch := batch,
                primaryKeyBytesSet := [] }

/-- Lines 231-247 of `HandleRowsInsert`: the version the row stores, which is
the version found at the row's triple, or a new one with a new id, with the
batch, the offset and, when the batch has a key for the row, the key bytes
overwritten. -/
def HandleRowsInsert.entry (env : Env) (d : RowsInsertInput) (i : Nat) (rowID time : Nat)
    (s : St) : RowEntry :=
  let blockID := env.blockIDFromRowID rowID
  let pivot : RowEntry := { BlockID := blockID, RowID := rowID, Time := time }
  let entry := match btree.Get RowEntry.Less pivot s.p.Rows with
    | some entry => entry
    | none => { pivot with ID := atomicAddInt64 s.nextRowEntryID 1 }
  let entry := { entry with Batch := some d.batch, Offset := (i : Int) }
  if h : i < d.primaryKeyBytesSet.length then
    { entry with PrimaryIndexBytes := d.primaryKeyBytesSet[i] }
  else entry

/-- The value of `nextRowEntryID` after a row at `(rowID, time)` was handled:
incremented when the triple was not found (lines 237-241, 286-290). -/
def nextAfterRow (env : Env) (rowID time : Nat) (s : St) : Int :=
  let pivot : RowEntry := { BlockID := env.blockIDFromRowID rowID, RowID := rowID, Time := time }
  match btree.Get RowEntry.Less pivot s.p.Rows with
  | some _ => s.nextRowEntryID
  | none => atomicAddInt64 s.nextRowEntryID 1

/-- The body of the loop of `HandleRowsInsert` (lines 231-258). -/
def HandleRowsInsert.row (env : Env) (d : RowsInsertInput) (i : Nat) (rowID : Nat) (s : St) :
    Except Panic St :=
  match d.timeVector[i]? with
  | none => .error .indexOutOfRange
  | some time =>
    let blockID := env.blockIDFromRowID rowID
    let entry := HandleRowsInsert.entry env d i rowID time s
    let rows := btree.Set RowEntry.Less entry s.p.Rows
    let primaryIndex :=
      if h : i < d.primaryKeyBytesSet.length then
        if (d.primaryKeyBytesSet[i]).length > 0 then
          btree.Set PrimaryIndexEntry.Less
            { Bytes := d.primaryKeyBytesSet[i], RowEntryID := entry.ID,
              BlockID := blockID, RowID := rowID } s.p.PrimaryIndex
        else s.p.PrimaryIndex
      else s.p.PrimaryIndex
    .ok { nextRowEntryID := nextAfterRow env rowID time s,
          p := { s.p with Rows := rows, PrimaryIndex := primaryIndex } }

/-- `PartitionState.HandleRowsInsert`. -/
def HandleRowsInsert (env : Env) (s : St) (input : Batch) (primaryKeyIndex : Int) : Outcome :=
  match HandleRowsInsert.decode env input primaryKeyIndex with
  | .error why => .panicked why s
  | .ok d => forRange (HandleRowsInsert.row env d) 0 d.rowIDVector s

/-- The vectors `HandleRowsDelete` reads before its loop. -/
structure RowsDeleteInput where
  rowIDVector : List Nat
  timeVector : List Nat
  batch : Batch
deriving DecidableEq, Repr

/-- Lines 270-275 of `HandleRowsDelete`. -/
def HandleRowsDelete.decode (input : Batch) : Except Panic RowsDeleteInput :=
  match mustVectorFromProto input.Vecs[0]? >>= MustFixedCol.rowid with
  | .error why => .error why
  | .ok rowIDVector =>
    match mustVectorFromProto input.Vecs[1]? >>= MustFixedCol.ts with
    | .error why => .error why
    | .ok timeVector =>
      match ProtoBatchToBatch input with
      | .error why => .error why
      | .ok batch => .ok { rowIDVector := rowIDVector, timeVector := timeVector, batch := batch }

/-- Lines 280-294 of `HandleRowsDelete`: the version the row stores, which is
the version found at the row's triple, or a new one with a new id, marked
deleted, with the batch and the offset overwritten. -/
def HandleRowsDelete.entry (env : Env) (d : RowsDeleteInput) (i : Nat) (rowID time : Nat)
    (s : St) : RowEntry :=
  let blockID := env.blockIDFromRowID rowID
  let pivot : RowEntry := { BlockID := blockID, RowID := rowID, Time := time }
  let entry := match btree.Get RowEntry.Less pivot s.p.Rows with
    | some entry => entry
    | none => { pivot with ID := atomicAddInt64 s.nextRowEntryID 1 }
  { entry with Deleted := true, Batch := some d.batch, Offset := (i : Int) }

/-- The body of the loop of `HandleRowsDelete` (lines 280-296). -/
def HandleRowsDelete.row (env : Env) (d : RowsDeleteInput) (i : Nat) (rowID : Nat) (s : St) :
    Except Panic St :=
  match d.timeVector[i]? with
  | none => .error .indexOutOfRange
  | some time =>
    let entry := HandleRowsDelete.entry env d i rowID time s
    .ok { nextRowEntryID := nextAfterRow env rowID time s,
          p := { s.p with Rows := btree.Set RowEntry.Less entry s.p.Rows } }

/-- `PartitionState.HandleRowsDelete`. -/
def HandleRowsDelete (env : Env) (s : St) (input : Batch) : Outcome :=
  match HandleRowsDelete.decode input with
  | .error why => .panicked why s
  | .ok d => forRange (HandleRowsDelete.row env d) 0 d.rowIDVector s

/-! ## Metadata insert and metadata delete -/

/-- The vectors `HandleMetadataInsert` reads before its loop (lines 307-314). -/
structure MetadataInsertInput where
  createTimeVector : List Nat
  blockIDVector : List Nat
  entryStateVector : List Bool
  sortedStateVector : List Bool
  metaLocationVector : List String
  deltaLocationVector : List String
  commitTimeVector : List Nat
  segmentIDVector : List Nat
deriving DecidableEq, Repr

/-- Lines 307-314 of `HandleMetadataInsert`. -/
def HandleMetadataInsert.decode (input : Batch) : Except Panic MetadataInsertInput := do
  let createTimeVector ← mustVectorFromProto input.Vecs[1]? >>= MustFixedCol.ts
  let blockIDVector ← mustVectorFromProto input.Vecs[2]? >>= MustFixedCol.uint64
  let entryStateVector ← mustVectorFromProto input.Vecs[3]? >>= MustFixedCol.bool
  let sortedStateVector ← mustVectorFromProto input.Vecs[4]? >>= MustFixedCol.bool
  let metaLocationVector ← mustVectorFromProto input.Vecs[5]? >>= MustStrCol
  let deltaLocationVector ← mustVectorFromProto input.Vecs[6]? >>= MustStrCol
  let commitTimeVector ← mustVectorFromProto input.Vecs[7]? >>= MustFixedCol.ts
  let segmentIDVector ← mustVectorFromProto input.Vecs[8]? >>= MustFixedCol.uint64
  pure { createTimeVector := createTimeVector, blockIDVector := blockIDVector,
         entryStateVector := entryStateVector, sortedStateVector := sortedStateVector,
         metaLocationVector := metaLocationVector, deltaLocationVector := deltaLocationVector,
         commitTimeVector := commitTimeVector, segmentIDVector := segmentIDVector }

/-- The cells of row `i` of a metadata-insert batch. -/
structure MetadataRow where
  createTime : Nat
  entryState : Bool
  sortedState : Bool
  metaLocation : String
  deltaLocation : String
  commitTime : Nat
  segmentID : Nat
deriving DecidableEq, Repr

/-- The cells the loop body reads at index `i`; `none` when one of the vectors
is too short, in which case the body panics. -/
def MetadataInsertInput.cells (d : MetadataInsertInput) (i : Nat) : Option MetadataRow := do
  let metaLocation ← d.metaLocationVector[i]?
  let deltaLocation ← d.deltaLocationVector[i]?
  let segmentID ← d.segmentIDVector[i]?
  let sortedState ← d.sortedStateVector[i]?
  let createTime ← d.createTimeVector[i]?
  let commitTime ← d.commitTimeVector[i]?
  let entryState ← d.entryStateVector[i]?
  pure { createTime := createTime, entryState := entryState, sortedState := sortedState,
         metaLocation := metaLocation, deltaLocation := deltaLocation,
         commitTime := commitTime, segmentID := segmentID }

/-- Lines 329-345 of `HandleMetadataInsert`: the field-by-field update of the
block entry. -/
def HandleMetadataInsert.merge (entry : BlockEntry) (r : MetadataRow) : BlockEntry :=
  let entry := if r.metaLocation != "" then { entry with MetaLoc := r.metaLocation } else entry
  let entry := if r.deltaLocation != "" then { entry with DeltaLoc := r.deltaLocation } else entry
  let entry := if r.segmentID > 0 then { entry with SegmentID := r.segmentID } else entry
  let entry := { entry with Sorted := r.sortedState }
  let entry := if !TS.IsEmpty r.createTime then { entry with CreateTime := r.createTime } else entry
  let entry := if !TS.IsEmpty r.commitTime then { entry with CommitTs := r.commitTime } else entry
  { entry with EntryState := r.entryState }

/-- Lines 354-368 of `HandleMetadataInsert`: the loop over the items of the
copy of `Rows` from the seek position on, deleting from the live trees. -/
def HandleMetadataInsert.deleteLoop (blockID : Nat) : List RowEntry → PartitionState → PartitionState
  | [], p => p
  | entry :: rest, p =>
    if entry.BlockID != blockID then p
    else
      let p := { p with Rows := btree.Delete RowEntry.Less entry p.Rows }
      let key : PrimaryIndexEntry := { Bytes := entry.PrimaryIndexBytes, RowEntryID := entry.ID }
      let p :=
        if entry.PrimaryIndexBytes.length > 0 then
          { p with PrimaryIndex := btree.Delete PrimaryIndexEntry.Less key p.PrimaryIndex }
        else p
      HandleMetadataInsert.deleteLoop blockID rest p

/-- The body of the loop of `HandleMetadataInsert` (lines 319-370). -/
def HandleMetadataInsert.row (d : MetadataInsertInput) (i : Nat) (blockID : Nat) (s : St) :
    Except Panic St :=
  let pivot : BlockEntry := { BlockID := blockID }
  let entry := (btree.Get BlockEntry.Less pivot s.p.Blocks).getD pivot
  match d.cells i with
  | none => .error .indexOutOfRange
  | some r =>
    let entry := HandleMetadataInsert.merge entry r
    let p := { s.p with Blocks := btree.Set BlockEntry.Less entry s.p.Blocks }
    let p :=
      if r.entryState then
        HandleMetadataInsert.deleteLoop blockID
          (btree.Seek RowEntry.Less { BlockID := blockID } (btree.Copy p.Rows)) p
      else p
    .ok { s with p := p }

/-- `PartitionState.HandleMetadataInsert`. -/
def HandleMetadataInsert (s : St) (input : Batch) : Outcome :=
  match HandleMetadataInsert.decode input with
  | .error why => .panicked why s
  | .ok d => forRange (HandleMetadataInsert.row d) 0 d.blockIDVector s

/-- The vectors `HandleMetadataDelete` reads before its loop. -/
structure MetadataDeleteInput where
  rowIDVector : List Nat
  deleteTimeVector : List Nat
deriving DecidableEq, Repr

/-- Lines 382-383 of `HandleMetadataDelete`. -/
def HandleMetadataDelete.decode (input : Batch) : Except Panic MetadataDeleteInput :=
  match mustVectorFromProto input.Vecs[0]? >>= MustFixedCol.rowid with
  | .error why => .error why
  | .ok rowIDVector =>
    match mustVectorFromProto input.Vecs[1]? >>= MustFixedCol.ts with
    | .error why => .error why
    | .ok deleteTimeVector =>
      .ok { rowIDVector := rowIDVector, deleteTimeVector := deleteTimeVector }

/-- The body of the loop of `HandleMetadataDelete` (lines 386-402). -/
def HandleMetadataDelete.row (env : Env) (d : MetadataDeleteInput) (i : Nat) (rowID : Nat)
    (s : St) : Except Panic St :=
  let blockID := env.DecodeUint64 rowID
  let pivot : BlockEntry := { BlockID := blockID }
  match btree.Get BlockEntry.Less pivot s.p.Blocks with
  | none => .error (.invalidBlockID rowID)
  | some entry =>
    match d.deleteTimeVector[i]? with
    | none => .error .indexOutOfRange
    | some deleteTime =>
      let entry := { entry with DeleteTime := deleteTime }
      .ok { s with p := { s.p with Blocks := btree.Set BlockEntry.Less entry s.p.Blocks } }

/-- `PartitionState.HandleMetadataDelete`. -/
def HandleMetadataDelete (env : Env) (s : St) (input : Batch) : Outcome :=
  match HandleMetadataDelete.decode input with
  | .error why => .panicked why s
  | .ok d => forRange (HandleMetadataDelete.row env d) 0 d.rowIDVector s

/-! ## Dispatch -/

/-- The kinds of a log-tail entry (`api.Entry_EntryType`). -/
inductive EntryType where
  | Insert
  | Update
  | Delete
deriving DecidableEq, Repr

/-- A log-tail entry (`api.Entry`), with the fields the handlers read. -/
structure Entry where
  EntryType : EntryType
  TableName : String
  Bat : Batch
deriving DecidableEq, Repr

/-- `PartitionState.HandleLogtailEntry`. -/
def HandleLogtailEntry (env : Env) (s : St) (entry : Entry) (primaryKeyIndex : Int) : Outcome :=
  match entry.EntryType with
  | .Insert =>
    if env.isMetaTable entry.TableName then HandleMetadataInsert s entry.Bat
    else HandleRowsInsert env s entry.Bat primaryKeyIndex
  | .Delete =>
    if env.isMetaTable entry.TableName then HandleMetadataDelete env s entry.Bat
    else HandleRowsDelete env s entry.Bat
  | _ => .panicked .unknownEntryType s

/-- The call `HandleLogtailEntry` with the row loop of the handler stopped
after the first `k` rows of the batch. -/
def HandleLogtailEntry.firstRows (env : Env) (s : St) (entry : Entry) (primaryKeyIndex : Int)
    (k : Nat) : Outcome :=
  match entry.EntryType with
  | .Insert =>
    if env.isMetaTable entry.TableName then
      match HandleMetadataInsert.decode entry.Bat with
      | .error why => .panicked why s
      | .ok d => forRange (HandleMetadataInsert.row d) 0 (d.blockIDVector.take k) s
    else
      match HandleRowsInsert.decode env entry.Bat primaryKeyIndex with
      | .error why => .panicked why s
      | .ok d => forRange (HandleRowsInsert.row env d) 0 (d.rowIDVector.take k) s
  | .Delete =>
    if env.isMetaTable entry.TableName then
      match HandleMetadataDelete.decode entry.Bat with
      | .error why => .panicked why s
      | .ok d => forRange (HandleMetadataDelete.row env d) 0 (d.rowIDVector.take k) s
    else
      match HandleRowsDelete.decode entry.Bat with
      | .error why => .panicked why s
      | .ok d => forRange (HandleRowsDelete.row env d) 0 (d.rowIDVector.take k) s
  | _ => .panicked .unknownEntryType s

/-- The body of the row loop of the handler that `HandleLogtailEntry` calls, run
for row `k` of the batch in the state `s`; `none` when the call fails before
its loop or the batch has no row `k`. -/
def HandleLogtailEntry.rowAt (env : Env) (entry : Entry) (primaryKeyIndex : Int) (k : Nat)
    (s : St) : Option (Except Panic St) :=
  match entry.EntryType with
  | .Insert =>
    if env.isMetaTable entry.TableName then
      match HandleMetadataInsert.decode entry.Bat with
      | .error _ => none
      | .ok d => (d.blockIDVector[k]?).map fun x => HandleMetadataInsert.row d k x s
    else
      match HandleRowsInsert.decode env entry.Bat primaryKeyIndex with
      | .error _ => none
      | .ok d => (d.rowIDVector[k]?).map fun x => HandleRowsInsert.row env d k x s
  | .Delete =>
    if env.isMetaTable entry.TableName then
      match HandleMetadataDelete.decode entry.Bat with
      | .error _ => none
      | .ok d => (d.rowIDVector[k]?).map fun x => HandleMetadataDelete.row env d k x s
    else
      match HandleRowsDelete.decode entry.Bat with
      | .error _ => none
      | .ok d => (d.rowIDVector[k]?).map fun x => HandleRowsDelete.row env d k x s
  | _ => none

/-- A sequence of `HandleLogtailEntry` calls, each with its primary-key column
index, stopping at the first call that panics. -/
def applyEntries (env : Env) : St → List (Entry × Int) → Outcome
  | s, [] => .done s
  | s, (entry, primaryKeyIndex) :: rest =>
    match HandleLogtailEntry env s entry primaryKeyIndex with
    | .done s' => applyEntries env s' rest
    | .panicked why s' => .panicked why s'

/-! ## Several partition states in one process -/

/-- A partition state object (`*PartitionState`): its fields `Rows`, `Blocks`
and `PrimaryIndex` are pointers to trees and its field `Checkpoints` is a slice,
each given by the address of the tree, or of the array of the slice, in the
process. -/
structure PartitionStateObject where
  Rows : Nat
  Blocks : Nat
  PrimaryIndex : Nat
  Checkpoints : Nat
deriving DecidableEq, Repr

/-- The objects of a process, by address: the trees of row versions, of block
entries and of primary-key entries, the arrays of the checkpoint slices, and
the partition state objects; and the counter `nextRowEntryID`, which all
partition states share. Two partition state objects that hold the same address
in a field share that tree or array. -/
structure Process where
  nextRowEntryID : Int := 1
  rowTrees : List (List RowEntry) := []
  blockTrees : List (List BlockEntry) := []
  indexTrees : List (List PrimaryIndexEntry) := []
  arrays : List (List String) := []
  states : List PartitionStateObject := []
deriving DecidableEq, Repr

/-- What the partition state object at address `a` holds: the items of the
trees and of the array that its fields point to. -/
def Process.load (w : Process) (a : Nat) : Option PartitionState :=
  (w.states[a]?).bind fun o =>
  (w.rowTrees[o.Rows]?).bind fun rows =>
  (w.blockTrees[o.Blocks]?).bind fun blocks =>
  (w.indexTrees[o.PrimaryIndex]?).bind fun primaryIndex =>
  (w.arrays[o.Checkpoints]?).map fun checkpoints =>
    { Rows := rows, Blocks := blocks, PrimaryIndex := primaryIndex, Checkpoints := checkpoints }

/-- The call `p.Copy()` for the partition state object at address `a` (lines
137-146): `make` allocates a new array, to which `copy` copies the checkpoints;
each `Copy` of a tree yields a new tree with the items of its receiver
(modelled from the spec: the contract of `BTreeG.Copy`); and the result is a
new object that points to the new trees and the new array. Its address is
returned. -/
def Process.Copy (w : Process) (a : Nat) : Option (Process × Nat) :=
  match w.states[a]?, w.load a with
  | some _, some p =>
    let checkpoints := w.arrays.length
    let rows := w.rowTrees.length
    let blocks := w.blockTrees.length
    let primaryIndex := w.indexTrees.length
    some ({ w with
              arrays := w.arrays ++ [p.Copy.Checkpoints]
              rowTrees := w.rowTrees ++ [p.Copy.Rows]
              blockTrees := w.blockTrees ++ [p.Copy.Blocks]
              indexTrees := w.indexTrees ++ [p.Copy.PrimaryIndex]
              states := w.states ++ [PartitionStateObject.mk rows blocks primaryIndex checkpoints] },
          w.states.length)
  | _, _ => none

/-- For contrast with `Copy`: the struct assignment `q := *p`, which yields a
new object whose fields are the pointers and the slice of the object at address
`a`, so that both objects share their trees. No function of the source does
this. -/
def Process.assign (w : Process) (a : Nat) : Option (Process × Nat) :=
  match w.states[a]? with
  | some o => some ({ w with states := w.states ++ [o] }, w.states.length)
  | none => none

/-- The call `p.HandleLogtailEntry(...)` for the partition state object at
address `a`. The handlers write through the tree pointers of the receiver
(`p.Rows.Set`, `p.Rows.Delete`, `p.Blocks.Set`, `p.PrimaryIndex.Set`,
`p.PrimaryIndex.Delete`) and assign to none of its fields, so the call changes
the trees that the object points to, and the trees keep what a panic leaves. -/
def Process.HandleLogtailEntry (env : Env) (w : Process) (a : Nat) (entry : Entry)
    (primaryKeyIndex : Int) : Process :=
  match w.states[a]?, w.load a with
  | some o, some p =>
    let s' := (disttae.HandleLogtailEntry env
      { nextRowEntryID := w.nextRowEntryID, p := p } entry primaryKeyIndex).state
    { w with
        nextRowEntryID := s'.nextRowEntryID
        rowTrees := w.rowTrees.set o.Rows s'.p.Rows
        blockTrees := w.blockTrees.set o.Blocks s'.p.Blocks
        indexTrees := w.indexTrees.set o.PrimaryIndex s'.p.PrimaryIndex
        arrays := w.arrays.set o.Checkpoints s'.p.Checkpoints }
  | _, _ => w

/-- A sequence of `HandleLogtailEntry` calls on the partition state object at
address `a`. -/
def Process.applyEntries (env : Env) (a : Nat) : Process → List (Entry × Int) → Process
  | w, [] => w
  | w, (entry, primaryKeyIndex) :: rest =>
    Process.applyEntries env a (w.HandleLogtailEntry env a entry primaryKeyIndex) rest

/-- Both objects exist and no tree or array is pointed to by both. -/
def Process.Separate (w : Process) (a b : Nat) : Prop :=
  ∃ oa ob, w.states[a]? = some oa ∧ w.states[b]? = some ob ∧ oa.Rows ≠ ob.Rows ∧
    oa.Blocks ≠ ob.Blocks ∧ oa.PrimaryIndex ≠ ob.PrimaryIndex ∧
    oa.Checkpoints ≠ ob.Checkpoints

/-! ## Reachable states -/

/-- The states a partition goes through: `NewPartitionState()`, with the
process-wide counter at any value, followed by `HandleLogtailEntry` calls. A
call that panics leaves its state behind as well. -/
inductive Reachable (env : Env) : St → Prop
  | init (next : Int) : Reachable env { nextRowEntryID := next, p := NewPartitionState }
  | step (s : St) (entry : Entry) (primaryKeyIndex : Int) :
      Reachable env s → Reachable env (HandleLogtailEntry env s entry primaryKeyIndex).state

/-- Whether row `i` of a data-insert batch re-keys a version: it finds at its
triple a version with non-empty key bytes and carries other key bytes. -/
def HandleRowsInsert.rekeys (env : Env) (d : RowsInsertInput) (i : Nat) (rowID : Nat) (s : St) :
    Bool :=
  match d.timeVector[i]? with
  | none => false
  | some time =>
    match btree.Get RowEntry.Less
        { BlockID := env.blockIDFromRowID rowID, RowID := rowID, Time := time } s.p.Rows with
    | none => false
    | some entry =>
      if h : i < d.primaryKeyBytesSet.length then
        entry.PrimaryIndexBytes != [] && entry.PrimaryIndexBytes != d.primaryKeyBytesSet[i]
      else false

/-- Whether `check` holds of every row of a loop in the state the row is
applied to. -/
def forRangeAll {α : Type} (body : Nat → α → St → Except Panic St)
    (check : Nat → α → St → Bool) : Nat → List α → St → Bool
  | _, [], _ => true
  | i, x :: xs, s =>
    check i x s &&
      match body i x s with
      | .error _ => true
      | .ok s' => forRangeAll body check (i + 1) xs s'

/-- Whether the entry re-keys no version: it is not a data-insert, or none of
its rows re-keys. -/
def keepsKeys (env : Env) (s : St) (entry : Entry) (primaryKeyIndex : Int) : Bool :=
  match entry.EntryType with
  | .Insert =>
    if env.isMetaTable entry.TableName then true
    else
      match HandleRowsInsert.decode env entry.Bat primaryKeyIndex with
      | .error _ => true
      | .ok d =>
        forRangeAll (HandleRowsInsert.row env d)
          (fun i rowID s => !HandleRowsInsert.rekeys env d i rowID s) 0 d.rowIDVector s
  | _ => true

/-- The states reached by `HandleLogtailEntry` calls none of which re-keys a
version. -/
inductive ReachableKeepingKeys (env : Env) : St → Prop
  | init (next : Int) :
      ReachableKeepingKeys env { nextRowEntryID := next, p := NewPartitionState }
  | step (s : St) (entry : Entry) (primaryKeyIndex : Int) :
      ReachableKeepingKeys env s → keepsKeys env s entry primaryKeyIndex = true →
      ReachableKeepingKeys env (HandleLogtailEntry env s entry primaryKeyIndex).state

/-- The tree `Rows` is ordered and every entry of the primary-key index has
non-empty key bytes and a row version with its id, block id, row id and key
bytes. -/
def KeyedIndex (s : St) : Prop :=
  btree.Sorted RowEntry.Less s.p.Rows ∧
    ∀ e ∈ s.p.PrimaryIndex, e.Bytes ≠ [] ∧
      ∃ v ∈ s.p.Rows, v.ID = e.RowEntryID ∧ v.BlockID = e.BlockID ∧ v.RowID = e.RowID ∧
        v.PrimaryIndexBytes = e.Bytes

/-- The tree `Rows` is ordered and holds, at the triple, a deleted version with
the given id. -/
def TombstoneAt (blockID rowID time : Nat) (id : Int) (s : St) : Prop :=
  btree.Sorted RowEntry.Less s.p.Rows ∧
    ∃ v ∈ s.p.Rows, v.isAt blockID rowID time ∧ v.Deleted = true ∧ v.ID = id

/-- The counter `nextRowEntryID` can be incremented `n` times without wrapping
around. -/
def counterHasRoom (next : Int) (n : Nat) : Prop :=
  -9223372036854775808 ≤ next ∧ next + n < 9223372036854775808

instance counterHasRoom.decidable (next : Int) (n : Nat) : Decidable (counterHasRoom next n) :=
  inferInstanceAs
    (Decidable (-9223372036854775808 ≤ next ∧ next + n < 9223372036854775808))

/-- The tree `Rows` is ordered, no version has an id above the counter, and
two versions with the same id sit at the same triple. -/
def IdsInOrder (s : St) : Prop :=
  btree.Sorted RowEntry.Less s.p.Rows ∧
    (∀ v ∈ s.p.Rows, v.ID ≤ s.nextRowEntryID) ∧
    ∀ a ∈ s.p.Rows, ∀ b ∈ s.p.Rows, a.ID = b.ID → a.isAt b.BlockID b.RowID b.Time

/-- The primary-key index entry that `HandleRowsInsert` writes for a row
(lines 252-257): the key bytes, the id of the row version, and the block id and
the row id of the row. -/
def keyEntry (env : Env) (key : Bytes) (id : Int) (rowID : Nat) : PrimaryIndexEntry :=
  { Bytes := key, RowEntryID := id, BlockID := env.blockIDFromRowID rowID, RowID := rowID }

/-- A condition on the rows of each of the four handlers, evaluated in the
state the row is applied to. -/
structure RowChecks where
  rowsInsert : RowsInsertInput → Nat → Nat → St → Bool
  rowsDelete : RowsDeleteInput → Nat → Nat → St → Bool
  metadataInsert : MetadataInsertInput → Nat → Nat → St → Bool
  metadataDelete : MetadataDeleteInput → Nat → Nat → St → Bool

/-- Whether every row that a `HandleLogtailEntry` call applies passes the check
of its handler. -/
def rowsChecked (env : Env) (c : RowChecks) (s : St) (entry : Entry) (primaryKeyIndex : Int) :
    Bool :=
  match entry.EntryType with
  | .Insert =>
    if env.isMetaTable entry.TableName then
      match HandleMetadataInsert.decode entry.Bat with
      | .error _ => true
      | .ok d => forRangeAll (HandleMetadataInsert.row d) (c.metadataInsert d) 0 d.blockIDVector s
    else
      match HandleRowsInsert.decode env entry.Bat primaryKeyIndex with
      | .error _ => true
      | .ok d => forRangeAll (HandleRowsInsert.row env d) (c.rowsInsert d) 0 d.rowIDVector s
  | .Delete =>
    if env.isMetaTable entry.TableName then
      match HandleMetadataDelete.decode entry.Bat with
      | .error _ => true
      | .ok d => forRangeAll (HandleMetadataDelete.row env d) (c.metadataDelete d) 0 d.rowIDVector s
    else
      match HandleRowsDelete.decode entry.Bat with
      | .error _ => true
      | .ok d => forRangeAll (HandleRowsDelete.row env d) (c.rowsDelete d) 0 d.rowIDVector s
  | _ => true

/-- The states reached by `HandleLogtailEntry` calls all of whose rows pass the
checks. -/
inductive ReachableChecked (env : Env) (c : RowChecks) : St → Prop
  | init (next : Int) : ReachableChecked env c { nextRowEntryID := next, p := NewPartitionState }
  | step (s : St) (entry : Entry) (primaryKeyIndex : Int) :
      ReachableChecked env c s → rowsChecked env c s entry primaryKeyIndex = true →
      ReachableChecked env c (HandleLogtailEntry env s entry primaryKeyIndex).state

/-- Whether the create time of row `i` of a metadata-insert batch is empty, or
the block has no delete time, or the create time is not after the delete
time. -/
def HandleMetadataInsert.createdInTime (d : MetadataInsertInput) (i blockID : Nat) (s : St) :
    Bool :=
  match d.cells i with
  | none => true
  | some r =>
    let entry := (btree.Get BlockEntry.Less { BlockID := blockID } s.p.Blocks).getD
      { BlockID := blockID }
    TS.IsEmpty r.createTime || TS.IsEmpty entry.DeleteTime ||
      TS.LessEq r.createTime entry.DeleteTime

/-- Whether the delete time of row `i` of a metadata-delete batch is empty, or
the block has no create time, or the delete time is not before the create
time. -/
def HandleMetadataDelete.deletedInTime (env : Env) (d : MetadataDeleteInput) (i rowID : Nat)
    (s : St) : Bool :=
  match btree.Get BlockEntry.Less { BlockID := env.DecodeUint64 rowID } s.p.Blocks,
      d.deleteTimeVector[i]? with
  | some entry, some deleteTime =>
    TS.IsEmpty deleteTime || TS.IsEmpty entry.CreateTime || TS.LessEq entry.CreateTime deleteTime
  | _, _ => true

/-- The checks under which create and delete times stay in order: none on data
rows, `createdInTime` on metadata-insert rows, `deletedInTime` on
metadata-delete rows. -/
def timesInOrder (env : Env) : RowChecks :=
  { rowsInsert := fun _ _ _ _ => true
    rowsDelete := fun _ _ _ _ => true
    metadataInsert := HandleMetadataInsert.createdInTime
    metadataDelete := HandleMetadataDelete.deletedInTime env }

/-- Every block entry whose `CreateTime` and `DeleteTime` are both non-empty has
`CreateTime <= DeleteTime`. -/
def TimesInOrder (s : St) : Prop :=
  ∀ b ∈ s.p.Blocks, TS.IsEmpty b.CreateTime = false → TS.IsEmpty b.DeleteTime = false →
    TS.LessEq b.CreateTime b.DeleteTime = true

/-- Whether the partition state stores a block entry with the given id and
`EntryState = true`. -/
def PartitionState.promoted (p : PartitionState) (blockID : Nat) : Bool :=
  p.Blocks.any (fun b => b.BlockID == blockID && b.EntryState)

/-- The checks under which no data row arrives for a promoted block: the block
of the row id of a data-insert or data-delete row is not stored with
`EntryState = true`; none on metadata rows. -/
def sparesPromoted (env : Env) : RowChecks :=
  { rowsInsert := fun _ _ rowID s => !s.p.promoted (env.blockIDFromRowID rowID)
    rowsDelete := fun _ _ rowID s => !s.p.promoted (env.blockIDFromRowID rowID)
    metadataInsert := fun _ _ _ _ => true
    metadataDelete := fun _ _ _ _ => true }

/-- The tree `Rows` is ordered and, for each block entry with
`EntryState = true`, holds no version of that block other than versions of the
zero row id with a non-zero time. -/
def PromotedBlocksCompacted (s : St) : Prop :=
  btree.Sorted RowEntry.Less s.p.Rows ∧
    ∀ b ∈ s.p.Blocks, b.EntryState = true →
      ∀ v ∈ s.p.Rows, v.BlockID = b.BlockID → v.RowID = 0 ∧ 0 < v.Time

/-- The checks under which the counter `nextRowEntryID` never wraps around: a
data-insert or data-delete row does not make the counter go down; none on
metadata rows. -/
def withoutOverflow (env : Env) : RowChecks :=
  { rowsInsert := fun d i rowID s =>
      match d.timeVector[i]? with
      | none => true
      | some time => decide (s.nextRowEntryID ≤ nextAfterRow env rowID time s)
    rowsDelete := fun d i rowID s =>
      match d.timeVector[i]? with
      | none => true
      | some time => decide (s.nextRowEntryID ≤ nextAfterRow env rowID time s)
    metadataInsert := fun _ _ _ _ => true
    metadataDelete := fun _ _ _ _ => true }

/-- The delete time carried by the last of the rows `(rowID, deleteTime)` whose
row id names the block, if any. -/
def lastDeleteTime (env : Env) (rows : List (Nat × Nat)) (blockID : Nat) : Option Nat :=
  ((rows.filter (fun rt => env.DecodeUint64 rt.1 == blockID)).getLast?).map (fun rt => rt.2)

/-- The block entry with its `DeleteTime` replaced by the delete time of the
last row that names the block, and unchanged when no row names it. -/
def stampDeleteTime (env : Env) (rows : List (Nat × Nat)) (b : BlockEntry) : BlockEntry :=
  match lastDeleteTime env rows b.BlockID with
  | none => b
  | some t => { b with DeleteTime := t }

/-- One call followed by another: the second call runs when the first one
returns; a panic of the first ends the sequence. -/
def Outcome.andThen (o : Outcome) (f : St → Outcome) : Outcome :=
  match o with
  | .done s => f s
  | .panicked why s => .panicked why s

/-- The rows of one metadata-insert batch followed by the rows of another:
column by column, the cells of the first followed by the cells of the second. -/
def MetadataInsertInput.append (d1 d2 : MetadataInsertInput) : MetadataInsertInput :=
  { createTimeVector := d1.createTimeVector ++ d2.createTimeVector
    blockIDVector := d1.blockIDVector ++ d2.blockIDVector
    entryStateVector := d1.entryStateVector ++ d2.entryStateVector
    sortedStateVector := d1.sortedStateVector ++ d2.sortedStateVector
    metaLocationVector := d1.metaLocationVector ++ d2.metaLocationVector
    deltaLocationVector := d1.deltaLocationVector ++ d2.deltaLocationVector
    commitTimeVector := d1.commitTimeVector ++ d2.commitTimeVector
    segmentIDVector := d1.segmentIDVector ++ d2.segmentIDVector }

/-- The columns of a metadata-insert batch all have as many cells as the block
id column: the batch is made of whole rows. -/
def MetadataInsertInput.aligned (d : MetadataInsertInput) : Prop :=
  d.createTimeVector.length = d.blockIDVector.length ∧
  d.entryStateVector.length = d.blockIDVector.length ∧
  d.sortedStateVector.length = d.blockIDVector.length ∧
  d.metaLocationVector.length = d.blockIDVector.length ∧
  d.deltaLocationVector.length = d.blockIDVector.length ∧
  d.commitTimeVector.length = d.blockIDVector.length ∧
  d.segmentIDVector.length = d.blockIDVector.length

instance MetadataInsertInput.aligned.decidable (d : MetadataInsertInput) :
    Decidable d.aligned :=
  inferInstanceAs (Decidable (
    d.createTimeVector.length = d.blockIDVector.length ∧
    d.entryStateVector.length = d.blockIDVector.length ∧
    d.sortedStateVector.length = d.blockIDVector.length ∧
    d.metaLocationVector.length = d.blockIDVector.length ∧
    d.deltaLocationVector.length = d.blockIDVector.length ∧
    d.commitTimeVector.length = d.blockIDVector.length ∧
    d.segmentIDVector.length = d.blockIDVector.length))

/-- The rows of one metadata-delete batch followed by the rows of another. -/
def MetadataDeleteInput.append (d1 d2 : MetadataDeleteInput) : MetadataDeleteInput :=
  { rowIDVector := d1.rowIDVector ++ d2.rowIDVector
    deleteTimeVector := d1.deleteTimeVector ++ d2.deleteTimeVector }

/-- The two columns of a metadata-delete batch have the same number of cells. -/
def MetadataDeleteInput.aligned (d : MetadataDeleteInput) : Prop :=
  d.deleteTimeVector.length = d.rowIDVector.length

instance MetadataDeleteInput.aligned.decidable (d : MetadataDeleteInput) :
    Decidable d.aligned :=
  inferInstanceAs (Decidable (d.deleteTimeVector.length = d.rowIDVector.length))

/-- The single-step reading of `RowExists`: seek, then answer from the first
item alone: true iff there is one, its BlockID and RowID are those of the row
and its `Deleted` flag is false. -/
def PartitionState.RowExistsSingleStep (env : Env) (p : PartitionState) (rowID : Nat)
    (ts : Nat) : Bool :=
  match (btree.Seek RowEntry.Less
      { BlockID := env.blockIDFromRowID rowID, RowID := rowID, Time := ts } p.Rows).head? with
  | none => false
  | some entry =>
    entry.BlockID == env.blockIDFromRowID rowID && entry.RowID == rowID && !entry.Deleted

/-- The version ids are in order, no entry of the primary-key index has a row
entry id above the counter, and an index entry names the block and the row of
every version that has its row entry id. -/
def IndexFollowsIds (s : St) : Prop :=
  IdsInOrder s ∧
    (∀ e ∈ s.p.PrimaryIndex, e.RowEntryID ≤ s.nextRowEntryID) ∧
    ∀ e ∈ s.p.PrimaryIndex, ∀ v ∈ s.p.Rows, v.ID = e.RowEntryID →
      v.BlockID = e.BlockID ∧ v.RowID = e.RowID

/-- The states the partition of one table goes through: `NewPartitionState()`
followed by `HandleLogtailEntry` calls, each made with the index of the primary
key column of the table, which is negative when the table has no primary key.
A call that panics leaves its state behind as well. -/
inductive ReachableForTable (env : Env) (primaryKeyIndex : Int) : St → Prop
  | init (next : Int) :
      ReachableForTable env primaryKeyIndex { nextRowEntryID := next, p := NewPartitionState }
  | step (s : St) (entry : Entry) :
      ReachableForTable env primaryKeyIndex s →
      ReachableForTable env primaryKeyIndex
        (HandleLogtailEntry env s entry primaryKeyIndex).state

/-- No row version has key bytes. -/
def NoKeyBytes (s : St) : Prop :=
  ∀ v ∈ s.p.Rows, v.PrimaryIndexBytes = []

/-! ## Worked scenarios -/

/-- Modelled from the spec: the block id of a row id is its high 64 bits, both
for `blockIDFromRowID` and for the decoding of the first eight bytes in
`HandleMetadataDelete`; the metadata table is the one named `meta`; the
encoded key of a string cell is the list of the code points of the string, and
columns of other types have no encoded keys here. -/
def exampleEnv : Env where
  blockIDFromRowID := fun rowID => rowID / 18446744073709551616 % 18446744073709551616
  DecodeUint64 := fun rowID => rowID / 18446744073709551616 % 18446744073709551616
  isMetaTable := fun name => name == "meta"
  encodePrimaryKeyVector := fun col =>
    match col with
    | .strs cells => cells.map (fun cell => cell.data.map Char.toNat)
    | _ => []

/-- The row id of row 0 of block 1 in `exampleEnv`. -/
def rowA : Nat := 18446744073709551616

/-- A partition state in which `rowA` was inserted at time 10 and deleted at
time 20. -/
def insertedThenDeleted : PartitionState :=
  { Rows := [{ BlockID := 1, RowID := rowA, Time := 20, ID := 3, Deleted := true },
             { BlockID := 1, RowID := rowA, Time := 10, ID := 2, PrimaryIndexBytes := [107] }],
    PrimaryIndex := [{ Bytes := [107], RowEntryID := 2, BlockID := 1, RowID := rowA }] }

/-- A deleted version of `rowA` at time 10. -/
def tombstoneA : RowEntry :=
  { BlockID := 1, RowID := rowA, Time := 10, ID := 2, Deleted := true }

/-- A state whose only row version is `tombstoneA`. -/
def tombstoned : St :=
  { nextRowEntryID := 2, p := { Rows := [tombstoneA] } }

/-- A data batch: row ids, times, and one user column of string keys. -/
def rowsBatch (rowIDs : List Nat) (times : List Nat) (keys : List String) : Batch :=
  { Vecs := [.rowids rowIDs, .tss times, .strs keys] }

/-- A data-insert batch that carries `(rowA, 10)` with the key `k`. -/
def insertA : Batch := rowsBatch [rowA] [10] ["k"]

/-- The vectors `HandleRowsInsert` decodes from `insertA`. -/
def insertADecoded : RowsInsertInput :=
  { rowIDVector := [rowA], timeVector := [10], batch := insertA, primaryKeyBytesSet := [[107]] }

/-- A data-delete batch that carries `(rowA, 10)`. -/
def deleteA : Batch := { Vecs := [.rowids [rowA], .tss [10]] }

/-- The vectors `HandleRowsDelete` decodes from `deleteA`. -/
def deleteADecoded : RowsDeleteInput :=
  { rowIDVector := [rowA], timeVector := [10], batch := deleteA }

/-- The state after a metadata-insert for block 9 that carried the meta
location `m1` and the segment id 0. -/
def blockNine : St :=
  { p := { Blocks := [{ BlockID := 9, MetaLoc := "m1", CommitTs := 1, CreateTime := 1 }] } }

/-- The vectors of a metadata-insert for block 9 that carries an empty meta
location and the segment id 42. -/
def blockNineUpdate : MetadataInsertInput :=
  { createTimeVector := [0], blockIDVector := [9], entryStateVector := [false],
    sortedStateVector := [false], metaLocationVector := [""], deltaLocationVector := [""],
    commitTimeVector := [0], segmentIDVector := [42] }

/-- A data-insert batch that carries `(rowA, 10)` again, with the key `b`. -/
def insertARekeyed : Batch := rowsBatch [rowA] [10] ["b"]

/-- A data-insert batch that carries the zero row id at time 5, with the key
`a`. -/
def insertZero : Batch := rowsBatch [0] [5] ["a"]

/-- A metadata-insert batch with one row. -/
def metaBatch (blockID : Nat) (entryState : Bool) (metaLoc : String) (segmentID : Nat)
    (createTime : Nat) : Batch :=
  { Vecs := [.rowids [0], .tss [createTime], .uint64s [blockID], .bools [entryState],
             .bools [false], .strs [metaLoc], .strs [""], .tss [createTime],
             .uint64s [segmentID]] }

/-- The state after `insertA` was applied to the new partition state. -/
def afterInsertA : St :=
  (HandleLogtailEntry exampleEnv {} ⟨.Insert, "t", insertA⟩ 0).state

/-- The metadata-insert entry that promotes block 1. -/
def promoteOne : Entry := ⟨.Insert, "meta", metaBatch 1 true "m" 0 1⟩

/-- The vectors `HandleMetadataInsert` decodes from the batch of `promoteOne`. -/
def promoteOneDecoded : MetadataInsertInput :=
  { createTimeVector := [1], blockIDVector := [1], entryStateVector := [true],
    sortedStateVector := [false], metaLocationVector := ["m"], deltaLocationVector := [""],
    commitTimeVector := [1], segmentIDVector := [0] }

/-- A process with one partition state object, in which `rowA` was inserted at
time 10. -/
def oneLive : Process :=
  { nextRowEntryID := afterInsertA.nextRowEntryID
    rowTrees := [afterInsertA.p.Rows]
    blockTrees := [afterInsertA.p.Blocks]
    indexTrees := [afterInsertA.p.PrimaryIndex]
    arrays := [afterInsertA.p.Checkpoints]
    states := [PartitionStateObject.mk 0 0 0 0] }

/-- A data-delete entry that carries `(rowA, 20)`. -/
def deleteAt20 : Entry := ⟨.Delete, "t", { Vecs := [.rowids [rowA], .tss [20]] }⟩

/-- What `RowExists(rowA, 25)` answers on the snapshot and on the live state
after `oneLive` took a snapshot and then applied `deleteAt20` to the live
state. -/
def snapshotScenario : Option (Option Bool × Option Bool) :=
  (oneLive.Copy 0).map fun wc =>
    let w2 := Process.applyEntries exampleEnv 0 wc.1 [(deleteAt20, 0)]
    ((w2.load wc.2).map fun snap => snap.RowExists exampleEnv rowA 25,
     (w2.load 0).map fun live => live.RowExists exampleEnv rowA 25)

/-- What `RowExists(rowA, 25)` answers on the second object and on the first
after the partition state object of `oneLive` was assigned to a second object
and `deleteAt20` was then applied to the first. -/
def sharedTreesScenario : Option (Option Bool × Option Bool) :=
  (oneLive.assign 0).map fun wc =>
    let w2 := Process.applyEntries exampleEnv 0 wc.1 [(deleteAt20, 0)]
    ((w2.load wc.2).map fun other => other.RowExists exampleEnv rowA 25,
     (w2.load 0).map fun live => live.RowExists exampleEnv rowA 25)

/-- A metadata-delete entry with two rows: the first names block 9 with the
delete time 20, the second names block 7 with the delete time 30. -/
def deleteNineThenSeven : Entry :=
  ⟨.Delete, "meta",
    { Vecs := [.rowids [9 * 18446744073709551616, 7 * 18446744073709551616], .tss [20, 30]] }⟩

/-- The state `blockNine` with the delete time 20 written to block 9. -/
def blockNineDeleted : St :=
  { p := { Blocks :=
    [{ BlockID := 9, MetaLoc := "m1", CommitTs := 1, CreateTime := 1, DeleteTime := 20 }] } }

/-- The zero row id is inserted at time 5, then block 0 is promoted. -/
def zeroRowRun : List (Entry × Int) :=
  [(⟨.Insert, "t", insertZero⟩, 0), (⟨.Insert, "meta", metaBatch 0 true "m" 0 1⟩, 0)]

/-- The row `rowA` of block 1 is inserted at time 10 with the key `k`, inserted
again at the same time with the key `b`, then block 1 is promoted. -/
def rekeyRun : List (Entry × Int) :=
  [(⟨.Insert, "t", insertA⟩, 0), (⟨.Insert, "t", insertARekeyed⟩, 0),
   (⟨.Insert, "meta", metaBatch 1 true "m" 0 1⟩, 0)]

/-- The entry of block 9 in `blockNine`: created at time 1, not deleted. -/
def nineLive : BlockEntry :=
  { BlockID := 9, MetaLoc := "m1", CommitTs := 1, CreateTime := 1 }

/-- The entry of block 9 in `blockNineDeleted`: created at time 1, deleted at
time 20. -/
def nineDeleted : BlockEntry :=
  { BlockID := 9, MetaLoc := "m1", CommitTs := 1, CreateTime := 1, DeleteTime := 20 }

/-- A metadata-delete batch with one row, which names block 9 with the delete
time 20. -/
def deleteNine : Batch :=
  { Vecs := [.rowids [9 * 18446744073709551616], .tss [20]] }

/-- The vectors `HandleMetadataDelete` decodes from `deleteNine`. -/
def deleteNineDecoded : MetadataDeleteInput :=
  { rowIDVector := [9 * 18446744073709551616], deleteTimeVector := [20] }

/-- The vectors `HandleRowsDelete` decodes from the batch of `deleteAt20`. -/
def deleteAt20Decoded : RowsDeleteInput :=
  { rowIDVector := [rowA], timeVector := [20], batch := deleteAt20.Bat }

/-- The row `rowA` is inserted at time 10, then deleted at time 20. -/
def tenTwentyRun : List (Entry × Int) :=
  [(⟨.Insert, "t", insertA⟩, 0), (deleteAt20, 0)]

/-- A data-delete batch with two rows: `(rowA, 10)` and `(rowA, 20)`. -/
def deleteTenAndTwenty : Batch :=
  { Vecs := [.rowids [rowA, rowA], .tss [10, 20]] }

/-- The vectors `HandleRowsDelete` decodes from `deleteTenAndTwenty`. -/
def deleteTenAndTwentyDecoded : RowsDeleteInput :=
  { rowIDVector := [rowA, rowA], timeVector := [10, 20], batch := deleteTenAndTwenty }

/-- A metadata-delete batch with one row, which names block 9 with the delete
time 5. -/
def deleteNineAtFive : Batch :=
  { Vecs := [.rowids [9 * 18446744073709551616], .tss [5]] }

/-- Block 9 is created at time 10, then deleted at time 5. -/
def lateCreateRun : List (Entry × Int) :=
  [(⟨.Insert, "meta", metaBatch 9 false "m1" 0 10⟩, 0), (⟨.Delete, "meta", deleteNineAtFive⟩, 0)]

/-- Block 1 is promoted, then the row `rowA` of block 1 is inserted at time
10. -/
def insertAfterPromotionRun : List (Entry × Int) :=
  [(promoteOne, 0), (⟨.Insert, "t", insertA⟩, 0)]

/-- The state after `insertA` was applied to the new partition state and block
1 was promoted. -/
def afterPromoteOne : St :=
  (HandleLogtailEntry exampleEnv afterInsertA promoteOne 0).state

/-- The state after a metadata-insert that creates block 9 at time 10 was
applied to the new partition state. -/
def blockNineCreated : St :=
  (HandleLogtailEntry exampleEnv {} ⟨.Insert, "meta", metaBatch 9 false "m1" 0 10⟩ 0).state

/-- A data-insert batch that carries `(rowA, 5)` with the key `k`. -/
def insertAAtFive : Batch := rowsBatch [rowA] [5] ["k"]

/-- The vectors `HandleRowsInsert` decodes from `insertAAtFive`. -/
def insertAAtFiveDecoded : RowsInsertInput :=
  { rowIDVector := [rowA], timeVector := [5], batch := insertAAtFive,
    primaryKeyBytesSet := [[107]] }

/-- The vectors `HandleRowsInsert` decodes from `insertA` when the table has no
primary key (`primaryKeyIndex < 0`). -/
def insertAUnkeyedDecoded : RowsInsertInput :=
  { rowIDVector := [rowA], timeVector := [10], batch := insertA, primaryKeyBytesSet := [] }

/-- The state after `insertA` was applied to the new partition state of a table
that has no primary key. -/
def afterInsertAUnkeyed : St :=
  (HandleLogtailEntry exampleEnv {} ⟨.Insert, "t", insertA⟩ (-1)).state

/-- The version of `rowA` at time 10 in `afterInsertAUnkeyed`. -/
def versionAUnkeyed : RowEntry :=
  { BlockID := 1, RowID := rowA, Time := 10, ID := 2, Batch := some insertA }

/-- The version of `rowA` at time 10 in `afterInsertA`. -/
def versionA : RowEntry :=
  { BlockID := 1, RowID := rowA, Time := 10, ID := 2, Batch := some insertA,
    PrimaryIndexBytes := [107] }

/-- A metadata-delete batch with two rows, both naming block 9: the first with
the delete time 20, the second with the delete time 30. -/
def deleteNineTwice : Batch :=
  { Vecs := [.rowids [9 * 18446744073709551616, 9 * 18446744073709551616 + 1], .tss [20, 30]] }

/-- The vectors `HandleMetadataDelete` decodes from `deleteNineTwice`. -/
def deleteNineTwiceDecoded : MetadataDeleteInput :=
  { rowIDVector := [9 * 18446744073709551616, 9 * 18446744073709551616 + 1],
    deleteTimeVector := [20, 30] }

/-- A metadata-insert batch with two rows: block 9 created at time 10 with the
meta location `m1`, then block 7 created at time 11 with the meta location
`m2`. -/
def createNineAndSeven : Batch :=
  { Vecs := [.rowids [0, 0], .tss [10, 11], .uint64s [9, 7], .bools [false, false],
             .bools [false, false], .strs ["m1", "m2"], .strs ["", ""], .tss [10, 11],
             .uint64s [0, 0]] }

/-- The vectors `HandleMetadataInsert` decodes from `metaBatch 9 false "m1" 0 10`. -/
def createNineDecoded : MetadataInsertInput :=
  { createTimeVector := [10], blockIDVector := [9], entryStateVector := [false],
    sortedStateVector := [false], metaLocationVector := ["m1"], deltaLocationVector := [""],
    commitTimeVector := [10], segmentIDVector := [0] }

/-- The vectors `HandleMetadataInsert` decodes from `metaBatch 7 false "m2" 0 11`. -/
def createSevenDecoded : MetadataInsertInput :=
  { createTimeVector := [11], blockIDVector := [7], entryStateVector := [false],
    sortedStateVector := [false], metaLocationVector := ["m2"], deltaLocationVector := [""],
    commitTimeVector := [11], segmentIDVector := [0] }

/-- A metadata-delete batch with one row, which names block 7 with the delete
time 30. -/
def deleteSeven : Batch :=
  { Vecs := [.rowids [7 * 18446744073709551616], .tss [30]] }

/-- The vectors `HandleMetadataDelete` decodes from `deleteSeven`. -/
def deleteSevenDecoded : MetadataDeleteInput :=
  { rowIDVector := [7 * 18446744073709551616], deleteTimeVector := [30] }

/-- The state after `createNineAndSeven` was applied to the new partition
state. -/
def nineAndSeven : St := (HandleMetadataInsert {} createNineAndSeven).state

/-- The vectors `HandleRowsInsert` decodes from `insertARekeyed`. -/
def insertARekeyedDecoded : RowsInsertInput :=
  { rowIDVector := [rowA], timeVector := [10], batch := insertARekeyed,
    primaryKeyBytesSet := [[98]] }

end disttae

/-! Expression evaluation (`pkg/sql/colexec/expr_eval.go`).

Expressions are the trees of `plan.Expr`; the packages `plan`, `vector`,
`types` and `function` are outside the source, so their values are modelled by
the fields and constructors that the source file uses, and the functions the
file calls in them are fields of an environment `Deps`. -/

namespace colexec

/-! ## Expressions -/

/-- Modelled from the spec: the fields of `plan.Type` that the source reads. -/
structure PlanType where
  Id : Int := 0
  Width : Int := 0
  Scale : Int := 0
deriving DecidableEq, Repr

/-- Modelled from the spec: the fields of `plan.ObjectRef` that the source
reads. -/
structure ObjectRef where
  Obj : Int := 0
  ObjName : String := ""
deriving DecidableEq, Repr

/-- Modelled from the spec: which kind of value a constant of a plan holds (the
cases of the type switch of `getConstVec`); `other` is any kind that the switch
does not name, or no value at all. -/
inductive ConstKind where
  | Bval | I8Val | I16Val | I32Val | I64Val | U8Val | U16Val | U32Val | U64Val
  | Fval | Dval | Dateval | Timeval | Datetimeval | Decimal64Val | Decimal128Val
  | Timestampval | Sval | Defaultval | other
deriving DecidableEq, Repr

/-- Modelled from the spec: a constant of a plan (`plan.Const`): its null flag,
its value, identified by a number, the kind of the value, and the flag
`IsBin`. -/
structure Const where
  Isnull : Bool := false
  value : Nat := 0
  kind : ConstKind := .other
  IsBin : Bool := false
deriving DecidableEq, Repr

/-- Modelled from the spec: `plan.Expr`, a type (a pointer, which can be nil)
and one of the kinds of expression: a constant (`Expr_C`), a type (`Expr_T`), a
column reference (`Expr_Col`), a function call (`Expr_F`), or one of the other
kinds, which the source file does not look into. -/
inductive Expr where
  | C (Typ : Option PlanType) (c : Const)
  | T (Typ : Option PlanType) (t : Option PlanType)
  | Col (Typ : Option PlanType) (ColPos : Int)
  | F (Typ : Option PlanType) (Func : ObjectRef) (Args : List Expr)
  | Other (Typ : Option PlanType) (kind : Nat)
deriving Repr

/-- The field `Typ` of an expression. -/
def Expr.Typ : Expr → Option PlanType
  | .C t _ => t
  | .T t _ => t
  | .Col t _ => t
  | .F t _ _ => t
  | .Other t _ => t

/-- The body of a function-call expression (`plan.Expr_F`). -/
structure ExprF where
  Func : ObjectRef
  Args : List Expr

/-- What the source file uses of the package `function`: its constants
`AndFunctionEncodedID`, `AndFunctionName` and `AND`, and the function id that
`DecodeOverloadID` returns for an overload id. -/
structure FunctionIds where
  AndFunctionEncodedID : Int
  AndFunctionName : String
  AND : Int
  DecodeOverloadID : Int → Int

/-- `makeAndExpr`. -/
def makeAndExpr (ids : FunctionIds) (left right : Expr) : ExprF :=
  { Func := { Obj := ids.AndFunctionEncodedID, ObjName := ids.AndFunctionName }
    Args := [left, right] }

/-- `RewriteFilterExprList`; `none` is the nil pointer. The recursive call is
made on a non-empty list, and its result is the right operand. -/
def RewriteFilterExprList (ids : FunctionIds) : List Expr → Option Expr
  | [] => none
  | [e] => some e
  | left :: next :: rest =>
    (RewriteFilterExprList ids (next :: rest)).map fun right =>
      Expr.F left.Typ (makeAndExpr ids left right).Func (makeAndExpr ids left right).Args

/-- The binary AND expression that `RewriteFilterExprList` builds from two
operands: it has the type of the left operand. -/
def andOf (ids : FunctionIds) (left right : Expr) : Expr :=
  .F left.Typ { Obj := ids.AndFunctionEncodedID, ObjName := ids.AndFunctionName } [left, right]

/-- The right-nested chain `and(e0, and(e1, ... and(e(n-2), last)))` of the
expressions `e0 .. e(n-2)` and `last`. -/
def andChain (ids : FunctionIds) (es : List Expr) (last : Expr) : Expr :=
  es.foldr (andOf ids) last

/-- Whether an expression is a function call whose overload id decodes to
`function.AND`: the test of lines 597-599. -/
def Expr.isAnd (ids : FunctionIds) : Expr → Bool
  | .F _ func _ => decide (ids.DecodeOverloadID func.Obj = ids.AND)
  | _ => false

mutual

/-- `splitAndExpr` (lines 595-607): `none` when the call panics, which it does
when it indexes `e.F.Args[0]` or `e.F.Args[1]` out of range. -/
def splitAndExpr (ids : FunctionIds) : Expr → Option (List Expr)
  | .F typ func args =>
    if ids.DecodeOverloadID func.Obj = ids.AND then splitAndArgs ids args
    else some [.F typ func args]
  | .C typ c => some [.C typ c]
  | .T typ t => some [.T typ t]
  | .Col typ pos => some [.Col typ pos]
  | .Other typ kind => some [.Other typ kind]

/-- Lines 600-602 of `splitAndExpr`: the expressions of `Args[0]` followed by
those of `Args[1]`. -/
def splitAndArgs (ids : FunctionIds) : List Expr → Option (List Expr)
  | [] => none
  | arg0 :: rest =>
    match splitAndExpr ids arg0 with
    | none => none
    | some exprs0 =>
      match rest with
      | [] => none
      | arg1 :: _ =>
        match splitAndExpr ids arg1 with
        | none => none
        | some exprs1 => some (exprs0 ++ exprs1)

end

/-- The loop of `SplitAndExprs` (lines 589-591), from the expressions appended
so far. -/
def SplitAndExprs.loop (ids : FunctionIds) : List Expr → List Expr → Option (List Expr)
  | [], exprs => some exprs
  | e :: rest, exprs =>
    match splitAndExpr ids e with
    | none => none
    | some es => SplitAndExprs.loop ids rest (exprs ++ es)

/-- `SplitAndExprs` (lines 587-593); `none` when a call of `splitAndExpr`
panics. -/
def SplitAndExprs (ids : FunctionIds) (list : List Expr) : Option (List Expr) :=
  SplitAndExprs.loop ids list []

mutual

/-- Whether every function call of an expression whose overload id decodes to
`function.AND` has at least two arguments, and so have the calls in its first
two arguments. -/
def Expr.andsHaveTwoArgs (ids : FunctionIds) : Expr → Bool
  | .F _ func args =>
    if ids.DecodeOverloadID func.Obj = ids.AND then andArgsHaveTwo ids args else true
  | _ => true

/-- The arguments of a call of AND are at least two, and the first two are
expressions in which every call of AND has two arguments. -/
def andArgsHaveTwo (ids : FunctionIds) : List Expr → Bool
  | arg0 :: arg1 :: _ => Expr.andsHaveTwoArgs ids arg0 && Expr.andsHaveTwoArgs ids arg1
  | _ => false

end

/-! ## Evaluation by zone map -/

/-- Modelled from the spec: a vector type (`types.Type`). -/
structure VecType where
  Oid : Int := 0
  Width : Int := 0
  Scale : Int := 0
deriving DecidableEq, Repr

/-- Modelled from the spec: a vector (`vector.Vector`): the result of
`vector.NewConstNull(typ, length, mp)`, the result of
`vector.NewConstFixed(types.T_bool.ToType(), value, length, mp)`, any other
vector, identified by a number, or the result of `vector.NewConstFixed` or
`vector.NewConstBytes` for the value of a plan constant (identified by the
number of the constant), with the flag that `SetIsBin` sets. -/
inductive Vector where
  | ConstNull (typ : VecType) (length : Nat)
  | ConstFixedBool (value : Bool) (length : Nat)
  | Data (id : Nat)
  | ConstFixed (typ : VecType) (value : Nat) (length : Nat) (isBin : Bool)
  | ConstBytes (typ : VecType) (value : Nat) (length : Nat) (isBin : Bool)
deriving DecidableEq, Repr

/-- `Vector.IsConstNull`. -/
def Vector.IsConstNull : Vector → Bool
  | .ConstNull _ _ => true
  | _ => false

/-- `Vector.SetType`. -/
def Vector.SetType (typ : VecType) : Vector → Vector
  | .ConstNull _ length => .ConstNull typ length
  | v => v

/-- The fields of `batch.Batch` that the evaluation reads. -/
structure ZmBatch where
  Zs : List Int
  Vecs : List Vector
deriving DecidableEq, Repr

/-- The errors the source file returns: "not yet implemented" for an unsupported
expression, the error of a callee, or an internal error with its message. -/
inductive Error where
  | NYI
  | callee (code : Nat)
  | Internal (msg : String)
deriving DecidableEq, Repr

/-- How a call ends: it returns a value, it returns an error, or it panics. -/
inductive Res (α : Type) where
  | ok (v : α)
  | err (e : Error)
  | panicked
deriving DecidableEq, Repr

/-- What the evaluation calls outside the source: `types.T.ToType`,
`function.GetFunctionByID` (a function is identified by a number), the two
comparisons of `vector.Vector`, `vector.MustFixedCol[bool]` (`none` when it
panics) and the function implementations that `evalFunction` runs; the result
of `getConstVec`, on which the evaluation of a function call does not depend,
is taken as given too. -/
structure Deps where
  ToType : Int → VecType
  getConstVec : Expr → Nat → Except Error Vector
  GetFunctionByID : Int → Except Error Nat
  CompareAndCheckAnyResultIsTrue : Vector → Vector → String → Bool × Option Error
  CompareAndCheckIntersect : Vector → Vector → Bool × Option Error
  MustFixedColBool : Vector → Option (List Bool)
  evalFunction : Nat → List Vector → Nat → Except Error Vector

/-- The closure `compareAndReturn` of `EvalExprByZonemapBat` (lines 380-387). -/
def compareAndReturn (isTrue : Bool) (err : Option Error) : Res Vector :=
  match err with
  | some _ => .ok (.ConstFixedBool true 1)
  | none => .ok (.ConstFixedBool isTrue 1)

/-- The inner loop of the case "and" (lines 412-416): whether the right column
has a true. -/
def rightHasTrue : List Bool → Bool
  | [] => false
  | flag :: rest => if flag then true else rightHasTrue rest

/-- The loops of the case "and" (lines 410-419): at the first true of the left
column the right column is scanned, and the outer loop ends. -/
def andLoop : List Bool → List Bool → Bool
  | [], _ => false
  | leftHasTrue :: rest, cols2 =>
    if leftHasTrue then rightHasTrue cols2 else andLoop rest cols2

/-- The loops of the case "or" (lines 425-435). -/
def orLoop (cols1 cols2 : List Bool) : Bool :=
  if rightHasTrue cols1 then true else rightHasTrue cols2

/-- Lines 389-443 of `EvalExprByZonemapBat`: what is returned for a function
call once its arguments are evaluated. Indexing the parameters out of range
panics. -/
def callByZonemap (deps : Deps) (objName : String) (f : Nat) (functionParameters : List Vector)
    (length : Nat) : Res Vector :=
  match objName with
  | ">" =>
    match functionParameters with
    | p0 :: p1 :: _ =>
      compareAndReturn (deps.CompareAndCheckAnyResultIsTrue p0 p1 ">").1
        (deps.CompareAndCheckAnyResultIsTrue p0 p1 ">").2
    | _ => .panicked
  | "<" =>
    match functionParameters with
    | p0 :: p1 :: _ =>
      compareAndReturn (deps.CompareAndCheckAnyResultIsTrue p0 p1 "<").1
        (deps.CompareAndCheckAnyResultIsTrue p0 p1 "<").2
    | _ => .panicked
  | "=" =>
    match functionParameters with
    | p0 :: p1 :: _ =>
      compareAndReturn (deps.CompareAndCheckIntersect p0 p1).1
        (deps.CompareAndCheckIntersect p0 p1).2
    | _ => .panicked
  | ">=" =>
    match functionParameters with
    | p0 :: p1 :: _ =>
      compareAndReturn (deps.CompareAndCheckAnyResultIsTrue p0 p1 ">=").1
        (deps.CompareAndCheckAnyResultIsTrue p0 p1 ">=").2
    | _ => .panicked
  | "<=" =>
    match functionParameters with
    | p0 :: p1 :: _ =>
      compareAndReturn (deps.CompareAndCheckAnyResultIsTrue p0 p1 "<=").1
        (deps.CompareAndCheckAnyResultIsTrue p0 p1 "<=").2
    | _ => .panicked
  | "and" =>
    match functionParameters with
    | p0 :: p1 :: _ =>
      match deps.MustFixedColBool p0, deps.MustFixedColBool p1 with
      | some cols1, some cols2 => .ok (.ConstFixedBool (andLoop cols1 cols2) 1)
      | _, _ => .panicked
    | _ => .panicked
  | "or" =>
    match functionParameters with
    | p0 :: p1 :: _ =>
      match deps.MustFixedColBool p0, deps.MustFixedColBool p1 with
      | some cols1, some cols2 => .ok (.ConstFixedBool (orLoop cols1 cols2) 1)
      | _, _ => .panicked
    | _ => .panicked
  | _ =>
    match deps.evalFunction f functionParameters length with
    | .ok result => .ok result
    | .error e => .err e

mutual

/-- `EvalExprByZonemapBat`. The batch is returned with the result because the
evaluation of a column reference sets the type of a constant-null vector of the
batch; freeing vectors (`cleanVectorsExceptList`) has no counterpart here. -/
def EvalExprByZonemapBat (deps : Deps) (bat : ZmBatch) : Expr → ZmBatch × Res Vector
  | .C typ c =>
    if bat.Zs.length = 0 then
      match typ with
      | some t => (bat, .ok (.ConstNull (deps.ToType t.Id) 1))
      | none => (bat, .panicked)
    else
      match deps.getConstVec (.C typ c) bat.Zs.length with
      | .ok vec => (bat, .ok vec)
      | .error e => (bat, .err e)
  | .T typ t =>
    if bat.Zs.length = 0 then
      match typ with
      | some t => (bat, .ok (.ConstNull (deps.ToType t.Id) 1))
      | none => (bat, .panicked)
    else
      (bat, .ok (.ConstNull
        { Oid := (t.getD {}).Id, Width := (t.getD {}).Width, Scale := (t.getD {}).Scale }
        bat.Zs.length))
  | .Col typ colPos =>
    if bat.Zs.length = 0 then
      match typ with
      | some t => (bat, .ok (.ConstNull (deps.ToType t.Id) 1))
      | none => (bat, .panicked)
    else if colPos < 0 then (bat, .panicked)
    else
      match bat.Vecs[colPos.toNat]? with
      | none => (bat, .panicked)
      | some vec =>
        if vec.IsConstNull then
          let vec' := vec.SetType (deps.ToType (typ.getD {}).Id)
          ({ bat with Vecs := bat.Vecs.set colPos.toNat vec' }, .ok vec')
        else (bat, .ok vec)
  | .F typ func args =>
    if bat.Zs.length = 0 then
      match typ with
      | some t => (bat, .ok (.ConstNull (deps.ToType t.Id) 1))
      | none => (bat, .panicked)
    else
      match deps.GetFunctionByID func.Obj with
      | .error e => (bat, .err e)
      | .ok f =>
        match evalParameters deps bat args with
        | (bat', .ok functionParameters) =>
          (bat', callByZonemap deps func.ObjName f functionParameters bat.Zs.length)
        | (bat', .err e) => (bat', .err e)
        | (bat', .panicked) => (bat', .panicked)
  | .Other typ _ =>
    if bat.Zs.length = 0 then
      match typ with
      | some t => (bat, .ok (.ConstNull (deps.ToType t.Id) 1))
      | none => (bat, .panicked)
    else (bat, .err .NYI)

/-- The loop of lines 368-373: the arguments are evaluated from left to right,
up to the first error. -/
def evalParameters (deps : Deps) (bat : ZmBatch) : List Expr → ZmBatch × Res (List Vector)
  | [] => (bat, .ok [])
  | arg :: rest =>
    match EvalExprByZonemapBat deps bat arg with
    | (bat', .ok vec) =>
      match evalParameters deps bat' rest with
      | (bat'', .ok vecs) => (bat'', .ok (vec :: vecs))
      | (bat'', .err e) => (bat'', .err e)
      | (bat'', .panicked) => (bat'', .panicked)
    | (bat', .err e) => (bat', .err e)
    | (bat', .panicked) => (bat', .panicked)

end

/-! ## Constant vectors -/

/-- What `getConstVec` uses of the package `types`: the type ids it names and
`MaxVarcharLen`. -/
structure TypeIds where
  T_bool : Int
  T_int8 : Int
  T_int16 : Int
  T_int32 : Int
  T_int64 : Int
  T_uint8 : Int
  T_uint16 : Int
  T_uint32 : Int
  T_uint64 : Int
  T_float32 : Int
  T_float64 : Int
  T_varchar : Int
  T_blob : Int
  T_date : Int
  T_time : Int
  T_datetime : Int
  T_timestamp : Int
  T_decimal64 : Int
  T_decimal128 : Int
  T_binary : Int
  T_varbinary : Int
  MaxVarcharLen : Int

/-- The table `constTimestampTypes` (lines 49-57). -/
def constTimestampTypes (tids : TypeIds) : List VecType :=
  [{ Oid := tids.T_timestamp },
   { Oid := tids.T_timestamp, Scale := 1 },
   { Oid := tids.T_timestamp, Scale := 2 },
   { Oid := tids.T_timestamp, Scale := 3 },
   { Oid := tids.T_timestamp, Scale := 4 },
   { Oid := tids.T_timestamp, Scale := 5 },
   { Oid := tids.T_timestamp, Scale := 6 }]

/-- The type of the vector of a non-null constant whose kind is neither a
decimal, nor a timestamp, nor a string: the variables `constBType` ..
`constDatetimeType` (lines 31-46); `none` for the other kinds. -/
def constFixedType (tids : TypeIds) : ConstKind → Option VecType
  | .Bval => some { Oid := tids.T_bool }
  | .I8Val => some { Oid := tids.T_int8 }
  | .I16Val => some { Oid := tids.T_int16 }
  | .I32Val => some { Oid := tids.T_int32 }
  | .I64Val => some { Oid := tids.T_int64 }
  | .U8Val => some { Oid := tids.T_uint8 }
  | .U16Val => some { Oid := tids.T_uint16 }
  | .U32Val => some { Oid := tids.T_uint32 }
  | .U64Val => some { Oid := tids.T_uint64 }
  | .Fval => some { Oid := tids.T_float32 }
  | .Dval => some { Oid := tids.T_float64 }
  | .Dateval => some { Oid := tids.T_date }
  | .Timeval => some { Oid := tids.T_time }
  | .Datetimeval => some { Oid := tids.T_datetime }
  | .Defaultval => some { Oid := tids.T_bool }
  | _ => none

/-- `getConstVec` (lines 151-223). It panics on an expression that is not a
constant, and where it reads a field of the nil type; the vector holds the
value of the constant, whose conversion to the element type has no counterpart
here. The evaluation by zone map above takes the result of this function as
given. -/
def getConstVec (tids : TypeIds) (ToType : Int → VecType) (expr : Expr) (length : Nat) :
    Res Vector :=
  match expr with
  | .C typ c =>
    if c.Isnull then
      .ok (.ConstNull (ToType (typ.getD {}).Id) length)
    else
      match c.kind with
      | .Decimal64Val =>
        match typ with
        | none => .panicked
        | some t => .ok (.ConstFixed ⟨tids.T_decimal64, t.Width, t.Scale⟩ c.value length c.IsBin)
      | .Decimal128Val =>
        match typ with
        | none => .panicked
        | some t => .ok (.ConstFixed ⟨tids.T_decimal128, t.Width, t.Scale⟩ c.value length c.IsBin)
      | .Timestampval =>
        match typ with
        | none => .panicked
        | some t =>
          if t.Scale < 0 ∨ t.Scale > 6 then .err (.Internal "invalid timestamp scale")
          else
            match (constTimestampTypes tids)[t.Scale.toNat]? with
            | none => .panicked
            | some vecType => .ok (.ConstFixed vecType c.value length c.IsBin)
      | .Sval =>
        match typ with
        | some t =>
          if t.Id = tids.T_binary ∨ t.Id = tids.T_varbinary ∨ t.Id = tids.T_blob then
            .ok (.ConstBytes { Oid := tids.T_blob } c.value length c.IsBin)
          else
            .ok (.ConstBytes ⟨tids.T_varchar, tids.MaxVarcharLen, 0⟩ c.value length c.IsBin)
        | none => .ok (.ConstBytes ⟨tids.T_varchar, tids.MaxVarcharLen, 0⟩ c.value length c.IsBin)
      | .other => .err .NYI
      | kind =>
        match constFixedType tids kind with
        | some vecType => .ok (.ConstFixed vecType c.value length c.IsBin)
        | none => .err .NYI
  | _ => .panicked

/-! ## Worked expressions -/

/-- A call of AND that has no arguments. -/
def andWithoutArgs : Expr := .F none { Obj := 7, ObjName := "and" } []

/-- Type ids for the examples. -/
def exampleTypeIds : TypeIds :=
  { T_bool := 10, T_int8 := 20, T_int16 := 21, T_int32 := 22, T_int64 := 23, T_uint8 := 25,
    T_uint16 := 26, T_uint32 := 27, T_uint64 := 28, T_float32 := 30, T_float64 := 31,
    T_varchar := 61, T_blob := 70, T_date := 50, T_time := 51, T_datetime := 52,
    T_timestamp := 53, T_decimal64 := 32, T_decimal128 := 33, T_binary := 64,
    T_varbinary := 65, MaxVarcharLen := 65535 }

/-- A non-null timestamp constant. -/
def timestampConst : Const := { value := 4, kind := .Timestampval }

/-- Function ids for the examples: the AND function is named `and` and has the
encoded id 7. -/
def exampleIds : FunctionIds :=
  { AndFunctionEncodedID := 7, AndFunctionName := "and", AND := 1,
    DecodeOverloadID := fun overloadID => overloadID / 4 }

/-- The column reference to column `n`, of type id 10. -/
def col (n : Int) : Expr := .Col (some { Id := 10 }) n

/-- An environment for the examples: the vectors `Data n` are zone maps holding
the one value `n`; comparing with the vector `Data 0` fails. -/
def exampleDeps : Deps where
  ToType := fun id => { Oid := id }
  getConstVec := fun _ _ => .ok (.Data 1)
  GetFunctionByID := fun id => .ok id.toNat
  CompareAndCheckAnyResultIsTrue := fun a b op =>
    match a, b with
    | .Data 0, _ => (false, some (.callee 1))
    | _, .Data 0 => (false, some (.callee 1))
    | .Data x, .Data y =>
      (if op = ">" then decide (x > y) else if op = "<" then decide (x < y)
        else if op = ">=" then decide (x ≥ y) else decide (x ≤ y), none)
    | _, _ => (false, some (.callee 2))
  CompareAndCheckIntersect := fun a b =>
    match a, b with
    | .Data 0, _ => (false, some (.callee 1))
    | _, .Data 0 => (false, some (.callee 1))
    | .Data x, .Data y => (decide (x = y), none)
    | _, _ => (false, some (.callee 2))
  MustFixedColBool := fun v =>
    match v with
    | .ConstFixedBool value _ => some [value]
    | _ => none
  evalFunction := fun _ _ _ => .error (.callee 3)

/-- A zone-map batch with one row and the three columns `Data 0`, `Data 3`
and `Data 5`. -/
def exampleBat : ZmBatch := { Zs := [1], Vecs := [.Data 0, .Data 3, .Data 5] }

end colexec

/-! Statements of the SQL syntax tree (`pkg/sql/parsers/tree/alter.go`).

Modelled from the spec: the formatting context `FmtCtx`, declared outside the
source, is the string written to it so far, and `WriteString` appends to that
string. -/

namespace tree

/-- Modelled from the spec: the formatting context `FmtCtx`, the string written
so far. -/
structure FmtCtx where
  buf : String := ""
deriving DecidableEq, Repr

/-- Modelled from the spec: `FmtCtx.WriteString` appends to the string
written so far. -/
def FmtCtx.WriteString (ctx : FmtCtx) (s : String) : FmtCtx :=
  { buf := ctx.buf ++ s }

/-- The result of `fmt.Sprintf("%s ", s)` for a string `s`. -/
def sprintfS (s : String) : String := s ++ " "

/-- The statement `AlterDataBaseConfig` (lines 141-148). -/
structure AlterDataBaseConfig where
  AccountName : String
  DbName : String
  IsAccountLevel : Bool
  UpdateConfig : String
deriving DecidableEq, Repr

/-- `AlterDataBaseConfig.Format` (lines 150-168); the context written to is
returned. -/
def AlterDataBaseConfig.Format (node : AlterDataBaseConfig) (ctx : FmtCtx) : FmtCtx :=
  let ctx :=
    if node.IsAccountLevel then
      let ctx := ctx.WriteString "alter "
      let ctx := ctx.WriteString "account configuration "
      let ctx := ctx.WriteString "for "
      ctx.WriteString (sprintfS node.AccountName)
    else
      let ctx := ctx.WriteString "alter "
      let ctx := ctx.WriteString "database configuration "
      let ctx := ctx.WriteString "for "
      ctx.WriteString (sprintfS node.DbName)
  let ctx := ctx.WriteString "as "
  ctx.WriteString (sprintfS node.UpdateConfig)

end tree

namespace disttae

/-! ## Facts about the ordered index -/

namespace btree

variable {α : Type} {less : α → α → Bool}

theorem sorted_nil : Sorted less ([] : List α) := List.Pairwise.nil

theorem sorted_cons {x : α} {xs : List α} :
    Sorted less (x :: xs) ↔ (∀ y ∈ xs, less x y = true) ∧ Sorted less xs :=
  List.pairwise_cons

theorem Sorted.comparable (hs : Sorted less xs) {a b : α} (ha : a ∈ xs) (hb : b ∈ xs)
    (hne : a ≠ b) : less a b = true ∨ less b a = true := by
  induction xs with
  | nil => cases ha
  | cons x xs ih =>
    rw [sorted_cons] at hs
    rcases List.mem_cons.1 ha with rfl | ha'
    · rcases List.mem_cons.1 hb with rfl | hb'
      · exact absurd rfl hne
      · exact Or.inl (hs.1 b hb')
    · rcases List.mem_cons.1 hb with rfl | hb'
      · exact Or.inr (hs.1 a ha')
      · exact ih hs.2 ha' hb'

theorem mem_Set_imp {item y : α} {xs : List α} (h : y ∈ Set less item xs) :
    y = item ∨ y ∈ xs := by
  induction xs with
  | nil => simpa [Set] using h
  | cons x xs ih =>
    unfold Set at h
    split_ifs at h with h1 h2
    · rcases List.mem_cons.1 h with rfl | h'
      · exact Or.inr (List.mem_cons_self _ _)
      · rcases ih h' with e | m
        · exact Or.inl e
        · exact Or.inr (List.mem_cons_of_mem _ m)
    · rcases List.mem_cons.1 h with rfl | h'
      · exact Or.inl rfl
      · exact Or.inr h'
    · rcases List.mem_cons.1 h with rfl | h'
      · exact Or.inl rfl
      · exact Or.inr (List.mem_cons_of_mem _ h')

theorem item_mem_Set (item : α) (xs : List α) : item ∈ Set less item xs := by
  induction xs with
  | nil => simp [Set]
  | cons x xs ih =>
    unfold Set
    split_ifs
    · exact List.mem_cons_of_mem _ ih
    · exact List.mem_cons_self _ _
    · exact List.mem_cons_self _ _

theorem mem_Set_of_mem {item y : α} {xs : List α} (hy : y ∈ xs)
    (hne : less y item = true ∨ less item y = true) : y ∈ Set less item xs := by
  induction xs with
  | nil => cases hy
  | cons x xs ih =>
    unfold Set
    split_ifs with h1 h2
    · rcases List.mem_cons.1 hy with rfl | hy'
      · exact List.mem_cons_self _ _
      · exact List.mem_cons_of_mem _ (ih hy')
    · exact List.mem_cons_of_mem _ hy
    · rcases List.mem_cons.1 hy with rfl | hy'
      · rcases hne with h | h
        · exact absurd h h1
        · exact absurd h h2
      · exact List.mem_cons_of_mem _ hy'

theorem sorted_Set (ho : IsOrder less) {xs : List α} (hs : Sorted less xs) (item : α) :
    Sorted less (Set less item xs) := by
  induction xs with
  | nil => simp [btree.Set, Sorted]
  | cons x xs ih =>
    rw [sorted_cons] at hs
    unfold btree.Set
    split_ifs with h1 h2
    · rw [sorted_cons]
      refine ⟨?_, ih hs.2⟩
      intro y hy
      rcases mem_Set_imp hy with rfl | hy'
      · exact h1
      · exact hs.1 y hy'
    · rw [sorted_cons]
      refine ⟨?_, sorted_cons.2 hs⟩
      intro y hy
      rcases List.mem_cons.1 hy with rfl | hy'
      · exact h2
      · exact ho.trans _ _ _ h2 (hs.1 y hy')
    · rw [sorted_cons]
      refine ⟨?_, hs.2⟩
      intro y hy
      rcases ho.cotrans x item y (hs.1 y hy) with h | h
      · exact absurd h h1
      · exact h

theorem mem_Set_iff (ho : IsOrder less) {xs : List α} (hs : Sorted less xs) {item y : α} :
    y ∈ Set less item xs ↔
      y = item ∨ (y ∈ xs ∧ (less y item = true ∨ less item y = true)) := by
  constructor
  · intro h
    by_cases e : y = item
    · exact Or.inl e
    · right
      have hc := (sorted_Set ho hs item).comparable h (item_mem_Set item xs) e
      rcases mem_Set_imp h with e' | m
      · exact absurd e' e
      · exact ⟨m, hc⟩
  · rintro (rfl | ⟨m, hc⟩)
    · exact item_mem_Set _ _
    · exact mem_Set_of_mem m hc

theorem Get_eq_none_iff {key : α} {xs : List α} :
    Get less key xs = none ↔ ∀ x ∈ xs, less x key = true ∨ less key x = true := by
  unfold Get
  rw [List.find?_eq_none]
  constructor
  · intro h x hx
    have := h x hx
    by_cases h1 : less x key = true
    · exact Or.inl h1
    · by_cases h2 : less key x = true
      · exact Or.inr h2
      · simp [h1, h2] at this
  · intro h x hx
    rcases h x hx with h1 | h1 <;> simp [h1]

theorem Get_eq_some_imp {key x : α} {xs : List α} (h : Get less key xs = some x) :
    x ∈ xs ∧ less x key = false ∧ less key x = false := by
  unfold Get at h
  have h1 := List.find?_some h
  have h2 := List.mem_of_find?_eq_some h
  simp at h1
  exact ⟨h2, h1.1, h1.2⟩

theorem Get_eq_some_iff (ho : IsOrder less) {xs : List α} (hs : Sorted less xs) {key x : α} :
    Get less key xs = some x ↔ x ∈ xs ∧ less x key = false ∧ less key x = false := by
  constructor
  · exact Get_eq_some_imp
  · rintro ⟨hx, h1, h2⟩
    cases hg : Get less key xs with
    | none =>
      rcases Get_eq_none_iff.1 hg x hx with h | h
      · rw [h1] at h; cases h
      · rw [h2] at h; cases h
    | some z =>
      obtain ⟨hz, hz1, hz2⟩ := Get_eq_some_imp hg
      by_cases e : z = x
      · rw [e]
      · exfalso
        rcases hs.comparable hz hx e with h | h
        · rcases ho.cotrans z key x h with h' | h'
          · rw [hz1] at h'; cases h'
          · rw [h2] at h'; cases h'
        · rcases ho.cotrans x key z h with h' | h'
          · rw [h1] at h'; cases h'
          · rw [hz2] at h'; cases h'

theorem mem_Delete {key y : α} {xs : List α} :
    y ∈ Delete less key xs ↔ y ∈ xs ∧ (less y key = true ∨ less key y = true) := by
  unfold Delete
  simp [List.mem_filter]

theorem sorted_Delete {xs : List α} (hs : Sorted less xs) (key : α) :
    Sorted less (Delete less key xs) :=
  List.Pairwise.sublist (List.filter_sublist _) hs

theorem mem_Seek (ho : IsOrder less) {xs : List α} (hs : Sorted less xs) {pivot y : α} :
    y ∈ Seek less pivot xs ↔ y ∈ xs ∧ less y pivot = false := by
  induction xs with
  | nil => simp [Seek]
  | cons x xs ih =>
    rw [sorted_cons] at hs
    unfold Seek at ih ⊢
    rw [List.dropWhile_cons]
    split_ifs with h1
    · rw [ih hs.2]
      constructor
      · rintro ⟨m, h⟩
        exact ⟨List.mem_cons_of_mem _ m, h⟩
      · rintro ⟨m, h⟩
        rcases List.mem_cons.1 m with rfl | m'
        · rw [h1] at h; cases h
        · exact ⟨m', h⟩
    · constructor
      · intro m
        refine ⟨m, ?_⟩
        rcases List.mem_cons.1 m with rfl | m'
        · simpa using h1
        · cases hyp : less y pivot with
          | false => rfl
          | true => exact absurd (ho.trans _ _ _ (hs.1 y m') hyp) h1
      · exact fun h => h.1

theorem Seek_sublist (less : α → α → Bool) (pivot : α) (xs : List α) :
    (Seek less pivot xs).Sublist xs :=
  (List.dropWhile_suffix _).sublist

end btree

/-! ## Facts about the orders -/

theorem rowEntry_less_iff (a b : RowEntry) :
    a.Less b = true ↔
      a.BlockID < b.BlockID ∨
        (a.BlockID = b.BlockID ∧
          (a.RowID < b.RowID ∨ (a.RowID = b.RowID ∧ b.Time < a.Time))) := by
  unfold RowEntry.Less Rowid.Less TS.Less
  simp only [decide_eq_true_eq]
  split_ifs <;> simp <;> omega

theorem rowEntry_less_eq_false_iff (a b : RowEntry) :
    a.Less b = false ↔
      ¬ (a.BlockID < b.BlockID ∨
        (a.BlockID = b.BlockID ∧
          (a.RowID < b.RowID ∨ (a.RowID = b.RowID ∧ b.Time < a.Time)))) := by
  rw [← rowEntry_less_iff]; simp

theorem blockEntry_less_iff (a b : BlockEntry) :
    a.Less b = true ↔ a.BlockID < b.BlockID := by
  unfold BlockEntry.Less
  by_cases h1 : a.BlockID < b.BlockID <;> simp [h1]

theorem rowEntry_isOrder : btree.IsOrder RowEntry.Less where
  irrefl a := by
    rw [rowEntry_less_eq_false_iff]
    omega
  trans a b c h1 h2 := by
    rw [rowEntry_less_iff] at *
    omega
  cotrans a b c h := by
    rw [rowEntry_less_iff] at *
    rw [rowEntry_less_iff]
    omega

theorem blockEntry_isOrder : btree.IsOrder BlockEntry.Less where
  irrefl a := by
    cases h : a.Less a with
    | false => rfl
    | true => rw [blockEntry_less_iff] at h; omega
  trans a b c h1 h2 := by
    rw [blockEntry_less_iff] at *
    omega
  cotrans a b c h := by
    rw [blockEntry_less_iff] at *
    rw [blockEntry_less_iff]
    omega

theorem rowEntry_less_pivot_iff (x : RowEntry) (blockID : Nat) (rowID : Nat) (ts : Nat) :
    x.Less { BlockID := blockID, RowID := rowID, Time := ts } = true ↔
      x.BlockID < blockID ∨
        (x.BlockID = blockID ∧ (x.RowID < rowID ∨ (x.RowID = rowID ∧ ts < x.Time))) :=
  rowEntry_less_iff _ _

theorem RowExists.loop_seek_iff (blockID : Nat) (rowID : Nat) (ts : Nat) (xs : List RowEntry)
    (hs : btree.Sorted RowEntry.Less xs) :
    RowExists.loop blockID rowID ts
        (btree.Seek RowEntry.Less { BlockID := blockID, RowID := rowID, Time := ts } xs) = true ↔
      ∃ v ∈ xs, v.BlockID = blockID ∧ v.RowID = rowID ∧ v.Time ≤ ts ∧ v.Deleted = false ∧
        ∀ w ∈ xs, w.BlockID = blockID → w.RowID = rowID → w.Time ≤ ts → w.Time ≤ v.Time := by
  induction xs with
  | nil => simp [btree.Seek, RowExists.loop]
  | cons x xs ih =>
    rw [btree.sorted_cons] at hs
    have ih := ih hs.2
    unfold btree.Seek at ih ⊢
    rw [List.dropWhile_cons]
    split_ifs with h1
    · rw [ih]
      rw [rowEntry_less_pivot_iff] at h1
      constructor
      · rintro ⟨v, hv, hB, hR, hT, hD, hmax⟩
        refine ⟨v, List.mem_cons_of_mem _ hv, hB, hR, hT, hD, ?_⟩
        intro w hw wB wR wT
        rcases List.mem_cons.1 hw with rfl | hw'
        · omega
        · exact hmax w hw' wB wR wT
      · rintro ⟨v, hv, hB, hR, hT, hD, hmax⟩
        rcases List.mem_cons.1 hv with rfl | hv'
        · omega
        · exact ⟨v, hv', hB, hR, hT, hD, fun w hw => hmax w (List.mem_cons_of_mem _ hw)⟩
    · have h1' := h1
      rw [rowEntry_less_pivot_iff] at h1'
      have hlt : ∀ w ∈ xs, x.BlockID < w.BlockID ∨
          (x.BlockID = w.BlockID ∧ (x.RowID < w.RowID ∨ (x.RowID = w.RowID ∧ w.Time < x.Time))) :=
        fun w hw => (rowEntry_less_iff x w).1 (hs.1 w hw)
      unfold RowExists.loop
      by_cases hB : x.BlockID = blockID
      · by_cases hR : x.RowID = rowID
        · have hT : ¬ (x.Time > ts) := by
            omega
          simp only [hB, hR, bne_self_eq_false, Bool.false_eq_true, if_false, TS.Greater, hT,
            decide_False]
          cases hD : x.Deleted with
          | true =>
            simp only [if_true, Bool.false_eq_true, false_iff]
            rintro ⟨v, hv, vB, vR, vT, vD, hmax⟩
            rcases List.mem_cons.1 hv with rfl | hv'
            · rw [hD] at vD; cases vD
            · have := hmax x (List.mem_cons_self _ _) hB hR (by omega)
              have := hlt v hv'
              omega
          | false =>
            simp only [Bool.false_eq_true, if_false, true_iff]
            refine ⟨x, List.mem_cons_self _ _, hB, hR, by omega, hD, ?_⟩
            intro w hw wB wR wT
            rcases List.mem_cons.1 hw with rfl | hw'
            · exact le_refl _
            · have := hlt w hw'
              omega
        · have : (x.RowID != rowID) = true := by simpa using hR
          simp only [hB, bne_self_eq_false, Bool.false_eq_true, if_false, this, if_true,
            false_iff]
          rintro ⟨v, hv, vB, vR, vT, vD, hmax⟩
          rcases List.mem_cons.1 hv with rfl | hv'
          · exact hR vR
          · have := hlt v hv'
            omega
      · have : (x.BlockID != blockID) = true := by simpa using hB
        simp only [this, if_true, Bool.false_eq_true, false_iff]
        rintro ⟨v, hv, vB, vR, vT, vD, hmax⟩
        rcases List.mem_cons.1 hv with rfl | hv'
        · exact hB vB
        · have := hlt v hv'
          omega


/-! ## Snapshot reads -/

/-- C1: on a partition state (whose `Rows` tree is ordered by `RowEntry.Less`),
`RowExists(r, ts)` is true exactly when `Rows` holds a version with
`BlockID = blockIDFromRowID(r)`, `RowID = r` and `Time <= ts`, and the one of
those versions with the greatest `Time` has `Deleted = false`; it is false
otherwise, also when there is no such version. -/
theorem RowExists_iff_newest_visible_version_live (env : Env) (p : PartitionState)
    (hs : btree.Sorted RowEntry.Less p.Rows) (r ts : Nat) :
    p.RowExists env r ts = true ↔
      ∃ v ∈ p.Rows, v.BlockID = env.blockIDFromRowID r ∧ v.RowID = r ∧ v.Time ≤ ts ∧
        v.Deleted = false ∧
        ∀ w ∈ p.Rows, w.BlockID = env.blockIDFromRowID r → w.RowID = r → w.Time ≤ ts →
          w.Time ≤ v.Time :=
  RowExists.loop_seek_iff (env.blockIDFromRowID r) r ts p.Rows hs

theorem RowExists_iff_newest_visible_version_live_witness :
    btree.Sorted RowEntry.Less insertedThenDeleted.Rows ∧
      (insertedThenDeleted.RowExists exampleEnv rowA 15 = true ↔
        ∃ v ∈ insertedThenDeleted.Rows, v.BlockID = exampleEnv.blockIDFromRowID rowA ∧
          v.RowID = rowA ∧ v.Time ≤ 15 ∧ v.Deleted = false ∧
          ∀ w ∈ insertedThenDeleted.Rows, w.BlockID = exampleEnv.blockIDFromRowID rowA →
            w.RowID = rowA → w.Time ≤ 15 → w.Time ≤ v.Time) :=
  ⟨by decide,
   RowExists_iff_newest_visible_version_live exampleEnv insertedThenDeleted (by decide) rowA 15⟩

/-- C6: on a partition state (whose `Rows` tree is ordered), for every row id
`R` and timestamps `t1 <= t2`, if `RowExists(R, t1)` is true and `Rows` holds no
version of `R` whose `Time` lies in `(t1, t2]`, then
`RowExists(R, t2) = RowExists(R, t1)`. -/
theorem RowExists_stable_without_later_version (env : Env) (p : PartitionState)
    (hs : btree.Sorted RowEntry.Less p.Rows) (R t1 t2 : Nat) (h12 : t1 ≤ t2)
    (h1 : p.RowExists env R t1 = true)
    (hno : ∀ v ∈ p.Rows, v.RowID = R → ¬ (t1 < v.Time ∧ v.Time ≤ t2)) :
    p.RowExists env R t2 = p.RowExists env R t1 := by
  rw [h1]
  obtain ⟨v, hv, vB, vR, vT, vD, hmax⟩ :=
    (RowExists.loop_seek_iff (env.blockIDFromRowID R) R t1 p.Rows hs).1 h1
  refine (RowExists.loop_seek_iff (env.blockIDFromRowID R) R t2 p.Rows hs).2
    ⟨v, hv, vB, vR, le_trans vT h12, vD, ?_⟩
  intro w hw wB wR wT
  have := hno w hw wR
  exact hmax w hw wB wR (by omega)

theorem RowExists_stable_without_later_version_witness :
    btree.Sorted RowEntry.Less insertedThenDeleted.Rows ∧ (10 : Nat) ≤ 19 ∧
      insertedThenDeleted.RowExists exampleEnv rowA 10 = true ∧
      (∀ v ∈ insertedThenDeleted.Rows, v.RowID = rowA → ¬ (10 < v.Time ∧ v.Time ≤ 19)) ∧
      insertedThenDeleted.RowExists exampleEnv rowA 19 =
        insertedThenDeleted.RowExists exampleEnv rowA 10 :=
  ⟨by decide, by decide, by decide, by decide,
   RowExists_stable_without_later_version exampleEnv insertedThenDeleted (by decide) rowA 10 19
     (by decide) (by decide) (by decide)⟩


/-! ## Compaction -/

theorem deleteLoop_Blocks (blockID : Nat) (l : List RowEntry) (p : PartitionState) :
    (HandleMetadataInsert.deleteLoop blockID l p).Blocks = p.Blocks ∧
      (HandleMetadataInsert.deleteLoop blockID l p).Checkpoints = p.Checkpoints := by
  induction l generalizing p with
  | nil => simp [HandleMetadataInsert.deleteLoop]
  | cons x xs ih =>
    unfold HandleMetadataInsert.deleteLoop
    split_ifs with h1 h2
    · exact ⟨rfl, rfl⟩
    · exact ih _
    · exact ih _

theorem deleteLoop_Rows_sublist (blockID : Nat) (l : List RowEntry) (p : PartitionState) :
    (HandleMetadataInsert.deleteLoop blockID l p).Rows.Sublist p.Rows := by
  induction l generalizing p with
  | nil => simp [HandleMetadataInsert.deleteLoop]
  | cons x xs ih =>
    unfold HandleMetadataInsert.deleteLoop
    split_ifs with h1 h2
    · exact List.Sublist.refl _
    · exact (ih _).trans (List.filter_sublist _)
    · exact (ih _).trans (List.filter_sublist _)

theorem deleteLoop_PrimaryIndex_sublist (blockID : Nat) (l : List RowEntry)
    (p : PartitionState) :
    (HandleMetadataInsert.deleteLoop blockID l p).PrimaryIndex.Sublist p.PrimaryIndex := by
  induction l generalizing p with
  | nil => simp [HandleMetadataInsert.deleteLoop]
  | cons x xs ih =>
    unfold HandleMetadataInsert.deleteLoop
    split_ifs with h1 h2
    · exact List.Sublist.refl _
    · exact (ih _).trans (List.filter_sublist _)
    · exact ih _

/-- The items the compaction loop visits: those of the run of `blockID` at the
head of the iteration. -/
theorem mem_deleteLoop_Rows (blockID : Nat) (l : List RowEntry) (p : PartitionState)
    (y : RowEntry) :
    y ∈ (HandleMetadataInsert.deleteLoop blockID l p).Rows ↔
      y ∈ p.Rows ∧ ∀ v ∈ l.takeWhile (fun e => e.BlockID == blockID),
        (y.Less v = true ∨ v.Less y = true) := by
  induction l generalizing p with
  | nil => simp [HandleMetadataInsert.deleteLoop]
  | cons x xs ih =>
    unfold HandleMetadataInsert.deleteLoop
    rw [List.takeWhile_cons]
    by_cases hx : x.BlockID = blockID
    · have hb : (x.BlockID != blockID) = false := by simp [hx]
      have hb' : (x.BlockID == blockID) = true := by simp [hx]
      simp only [hb, Bool.false_eq_true, if_false, hb', if_true, List.mem_cons, forall_eq_or_imp]
      split_ifs with h2
      · rw [ih]
        simp only [btree.mem_Delete]
        tauto
      · rw [ih]
        simp only [btree.mem_Delete]
        tauto
    · have hb : (x.BlockID != blockID) = true := by simp [hx]
      have hb' : (x.BlockID == blockID) = false := by simp [hx]
      simp [hb, hb']

theorem mem_deleteLoop_PrimaryIndex (blockID : Nat) (l : List RowEntry) (p : PartitionState)
    (y : PrimaryIndexEntry) :
    y ∈ (HandleMetadataInsert.deleteLoop blockID l p).PrimaryIndex ↔
      y ∈ p.PrimaryIndex ∧ ∀ v ∈ l.takeWhile (fun e => e.BlockID == blockID),
        v.PrimaryIndexBytes.length > 0 →
          (y.Less { Bytes := v.PrimaryIndexBytes, RowEntryID := v.ID } = true ∨
            PrimaryIndexEntry.Less { Bytes := v.PrimaryIndexBytes, RowEntryID := v.ID } y = true) := by
  induction l generalizing p with
  | nil => simp [HandleMetadataInsert.deleteLoop]
  | cons x xs ih =>
    unfold HandleMetadataInsert.deleteLoop
    rw [List.takeWhile_cons]
    by_cases hx : x.BlockID = blockID
    · have hb : (x.BlockID != blockID) = false := by simp [hx]
      have hb' : (x.BlockID == blockID) = true := by simp [hx]
      simp only [hb, Bool.false_eq_true, if_false, hb', if_true, List.mem_cons, forall_eq_or_imp]
      split_ifs with h2
      · rw [ih]
        simp only [btree.mem_Delete]
        tauto
      · rw [ih]
        tauto
    · have hb : (x.BlockID != blockID) = true := by simp [hx]
      have hb' : (x.BlockID == blockID) = false := by simp [hx]
      simp [hb, hb']

/-- In an ordered sequence that starts at or after the seek position of a
block, the versions of the block are the run at its head. -/
theorem mem_takeWhile_block (blockID : Nat) (l : List RowEntry)
    (hs : btree.Sorted RowEntry.Less l)
    (hge : ∀ x ∈ l, blockID ≤ x.BlockID) (y : RowEntry) (hy : y ∈ l)
    (hB : y.BlockID = blockID) : y ∈ l.takeWhile (fun e => e.BlockID == blockID) := by
  induction l with
  | nil => cases hy
  | cons x xs ih =>
    rw [btree.sorted_cons] at hs
    rw [List.takeWhile_cons]
    have hxy : x.BlockID ≤ y.BlockID := by
      rcases List.mem_cons.1 hy with rfl | hy'
      · exact le_refl _
      · have := (rowEntry_less_iff x y).1 (hs.1 y hy')
        omega
    have hx : x.BlockID = blockID := by
      have := hge x (List.mem_cons_self _ _)
      omega
    have hb' : (x.BlockID == blockID) = true := by simp [hx]
    simp only [hb', if_true]
    rcases List.mem_cons.1 hy with rfl | hy'
    · exact List.mem_cons_self _ _
    · exact List.mem_cons_of_mem _
        (ih hs.2 (fun z hz => hge z (List.mem_cons_of_mem _ hz)) hy')

/-- What compaction leaves of a block: only versions that sort before the seek
position `(blockID, zero row id, zero time)`, that is versions of the zero row
id with a non-zero time. -/
theorem deleteLoop_Rows_block (blockID : Nat) (p : PartitionState)
    (hs : btree.Sorted RowEntry.Less p.Rows) (y : RowEntry)
    (hy : y ∈ (HandleMetadataInsert.deleteLoop blockID
      (btree.Seek RowEntry.Less { BlockID := blockID } (btree.Copy p.Rows)) p).Rows)
    (hB : y.BlockID = blockID) : y.RowID = 0 ∧ 0 < y.Time := by
  rw [mem_deleteLoop_Rows] at hy
  obtain ⟨hy1, hy2⟩ := hy
  by_contra hcon
  have hnl : y.Less { BlockID := blockID } = false := by
    rw [rowEntry_less_eq_false_iff]
    simp only
    omega
  have hseek : y ∈ btree.Seek RowEntry.Less { BlockID := blockID } (btree.Copy p.Rows) :=
    (btree.mem_Seek rowEntry_isOrder hs).2 ⟨hy1, hnl⟩
  have hsorted : btree.Sorted RowEntry.Less
      (btree.Seek RowEntry.Less { BlockID := blockID } (btree.Copy p.Rows)) :=
    List.Pairwise.sublist (btree.Seek_sublist _ _ _) hs
  have hge : ∀ x ∈ btree.Seek RowEntry.Less { BlockID := blockID } (btree.Copy p.Rows),
      blockID ≤ x.BlockID := by
    intro x hx
    have := ((btree.mem_Seek rowEntry_isOrder hs).1 hx).2
    rw [rowEntry_less_eq_false_iff] at this
    simp only at this
    omega
  have := hy2 y (mem_takeWhile_block blockID _ hsorted hge y hseek hB)
  rw [rowEntry_isOrder.irrefl] at this
  simp at this

/-! ## The row loops -/

theorem forRange_invariant {α : Type} (body : Nat → α → St → Except Panic St) (P : St → Prop)
    (hbody : ∀ i x s s', P s → body i x s = .ok s' → P s') (i : Nat) (xs : List α) (s : St)
    (h : P s) : P (forRange body i xs s).state := by
  induction xs generalizing i s with
  | nil => exact h
  | cons x xs ih =>
    unfold forRange
    cases hb : body i x s with
    | error why => exact h
    | ok s' => exact ih (i + 1) s' (hbody i x s s' h hb)

theorem forRange_done_cons {α : Type} (body : Nat → α → St → Except Panic St) (i : Nat)
    (x : α) (xs : List α) (s s' : St) :
    forRange body i (x :: xs) s = .done s' ↔
      ∃ s1, body i x s = .ok s1 ∧ forRange body (i + 1) xs s1 = .done s' := by
  rw [forRange]
  cases hb : body i x s with
  | error why => simp
  | ok s2 => simp

theorem forRange_done_append {α : Type} (body : Nat → α → St → Except Panic St) (i : Nat)
    (xs ys : List α) (s s' : St) :
    forRange body i (xs ++ ys) s = .done s' ↔
      ∃ s1, forRange body i xs s = .done s1 ∧ forRange body (i + xs.length) ys s1 = .done s' := by
  induction xs generalizing i s with
  | nil => simp [forRange]
  | cons x xs ih =>
    simp only [List.cons_append, List.length_cons, forRange_done_cons]
    have : i + (xs.length + 1) = i + 1 + xs.length := by omega
    rw [this]
    constructor
    · rintro ⟨s1, h1, h2⟩
      obtain ⟨s2, h3, h4⟩ := (ih (i + 1) s1).1 h2
      exact ⟨s2, ⟨s1, h1, h3⟩, h4⟩
    · rintro ⟨s2, ⟨s1, h1, h3⟩, h4⟩
      exact ⟨s1, h1, (ih (i + 1) s1).2 ⟨s2, h3, h4⟩⟩

/-- A loop that panics has run its body in full on the rows before the failing
one, and not at all on the failing row and the rows after it. -/
theorem forRange_panicked {α : Type} (body : Nat → α → St → Except Panic St) (i : Nat)
    (xs : List α) (s s' : St) (why : Panic) (h : forRange body i xs s = .panicked why s') :
    ∃ k x, xs[k]? = some x ∧ forRange body i (xs.take k) s = .done s' ∧
      body (i + k) x s' = .error why := by
  induction xs generalizing i s with
  | nil => simp [forRange] at h
  | cons x xs ih =>
    unfold forRange at h
    cases hb : body i x s with
    | error w =>
      rw [hb] at h
      simp only [Outcome.panicked.injEq] at h
      obtain ⟨rfl, rfl⟩ := h
      exact ⟨0, x, by simp, by simp [forRange], by simpa using hb⟩
    | ok s2 =>
      rw [hb] at h
      obtain ⟨k, y, hk, hdone, herr⟩ := ih (i + 1) s2 h
      refine ⟨k + 1, y, by simpa using hk, ?_, ?_⟩
      · simp only [List.take_succ_cons]
        rw [forRange_done_cons]
        exact ⟨s2, hb, hdone⟩
      · have : i + (k + 1) = i + 1 + k := by omega
        rw [this]
        exact herr

/-! ## Data rows -/

theorem rowEntry_equiv_iff (a b : RowEntry) :
    (a.Less b = false ∧ b.Less a = false) ↔ a.isAt b.BlockID b.RowID b.Time := by
  rw [rowEntry_less_eq_false_iff, rowEntry_less_eq_false_iff]
  unfold RowEntry.isAt
  omega

theorem rowEntry_comparable_iff (a b : RowEntry) :
    (a.Less b = true ∨ b.Less a = true) ↔ ¬ a.isAt b.BlockID b.RowID b.Time := by
  rw [rowEntry_less_iff, rowEntry_less_iff]
  unfold RowEntry.isAt
  omega

theorem Get_pivot_some_imp {rows : List RowEntry} {blockID rowID time : Nat} {e : RowEntry}
    (h : btree.Get RowEntry.Less { BlockID := blockID, RowID := rowID, Time := time } rows
      = some e) : e ∈ rows ∧ e.isAt blockID rowID time := by
  obtain ⟨h1, h2, h3⟩ := btree.Get_eq_some_imp h
  exact ⟨h1, (rowEntry_equiv_iff e _).1 ⟨h2, h3⟩⟩

theorem Get_pivot_some_of_mem {rows : List RowEntry} (hs : btree.Sorted RowEntry.Less rows)
    {blockID rowID time : Nat} {e : RowEntry} (he : e ∈ rows) (hat : e.isAt blockID rowID time) :
    btree.Get RowEntry.Less { BlockID := blockID, RowID := rowID, Time := time } rows = some e := by
  rw [btree.Get_eq_some_iff rowEntry_isOrder hs]
  exact ⟨he, (rowEntry_equiv_iff e _).2 hat⟩

theorem Get_pivot_none_imp {rows : List RowEntry} {blockID rowID time : Nat}
    (h : btree.Get RowEntry.Less { BlockID := blockID, RowID := rowID, Time := time } rows
      = none) (e : RowEntry) (he : e ∈ rows) : ¬ e.isAt blockID rowID time := by
  have := btree.Get_eq_none_iff.1 h e he
  exact (rowEntry_comparable_iff e _).1 this

/-- At most one version sits at a triple of an ordered tree. -/
theorem isAt_unique {rows : List RowEntry} (hs : btree.Sorted RowEntry.Less rows)
    {blockID rowID time : Nat} {a b : RowEntry} (ha : a ∈ rows) (hb : b ∈ rows)
    (hat : a.isAt blockID rowID time) (hbt : b.isAt blockID rowID time) : a = b := by
  by_contra hne
  have := hs.comparable ha hb hne
  rw [rowEntry_comparable_iff] at this
  apply this
  unfold RowEntry.isAt at *
  omega

theorem mem_Set_rows {rows : List RowEntry} (hs : btree.Sorted RowEntry.Less rows)
    {entry y : RowEntry} :
    y ∈ btree.Set RowEntry.Less entry rows ↔
      y = entry ∨ (y ∈ rows ∧ ¬ y.isAt entry.BlockID entry.RowID entry.Time) := by
  rw [btree.mem_Set_iff rowEntry_isOrder hs, rowEntry_comparable_iff]

theorem insertEntry_isAt (env : Env) (d : RowsInsertInput) (i rowID time : Nat) (s : St) :
    (HandleRowsInsert.entry env d i rowID time s).isAt (env.blockIDFromRowID rowID) rowID time := by
  cases hg : btree.Get RowEntry.Less
      { BlockID := env.blockIDFromRowID rowID, RowID := rowID, Time := time } s.p.Rows with
  | none =>
    simp only [HandleRowsInsert.entry, hg]
    split_ifs <;> exact ⟨rfl, rfl, rfl⟩
  | some e =>
    have := (Get_pivot_some_imp hg).2
    simp only [HandleRowsInsert.entry, hg]
    split_ifs <;> exact this

theorem insertEntry_found (env : Env) (d : RowsInsertInput) (i rowID time : Nat) (s : St)
    (e : RowEntry)
    (hg : btree.Get RowEntry.Less
      { BlockID := env.blockIDFromRowID rowID, RowID := rowID, Time := time } s.p.Rows = some e) :
    (HandleRowsInsert.entry env d i rowID time s).ID = e.ID ∧
      (HandleRowsInsert.entry env d i rowID time s).Deleted = e.Deleted ∧
      (HandleRowsInsert.entry env d i rowID time s).PrimaryIndexBytes =
        (if h : i < d.primaryKeyBytesSet.length then d.primaryKeyBytesSet[i]
         else e.PrimaryIndexBytes) := by
  unfold HandleRowsInsert.entry
  simp only [hg]
  split_ifs <;> exact ⟨rfl, rfl, rfl⟩

theorem insertEntry_fresh (env : Env) (d : RowsInsertInput) (i rowID time : Nat) (s : St)
    (hg : btree.Get RowEntry.Less
      { BlockID := env.blockIDFromRowID rowID, RowID := rowID, Time := time } s.p.Rows = none) :
    (HandleRowsInsert.entry env d i rowID time s).ID = atomicAddInt64 s.nextRowEntryID 1 ∧
      (HandleRowsInsert.entry env d i rowID time s).Deleted = false ∧
      (HandleRowsInsert.entry env d i rowID time s).PrimaryIndexBytes =
        (if h : i < d.primaryKeyBytesSet.length then d.primaryKeyBytesSet[i] else []) := by
  unfold HandleRowsInsert.entry
  simp only [hg]
  split_ifs <;> exact ⟨rfl, rfl, rfl⟩

theorem deleteEntry_isAt (env : Env) (d : RowsDeleteInput) (i rowID time : Nat) (s : St) :
    (HandleRowsDelete.entry env d i rowID time s).isAt (env.blockIDFromRowID rowID) rowID time := by
  cases hg : btree.Get RowEntry.Less
      { BlockID := env.blockIDFromRowID rowID, RowID := rowID, Time := time } s.p.Rows with
  | none =>
    simp only [HandleRowsDelete.entry, hg]
    exact ⟨rfl, rfl, rfl⟩
  | some e =>
    simp only [HandleRowsDelete.entry, hg]
    exact (Get_pivot_some_imp hg).2

theorem deleteEntry_Deleted (env : Env) (d : RowsDeleteInput) (i rowID time : Nat) (s : St) :
    (HandleRowsDelete.entry env d i rowID time s).Deleted = true := by
  unfold HandleRowsDelete.entry
  rfl

theorem deleteEntry_found (env : Env) (d : RowsDeleteInput) (i rowID time : Nat) (s : St)
    (e : RowEntry)
    (hg : btree.Get RowEntry.Less
      { BlockID := env.blockIDFromRowID rowID, RowID := rowID, Time := time } s.p.Rows = some e) :
    (HandleRowsDelete.entry env d i rowID time s).ID = e.ID ∧
      (HandleRowsDelete.entry env d i rowID time s).PrimaryIndexBytes = e.PrimaryIndexBytes := by
  simp [HandleRowsDelete.entry, hg]

theorem deleteEntry_fresh (env : Env) (d : RowsDeleteInput) (i rowID time : Nat) (s : St)
    (hg : btree.Get RowEntry.Less
      { BlockID := env.blockIDFromRowID rowID, RowID := rowID, Time := time } s.p.Rows = none) :
    (HandleRowsDelete.entry env d i rowID time s).ID = atomicAddInt64 s.nextRowEntryID 1 ∧
      (HandleRowsDelete.entry env d i rowID time s).PrimaryIndexBytes = [] := by
  simp [HandleRowsDelete.entry, hg]

/-- What a data-insert row that does not panic does to the state. -/
theorem insertRow_ok {env : Env} {d : RowsInsertInput} {i rowID : Nat} {s s' : St}
    (h : HandleRowsInsert.row env d i rowID s = .ok s') :
    ∃ time, d.timeVector[i]? = some time ∧
      s'.p.Rows = btree.Set RowEntry.Less (HandleRowsInsert.entry env d i rowID time s) s.p.Rows ∧
      s'.p.PrimaryIndex =
        (if h : i < d.primaryKeyBytesSet.length then
          if (d.primaryKeyBytesSet[i]).length > 0 then
            btree.Set PrimaryIndexEntry.Less
              { Bytes := d.primaryKeyBytesSet[i],
                RowEntryID := (HandleRowsInsert.entry env d i rowID time s).ID,
                BlockID := env.blockIDFromRowID rowID, RowID := rowID } s.p.PrimaryIndex
          else s.p.PrimaryIndex
        else s.p.PrimaryIndex) ∧
      s'.p.Blocks = s.p.Blocks ∧ s'.p.Checkpoints = s.p.Checkpoints ∧
      s'.nextRowEntryID = nextAfterRow env rowID time s := by
  unfold HandleRowsInsert.row at h
  cases ht : d.timeVector[i]? with
  | none => rw [ht] at h; cases h
  | some time =>
    rw [ht] at h
    simp only [Except.ok.injEq] at h
    subst h
    exact ⟨time, rfl, rfl, rfl, rfl, rfl, rfl⟩

/-- What a data-delete row that does not panic does to the state. -/
theorem deleteRow_ok {env : Env} {d : RowsDeleteInput} {i rowID : Nat} {s s' : St}
    (h : HandleRowsDelete.row env d i rowID s = .ok s') :
    ∃ time, d.timeVector[i]? = some time ∧
      s'.p.Rows = btree.Set RowEntry.Less (HandleRowsDelete.entry env d i rowID time s) s.p.Rows ∧
      s'.p.PrimaryIndex = s.p.PrimaryIndex ∧
      s'.p.Blocks = s.p.Blocks ∧ s'.p.Checkpoints = s.p.Checkpoints ∧
      s'.nextRowEntryID = nextAfterRow env rowID time s := by
  unfold HandleRowsDelete.row at h
  cases ht : d.timeVector[i]? with
  | none => rw [ht] at h; cases h
  | some time =>
    rw [ht] at h
    simp only [Except.ok.injEq] at h
    subst h
    exact ⟨time, rfl, rfl, rfl, rfl, rfl, rfl⟩

/-- The state of a metadata-insert row after its block entry is stored and
before compaction. -/
theorem metaInsertRow_eq {d : MetadataInsertInput} {i blockID : Nat} {s s' : St}
    (h : HandleMetadataInsert.row d i blockID s = .ok s') :
    ∃ r q, d.cells i = some r ∧
      s'.nextRowEntryID = s.nextRowEntryID ∧
      q.Rows = s.p.Rows ∧ q.PrimaryIndex = s.p.PrimaryIndex ∧
      q.Checkpoints = s.p.Checkpoints ∧
      q.Blocks = btree.Set BlockEntry.Less
        (HandleMetadataInsert.merge
          ((btree.Get BlockEntry.Less { BlockID := blockID } s.p.Blocks).getD
            { BlockID := blockID }) r) s.p.Blocks ∧
      s'.p = (if r.entryState then
        HandleMetadataInsert.deleteLoop blockID
          (btree.Seek RowEntry.Less { BlockID := blockID } (btree.Copy q.Rows)) q
        else q) := by
  unfold HandleMetadataInsert.row at h
  cases hc : d.cells i with
  | none => simp [hc] at h
  | some r =>
    simp only [hc, Except.ok.injEq] at h
    subst h
    exact ⟨r, { s.p with Blocks := (btree.Set BlockEntry.Less
        (HandleMetadataInsert.merge
          ((btree.Get BlockEntry.Less { BlockID := blockID } s.p.Blocks).getD
            { BlockID := blockID }) r) s.p.Blocks) }, rfl, rfl, rfl, rfl, rfl, rfl, rfl⟩

/-- What a metadata-insert row that does not panic does to the state. -/
theorem metaInsertRow_ok {d : MetadataInsertInput} {i blockID : Nat} {s s' : St}
    (h : HandleMetadataInsert.row d i blockID s = .ok s') :
    ∃ r, d.cells i = some r ∧
      s'.nextRowEntryID = s.nextRowEntryID ∧
      s'.p.Blocks = btree.Set BlockEntry.Less
        (HandleMetadataInsert.merge
          ((btree.Get BlockEntry.Less { BlockID := blockID } s.p.Blocks).getD
            { BlockID := blockID }) r) s.p.Blocks ∧
      s'.p.Checkpoints = s.p.Checkpoints ∧
      (r.entryState = false → s'.p.Rows = s.p.Rows ∧ s'.p.PrimaryIndex = s.p.PrimaryIndex) := by
  obtain ⟨r, q, hc, hn, hq1, hq2, hq3, hq4, hp⟩ := metaInsertRow_eq h
  refine ⟨r, hc, hn, ?_, ?_, ?_⟩
  · rw [hp]
    split_ifs
    · rw [(deleteLoop_Blocks _ _ _).1, hq4]
    · exact hq4
  · rw [hp]
    split_ifs
    · rw [(deleteLoop_Blocks _ _ _).2, hq3]
    · exact hq3
  · intro hr
    rw [hp]
    simp [hr, hq1, hq2]

/-- What a metadata-delete row that does not panic does to the state. -/
theorem metaDeleteRow_ok {env : Env} {d : MetadataDeleteInput} {i rowID : Nat} {s s' : St}
    (h : HandleMetadataDelete.row env d i rowID s = .ok s') :
    ∃ entry deleteTime,
      btree.Get BlockEntry.Less { BlockID := env.DecodeUint64 rowID } s.p.Blocks = some entry ∧
      d.deleteTimeVector[i]? = some deleteTime ∧
      s'.nextRowEntryID = s.nextRowEntryID ∧
      s'.p.Blocks = btree.Set BlockEntry.Less { entry with DeleteTime := deleteTime } s.p.Blocks ∧
      s'.p.Rows = s.p.Rows ∧ s'.p.PrimaryIndex = s.p.PrimaryIndex ∧
      s'.p.Checkpoints = s.p.Checkpoints := by
  unfold HandleMetadataDelete.row at h
  cases hg : btree.Get BlockEntry.Less { BlockID := env.DecodeUint64 rowID } s.p.Blocks with
  | none => simp [hg] at h
  | some entry =>
    cases ht : d.deleteTimeVector[i]? with
    | none => simp [hg, ht] at h
    | some deleteTime =>
      simp only [hg, ht, Except.ok.injEq] at h
      subst h
      exact ⟨entry, deleteTime, rfl, rfl, rfl, rfl, rfl, rfl, rfl⟩

/-! ## The trees stay ordered -/

theorem insertRow_sorted {env : Env} {d : RowsInsertInput} {i rowID : Nat} {s s' : St}
    (hs : btree.Sorted RowEntry.Less s.p.Rows)
    (h : HandleRowsInsert.row env d i rowID s = .ok s') :
    btree.Sorted RowEntry.Less s'.p.Rows := by
  obtain ⟨time, -, hrows, -⟩ := insertRow_ok h
  rw [hrows]
  exact btree.sorted_Set rowEntry_isOrder hs _

theorem deleteRow_sorted {env : Env} {d : RowsDeleteInput} {i rowID : Nat} {s s' : St}
    (hs : btree.Sorted RowEntry.Less s.p.Rows)
    (h : HandleRowsDelete.row env d i rowID s = .ok s') :
    btree.Sorted RowEntry.Less s'.p.Rows := by
  obtain ⟨time, -, hrows, -⟩ := deleteRow_ok h
  rw [hrows]
  exact btree.sorted_Set rowEntry_isOrder hs _

theorem metaInsertRow_Rows_sublist {d : MetadataInsertInput} {i blockID : Nat} {s s' : St}
    (h : HandleMetadataInsert.row d i blockID s = .ok s') : s'.p.Rows.Sublist s.p.Rows := by
  obtain ⟨r, q, -, -, hq1, -, -, -, hp⟩ := metaInsertRow_eq h
  rw [hp, ← hq1]
  split_ifs
  · exact deleteLoop_Rows_sublist _ _ _
  · exact List.Sublist.refl _

theorem metaInsertRow_PrimaryIndex_sublist {d : MetadataInsertInput} {i blockID : Nat}
    {s s' : St} (h : HandleMetadataInsert.row d i blockID s = .ok s') :
    s'.p.PrimaryIndex.Sublist s.p.PrimaryIndex := by
  obtain ⟨r, q, -, -, -, hq2, -, -, hp⟩ := metaInsertRow_eq h
  rw [hp, ← hq2]
  split_ifs
  · exact deleteLoop_PrimaryIndex_sublist _ _ _
  · exact List.Sublist.refl _

theorem metaInsertRow_sorted {d : MetadataInsertInput} {i blockID : Nat} {s s' : St}
    (hs : btree.Sorted RowEntry.Less s.p.Rows)
    (h : HandleMetadataInsert.row d i blockID s = .ok s') :
    btree.Sorted RowEntry.Less s'.p.Rows :=
  List.Pairwise.sublist (metaInsertRow_Rows_sublist h) hs

theorem metaDeleteRow_sorted {env : Env} {d : MetadataDeleteInput} {i rowID : Nat} {s s' : St}
    (hs : btree.Sorted RowEntry.Less s.p.Rows)
    (h : HandleMetadataDelete.row env d i rowID s = .ok s') :
    btree.Sorted RowEntry.Less s'.p.Rows := by
  obtain ⟨_, _, -, -, -, -, hrows, -⟩ := metaDeleteRow_ok h
  rw [hrows]
  exact hs

/-- Every handler keeps a property of the state that each of its rows keeps. -/
theorem HandleLogtailEntry_invariant (env : Env) (P : St → Prop)
    (hins : ∀ d i x s s', P s → HandleRowsInsert.row env d i x s = .ok s' → P s')
    (hdel : ∀ d i x s s', P s → HandleRowsDelete.row env d i x s = .ok s' → P s')
    (hmi : ∀ d i x s s', P s → HandleMetadataInsert.row d i x s = .ok s' → P s')
    (hmd : ∀ d i x s s', P s → HandleMetadataDelete.row env d i x s = .ok s' → P s')
    (s : St) (entry : Entry) (primaryKeyIndex : Int) (h : P s) :
    P (HandleLogtailEntry env s entry primaryKeyIndex).state := by
  unfold HandleLogtailEntry
  cases entry.EntryType with
  | Insert =>
    simp only
    split_ifs
    · unfold HandleMetadataInsert
      cases hd : HandleMetadataInsert.decode entry.Bat with
      | error why => exact h
      | ok d => exact forRange_invariant _ P (hmi d) 0 _ s h
    · unfold HandleRowsInsert
      cases hd : HandleRowsInsert.decode env entry.Bat primaryKeyIndex with
      | error why => exact h
      | ok d => exact forRange_invariant _ P (hins d) 0 _ s h
  | Delete =>
    simp only
    split_ifs
    · unfold HandleMetadataDelete
      cases hd : HandleMetadataDelete.decode entry.Bat with
      | error why => exact h
      | ok d => exact forRange_invariant _ P (hmd d) 0 _ s h
    · unfold HandleRowsDelete
      cases hd : HandleRowsDelete.decode entry.Bat with
      | error why => exact h
      | ok d => exact forRange_invariant _ P (hdel d) 0 _ s h
  | Update => exact h

theorem HandleLogtailEntry_sorted (env : Env) (s : St) (entry : Entry) (primaryKeyIndex : Int)
    (hs : btree.Sorted RowEntry.Less s.p.Rows) :
    btree.Sorted RowEntry.Less (HandleLogtailEntry env s entry primaryKeyIndex).state.p.Rows :=
  HandleLogtailEntry_invariant env (fun s => btree.Sorted RowEntry.Less s.p.Rows)
    (fun _ _ _ _ _ hs h => insertRow_sorted hs h)
    (fun _ _ _ _ _ hs h => deleteRow_sorted hs h)
    (fun _ _ _ _ _ hs h => metaInsertRow_sorted hs h)
    (fun _ _ _ _ _ hs h => metaDeleteRow_sorted hs h) s entry primaryKeyIndex hs

/-! ## Tombstones -/

theorem forRange_done_getElem {α : Type} (body : Nat → α → St → Except Panic St) (i j : Nat)
    (xs : List α) (x : α) (s s' : St) (h : forRange body i xs s = .done s')
    (hx : xs[j]? = some x) :
    ∃ s1 s2, forRange body i (xs.take j) s = .done s1 ∧ body (i + j) x s1 = .ok s2 ∧
      forRange body (i + j + 1) (xs.drop (j + 1)) s2 = .done s' := by
  induction xs generalizing i j s with
  | nil => simp at hx
  | cons y ys ih =>
    rw [forRange_done_cons] at h
    obtain ⟨s1, hb, hrest⟩ := h
    cases j with
    | zero =>
      simp only [List.getElem?_cons_zero, Option.some.injEq] at hx
      subst hx
      exact ⟨s, s1, by simp [forRange], by simpa using hb, by simpa using hrest⟩
    | succ j =>
      simp only [List.getElem?_cons_succ] at hx
      obtain ⟨t1, t2, h1, h2, h3⟩ := ih (i + 1) j s1 hrest hx
      refine ⟨t1, t2, ?_, ?_, ?_⟩
      · simp only [List.take_succ_cons]
        rw [forRange_done_cons]
        exact ⟨s1, hb, h1⟩
      · have : i + (j + 1) = i + 1 + j := by omega
        rw [this]
        exact h2
      · have : i + (j + 1) + 1 = i + 1 + j + 1 := by omega
        rw [this]
        simpa using h3

theorem HandleRowsInsert_invariant (env : Env) (P : St → Prop)
    (hrow : ∀ d i x s s', P s → HandleRowsInsert.row env d i x s = .ok s' → P s')
    (s : St) (input : Batch) (primaryKeyIndex : Int) (h : P s) :
    P (HandleRowsInsert env s input primaryKeyIndex).state := by
  unfold HandleRowsInsert
  cases hd : HandleRowsInsert.decode env input primaryKeyIndex with
  | error why => exact h
  | ok d => exact forRange_invariant _ P (hrow d) 0 _ s h

theorem HandleRowsDelete_invariant (env : Env) (P : St → Prop)
    (hrow : ∀ d i x s s', P s → HandleRowsDelete.row env d i x s = .ok s' → P s')
    (s : St) (input : Batch) (h : P s) :
    P (HandleRowsDelete env s input).state := by
  unfold HandleRowsDelete
  cases hd : HandleRowsDelete.decode input with
  | error why => exact h
  | ok d => exact forRange_invariant _ P (hrow d) 0 _ s h

/-- A data-insert row keeps every version: the one at its own triple is
replaced by a version with the same id and the same `Deleted` flag, the others
stay as they are. -/
theorem insertRow_keeps_version {env : Env} {d : RowsInsertInput} {i rowID : Nat} {s s' : St}
    (hs : btree.Sorted RowEntry.Less s.p.Rows)
    (h : HandleRowsInsert.row env d i rowID s = .ok s') (v : RowEntry) (hv : v ∈ s.p.Rows) :
    ∃ v' ∈ s'.p.Rows, v'.isAt v.BlockID v.RowID v.Time ∧ v'.ID = v.ID ∧
      v'.Deleted = v.Deleted := by
  obtain ⟨time, -, hrows, -⟩ := insertRow_ok h
  have hat := insertEntry_isAt env d i rowID time s
  by_cases hv' : v.isAt (env.blockIDFromRowID rowID) rowID time
  · have hg := Get_pivot_some_of_mem hs hv hv'
    obtain ⟨h1, h2, -⟩ := insertEntry_found env d i rowID time s v hg
    refine ⟨HandleRowsInsert.entry env d i rowID time s, ?_, ?_, h1, h2⟩
    · rw [hrows]; exact btree.item_mem_Set _ _
    · unfold RowEntry.isAt at *
      omega
  · refine ⟨v, ?_, ⟨rfl, rfl, rfl⟩, rfl, rfl⟩
    rw [hrows, mem_Set_rows hs]
    right
    refine ⟨hv, ?_⟩
    unfold RowEntry.isAt at *
    omega

/-- A data-delete row keeps every version and its id; the version at its own
triple is marked deleted. -/
theorem deleteRow_keeps_version {env : Env} {d : RowsDeleteInput} {i rowID : Nat} {s s' : St}
    (hs : btree.Sorted RowEntry.Less s.p.Rows)
    (h : HandleRowsDelete.row env d i rowID s = .ok s') (v : RowEntry) (hv : v ∈ s.p.Rows) :
    ∃ v' ∈ s'.p.Rows, v'.isAt v.BlockID v.RowID v.Time ∧ v'.ID = v.ID ∧
      (v.Deleted = true → v'.Deleted = true) := by
  obtain ⟨time, -, hrows, -⟩ := deleteRow_ok h
  have hat := deleteEntry_isAt env d i rowID time s
  by_cases hv' : v.isAt (env.blockIDFromRowID rowID) rowID time
  · have hg := Get_pivot_some_of_mem hs hv hv'
    obtain ⟨h1, -⟩ := deleteEntry_found env d i rowID time s v hg
    refine ⟨HandleRowsDelete.entry env d i rowID time s, ?_, ?_, h1,
      fun _ => deleteEntry_Deleted env d i rowID time s⟩
    · rw [hrows]; exact btree.item_mem_Set _ _
    · unfold RowEntry.isAt at *
      omega
  · refine ⟨v, ?_, ⟨rfl, rfl, rfl⟩, rfl, fun h => h⟩
    rw [hrows, mem_Set_rows hs]
    right
    refine ⟨hv, ?_⟩
    unfold RowEntry.isAt at *
    omega

theorem insertRow_keeps_tombstone {env : Env} {blockID rowID time : Nat} {id : Int}
    (d : RowsInsertInput) (i x : Nat) (s s' : St) (hP : TombstoneAt blockID rowID time id s)
    (h : HandleRowsInsert.row env d i x s = .ok s') : TombstoneAt blockID rowID time id s' := by
  obtain ⟨hs, v, hv, hat, hdel, hid⟩ := hP
  obtain ⟨v', hv', hat', hid', hdel'⟩ := insertRow_keeps_version hs h v hv
  refine ⟨insertRow_sorted hs h, v', hv', ?_, by rw [hdel', hdel], by rw [hid', hid]⟩
  unfold RowEntry.isAt at *
  omega

theorem deleteRow_keeps_tombstone {env : Env} {blockID rowID time : Nat} {id : Int}
    (d : RowsDeleteInput) (i x : Nat) (s s' : St) (hP : TombstoneAt blockID rowID time id s)
    (h : HandleRowsDelete.row env d i x s = .ok s') : TombstoneAt blockID rowID time id s' := by
  obtain ⟨hs, v, hv, hat, hdel, hid⟩ := hP
  obtain ⟨v', hv', hat', hid', hdel'⟩ := deleteRow_keeps_version hs h v hv
  refine ⟨deleteRow_sorted hs h, v', hv', ?_, hdel' hdel, by rw [hid', hid]⟩
  unfold RowEntry.isAt at *
  omega

/-- A data-delete batch that is handled without a panic leaves a deleted
version at the triple of each of its rows. -/
theorem HandleRowsDelete_marks (env : Env) (s s' : St) (input : Batch) (d : RowsDeleteInput)
    (j r t : Nat) (hs : btree.Sorted RowEntry.Less s.p.Rows)
    (hd : HandleRowsDelete.decode input = .ok d) (hr : d.rowIDVector[j]? = some r)
    (ht : d.timeVector[j]? = some t) (h : HandleRowsDelete env s input = .done s') :
    ∃ id, TombstoneAt (env.blockIDFromRowID r) r t id s' := by
  unfold HandleRowsDelete at h
  rw [hd] at h
  simp only at h
  obtain ⟨s1, s2, h1, h2, h3⟩ := forRange_done_getElem _ 0 j _ r s s' h hr
  have hs1 : btree.Sorted RowEntry.Less s1.p.Rows := by
    have := forRange_invariant (HandleRowsDelete.row env d)
      (fun s => btree.Sorted RowEntry.Less s.p.Rows)
      (fun _ _ _ _ hs h => deleteRow_sorted hs h) 0 (d.rowIDVector.take j) s hs
    rw [h1] at this
    exact this
  simp only [Nat.zero_add] at h2 h3
  have hs2 : TombstoneAt (env.blockIDFromRowID r) r t
      (HandleRowsDelete.entry env d j r t s1).ID s2 := by
    refine ⟨deleteRow_sorted hs1 h2, ?_⟩
    obtain ⟨time, htime, hrows, -⟩ := deleteRow_ok h2
    rw [ht] at htime
    simp only [Option.some.injEq] at htime
    subst htime
    exact ⟨_, by rw [hrows]; exact btree.item_mem_Set _ _, deleteEntry_isAt env d j r t s1,
      deleteEntry_Deleted env d j r t s1, rfl⟩
  have := forRange_invariant (HandleRowsDelete.row env d)
    (TombstoneAt (env.blockIDFromRowID r) r t (HandleRowsDelete.entry env d j r t s1).ID)
    (fun i x s s' hP h => deleteRow_keeps_tombstone d i x s s' hP h) (j + 1)
    (d.rowIDVector.drop (j + 1)) s2 hs2
  rw [h3] at this
  exact ⟨_, this⟩

theorem RowExists_false_of_tombstone (env : Env) (p : PartitionState)
    (hs : btree.Sorted RowEntry.Less p.Rows) (r t : Nat) (v : RowEntry) (hv : v ∈ p.Rows)
    (hat : v.isAt (env.blockIDFromRowID r) r t) (hdel : v.Deleted = true) :
    p.RowExists env r t = false := by
  cases hre : p.RowExists env r t with
  | false => rfl
  | true =>
    exfalso
    obtain ⟨w, hw, wB, wR, wT, wD, hmax⟩ :=
      (RowExists.loop_seek_iff (env.blockIDFromRowID r) r t p.Rows hs).1 hre
    have h1 := hmax v hv hat.1 hat.2.1 (le_of_eq hat.2.2)
    have hwat : w.isAt (env.blockIDFromRowID r) r t := by
      refine ⟨wB, wR, ?_⟩
      have := hat.2.2
      omega
    have := isAt_unique hs hw hv hwat hat
    rw [this, hdel] at wD
    cases wD


/-- C7: if `Rows` (an ordered tree) holds a version at
`(blockIDFromRowID(r), r, t)` with `Deleted = true`, then after
`HandleRowsInsert`, whatever rows the batch carries and in particular a row
`(r, t)`, the version at that triple still has `Deleted = true` and the same
`ID`, and `RowExists(r, t)` is false: an insert at the same timestamp never
clears a tombstone. -/
theorem reinsert_keeps_tombstone (env : Env) (s : St)
    (hs : btree.Sorted RowEntry.Less s.p.Rows) (r t : Nat) (v : RowEntry) (hv : v ∈ s.p.Rows)
    (hat : v.isAt (env.blockIDFromRowID r) r t) (hdel : v.Deleted = true) (input : Batch)
    (primaryKeyIndex : Int) :
    (∃ v' ∈ (HandleRowsInsert env s input primaryKeyIndex).state.p.Rows,
      v'.isAt (env.blockIDFromRowID r) r t ∧ v'.Deleted = true ∧ v'.ID = v.ID) ∧
    (HandleRowsInsert env s input primaryKeyIndex).state.p.RowExists env r t = false := by
  have hP : TombstoneAt (env.blockIDFromRowID r) r t v.ID
      (HandleRowsInsert env s input primaryKeyIndex).state :=
    HandleRowsInsert_invariant env _
      (fun d i x s s' hP h => insertRow_keeps_tombstone d i x s s' hP h) s input primaryKeyIndex
      ⟨hs, v, hv, hat, hdel, rfl⟩
  obtain ⟨hs', v', hv', hat', hdel', hid'⟩ := hP
  exact ⟨⟨v', hv', hat', hdel', hid'⟩,
    RowExists_false_of_tombstone env _ hs' r t v' hv' hat' hdel'⟩

theorem reinsert_keeps_tombstone_witness :
    btree.Sorted RowEntry.Less tombstoned.p.Rows ∧
    tombstoneA ∈ tombstoned.p.Rows ∧
    tombstoneA.isAt (exampleEnv.blockIDFromRowID rowA) rowA 10 ∧
    tombstoneA.Deleted = true ∧
    ((∃ v' ∈ (HandleRowsInsert exampleEnv tombstoned insertA 0).state.p.Rows,
      v'.isAt (exampleEnv.blockIDFromRowID rowA) rowA 10 ∧ v'.Deleted = true ∧
        v'.ID = tombstoneA.ID) ∧
    (HandleRowsInsert exampleEnv tombstoned insertA 0).state.p.RowExists
      exampleEnv rowA 10 = false) :=
  ⟨by decide, by decide, by decide, by decide,
   reinsert_keeps_tombstone exampleEnv tombstoned (by decide) rowA 10 tombstoneA (by decide)
     (by decide) (by decide) insertA 0⟩

/-- C8 (counterexample): a data-delete of `(rowA, 10)` followed by a data-insert
of `(rowA, 10)`, applied to the empty partition state, leaves one version at the
triple and its `Deleted` flag is true although the insert was applied last. -/
theorem insert_after_delete_stays_deleted :
    ∃ s v, applyEntries exampleEnv {}
        [(⟨.Delete, "t", deleteA⟩, 0), (⟨.Insert, "t", insertA⟩, 0)] = .done s ∧
      s.p.Rows = [v] ∧ v.isAt (exampleEnv.blockIDFromRowID rowA) rowA 10 ∧ v.Deleted = true :=
  ⟨_, _, rfl, rfl, by decide, by decide⟩

/-- C8 (amended): when a data-insert and a data-delete that both carry `(r, t)`
are applied one after the other to a partition state (with an ordered `Rows`
tree), in either order and without a panic, exactly one version exists at the
triple afterwards and its `Deleted` flag is true: the delete sets the flag and
an insert at the same triple keeps it. -/
theorem insert_and_delete_at_same_time_leave_tombstone (env : Env) (s : St)
    (hs : btree.Sorted RowEntry.Less s.p.Rows) (r t : Nat)
    (ins : Batch) (primaryKeyIndex : Int) (di : RowsInsertInput) (ji : Nat)
    (_hdi : HandleRowsInsert.decode env ins primaryKeyIndex = .ok di)
    (_hri : di.rowIDVector[ji]? = some r) (_hti : di.timeVector[ji]? = some t)
    (del : Batch) (dd : RowsDeleteInput) (jd : Nat)
    (hdd : HandleRowsDelete.decode del = .ok dd)
    (hrd : dd.rowIDVector[jd]? = some r) (htd : dd.timeVector[jd]? = some t) :
    (∀ s1 s2, HandleRowsInsert env s ins primaryKeyIndex = .done s1 →
      HandleRowsDelete env s1 del = .done s2 →
      ∃ v ∈ s2.p.Rows, v.isAt (env.blockIDFromRowID r) r t ∧ v.Deleted = true ∧
        ∀ w ∈ s2.p.Rows, w.isAt (env.blockIDFromRowID r) r t → w = v) ∧
    (∀ s1 s2, HandleRowsDelete env s del = .done s1 →
      HandleRowsInsert env s1 ins primaryKeyIndex = .done s2 →
      ∃ v ∈ s2.p.Rows, v.isAt (env.blockIDFromRowID r) r t ∧ v.Deleted = true ∧
        ∀ w ∈ s2.p.Rows, w.isAt (env.blockIDFromRowID r) r t → w = v) := by
  constructor
  · intro s1 s2 h1 h2
    have hs1 : btree.Sorted RowEntry.Less s1.p.Rows := by
      have := HandleRowsInsert_invariant env (fun s => btree.Sorted RowEntry.Less s.p.Rows)
        (fun _ _ _ _ _ hs h => insertRow_sorted hs h) s ins primaryKeyIndex hs
      rw [h1] at this
      exact this
    obtain ⟨id, hs2, v, hv, hat, hdel, -⟩ :=
      HandleRowsDelete_marks env s1 s2 del dd jd r t hs1 hdd hrd htd h2
    exact ⟨v, hv, hat, hdel, fun w hw hwat => isAt_unique hs2 hw hv hwat hat⟩
  · intro s1 s2 h1 h2
    obtain ⟨id, hP⟩ := HandleRowsDelete_marks env s s1 del dd jd r t hs hdd hrd htd h1
    have := HandleRowsInsert_invariant env _
      (fun d i x s s' hP h => insertRow_keeps_tombstone d i x s s' hP h) s1 ins
      primaryKeyIndex hP
    rw [h2] at this
    obtain ⟨hs2, v, hv, hat, hdel, -⟩ := this
    exact ⟨v, hv, hat, hdel, fun w hw hwat => isAt_unique hs2 hw hv hwat hat⟩

theorem insert_and_delete_at_same_time_leave_tombstone_witness :
    btree.Sorted RowEntry.Less ({} : St).p.Rows ∧
    HandleRowsInsert.decode exampleEnv insertA 0 = .ok insertADecoded ∧
    insertADecoded.rowIDVector[0]? = some rowA ∧ insertADecoded.timeVector[0]? = some 10 ∧
    HandleRowsDelete.decode deleteA = .ok deleteADecoded ∧
    deleteADecoded.rowIDVector[0]? = some rowA ∧ deleteADecoded.timeVector[0]? = some 10 ∧
    ((∀ s1 s2, HandleRowsInsert exampleEnv {} insertA 0 = .done s1 →
      HandleRowsDelete exampleEnv s1 deleteA = .done s2 →
      ∃ v ∈ s2.p.Rows, v.isAt (exampleEnv.blockIDFromRowID rowA) rowA 10 ∧ v.Deleted = true ∧
        ∀ w ∈ s2.p.Rows, w.isAt (exampleEnv.blockIDFromRowID rowA) rowA 10 → w = v) ∧
    (∀ s1 s2, HandleRowsDelete exampleEnv {} deleteA = .done s1 →
      HandleRowsInsert exampleEnv s1 insertA 0 = .done s2 →
      ∃ v ∈ s2.p.Rows, v.isAt (exampleEnv.blockIDFromRowID rowA) rowA 10 ∧ v.Deleted = true ∧
        ∀ w ∈ s2.p.Rows, w.isAt (exampleEnv.blockIDFromRowID rowA) rowA 10 → w = v)) :=
  ⟨by decide, rfl, by decide, by decide, rfl, by decide, by decide,
   insert_and_delete_at_same_time_leave_tombstone exampleEnv {} (by decide) rowA 10
     insertA 0 insertADecoded 0 rfl (by decide) (by decide)
     deleteA deleteADecoded 0 rfl (by decide) (by decide)⟩

/-! ## Block metadata -/

theorem blockEntry_equiv_iff (a b : BlockEntry) :
    (a.Less b = false ∧ b.Less a = false) ↔ a.BlockID = b.BlockID := by
  have h1 := blockEntry_less_iff a b
  have h2 := blockEntry_less_iff b a
  cases hab : a.Less b <;> cases hba : b.Less a <;> simp [hab, hba] at h1 h2 ⊢ <;> omega

theorem merge_BlockID (entry : BlockEntry) (r : MetadataRow) :
    (HandleMetadataInsert.merge entry r).BlockID = entry.BlockID := by
  unfold HandleMetadataInsert.merge
  simp only
  split_ifs <;> rfl

theorem getD_pivot_BlockID (blocks : List BlockEntry) (blockID : Nat) :
    ((btree.Get BlockEntry.Less { BlockID := blockID } blocks).getD
      { BlockID := blockID }).BlockID = blockID := by
  cases hg : btree.Get BlockEntry.Less { BlockID := blockID } blocks with
  | none => rfl
  | some e =>
    obtain ⟨-, h1, h2⟩ := btree.Get_eq_some_imp hg
    exact (blockEntry_equiv_iff e _).1 ⟨h1, h2⟩

/-- The update of lines 329-345, field by field. -/
theorem merge_eq (entry : BlockEntry) (r : MetadataRow) :
    HandleMetadataInsert.merge entry r =
      { BlockID := entry.BlockID
        EntryState := r.entryState
        Sorted := r.sortedState
        MetaLoc := if r.metaLocation = "" then entry.MetaLoc else r.metaLocation
        DeltaLoc := if r.deltaLocation = "" then entry.DeltaLoc else r.deltaLocation
        CommitTs := if r.commitTime = 0 then entry.CommitTs else r.commitTime
        SegmentID := if r.segmentID = 0 then entry.SegmentID else r.segmentID
        CreateTime := if r.createTime = 0 then entry.CreateTime else r.createTime
        DeleteTime := entry.DeleteTime } := by
  unfold HandleMetadataInsert.merge TS.IsEmpty
  by_cases h1 : r.metaLocation = "" <;> by_cases h2 : r.deltaLocation = "" <;>
    by_cases h3 : r.segmentID = 0 <;> by_cases h4 : r.createTime = 0 <;>
    by_cases h5 : r.commitTime = 0 <;>
    simp [h1, h2, h3, h4, h5, Nat.pos_iff_ne_zero]

/-- C9: for every partition state (with an ordered `Blocks` tree) and every
metadata-insert row for block `B` that is handled without a panic, the block
entry stored for `B` afterwards is the previous entry for `B` (an all-zero
entry with `BlockID = B` when there was none) with `MetaLoc` and `DeltaLoc`
replaced only when the incoming string is non-empty, `SegmentID` replaced only
when the incoming id is non-zero, `CreateTime` and `CommitTs` replaced only when
the incoming timestamp is non-empty, `Sorted` and `EntryState` always replaced,
and `DeleteTime` unchanged. -/
theorem metadata_insert_merges_fields (d : MetadataInsertInput) (i B : Nat) (s s' : St)
    (hs : btree.Sorted BlockEntry.Less s.p.Blocks)
    (h : HandleMetadataInsert.row d i B s = .ok s') :
    ∃ r, d.cells i = some r ∧
      btree.Get BlockEntry.Less { BlockID := B } s'.p.Blocks =
        some
          { BlockID := B
            EntryState := r.entryState
            Sorted := r.sortedState
            MetaLoc :=
              if r.metaLocation = "" then
                ((btree.Get BlockEntry.Less { BlockID := B } s.p.Blocks).getD
                  { BlockID := B }).MetaLoc
              else r.metaLocation
            DeltaLoc :=
              if r.deltaLocation = "" then
                ((btree.Get BlockEntry.Less { BlockID := B } s.p.Blocks).getD
                  { BlockID := B }).DeltaLoc
              else r.deltaLocation
            CommitTs :=
              if r.commitTime = 0 then
                ((btree.Get BlockEntry.Less { BlockID := B } s.p.Blocks).getD
                  { BlockID := B }).CommitTs
              else r.commitTime
            SegmentID :=
              if r.segmentID = 0 then
                ((btree.Get BlockEntry.Less { BlockID := B } s.p.Blocks).getD
                  { BlockID := B }).SegmentID
              else r.segmentID
            CreateTime :=
              if r.createTime = 0 then
                ((btree.Get BlockEntry.Less { BlockID := B } s.p.Blocks).getD
                  { BlockID := B }).CreateTime
              else r.createTime
            DeleteTime :=
              ((btree.Get BlockEntry.Less { BlockID := B } s.p.Blocks).getD
                { BlockID := B }).DeleteTime } := by
  obtain ⟨r, hc, -, hblocks, -, -⟩ := metaInsertRow_ok h
  refine ⟨r, hc, ?_⟩
  rw [hblocks, btree.Get_eq_some_iff blockEntry_isOrder (btree.sorted_Set blockEntry_isOrder hs _)]
  have hB := getD_pivot_BlockID s.p.Blocks B
  have hm := merge_eq ((btree.Get BlockEntry.Less { BlockID := B } s.p.Blocks).getD
    { BlockID := B }) r
  rw [hB] at hm
  rw [← hm]
  refine ⟨btree.item_mem_Set _ _, ?_⟩
  rw [blockEntry_equiv_iff, merge_BlockID, hB]

theorem metadata_insert_merges_fields_witness :
    btree.Sorted BlockEntry.Less blockNine.p.Blocks ∧
    HandleMetadataInsert.row blockNineUpdate 0 9 blockNine =
      .ok { p := { Blocks :=
        [{ BlockID := 9, MetaLoc := "m1", SegmentID := 42, CommitTs := 1, CreateTime := 1 }] } } ∧
    (applyEntries exampleEnv {}
      [(⟨.Insert, "meta", metaBatch 9 false "m1" 0 1⟩, 0),
       (⟨.Insert, "meta", metaBatch 9 false "" 42 0⟩, 0)]).state.p.Blocks =
      [{ BlockID := 9, MetaLoc := "m1", SegmentID := 42, CommitTs := 1, CreateTime := 1 }] ∧
    ∃ r, blockNineUpdate.cells 0 = some r ∧
      btree.Get BlockEntry.Less { BlockID := 9 }
          ({ p := { Blocks := [{ BlockID := 9, MetaLoc := "m1", SegmentID := 42, CommitTs := 1,
                                 CreateTime := 1 }] } } : St).p.Blocks =
        some
          { BlockID := 9
            EntryState := r.entryState
            Sorted := r.sortedState
            MetaLoc :=
              if r.metaLocation = "" then
                ((btree.Get BlockEntry.Less { BlockID := 9 } blockNine.p.Blocks).getD
                  { BlockID := 9 }).MetaLoc
              else r.metaLocation
            DeltaLoc :=
              if r.deltaLocation = "" then
                ((btree.Get BlockEntry.Less { BlockID := 9 } blockNine.p.Blocks).getD
                  { BlockID := 9 }).DeltaLoc
              else r.deltaLocation
            CommitTs :=
              if r.commitTime = 0 then
                ((btree.Get BlockEntry.Less { BlockID := 9 } blockNine.p.Blocks).getD
                  { BlockID := 9 }).CommitTs
              else r.commitTime
            SegmentID :=
              if r.segmentID = 0 then
                ((btree.Get BlockEntry.Less { BlockID := 9 } blockNine.p.Blocks).getD
                  { BlockID := 9 }).SegmentID
              else r.segmentID
            CreateTime :=
              if r.createTime = 0 then
                ((btree.Get BlockEntry.Less { BlockID := 9 } blockNine.p.Blocks).getD
                  { BlockID := 9 }).CreateTime
              else r.createTime
            DeleteTime :=
              ((btree.Get BlockEntry.Less { BlockID := 9 } blockNine.p.Blocks).getD
                { BlockID := 9 }).DeleteTime } :=
  ⟨by decide, rfl, by decide,
   metadata_insert_merges_fields blockNineUpdate 0 9 blockNine _ (by decide) rfl⟩

/-! ## The primary-key index follows the rows -/

theorem bytesCompare_self (b : Bytes) : bytesCompare b b = .eq := by
  induction b with
  | nil => rfl
  | cons a as ih => simp [bytesCompare, ih]

theorem primaryIndexEntry_less_same (a b : PrimaryIndexEntry) (hb : a.Bytes = b.Bytes)
    (hid : a.RowEntryID = b.RowEntryID) : a.Less b = false := by
  unfold PrimaryIndexEntry.Less
  rw [hb, bytesCompare_self, hid]
  simp

theorem cells_entryState {d : MetadataInsertInput} {i : Nat} {r : MetadataRow}
    (h : d.cells i = some r) : d.entryStateVector[i]? = some r.entryState := by
  unfold MetadataInsertInput.cells at h
  simp only [Option.bind_eq_bind, Option.pure_def, Option.bind_eq_some] at h
  obtain ⟨a1, -, a2, -, a3, -, a4, -, a5, -, a6, -, a7, h7, hr⟩ := h
  simp only [Option.some.injEq] at hr
  subst hr
  exact h7

theorem forRange_invariant_checked {α : Type} (body : Nat → α → St → Except Panic St)
    (check : Nat → α → St → Bool) (P : St → Prop)
    (hbody : ∀ i x s s', P s → check i x s = true → body i x s = .ok s' → P s')
    (i : Nat) (xs : List α) (s : St) (h : P s)
    (hc : forRangeAll body check i xs s = true) : P (forRange body i xs s).state := by
  induction xs generalizing i s with
  | nil => exact h
  | cons x xs ih =>
    unfold forRange
    unfold forRangeAll at hc
    simp only [Bool.and_eq_true] at hc
    cases hb : body i x s with
    | error why => exact h
    | ok s' =>
      rw [hb] at hc
      exact ih (i + 1) s' (hbody i x s s' h hc.1 hb) hc.2

theorem insertRow_keeps_KeyedIndex {env : Env} (d : RowsInsertInput) (i rowID : Nat)
    (s s' : St) (hP : KeyedIndex s)
    (hk : (!HandleRowsInsert.rekeys env d i rowID s) = true)
    (h : HandleRowsInsert.row env d i rowID s = .ok s') : KeyedIndex s' := by
  obtain ⟨hs, hidx⟩ := hP
  refine ⟨insertRow_sorted hs h, ?_⟩
  obtain ⟨time, htime, hrows, hpidx, -⟩ := insertRow_ok h
  have hat := insertEntry_isAt env d i rowID time s
  have hself : HandleRowsInsert.entry env d i rowID time s ∈ s'.p.Rows := by
    rw [hrows]; exact btree.item_mem_Set _ _
  -- an entry that was in the index before the row keeps a version
  have hold : ∀ e ∈ s.p.PrimaryIndex, e.Bytes ≠ [] ∧
      ∃ v ∈ s'.p.Rows, v.ID = e.RowEntryID ∧ v.BlockID = e.BlockID ∧ v.RowID = e.RowID ∧
        v.PrimaryIndexBytes = e.Bytes := by
    intro e he
    obtain ⟨hne, v, hv, hid, hB, hR, hbytes⟩ := hidx e he
    refine ⟨hne, ?_⟩
    by_cases hv' : v.isAt (env.blockIDFromRowID rowID) rowID time
    · have hg := Get_pivot_some_of_mem hs hv hv'
      obtain ⟨h1, -, h3⟩ := insertEntry_found env d i rowID time s v hg
      refine ⟨_, hself, by rw [h1, hid], ?_, ?_, ?_⟩
      · rw [hat.1, ← hB, hv'.1]
      · rw [hat.2.1, ← hR, hv'.2.1]
      · rw [h3]
        split_ifs with hi
        · unfold HandleRowsInsert.rekeys at hk
          simp only [htime, hg, hi, dite_true, Bool.not_eq_true', Bool.and_eq_false_iff,
            bne_eq_false_iff_eq] at hk
          rcases hk with hk | hk
          · rw [hbytes] at hk
            exact absurd hk hne
          · rw [← hk, hbytes]
        · exact hbytes
    · refine ⟨v, ?_, hid, hB, hR, hbytes⟩
      rw [hrows, mem_Set_rows hs]
      right
      refine ⟨hv, ?_⟩
      unfold RowEntry.isAt at *
      omega
  rw [hpidx]
  split_ifs with hi hlen
  · intro e he
    rcases btree.mem_Set_imp he with rfl | he'
    · refine ⟨?_, _, hself, rfl, hat.1, hat.2.1, ?_⟩
      · intro hnil
        simp only at hnil
        rw [hnil] at hlen
        simp at hlen
      · unfold HandleRowsInsert.entry
        simp only [hi, dite_true]
    · exact hold e he'
  · exact hold
  · exact hold

theorem deleteRow_keeps_KeyedIndex {env : Env} (d : RowsDeleteInput) (i rowID : Nat)
    (s s' : St) (hP : KeyedIndex s)
    (h : HandleRowsDelete.row env d i rowID s = .ok s') : KeyedIndex s' := by
  obtain ⟨hs, hidx⟩ := hP
  refine ⟨deleteRow_sorted hs h, ?_⟩
  obtain ⟨time, htime, hrows, hpidx, -⟩ := deleteRow_ok h
  have hat := deleteEntry_isAt env d i rowID time s
  rw [hpidx]
  intro e he
  obtain ⟨hne, v, hv, hid, hB, hR, hbytes⟩ := hidx e he
  refine ⟨hne, ?_⟩
  by_cases hv' : v.isAt (env.blockIDFromRowID rowID) rowID time
  · have hg := Get_pivot_some_of_mem hs hv hv'
    obtain ⟨h1, h3⟩ := deleteEntry_found env d i rowID time s v hg
    refine ⟨_, by rw [hrows]; exact btree.item_mem_Set _ _, by rw [h1, hid], ?_, ?_, ?_⟩
    · rw [hat.1, ← hB, hv'.1]
    · rw [hat.2.1, ← hR, hv'.2.1]
    · rw [h3, hbytes]
  · refine ⟨v, ?_, hid, hB, hR, hbytes⟩
    rw [hrows, mem_Set_rows hs]
    right
    refine ⟨hv, ?_⟩
    unfold RowEntry.isAt at *
    omega

theorem metaInsertRow_keeps_KeyedIndex (d : MetadataInsertInput) (i blockID : Nat)
    (s s' : St) (hP : KeyedIndex s)
    (h : HandleMetadataInsert.row d i blockID s = .ok s') : KeyedIndex s' := by
  obtain ⟨hs, hidx⟩ := hP
  refine ⟨metaInsertRow_sorted hs h, ?_⟩
  obtain ⟨r, q, -, -, hq1, hq2, -, -, hp⟩ := metaInsertRow_eq h
  rw [hp]
  split_ifs with hr
  · intro e he
    rw [mem_deleteLoop_PrimaryIndex] at he
    obtain ⟨he1, he2⟩ := he
    rw [hq2] at he1
    obtain ⟨hne, v, hv, hid, hB, hR, hbytes⟩ := hidx e he1
    refine ⟨hne, v, ?_, hid, hB, hR, hbytes⟩
    rw [mem_deleteLoop_Rows]
    refine ⟨by rw [hq1]; exact hv, ?_⟩
    intro w hw
    rw [rowEntry_comparable_iff]
    intro hvw
    have hwrows : w ∈ s.p.Rows := by
      have h1 := (List.takeWhile_sublist _).subset hw
      have h2 := (btree.Seek_sublist RowEntry.Less { BlockID := blockID }
        (btree.Copy q.Rows)).subset h1
      rw [← hq1]
      exact h2
    have hvw' : v = w := isAt_unique hs hv hwrows hvw ⟨rfl, rfl, rfl⟩
    subst hvw'
    have hlen : v.PrimaryIndexBytes.length > 0 := by
      rw [hbytes]
      exact List.length_pos.2 hne
    have := he2 v hw hlen
    rw [primaryIndexEntry_less_same e _ hbytes.symm hid.symm,
      primaryIndexEntry_less_same _ e hbytes hid] at this
    simp at this
  · intro e he
    rw [hq2] at he
    obtain ⟨hne, v, hv, hrest⟩ := hidx e he
    exact ⟨hne, v, by rw [hq1]; exact hv, hrest⟩

theorem metaDeleteRow_keeps_KeyedIndex {env : Env} (d : MetadataDeleteInput) (i rowID : Nat)
    (s s' : St) (hP : KeyedIndex s)
    (h : HandleMetadataDelete.row env d i rowID s = .ok s') : KeyedIndex s' := by
  obtain ⟨_, _, -, -, -, -, hrows, hpidx, -⟩ := metaDeleteRow_ok h
  unfold KeyedIndex
  rw [hrows, hpidx]
  exact hP

theorem HandleLogtailEntry_keeps_KeyedIndex (env : Env) (s : St) (entry : Entry)
    (primaryKeyIndex : Int) (hP : KeyedIndex s)
    (hk : keepsKeys env s entry primaryKeyIndex = true) :
    KeyedIndex (HandleLogtailEntry env s entry primaryKeyIndex).state := by
  unfold HandleLogtailEntry
  unfold keepsKeys at hk
  cases hty : entry.EntryType with
  | Insert =>
    rw [hty] at hk
    simp only at hk ⊢
    split_ifs with hmeta
    · unfold HandleMetadataInsert
      cases hd : HandleMetadataInsert.decode entry.Bat with
      | error why => exact hP
      | ok d => exact forRange_invariant _ KeyedIndex (metaInsertRow_keeps_KeyedIndex d) 0 _ s hP
    · unfold HandleRowsInsert
      simp only [hmeta, Bool.false_eq_true, if_false] at hk
      cases hd : HandleRowsInsert.decode env entry.Bat primaryKeyIndex with
      | error why => exact hP
      | ok d =>
        rw [hd] at hk
        exact forRange_invariant_checked _ _ KeyedIndex
          (fun i x s s' hP hc h => insertRow_keeps_KeyedIndex d i x s s' hP hc h) 0 _ s hP hk
  | Delete =>
    simp only
    split_ifs
    · unfold HandleMetadataDelete
      cases hd : HandleMetadataDelete.decode entry.Bat with
      | error why => exact hP
      | ok d =>
        exact forRange_invariant _ KeyedIndex (metaDeleteRow_keeps_KeyedIndex d) 0 _ s hP
    · unfold HandleRowsDelete
      cases hd : HandleRowsDelete.decode entry.Bat with
      | error why => exact hP
      | ok d => exact forRange_invariant _ KeyedIndex (deleteRow_keeps_KeyedIndex d) 0 _ s hP
  | Update => exact hP

theorem ReachableKeepingKeys.keyedIndex {env : Env} {s : St}
    (h : ReachableKeepingKeys env s) : KeyedIndex s := by
  induction h with
  | init next =>
    refine ⟨btree.sorted_nil, ?_⟩
    intro e he
    cases he
  | step s entry primaryKeyIndex _ hk ih =>
    exact HandleLogtailEntry_keeps_KeyedIndex env s entry primaryKeyIndex ih hk

theorem Reachable.sorted {env : Env} {s : St} (h : Reachable env s) :
    btree.Sorted RowEntry.Less s.p.Rows := by
  induction h with
  | init next => exact btree.sorted_nil
  | step s entry primaryKeyIndex _ ih =>
    exact HandleLogtailEntry_sorted env s entry primaryKeyIndex ih

theorem Reachable.of_applyEntries {env : Env} {s s' : St} (h : Reachable env s)
    (entries : List (Entry × Int)) (hrun : applyEntries env s entries = .done s') :
    Reachable env s' := by
  induction entries generalizing s with
  | nil =>
    simp only [disttae.applyEntries, Outcome.done.injEq] at hrun
    rw [← hrun]
    exact h
  | cons e rest ih =>
    obtain ⟨entry, primaryKeyIndex⟩ := e
    unfold disttae.applyEntries at hrun
    cases hstep : HandleLogtailEntry env s entry primaryKeyIndex with
    | done s1 =>
      rw [hstep] at hrun
      have := Reachable.step s entry primaryKeyIndex h
      rw [hstep] at this
      exact ih this hrun
    | panicked why s1 =>
      rw [hstep] at hrun
      cases hrun

/-! ## Compaction of a promoted block -/

/-- A metadata-insert that is handled without a panic and carries block `B`
with `entry_state = true` leaves of block `B` only versions of the zero row id
with a non-zero time, the ones that sort before the seek position. -/
theorem HandleMetadataInsert_compacts (s s' : St) (input : Batch) (d : MetadataInsertInput)
    (i B : Nat) (hs : btree.Sorted RowEntry.Less s.p.Rows)
    (hd : HandleMetadataInsert.decode input = .ok d) (hB : d.blockIDVector[i]? = some B)
    (hE : d.entryStateVector[i]? = some true) (h : HandleMetadataInsert s input = .done s') :
    ∀ v ∈ s'.p.Rows, v.BlockID = B → v.RowID = 0 ∧ 0 < v.Time := by
  unfold HandleMetadataInsert at h
  rw [hd] at h
  simp only at h
  obtain ⟨s1, s2, h1, h2, h3⟩ := forRange_done_getElem _ 0 i _ B s s' h hB
  simp only [Nat.zero_add] at h2 h3
  have hs1 : btree.Sorted RowEntry.Less s1.p.Rows := by
    have := forRange_invariant (HandleMetadataInsert.row d)
      (fun s => btree.Sorted RowEntry.Less s.p.Rows)
      (fun _ _ _ _ hs h => metaInsertRow_sorted hs h) 0 (d.blockIDVector.take i) s hs
    rw [h1] at this
    exact this
  have hP2 : ∀ v ∈ s2.p.Rows, v.BlockID = B → v.RowID = 0 ∧ 0 < v.Time := by
    obtain ⟨r, q, hc, -, hq1, -, -, -, hp⟩ := metaInsertRow_eq h2
    have hr : r.entryState = true := by
      have := cells_entryState hc
      rw [hE] at this
      simpa using this.symm
    rw [hp]
    simp only [hr, if_true]
    intro v hv hvB
    exact deleteLoop_Rows_block B q (by rw [hq1]; exact hs1) v hv hvB
  have := forRange_invariant (HandleMetadataInsert.row d)
    (fun s => ∀ v ∈ s.p.Rows, v.BlockID = B → v.RowID = 0 ∧ 0 < v.Time)
    (fun _ _ _ _ hP h v hv => hP v ((metaInsertRow_Rows_sublist h).subset hv)) (i + 1)
    (d.blockIDVector.drop (i + 1)) s2 hP2
  rw [h3] at this
  exact this

theorem Reachable.applyEntries_state {env : Env} {s : St} (h : Reachable env s)
    (entries : List (Entry × Int)) : Reachable env (applyEntries env s entries).state := by
  induction entries generalizing s with
  | nil => exact h
  | cons e rest ih =>
    obtain ⟨entry, primaryKeyIndex⟩ := e
    unfold disttae.applyEntries
    have hstep := Reachable.step s entry primaryKeyIndex h
    cases hrun : HandleLogtailEntry env s entry primaryKeyIndex with
    | done s1 =>
      rw [hrun] at hstep
      exact ih hstep
    | panicked why s1 =>
      rw [hrun] at hstep
      exact hstep

/-- C2 (the failing input): after a data-insert of the zero row id at time 5,
which `exampleEnv` places in block 0, a metadata-insert for block 0 with
`entry_state = true` returns and `Rows` still holds the version of block 0: the
seek position `(0, zero row id, zero time)` sorts after it, because times
descend. -/
theorem compaction_misses_zero_row_id :
    (applyEntries exampleEnv {} zeroRowRun).failed = false ∧
      ∃ v ∈ (applyEntries exampleEnv {} zeroRowRun).state.p.Rows,
        v.BlockID = 0 ∧ v.RowID = 0 ∧ v.Time = 5 := by
  decide

/-- C3 (counterexample): `rowA` of block 1 is inserted at time 10 with the key
`k` and again, at the same time, with the key `b`; after the metadata-insert
for block 1 with `entry_state = true` the primary-key index still holds an entry
whose `BlockID` is 1. -/
theorem promoted_block_keeps_stale_key_entry :
    (applyEntries exampleEnv {} rekeyRun).failed = false ∧
      Reachable exampleEnv (applyEntries exampleEnv {} rekeyRun).state ∧
      ∃ e ∈ (applyEntries exampleEnv {} rekeyRun).state.p.PrimaryIndex, e.BlockID = 1 :=
  ⟨by decide, (Reachable.init 1).applyEntries_state rekeyRun, by decide⟩

/-- C3 (amended): in a state reached by `HandleLogtailEntry` calls none of
which re-keys a row version, after a metadata-insert that carries block `B`
with `entry_state = true` is applied, the primary-key index holds no entry
whose `BlockID` is `B` and whose `RowID` is not the zero row id. -/
theorem promoted_block_leaves_no_key_entry (env : Env) (s s' : St)
    (hreach : ReachableKeepingKeys env s) (entry : Entry) (primaryKeyIndex : Int)
    (d : MetadataInsertInput) (i B : Nat)
    (hty : entry.EntryType = .Insert) (hmeta : env.isMetaTable entry.TableName = true)
    (hd : HandleMetadataInsert.decode entry.Bat = .ok d)
    (hB : d.blockIDVector[i]? = some B) (hE : d.entryStateVector[i]? = some true)
    (h : HandleLogtailEntry env s entry primaryKeyIndex = .done s') :
    ∀ e ∈ s'.p.PrimaryIndex, e.BlockID = B → e.RowID = 0 := by
  have hk : keepsKeys env s entry primaryKeyIndex = true := by
    unfold keepsKeys
    rw [hty]
    simp [hmeta]
  have hJ := (ReachableKeepingKeys.step s entry primaryKeyIndex hreach hk).keyedIndex
  rw [h] at hJ
  have hrun : HandleMetadataInsert s entry.Bat = .done s' := by
    unfold HandleLogtailEntry at h
    rw [hty] at h
    simpa [hmeta] using h
  have hcompact := HandleMetadataInsert_compacts s s' entry.Bat d i B hreach.keyedIndex.1 hd hB
    hE hrun
  intro e he heB
  obtain ⟨-, v, hv, -, hvB, hvR, -⟩ := hJ.2 e he
  have := (hcompact v hv (by rw [hvB, heB])).1
  rw [← hvR]
  exact this

theorem promoted_block_leaves_no_key_entry_witness :
    ReachableKeepingKeys exampleEnv afterInsertA ∧
    promoteOne.EntryType = .Insert ∧
    exampleEnv.isMetaTable promoteOne.TableName = true ∧
    HandleMetadataInsert.decode promoteOne.Bat = .ok promoteOneDecoded ∧
    promoteOneDecoded.blockIDVector[0]? = some 1 ∧
    promoteOneDecoded.entryStateVector[0]? = some true ∧
    HandleLogtailEntry exampleEnv afterInsertA promoteOne 0 =
      .done (HandleLogtailEntry exampleEnv afterInsertA promoteOne 0).state ∧
    ∀ e ∈ (HandleLogtailEntry exampleEnv afterInsertA promoteOne 0).state.p.PrimaryIndex,
      e.BlockID = 1 → e.RowID = 0 :=
  ⟨ReachableKeepingKeys.step _ _ _ (ReachableKeepingKeys.init 1) (by decide),
   by decide, by decide, rfl, by decide, by decide, by decide,
   promoted_block_leaves_no_key_entry exampleEnv afterInsertA _
     (ReachableKeepingKeys.step _ _ _ (ReachableKeepingKeys.init 1) (by decide))
     promoteOne 0 promoteOneDecoded 0 1 (by decide) (by decide) rfl (by decide) (by decide)
     (by decide)⟩

/-- C4 (counterexample): after `rowA` was inserted at time 10 with the key `k`,
inserted again at the same time with the key `b`, and its block promoted, the
primary-key index holds an entry for which `Rows` has no version with its id,
block id and row id. -/
theorem stale_key_entry_has_no_row_version :
    (applyEntries exampleEnv {} rekeyRun).failed = false ∧
      Reachable exampleEnv (applyEntries exampleEnv {} rekeyRun).state ∧
      ∃ e ∈ (applyEntries exampleEnv {} rekeyRun).state.p.PrimaryIndex,
        ¬ ∃ v ∈ (applyEntries exampleEnv {} rekeyRun).state.p.Rows,
          v.ID = e.RowEntryID ∧ v.BlockID = e.BlockID ∧ v.RowID = e.RowID :=
  ⟨by decide, (Reachable.init 1).applyEntries_state rekeyRun, by decide⟩

/-- C4 (amended): in every partition state reached from `NewPartitionState()`
by `HandleLogtailEntry` calls none of which re-keys a row version (no
data-insert row finds at its triple a version with non-empty key bytes other
than its own), each `PrimaryIndex` entry `e` has a row version in `Rows` with
`ID = e.RowEntryID`, `BlockID = e.BlockID` and `RowID = e.RowID`. -/
theorem key_entries_have_row_versions (env : Env) (s : St)
    (hreach : ReachableKeepingKeys env s) :
    ∀ e ∈ s.p.PrimaryIndex,
      ∃ v ∈ s.p.Rows, v.ID = e.RowEntryID ∧ v.BlockID = e.BlockID ∧ v.RowID = e.RowID := by
  intro e he
  obtain ⟨-, v, hv, hid, hB, hR, -⟩ := hreach.keyedIndex.2 e he
  exact ⟨v, hv, hid, hB, hR⟩

theorem key_entries_have_row_versions_witness :
    ReachableKeepingKeys exampleEnv afterInsertA ∧
    afterInsertA.p.PrimaryIndex ≠ [] ∧
    ∀ e ∈ afterInsertA.p.PrimaryIndex,
      ∃ v ∈ afterInsertA.p.Rows,
        v.ID = e.RowEntryID ∧ v.BlockID = e.BlockID ∧ v.RowID = e.RowID :=
  ⟨ReachableKeepingKeys.step _ _ _ (ReachableKeepingKeys.init 1) (by decide), by decide,
   key_entries_have_row_versions exampleEnv afterInsertA
     (ReachableKeepingKeys.step _ _ _ (ReachableKeepingKeys.init 1) (by decide))⟩

/-! ## Snapshots -/

theorem PartitionState.Copy_eq (p : PartitionState) : p.Copy = p := by
  unfold PartitionState.Copy btree.Copy
  simp

/-! ## Panics -/

theorem insertRow_error {env : Env} {d : RowsInsertInput} {i rowID : Nat} {s : St} {why : Panic}
    (h : HandleRowsInsert.row env d i rowID s = .error why) : why = .indexOutOfRange := by
  unfold HandleRowsInsert.row at h
  cases ht : d.timeVector[i]? with
  | none =>
    rw [ht] at h
    simp only [Except.error.injEq] at h
    exact h.symm
  | some time =>
    rw [ht] at h
    cases h

theorem deleteRow_error {env : Env} {d : RowsDeleteInput} {i rowID : Nat} {s : St} {why : Panic}
    (h : HandleRowsDelete.row env d i rowID s = .error why) : why = .indexOutOfRange := by
  unfold HandleRowsDelete.row at h
  cases ht : d.timeVector[i]? with
  | none =>
    rw [ht] at h
    simp only [Except.error.injEq] at h
    exact h.symm
  | some time =>
    rw [ht] at h
    cases h

theorem metaInsertRow_error {d : MetadataInsertInput} {i blockID : Nat} {s : St} {why : Panic}
    (h : HandleMetadataInsert.row d i blockID s = .error why) : why = .indexOutOfRange := by
  unfold HandleMetadataInsert.row at h
  cases hc : d.cells i with
  | none =>
    simp only [hc, Except.error.injEq] at h
    exact h.symm
  | some r =>
    simp [hc] at h

theorem metaDeleteRow_error {env : Env} {d : MetadataDeleteInput} {i rowID : Nat} {s : St}
    {why : Panic} (h : HandleMetadataDelete.row env d i rowID s = .error why) :
    why = .indexOutOfRange ∨ why = .invalidBlockID rowID := by
  unfold HandleMetadataDelete.row at h
  cases hg : btree.Get BlockEntry.Less { BlockID := env.DecodeUint64 rowID } s.p.Blocks with
  | none =>
    simp only [hg, Except.error.injEq] at h
    exact Or.inr h.symm
  | some entry =>
    cases ht : d.deleteTimeVector[i]? with
    | none =>
      simp only [hg, ht, Except.error.injEq] at h
      exact Or.inl h.symm
    | some t =>
      simp [hg, ht] at h

/-- A loop whose body panics only for reasons in `R` panics only for reasons in
`R`. -/
theorem forRange_panicked_reason {α : Type} (body : Nat → α → St → Except Panic St)
    (R : Panic → Prop) (hbody : ∀ i x s why, body i x s = .error why → R why)
    (i : Nat) (xs : List α) (s s' : St) (why : Panic)
    (h : forRange body i xs s = .panicked why s') : R why := by
  obtain ⟨k, x, -, -, herr⟩ := forRange_panicked body i xs s s' why h
  exact hbody _ _ _ _ herr

/-- The reasons for which a row panics. -/
theorem HandleLogtailEntry_panicked_cases (env : Env) (s s' : St) (entry : Entry)
    (primaryKeyIndex : Int) (why : Panic)
    (h : HandleLogtailEntry env s entry primaryKeyIndex = .panicked why s') :
    s' = s ∨
      ((why = .indexOutOfRange ∨ ∃ rowID, why = .invalidBlockID rowID) ∧
        ∃ k, HandleLogtailEntry.firstRows env s entry primaryKeyIndex k = .done s') := by
  unfold HandleLogtailEntry at h
  unfold HandleLogtailEntry.firstRows
  cases hty : entry.EntryType with
  | Insert =>
    rw [hty] at h
    simp only at h ⊢
    by_cases hmeta : env.isMetaTable entry.TableName = true
    · simp only [hmeta, if_true] at h ⊢
      unfold HandleMetadataInsert at h
      cases hd : HandleMetadataInsert.decode entry.Bat with
      | error w =>
        rw [hd] at h
        simp only [Outcome.panicked.injEq] at h
        exact Or.inl h.2.symm
      | ok d =>
        rw [hd] at h
        simp only at h ⊢
        obtain ⟨k, x, -, hdone, herr⟩ := forRange_panicked _ 0 _ s s' why h
        exact Or.inr ⟨Or.inl (metaInsertRow_error herr), k, hdone⟩
    · simp only [hmeta, Bool.false_eq_true, if_false] at h ⊢
      unfold HandleRowsInsert at h
      cases hd : HandleRowsInsert.decode env entry.Bat primaryKeyIndex with
      | error w =>
        rw [hd] at h
        simp only [Outcome.panicked.injEq] at h
        exact Or.inl h.2.symm
      | ok d =>
        rw [hd] at h
        simp only at h ⊢
        obtain ⟨k, x, -, hdone, herr⟩ := forRange_panicked _ 0 _ s s' why h
        exact Or.inr ⟨Or.inl (insertRow_error herr), k, hdone⟩
  | Delete =>
    rw [hty] at h
    simp only at h ⊢
    by_cases hmeta : env.isMetaTable entry.TableName = true
    · simp only [hmeta, if_true] at h ⊢
      unfold HandleMetadataDelete at h
      cases hd : HandleMetadataDelete.decode entry.Bat with
      | error w =>
        rw [hd] at h
        simp only [Outcome.panicked.injEq] at h
        exact Or.inl h.2.symm
      | ok d =>
        rw [hd] at h
        simp only at h ⊢
        obtain ⟨k, x, -, hdone, herr⟩ := forRange_panicked _ 0 _ s s' why h
        refine Or.inr ⟨?_, k, hdone⟩
        rcases metaDeleteRow_error herr with e | e
        · exact Or.inl e
        · exact Or.inr ⟨x, e⟩
    · simp only [hmeta, Bool.false_eq_true, if_false] at h ⊢
      unfold HandleRowsDelete at h
      cases hd : HandleRowsDelete.decode entry.Bat with
      | error w =>
        rw [hd] at h
        simp only [Outcome.panicked.injEq] at h
        exact Or.inl h.2.symm
      | ok d =>
        rw [hd] at h
        simp only at h ⊢
        obtain ⟨k, x, -, hdone, herr⟩ := forRange_panicked _ 0 _ s s' why h
        exact Or.inr ⟨Or.inl (deleteRow_error herr), k, hdone⟩
  | Update =>
    rw [hty] at h
    simp only [Outcome.panicked.injEq] at h
    exact Or.inl h.2.symm

theorem HandleLogtailEntry_Checkpoints (env : Env) (s : St) (entry : Entry)
    (primaryKeyIndex : Int) :
    (HandleLogtailEntry env s entry primaryKeyIndex).state.p.Checkpoints = s.p.Checkpoints :=
  HandleLogtailEntry_invariant env (fun s' => s'.p.Checkpoints = s.p.Checkpoints)
    (fun _ _ _ _ _ hP h => by
      obtain ⟨_, -, -, -, -, hc, -⟩ := insertRow_ok h
      rw [hc]; exact hP)
    (fun _ _ _ _ _ hP h => by
      obtain ⟨_, -, -, -, -, hc, -⟩ := deleteRow_ok h
      rw [hc]; exact hP)
    (fun _ _ _ _ _ hP h => by
      obtain ⟨_, -, -, -, hc, -⟩ := metaInsertRow_ok h
      rw [hc]; exact hP)
    (fun _ _ _ _ _ hP h => by
      obtain ⟨_, _, -, -, -, -, -, -, hc⟩ := metaDeleteRow_ok h
      rw [hc]; exact hP)
    s entry primaryKeyIndex rfl

/-- C10 (counterexample): a metadata-delete batch whose first row names the
existing block 9 and whose second row names the missing block 7 panics, and
`Blocks` is not what it was before the call: block 9 has the delete time of the
first row. -/
theorem failed_metadata_delete_keeps_first_row :
    applyEntries exampleEnv {} [(⟨.Insert, "meta", metaBatch 9 false "m1" 0 1⟩, 0)]
      = .done blockNine ∧
    HandleLogtailEntry exampleEnv blockNine deleteNineThenSeven 0 =
      .panicked (.invalidBlockID (7 * 18446744073709551616)) blockNineDeleted ∧
    blockNineDeleted.p.Blocks ≠ blockNine.p.Blocks := by
  decide

/-! ## Dispatch and visibility -/

/-- C12: `HandleLogtailEntry` is `HandleMetadataInsert` for an Insert entry on
the metadata table, `HandleRowsInsert` for an Insert entry on another table,
`HandleMetadataDelete` for a Delete entry on the metadata table and
`HandleRowsDelete` for a Delete entry on another table; for every other entry
type it panics with `unknown entry type` and leaves the state as it was. -/
theorem HandleLogtailEntry_dispatches (env : Env) (s : St) (entry : Entry)
    (primaryKeyIndex : Int) :
    (entry.EntryType = .Insert → env.isMetaTable entry.TableName = true →
      HandleLogtailEntry env s entry primaryKeyIndex = HandleMetadataInsert s entry.Bat) ∧
    (entry.EntryType = .Insert → env.isMetaTable entry.TableName = false →
      HandleLogtailEntry env s entry primaryKeyIndex =
        HandleRowsInsert env s entry.Bat primaryKeyIndex) ∧
    (entry.EntryType = .Delete → env.isMetaTable entry.TableName = true →
      HandleLogtailEntry env s entry primaryKeyIndex = HandleMetadataDelete env s entry.Bat) ∧
    (entry.EntryType = .Delete → env.isMetaTable entry.TableName = false →
      HandleLogtailEntry env s entry primaryKeyIndex = HandleRowsDelete env s entry.Bat) ∧
    (entry.EntryType ≠ .Insert → entry.EntryType ≠ .Delete →
      HandleLogtailEntry env s entry primaryKeyIndex = .panicked .unknownEntryType s ∧
      (HandleLogtailEntry env s entry primaryKeyIndex).state = s) := by
  unfold HandleLogtailEntry
  refine ⟨?_, ?_, ?_, ?_, ?_⟩
  · intro hty hmeta
    simp [hty, hmeta]
  · intro hty hmeta
    simp [hty, hmeta]
  · intro hty hmeta
    simp [hty, hmeta]
  · intro hty hmeta
    simp [hty, hmeta]
  · intro h1 h2
    cases hty : entry.EntryType with
    | Insert => exact absurd hty h1
    | Delete => exact absurd hty h2
    | Update => exact ⟨rfl, rfl⟩

theorem HandleLogtailEntry_dispatches_witness :
    (HandleLogtailEntry exampleEnv {} promoteOne 0 = HandleMetadataInsert {} promoteOne.Bat) ∧
    (HandleLogtailEntry exampleEnv {} ⟨.Insert, "t", insertA⟩ 0 =
      HandleRowsInsert exampleEnv {} insertA 0) ∧
    (HandleLogtailEntry exampleEnv blockNine deleteNineThenSeven 0 =
      HandleMetadataDelete exampleEnv blockNine deleteNineThenSeven.Bat) ∧
    (HandleLogtailEntry exampleEnv {} deleteAt20 0 =
      HandleRowsDelete exampleEnv {} deleteAt20.Bat) ∧
    (HandleLogtailEntry exampleEnv afterInsertA ⟨.Update, "t", insertA⟩ 0 =
        .panicked .unknownEntryType afterInsertA ∧
      (HandleLogtailEntry exampleEnv afterInsertA ⟨.Update, "t", insertA⟩ 0).state =
        afterInsertA) :=
  ⟨(HandleLogtailEntry_dispatches exampleEnv {} promoteOne 0).1 rfl (by decide),
   (HandleLogtailEntry_dispatches exampleEnv {} ⟨.Insert, "t", insertA⟩ 0).2.1 rfl (by decide),
   (HandleLogtailEntry_dispatches exampleEnv blockNine deleteNineThenSeven 0).2.2.1 rfl
     (by decide),
   (HandleLogtailEntry_dispatches exampleEnv {} deleteAt20 0).2.2.2.1 rfl (by decide),
   (HandleLogtailEntry_dispatches exampleEnv afterInsertA ⟨.Update, "t", insertA⟩ 0).2.2.2.2
     (by decide) (by decide)⟩

/-- C13: `b.Visible(ts)` is true if and only if `b.CreateTime <= ts` and
`b.DeleteTime` is empty or `ts < b.DeleteTime`; in particular a block with a
delete time is not visible at its delete time, and a block without a delete
time is visible at its create time. -/
theorem Visible_iff_created_and_not_yet_deleted (b : BlockEntry) (ts : Nat) :
    (b.Visible ts = true ↔
      b.CreateTime ≤ ts ∧ (TS.IsEmpty b.DeleteTime = true ∨ ts < b.DeleteTime)) ∧
    (TS.IsEmpty b.DeleteTime = false → b.Visible b.DeleteTime = false) ∧
    (TS.IsEmpty b.DeleteTime = true → b.Visible b.CreateTime = true) := by
  unfold BlockEntry.Visible TS.LessEq TS.Less TS.IsEmpty
  refine ⟨?_, ?_, ?_⟩
  · simp
  · intro h
    simp at h ⊢
    intro _
    exact h
  · intro h
    simp at h ⊢
    exact Or.inl h

theorem Visible_iff_created_and_not_yet_deleted_witness :
    TS.IsEmpty nineDeleted.DeleteTime = false ∧
    TS.IsEmpty nineLive.DeleteTime = true ∧
    nineDeleted.Visible 20 = false ∧
    nineDeleted.Visible 19 = true ∧
    nineLive.Visible 1 = true :=
  ⟨by decide, by decide,
   (Visible_iff_created_and_not_yet_deleted nineDeleted 20).2.1 (by decide),
   (Visible_iff_created_and_not_yet_deleted nineDeleted 19).1.2 (by decide),
   (Visible_iff_created_and_not_yet_deleted nineLive 1).2.2 (by decide)⟩

/-! ## The order of the row versions -/

/-- In a sequence whose items are pairwise related by `R`, a test that passes
from an item to the items before it holds of a run at the head and of no item
after it. -/
theorem takeWhile_dropWhile_eq_filter {α : Type} (R : α → α → Prop) (p : α → Bool)
    (hp : ∀ a b, R a b → p b = true → p a = true) (l : List α) (h : l.Pairwise R) :
    l.takeWhile p = l.filter p ∧ l.dropWhile p = l.filter (fun x => !p x) := by
  induction l with
  | nil => simp
  | cons x xs ih =>
    rw [List.pairwise_cons] at h
    obtain ⟨ih1, ih2⟩ := ih h.2
    by_cases hx : p x = true
    · simp only [List.takeWhile_cons, List.dropWhile_cons, List.filter_cons, hx, if_true,
        Bool.not_true, Bool.false_eq_true, if_false]
      exact ⟨by rw [ih1], ih2⟩
    · have hall : ∀ y ∈ xs, p y = false := by
        intro y hy
        cases hpy : p y with
        | false => rfl
        | true => exact absurd (hp x y (h.1 y hy) hpy) hx
      have hx' : p x = false := by simpa using hx
      have h1 : xs.filter p = [] := by
        rw [List.filter_eq_nil_iff]
        intro y hy
        rw [hall y hy]
        simp
      have h2 : xs.filter (fun x => !p x) = xs := by
        rw [List.filter_eq_self]
        intro y hy
        rw [hall y hy]
        rfl
      simp only [List.takeWhile_cons, List.dropWhile_cons, List.filter_cons, hx', if_false,
        Bool.false_eq_true, Bool.not_false, if_true, h1, h2]
      exact ⟨trivial, trivial⟩

/-- The iteration from the seek position `(B, r, t)` on: first the versions of
`(B, r)` with `Time <= t`, newest first, then the versions of greater
`(BlockID, RowID)` in order. -/
theorem Seek_rows_split (xs : List RowEntry) (hs : btree.Sorted RowEntry.Less xs)
    (B r t : Nat) :
    ∃ l1 l2, btree.Seek RowEntry.Less { BlockID := B, RowID := r, Time := t } xs = l1 ++ l2 ∧
      (∀ v, v ∈ l1 ↔ v ∈ xs ∧ v.BlockID = B ∧ v.RowID = r ∧ v.Time ≤ t) ∧
      l1.Pairwise (fun a b => a.Time > b.Time) ∧
      (∀ v, v ∈ l2 ↔ v ∈ xs ∧ (B < v.BlockID ∨ (v.BlockID = B ∧ r < v.RowID))) ∧
      btree.Sorted RowEntry.Less l2 := by
  have hmem : ∀ v, v ∈ btree.Seek RowEntry.Less { BlockID := B, RowID := r, Time := t } xs ↔
      v ∈ xs ∧ ¬ (v.BlockID < B ∨ (v.BlockID = B ∧ (v.RowID < r ∨ (v.RowID = r ∧ t < v.Time)))) := by
    intro v
    rw [btree.mem_Seek rowEntry_isOrder hs, rowEntry_less_eq_false_iff]
  have hsorted : btree.Sorted RowEntry.Less
      (btree.Seek RowEntry.Less { BlockID := B, RowID := r, Time := t } xs) :=
    List.Pairwise.sublist (btree.Seek_sublist _ _ _) hs
  have hpair : (btree.Seek RowEntry.Less { BlockID := B, RowID := r, Time := t } xs).Pairwise
      (fun a b => a.Less b = true ∧ B ≤ a.BlockID ∧ (a.BlockID = B → r ≤ a.RowID)) := by
    refine List.Pairwise.imp_of_mem ?_ hsorted
    intro a b ha _ hab
    have := ((hmem a).1 ha).2
    exact ⟨hab, by omega, by omega⟩
  obtain ⟨h1, h2⟩ := takeWhile_dropWhile_eq_filter _
    (fun v : RowEntry => decide (v.BlockID = B) && decide (v.RowID = r))
    (by
      intro a b hab hb
      obtain ⟨hlt, hB, hR⟩ := hab
      rw [rowEntry_less_iff] at hlt
      simp only [Bool.and_eq_true, decide_eq_true_eq] at hb ⊢
      omega) _ hpair
  refine ⟨_, _, (List.takeWhile_append_dropWhile
    (fun v : RowEntry => decide (v.BlockID = B) && decide (v.RowID = r)) _).symm,
    ?_, ?_, ?_, ?_⟩
  · intro v
    rw [h1, List.mem_filter, hmem]
    simp only [Bool.and_eq_true, decide_eq_true_eq]
    constructor
    · rintro ⟨⟨hv, hge⟩, hB, hR⟩
      exact ⟨hv, hB, hR, by omega⟩
    · rintro ⟨hv, hB, hR, hT⟩
      exact ⟨⟨hv, by omega⟩, hB, hR⟩
  · rw [h1]
    have hsub : List.Pairwise (fun a b : RowEntry => a.Less b = true)
        (List.filter (fun v : RowEntry => decide (v.BlockID = B) && decide (v.RowID = r))
          (btree.Seek RowEntry.Less { BlockID := B, RowID := r, Time := t } xs)) :=
      List.Pairwise.sublist (List.filter_sublist _) hsorted
    refine List.Pairwise.imp_of_mem ?_ hsub
    intro a b ha hb hab
    rw [List.mem_filter] at ha hb
    simp only [Bool.and_eq_true, decide_eq_true_eq] at ha hb
    rw [rowEntry_less_iff] at hab
    omega
  · intro v
    rw [h2, List.mem_filter, hmem]
    simp only [Bool.not_eq_true', Bool.and_eq_false_iff, decide_eq_false_iff_not]
    constructor
    · rintro ⟨⟨hv, hge⟩, hne⟩
      exact ⟨hv, by omega⟩
    · rintro ⟨hv, hgt⟩
      exact ⟨⟨hv, by omega⟩, by omega⟩
  · rw [h2]
    exact List.Pairwise.sublist (List.filter_sublist _) hsorted

/-- C14: `RowEntry.Less(a, b)` holds if and only if `a.BlockID < b.BlockID`, or
the block ids are equal and `a.RowID < b.RowID`, or both are equal and
`a.Time > b.Time`; it depends on the triples only, is irreflexive, transitive
and total on triples; and the iteration of an ordered tree from the seek
position `(B, r, t)` on yields the versions of `(B, r)` with `Time <= t` in
descending `Time` and then the versions of the greater row ids, in order. -/
theorem RowEntry_Less_orders_triples :
    (∀ a b : RowEntry, a.Less b = true ↔
      a.BlockID < b.BlockID ∨ (a.BlockID = b.BlockID ∧ a.RowID < b.RowID) ∨
        (a.BlockID = b.BlockID ∧ a.RowID = b.RowID ∧ a.Time > b.Time)) ∧
    (∀ a a' b b' : RowEntry, a'.isAt a.BlockID a.RowID a.Time →
      b'.isAt b.BlockID b.RowID b.Time → a'.Less b' = a.Less b) ∧
    (∀ a : RowEntry, a.Less a = false) ∧
    (∀ a b c : RowEntry, a.Less b = true → b.Less c = true → a.Less c = true) ∧
    (∀ a b : RowEntry, a.Less b = true ∨ b.Less a = true ∨ a.isAt b.BlockID b.RowID b.Time) ∧
    (∀ a b : RowEntry, a.Less b = true → b.Less a = false) ∧
    (∀ (xs : List RowEntry) (B r t : Nat), btree.Sorted RowEntry.Less xs →
      ∃ l1 l2, btree.Seek RowEntry.Less { BlockID := B, RowID := r, Time := t } xs = l1 ++ l2 ∧
        (∀ v, v ∈ l1 ↔ v ∈ xs ∧ v.BlockID = B ∧ v.RowID = r ∧ v.Time ≤ t) ∧
        l1.Pairwise (fun a b => a.Time > b.Time) ∧
        (∀ v, v ∈ l2 ↔ v ∈ xs ∧ (B < v.BlockID ∨ (v.BlockID = B ∧ r < v.RowID))) ∧
        btree.Sorted RowEntry.Less l2) := by
  refine ⟨?_, ?_, rowEntry_isOrder.irrefl, rowEntry_isOrder.trans, ?_, ?_, ?_⟩
  · intro a b
    rw [rowEntry_less_iff]
    omega
  · intro a a' b b' ha hb
    unfold RowEntry.isAt at ha hb
    have h1 := rowEntry_less_iff a b
    have h2 := rowEntry_less_iff a' b'
    rw [ha.1, ha.2.1, ha.2.2, hb.1, hb.2.1, hb.2.2, ← h1] at h2
    cases hl : a.Less b <;> cases hl' : a'.Less b' <;> simp [hl, hl'] at h2 ⊢
  · intro a b
    rw [rowEntry_less_iff, rowEntry_less_iff]
    unfold RowEntry.isAt
    omega
  · intro a b hab
    rw [rowEntry_less_eq_false_iff]
    rw [rowEntry_less_iff] at hab
    omega
  · intro xs B r t hs
    exact Seek_rows_split xs hs B r t

theorem RowEntry_Less_orders_triples_witness :
    btree.Sorted RowEntry.Less insertedThenDeleted.Rows ∧
    ∃ l1 l2,
      btree.Seek RowEntry.Less { BlockID := 1, RowID := rowA, Time := 15 }
        insertedThenDeleted.Rows = l1 ++ l2 ∧
      (∀ v, v ∈ l1 ↔ v ∈ insertedThenDeleted.Rows ∧ v.BlockID = 1 ∧ v.RowID = rowA ∧
        v.Time ≤ 15) ∧
      l1.Pairwise (fun a b => a.Time > b.Time) ∧
      (∀ v, v ∈ l2 ↔ v ∈ insertedThenDeleted.Rows ∧
        (1 < v.BlockID ∨ (v.BlockID = 1 ∧ rowA < v.RowID))) ∧
      btree.Sorted RowEntry.Less l2 :=
  ⟨by decide,
   RowEntry_Less_orders_triples.2.2.2.2.2.2 insertedThenDeleted.Rows 1 rowA 15 (by decide)⟩

/-! ## One version for each triple -/

theorem btree.length_Set_of_mem {α : Type} {less : α → α → Bool} (ho : btree.IsOrder less)
    {xs : List α} (hs : btree.Sorted less xs) {item x : α} (hx : x ∈ xs)
    (h1 : less x item = false) (h2 : less item x = false) :
    (btree.Set less item xs).length = xs.length := by
  induction xs with
  | nil => cases hx
  | cons y ys ih =>
    rw [btree.sorted_cons] at hs
    unfold btree.Set
    split_ifs with hy1 hy2
    · rcases List.mem_cons.1 hx with rfl | hx'
      · rw [h1] at hy1
        cases hy1
      · simp only [List.length_cons]
        rw [ih hs.2 hx']
    · exfalso
      rcases List.mem_cons.1 hx with rfl | hx'
      · rw [h2] at hy2
        cases hy2
      · have := ho.trans _ _ _ hy2 (hs.1 x hx')
        rw [h2] at this
        cases this
    · simp

/-- C15: in every partition state reachable from `NewPartitionState()` by
`HandleLogtailEntry` calls, `Rows` holds at most one version for each
`(BlockID, RowID, Time)` triple; a data-insert row and a data-delete row whose
triple is present replace the version at the triple and leave the number of
versions as it is. -/
theorem reachable_rows_hold_one_version_for_each_triple (env : Env) (s : St)
    (hreach : Reachable env s) :
    (∀ a ∈ s.p.Rows, ∀ b ∈ s.p.Rows,
      a.BlockID = b.BlockID → a.RowID = b.RowID → a.Time = b.Time → a = b) ∧
    (∀ (d : RowsInsertInput) (i rowID time : Nat) (s' : St),
      d.timeVector[i]? = some time →
      (∃ v ∈ s.p.Rows, v.isAt (env.blockIDFromRowID rowID) rowID time) →
      HandleRowsInsert.row env d i rowID s = .ok s' →
      s'.p.Rows.length = s.p.Rows.length ∧
      ∀ a ∈ s'.p.Rows, ∀ b ∈ s'.p.Rows,
        a.BlockID = b.BlockID → a.RowID = b.RowID → a.Time = b.Time → a = b) ∧
    (∀ (d : RowsDeleteInput) (i rowID time : Nat) (s' : St),
      d.timeVector[i]? = some time →
      (∃ v ∈ s.p.Rows, v.isAt (env.blockIDFromRowID rowID) rowID time) →
      HandleRowsDelete.row env d i rowID s = .ok s' →
      s'.p.Rows.length = s.p.Rows.length ∧
      ∀ a ∈ s'.p.Rows, ∀ b ∈ s'.p.Rows,
        a.BlockID = b.BlockID → a.RowID = b.RowID → a.Time = b.Time → a = b) := by
  have hs := hreach.sorted
  have huniq : ∀ rows : List RowEntry, btree.Sorted RowEntry.Less rows →
      ∀ a ∈ rows, ∀ b ∈ rows,
        a.BlockID = b.BlockID → a.RowID = b.RowID → a.Time = b.Time → a = b :=
    fun rows hrows a ha b hb hB hR hT => isAt_unique hrows ha hb ⟨hB, hR, hT⟩ ⟨rfl, rfl, rfl⟩
  refine ⟨huniq _ hs, ?_, ?_⟩
  · intro d i rowID time s' ht ⟨v, hv, hat⟩ h
    obtain ⟨time', ht', hrows, -⟩ := insertRow_ok h
    rw [ht] at ht'
    simp only [Option.some.injEq] at ht'
    subst ht'
    refine ⟨?_, huniq _ (insertRow_sorted hs h)⟩
    rw [hrows]
    have hent := insertEntry_isAt env d i rowID time s
    have heq := (rowEntry_equiv_iff v (HandleRowsInsert.entry env d i rowID time s)).2
      (by rw [hent.1, hent.2.1, hent.2.2]; exact hat)
    exact btree.length_Set_of_mem rowEntry_isOrder hs hv heq.1 heq.2
  · intro d i rowID time s' ht ⟨v, hv, hat⟩ h
    obtain ⟨time', ht', hrows, -⟩ := deleteRow_ok h
    rw [ht] at ht'
    simp only [Option.some.injEq] at ht'
    subst ht'
    refine ⟨?_, huniq _ (deleteRow_sorted hs h)⟩
    rw [hrows]
    have hent := deleteEntry_isAt env d i rowID time s
    have heq := (rowEntry_equiv_iff v (HandleRowsDelete.entry env d i rowID time s)).2
      (by rw [hent.1, hent.2.1, hent.2.2]; exact hat)
    exact btree.length_Set_of_mem rowEntry_isOrder hs hv heq.1 heq.2

theorem reachable_rows_hold_one_version_for_each_triple_witness :
    Reachable exampleEnv afterInsertA ∧
    afterInsertA.p.Rows.length = 1 ∧
    (HandleLogtailEntry exampleEnv afterInsertA ⟨.Insert, "t", insertARekeyed⟩ 0).state.p.Rows.length
      = 1 ∧
    (∀ a ∈ afterInsertA.p.Rows, ∀ b ∈ afterInsertA.p.Rows,
      a.BlockID = b.BlockID → a.RowID = b.RowID → a.Time = b.Time → a = b) :=
  ⟨Reachable.step _ _ _ (Reachable.init 1), by decide, by decide,
   (reachable_rows_hold_one_version_for_each_triple exampleEnv afterInsertA
     (Reachable.step _ _ _ (Reachable.init 1))).1⟩

/-! ## Metadata delete and missing blocks -/

theorem Get_block_none_iff (blocks : List BlockEntry) (blockID : Nat) :
    btree.Get BlockEntry.Less { BlockID := blockID } blocks = none ↔
      ∀ b ∈ blocks, b.BlockID ≠ blockID := by
  rw [btree.Get_eq_none_iff]
  constructor
  · intro h b hb
    have := h b hb
    rw [blockEntry_less_iff, blockEntry_less_iff] at this
    simp only at this
    omega
  · intro h b hb
    have := h b hb
    rw [blockEntry_less_iff, blockEntry_less_iff]
    simp only
    omega

theorem metaDeleteRow_error_cases {env : Env} {d : MetadataDeleteInput} {i rowID : Nat} {s : St}
    {why : Panic} (h : HandleMetadataDelete.row env d i rowID s = .error why) :
    (btree.Get BlockEntry.Less { BlockID := env.DecodeUint64 rowID } s.p.Blocks = none ∧
      why = .invalidBlockID rowID) ∨
    (d.deleteTimeVector[i]? = none ∧ why = .indexOutOfRange) := by
  unfold HandleMetadataDelete.row at h
  cases hg : btree.Get BlockEntry.Less { BlockID := env.DecodeUint64 rowID } s.p.Blocks with
  | none =>
    simp only [hg, Except.error.injEq] at h
    exact Or.inl ⟨rfl, h.symm⟩
  | some entry =>
    cases ht : d.deleteTimeVector[i]? with
    | none =>
      simp only [hg, ht, Except.error.injEq] at h
      exact Or.inr ⟨rfl, h.symm⟩
    | some t =>
      simp [hg, ht] at h

theorem metaDeleteRow_error_of_missing {env : Env} (d : MetadataDeleteInput) (i rowID : Nat)
    (s : St)
    (hg : btree.Get BlockEntry.Less { BlockID := env.DecodeUint64 rowID } s.p.Blocks = none) :
    HandleMetadataDelete.row env d i rowID s = .error (.invalidBlockID rowID) := by
  unfold HandleMetadataDelete.row
  simp [hg]

/-- A loop whose first `k` rows run in full and whose row `k` panics ends with
that panic and the state the first `k` rows left. -/
theorem forRange_panicked_at {α : Type} (body : Nat → α → St → Except Panic St) (i k : Nat)
    (xs : List α) (x : α) (s s' : St) (why : Panic)
    (hdone : forRange body i (xs.take k) s = .done s') (hx : xs[k]? = some x)
    (herr : body (i + k) x s' = .error why) : forRange body i xs s = .panicked why s' := by
  induction xs generalizing i k s with
  | nil => simp at hx
  | cons y ys ih =>
    cases k with
    | zero =>
      simp only [List.getElem?_cons_zero, Option.some.injEq] at hx
      subst hx
      simp only [List.take_zero, forRange, Outcome.done.injEq] at hdone
      subst hdone
      unfold forRange
      simp only [Nat.add_zero] at herr
      rw [herr]
    | succ k =>
      simp only [List.getElem?_cons_succ] at hx
      simp only [List.take_succ_cons] at hdone
      rw [forRange_done_cons] at hdone
      obtain ⟨s1, hb, hrest⟩ := hdone
      unfold forRange
      rw [hb]
      simp only
      have : i + (k + 1) = i + 1 + k := by omega
      rw [this] at herr
      exact ih (i + 1) k s1 hrest hx herr

/-- C11: `HandleMetadataDelete` panics with the invalid-block-id message of a
row if and only if the rows before it were handled and, at that moment,
`Blocks` holds no entry whose `BlockID` is the number decoded from the first
eight bytes of the row id; and for a batch that decodes, with a delete time for
every row, it does not fail when every row finds its block at the moment it is
handled. -/
theorem HandleMetadataDelete_fails_iff_block_missing (env : Env) (s : St) (input : Batch) :
    (∀ r s', HandleMetadataDelete env s input = .panicked (.invalidBlockID r) s' ↔
      ∃ d k, HandleMetadataDelete.decode input = .ok d ∧
        forRange (HandleMetadataDelete.row env d) 0 (d.rowIDVector.take k) s = .done s' ∧
        d.rowIDVector[k]? = some r ∧
        ∀ b ∈ s'.p.Blocks, b.BlockID ≠ env.DecodeUint64 r) ∧
    (∀ d, HandleMetadataDelete.decode input = .ok d →
      d.rowIDVector.length ≤ d.deleteTimeVector.length →
      (∀ k r sk, forRange (HandleMetadataDelete.row env d) 0 (d.rowIDVector.take k) s = .done sk →
        d.rowIDVector[k]? = some r → ∃ b ∈ sk.p.Blocks, b.BlockID = env.DecodeUint64 r) →
      (HandleMetadataDelete env s input).failed = false) := by
  constructor
  · intro r s'
    constructor
    · intro h
      unfold HandleMetadataDelete at h
      cases hd : HandleMetadataDelete.decode input with
      | error w =>
        exfalso
        rw [hd] at h
        simp only [Outcome.panicked.injEq] at h
        unfold HandleMetadataDelete.decode at hd
        cases h0 : input.Vecs[0]? with
        | none => simp [h0, mustVectorFromProto, bind, Except.bind] at hd; rw [← hd] at h; simp at h
        | some v0 =>
          cases v0 <;> simp [h0, mustVectorFromProto, MustFixedCol.rowid, bind, Except.bind] at hd <;>
            first
            | (rw [← hd] at h; simp at h)
            | skip
          rename_i col
          cases h1 : input.Vecs[1]? with
          | none =>
            simp [h1, mustVectorFromProto, bind, Except.bind] at hd; rw [← hd] at h; simp at h
          | some v1 =>
            cases v1 <;>
              simp [h1, mustVectorFromProto, MustFixedCol.ts, bind, Except.bind] at hd <;>
              (rw [← hd] at h; simp at h)
      | ok d =>
        rw [hd] at h
        simp only at h
        obtain ⟨k, x, hx, hdone, herr⟩ := forRange_panicked _ 0 _ s s' _ h
        rcases metaDeleteRow_error_cases herr with ⟨hg, hw⟩ | ⟨-, hw⟩
        · simp only [Panic.invalidBlockID.injEq] at hw
          subst hw
          exact ⟨d, k, rfl, hdone, hx, (Get_block_none_iff _ _).1 hg⟩
        · cases hw
    · rintro ⟨d, k, hd, hdone, hx, hmiss⟩
      unfold HandleMetadataDelete
      rw [hd]
      simp only
      exact forRange_panicked_at _ 0 k _ r s s' _ hdone hx
        (metaDeleteRow_error_of_missing d (0 + k) r s' ((Get_block_none_iff _ _).2 hmiss))
  · intro d hd hlen hall
    unfold HandleMetadataDelete
    rw [hd]
    simp only
    cases hrun : forRange (HandleMetadataDelete.row env d) 0 d.rowIDVector s with
    | done s' => rfl
    | panicked why s' =>
      exfalso
      obtain ⟨k, x, hx, hdone, herr⟩ := forRange_panicked _ 0 _ s s' _ hrun
      rcases metaDeleteRow_error_cases herr with ⟨hg, -⟩ | ⟨ht, -⟩
      · obtain ⟨b, hb, hbid⟩ := hall k x s' hdone hx
        exact (Get_block_none_iff _ _).1 hg b hb hbid
      · have hk : k < d.rowIDVector.length := by
          rcases Nat.lt_or_ge k d.rowIDVector.length with h | h
          · exact h
          · rw [List.getElem?_eq_none h] at hx
            cases hx
        simp only [Nat.zero_add] at ht
        rw [List.getElem?_eq_none_iff] at ht
        omega

theorem HandleMetadataDelete_fails_iff_block_missing_witness :
    HandleMetadataDelete exampleEnv blockNine deleteNineThenSeven.Bat =
      .panicked (.invalidBlockID (7 * 18446744073709551616)) blockNineDeleted ∧
    (∃ d k, HandleMetadataDelete.decode deleteNineThenSeven.Bat = .ok d ∧
      forRange (HandleMetadataDelete.row exampleEnv d) 0 (d.rowIDVector.take k) blockNine =
        .done blockNineDeleted ∧
      d.rowIDVector[k]? = some (7 * 18446744073709551616) ∧
      ∀ b ∈ blockNineDeleted.p.Blocks,
        b.BlockID ≠ exampleEnv.DecodeUint64 (7 * 18446744073709551616)) ∧
    HandleMetadataDelete.decode deleteNine = .ok deleteNineDecoded ∧
    deleteNineDecoded.rowIDVector.length ≤ deleteNineDecoded.deleteTimeVector.length ∧
    (HandleMetadataDelete exampleEnv blockNine deleteNine).failed = false :=
  ⟨by decide,
   ((HandleMetadataDelete_fails_iff_block_missing exampleEnv blockNine
      deleteNineThenSeven.Bat).1 _ _).1 (by decide),
   rfl, by decide,
   (HandleMetadataDelete_fails_iff_block_missing exampleEnv blockNine deleteNine).2
     deleteNineDecoded rfl (by decide) (by
       intro k r sk hdone hx
       cases k with
       | zero =>
         simp only [List.take_zero, forRange, Outcome.done.injEq] at hdone
         subst hdone
         simp only [deleteNineDecoded, List.getElem?_cons_zero, Option.some.injEq] at hx
         subst hx
         exact ⟨nineLive, by decide, by decide⟩
       | succ k =>
         simp [deleteNineDecoded] at hx)⟩

/-! ## Insert, then delete -/

theorem forRange_singleton {α : Type} (body : Nat → α → St → Except Panic St) (i : Nat) (x : α)
    (s s' : St) (h : body i x s = .ok s') : forRange body i [x] s = .done s' := by
  simp [forRange, h]

theorem insertRow_returns (env : Env) (d : RowsInsertInput) (i rowID time : Nat) (s : St)
    (ht : d.timeVector[i]? = some time) :
    ∃ s', HandleRowsInsert.row env d i rowID s = .ok s' := by
  unfold HandleRowsInsert.row
  rw [ht]
  exact ⟨_, rfl⟩

theorem deleteRow_returns (env : Env) (d : RowsDeleteInput) (i rowID time : Nat) (s : St)
    (ht : d.timeVector[i]? = some time) :
    ∃ s', HandleRowsDelete.row env d i rowID s = .ok s' := by
  unfold HandleRowsDelete.row
  rw [ht]
  exact ⟨_, rfl⟩

/-- C20: starting from `NewPartitionState()`, after a data-insert of row `r` at
time `t1` followed by a data-delete of `r` at time `t2 > t1`, both calls return
and `RowExists(r, ts)` is true exactly for `t1 <= ts < t2`. -/
theorem inserted_then_deleted_row_exists_between (env : Env) (next : Int) (r t1 t2 ts : Nat)
    (h12 : t1 < t2) (ins del : Entry) (pki pkd : Int)
    (di : RowsInsertInput) (dd : RowsDeleteInput)
    (hity : ins.EntryType = .Insert) (himeta : env.isMetaTable ins.TableName = false)
    (hidec : HandleRowsInsert.decode env ins.Bat pki = .ok di)
    (hir : di.rowIDVector = [r]) (hit : di.timeVector = [t1])
    (hdty : del.EntryType = .Delete) (hdmeta : env.isMetaTable del.TableName = false)
    (hddec : HandleRowsDelete.decode del.Bat = .ok dd)
    (hdr : dd.rowIDVector = [r]) (hdt : dd.timeVector = [t2]) :
    ∃ s, applyEntries env { nextRowEntryID := next, p := NewPartitionState }
        [(ins, pki), (del, pkd)] = .done s ∧
      (s.p.RowExists env r ts = true ↔ t1 ≤ ts ∧ ts < t2) := by
  obtain ⟨s1, hrow1⟩ := insertRow_returns env di 0 r t1
    { nextRowEntryID := next, p := NewPartitionState } (by rw [hit]; rfl)
  obtain ⟨s2, hrow2⟩ := deleteRow_returns env dd 0 r t2 s1 (by rw [hdt]; rfl)
  have hstep1 : HandleLogtailEntry env { nextRowEntryID := next, p := NewPartitionState } ins pki
      = .done s1 := by
    unfold HandleLogtailEntry HandleRowsInsert
    rw [hity]
    simp only [himeta, Bool.false_eq_true, if_false, hidec, hir]
    exact forRange_singleton _ 0 r _ s1 hrow1
  have hstep2 : HandleLogtailEntry env s1 del pkd = .done s2 := by
    unfold HandleLogtailEntry HandleRowsDelete
    rw [hdty]
    simp only [hdmeta, Bool.false_eq_true, if_false, hddec, hdr]
    exact forRange_singleton _ 0 r _ s2 hrow2
  refine ⟨s2, by simp [applyEntries, hstep1, hstep2], ?_⟩
  -- the two versions
  obtain ⟨time1, htime1, hrows1, -⟩ := insertRow_ok hrow1
  rw [hit] at htime1
  simp only [List.getElem?_cons_zero, Option.some.injEq] at htime1
  subst htime1
  obtain ⟨time2, htime2, hrows2, -⟩ := deleteRow_ok hrow2
  rw [hdt] at htime2
  simp only [List.getElem?_cons_zero, Option.some.injEq] at htime2
  subst htime2
  have hnew : ({ nextRowEntryID := next, p := NewPartitionState } : St).p.Rows = [] := rfl
  have hget1 : btree.Get RowEntry.Less
      { BlockID := env.blockIDFromRowID r, RowID := r, Time := t1 }
      ({ nextRowEntryID := next, p := NewPartitionState } : St).p.Rows = none := by
    rw [hnew]; rfl
  have he1at := insertEntry_isAt env di 0 r t1 { nextRowEntryID := next, p := NewPartitionState }
  have he1del := (insertEntry_fresh env di 0 r t1 _ hget1).2.1
  have he2at := deleteEntry_isAt env dd 0 r t2 s1
  have he2del := deleteEntry_Deleted env dd 0 r t2 s1
  have hs1 : btree.Sorted RowEntry.Less s1.p.Rows := by
    rw [hrows1]
    exact btree.sorted_Set rowEntry_isOrder btree.sorted_nil _
  have hmem1 : ∀ y, y ∈ s1.p.Rows ↔
      y = HandleRowsInsert.entry env di 0 r t1
        { nextRowEntryID := next, p := NewPartitionState } := by
    intro y
    rw [hrows1, hnew]
    simp [btree.Set]
  have hs2 : btree.Sorted RowEntry.Less s2.p.Rows := by
    rw [hrows2]
    exact btree.sorted_Set rowEntry_isOrder hs1 _
  have hmem2 : ∀ y, y ∈ s2.p.Rows ↔
      y = HandleRowsDelete.entry env dd 0 r t2 s1 ∨
      y = HandleRowsInsert.entry env di 0 r t1
        { nextRowEntryID := next, p := NewPartitionState } := by
    intro y
    rw [hrows2, mem_Set_rows hs1, hmem1]
    constructor
    · rintro (h | ⟨h, -⟩)
      · exact Or.inl h
      · exact Or.inr h
    · rintro (h | h)
      · exact Or.inl h
      · refine Or.inr ⟨h, ?_⟩
        rw [h]
        unfold RowEntry.isAt at *
        omega
  unfold PartitionState.RowExists
  rw [RowExists.loop_seek_iff _ _ _ _ hs2]
  constructor
  · rintro ⟨v, hv, -, -, hT, hD, hmax⟩
    rcases (hmem2 v).1 hv with rfl | rfl
    · rw [he2del] at hD
      cases hD
    · have h1 : t1 ≤ ts := by
        rw [← he1at.2.2]
        exact hT
      refine ⟨h1, ?_⟩
      by_contra hge
      have := hmax _ ((hmem2 _).2 (Or.inl rfl)) he2at.1 he2at.2.1 (by rw [he2at.2.2]; omega)
      rw [he2at.2.2, he1at.2.2] at this
      omega
  · rintro ⟨h1, h2⟩
    refine ⟨_, (hmem2 _).2 (Or.inr rfl), he1at.1, he1at.2.1, by rw [he1at.2.2]; exact h1,
      he1del, ?_⟩
    intro w hw _ _ hwT
    rcases (hmem2 w).1 hw with rfl | rfl
    · rw [he2at.2.2] at hwT
      omega
    · exact le_refl _

theorem inserted_then_deleted_row_exists_between_witness :
    (10 : Nat) < 20 ∧
    HandleRowsInsert.decode exampleEnv insertA 0 = .ok insertADecoded ∧
    HandleRowsDelete.decode deleteAt20.Bat = .ok deleteAt20Decoded ∧
    (applyEntries exampleEnv {} tenTwentyRun).failed = false ∧
    (applyEntries exampleEnv {} tenTwentyRun).state.p.RowExists exampleEnv rowA 5 = false ∧
    (applyEntries exampleEnv {} tenTwentyRun).state.p.RowExists exampleEnv rowA 10 = true ∧
    (applyEntries exampleEnv {} tenTwentyRun).state.p.RowExists exampleEnv rowA 11 = true ∧
    (applyEntries exampleEnv {} tenTwentyRun).state.p.RowExists exampleEnv rowA 15 = true ∧
    (applyEntries exampleEnv {} tenTwentyRun).state.p.RowExists exampleEnv rowA 20 = false ∧
    (applyEntries exampleEnv {} tenTwentyRun).state.p.RowExists exampleEnv rowA 25 = false ∧
    ∃ s, applyEntries exampleEnv { nextRowEntryID := 1, p := NewPartitionState }
        [(⟨.Insert, "t", insertA⟩, 0), (deleteAt20, 0)] = .done s ∧
      (s.p.RowExists exampleEnv rowA 15 = true ↔ 10 ≤ 15 ∧ 15 < 20) :=
  ⟨by decide, rfl, rfl, by decide, by decide, by decide, by decide, by decide, by decide,
   by decide,
   inserted_then_deleted_row_exists_between exampleEnv 1 rowA 10 20 15 (by decide)
     ⟨.Insert, "t", insertA⟩ deleteAt20 0 0 insertADecoded deleteAt20Decoded rfl (by decide) rfl
     rfl rfl rfl (by decide) rfl rfl rfl⟩

/-! ## Version ids -/

theorem atomicAddInt64_one {next : Int} {n : Nat} (h : counterHasRoom next (n + 1)) :
    atomicAddInt64 next 1 = next + 1 := by
  unfold counterHasRoom at h
  unfold atomicAddInt64 wrapInt64
  push_cast at h
  omega

theorem nextAfterRow_cases (env : Env) (rowID time : Nat) (s : St) :
    (∃ e, btree.Get RowEntry.Less
        { BlockID := env.blockIDFromRowID rowID, RowID := rowID, Time := time } s.p.Rows = some e ∧
      nextAfterRow env rowID time s = s.nextRowEntryID) ∨
    (btree.Get RowEntry.Less
        { BlockID := env.blockIDFromRowID rowID, RowID := rowID, Time := time } s.p.Rows = none ∧
      nextAfterRow env rowID time s = atomicAddInt64 s.nextRowEntryID 1) := by
  cases hg : btree.Get RowEntry.Less
      { BlockID := env.blockIDFromRowID rowID, RowID := rowID, Time := time } s.p.Rows with
  | none =>
    right
    simp [nextAfterRow, hg]
  | some e =>
    left
    simp [nextAfterRow, hg]

/-- A property of the state that depends on the number of rows handled so far
and that every row carries one step further holds at the end of a loop that
does not panic. -/
theorem forRange_invariant_indexed {α : Type} (body : Nat → α → St → Except Panic St)
    (xs : List α) (P : Nat → St → Prop) (i : Nat) (s s' : St)
    (hbody : ∀ k x t t', xs[k]? = some x → P k t → body (i + k) x t = .ok t' → P (k + 1) t')
    (h0 : P 0 s) (h : forRange body i xs s = .done s') : P xs.length s' := by
  induction xs generalizing i s P with
  | nil =>
    simp only [forRange, Outcome.done.injEq] at h
    subst h
    exact h0
  | cons x xs ih =>
    rw [forRange_done_cons] at h
    obtain ⟨s1, hb, hrest⟩ := h
    have h1 : P 1 s1 := hbody 0 x s s1 (by simp) h0 (by simpa using hb)
    have := ih (fun k t => P (k + 1) t) (i + 1) s1
      (fun k y t t' hy hP hbd => hbody (k + 1) y t t' (by simpa using hy) hP
        (by
          have : i + (k + 1) = i + 1 + k := by omega
          rw [this]
          exact hbd))
      h1 hrest
    simpa using this

/-- The version a data row stores has the id of the version it replaces, or
the next value of the counter. -/
theorem insertRow_keeps_IdsInOrder {env : Env} (d : RowsInsertInput) (i rowID : Nat) (s s' : St)
    (n : Nat) (hroom : counterHasRoom s.nextRowEntryID (n + 1)) (hP : IdsInOrder s)
    (h : HandleRowsInsert.row env d i rowID s = .ok s') :
    IdsInOrder s' ∧ s.nextRowEntryID ≤ s'.nextRowEntryID ∧
      s'.nextRowEntryID ≤ s.nextRowEntryID + 1 := by
  obtain ⟨hs, hbound, hdist⟩ := hP
  obtain ⟨time, -, hrows, -, -, -, hnext⟩ := insertRow_ok h
  have hat := insertEntry_isAt env d i rowID time s
  have hadd := atomicAddInt64_one hroom
  rcases nextAfterRow_cases env rowID time s with ⟨e, hg, hn⟩ | ⟨hg, hn⟩
  · obtain ⟨he, heat⟩ := Get_pivot_some_imp hg
    obtain ⟨hid, -, -⟩ := insertEntry_found env d i rowID time s e hg
    rw [hn] at hnext
    refine ⟨⟨insertRow_sorted hs h, ?_, ?_⟩, by rw [hnext], by rw [hnext]; omega⟩
    · intro v hv
      rw [hrows] at hv
      rw [hnext]
      rcases btree.mem_Set_imp hv with rfl | hv'
      · rw [hid]; exact hbound e he
      · exact hbound v hv'
    · intro a ha b hb hab
      rw [hrows] at ha hb
      have key : ∀ x ∈ btree.Set RowEntry.Less (HandleRowsInsert.entry env d i rowID time s)
          s.p.Rows, ∃ y ∈ s.p.Rows, y.ID = x.ID ∧ y.isAt x.BlockID x.RowID x.Time := by
        intro x hx
        rcases btree.mem_Set_imp hx with rfl | hx'
        · refine ⟨e, he, hid.symm, ?_⟩
          unfold RowEntry.isAt at *
          omega
        · exact ⟨x, hx', rfl, rfl, rfl, rfl⟩
      obtain ⟨a', ha', haid, haat⟩ := key a ha
      obtain ⟨b', hb', hbid, hbat⟩ := key b hb
      have := hdist a' ha' b' hb' (by rw [haid, hbid, hab])
      unfold RowEntry.isAt at *
      omega
  · obtain ⟨hid, -, -⟩ := insertEntry_fresh env d i rowID time s hg
    rw [hn, hadd] at hnext
    rw [hadd] at hid
    refine ⟨⟨insertRow_sorted hs h, ?_, ?_⟩, by rw [hnext]; omega, by rw [hnext]⟩
    · intro v hv
      rw [hrows] at hv
      rw [hnext]
      rcases btree.mem_Set_imp hv with rfl | hv'
      · rw [hid]
      · have := hbound v hv'
        omega
    · intro a ha b hb hab
      rw [hrows] at ha hb
      rcases btree.mem_Set_imp ha with rfl | ha'
      · rcases btree.mem_Set_imp hb with rfl | hb'
        · exact ⟨rfl, rfl, rfl⟩
        · have := hbound b hb'
          rw [hid] at hab
          omega
      · rcases btree.mem_Set_imp hb with rfl | hb'
        · have := hbound a ha'
          rw [hid] at hab
          omega
        · exact hdist a ha' b hb' hab

theorem deleteRow_keeps_IdsInOrder {env : Env} (d : RowsDeleteInput) (i rowID : Nat) (s s' : St)
    (n : Nat) (hroom : counterHasRoom s.nextRowEntryID (n + 1)) (hP : IdsInOrder s)
    (h : HandleRowsDelete.row env d i rowID s = .ok s') :
    IdsInOrder s' ∧ s.nextRowEntryID ≤ s'.nextRowEntryID ∧
      s'.nextRowEntryID ≤ s.nextRowEntryID + 1 := by
  obtain ⟨hs, hbound, hdist⟩ := hP
  obtain ⟨time, -, hrows, -, -, -, hnext⟩ := deleteRow_ok h
  have hat := deleteEntry_isAt env d i rowID time s
  have hadd := atomicAddInt64_one hroom
  rcases nextAfterRow_cases env rowID time s with ⟨e, hg, hn⟩ | ⟨hg, hn⟩
  · obtain ⟨he, heat⟩ := Get_pivot_some_imp hg
    obtain ⟨hid, -⟩ := deleteEntry_found env d i rowID time s e hg
    rw [hn] at hnext
    refine ⟨⟨deleteRow_sorted hs h, ?_, ?_⟩, by rw [hnext], by rw [hnext]; omega⟩
    · intro v hv
      rw [hrows] at hv
      rw [hnext]
      rcases btree.mem_Set_imp hv with rfl | hv'
      · rw [hid]; exact hbound e he
      · exact hbound v hv'
    · intro a ha b hb hab
      rw [hrows] at ha hb
      have key : ∀ x ∈ btree.Set RowEntry.Less (HandleRowsDelete.entry env d i rowID time s)
          s.p.Rows, ∃ y ∈ s.p.Rows, y.ID = x.ID ∧ y.isAt x.BlockID x.RowID x.Time := by
        intro x hx
        rcases btree.mem_Set_imp hx with rfl | hx'
        · refine ⟨e, he, hid.symm, ?_⟩
          unfold RowEntry.isAt at *
          omega
        · exact ⟨x, hx', rfl, rfl, rfl, rfl⟩
      obtain ⟨a', ha', haid, haat⟩ := key a ha
      obtain ⟨b', hb', hbid, hbat⟩ := key b hb
      have := hdist a' ha' b' hb' (by rw [haid, hbid, hab])
      unfold RowEntry.isAt at *
      omega
  · obtain ⟨hid, -⟩ := deleteEntry_fresh env d i rowID time s hg
    rw [hn, hadd] at hnext
    rw [hadd] at hid
    refine ⟨⟨deleteRow_sorted hs h, ?_, ?_⟩, by rw [hnext]; omega, by rw [hnext]⟩
    · intro v hv
      rw [hrows] at hv
      rw [hnext]
      rcases btree.mem_Set_imp hv with rfl | hv'
      · rw [hid]
      · have := hbound v hv'
        omega
    · intro a ha b hb hab
      rw [hrows] at ha hb
      rcases btree.mem_Set_imp ha with rfl | ha'
      · rcases btree.mem_Set_imp hb with rfl | hb'
        · exact ⟨rfl, rfl, rfl⟩
        · have := hbound b hb'
          rw [hid] at hab
          omega
      · rcases btree.mem_Set_imp hb with rfl | hb'
        · have := hbound a ha'
          rw [hid] at hab
          omega
        · exact hdist a ha' b hb' hab

/-! ## What a data delete writes -/

theorem deleteRow_keeps_version_bytes {env : Env} {d : RowsDeleteInput} {i rowID : Nat}
    {s s' : St} (hs : btree.Sorted RowEntry.Less s.p.Rows)
    (h : HandleRowsDelete.row env d i rowID s = .ok s') (v : RowEntry) (hv : v ∈ s.p.Rows) :
    ∃ v' ∈ s'.p.Rows, v'.isAt v.BlockID v.RowID v.Time ∧ v'.ID = v.ID ∧
      v'.PrimaryIndexBytes = v.PrimaryIndexBytes := by
  obtain ⟨time, -, hrows, -⟩ := deleteRow_ok h
  have hat := deleteEntry_isAt env d i rowID time s
  by_cases hv' : v.isAt (env.blockIDFromRowID rowID) rowID time
  · have hg := Get_pivot_some_of_mem hs hv hv'
    obtain ⟨h1, h2⟩ := deleteEntry_found env d i rowID time s v hg
    refine ⟨HandleRowsDelete.entry env d i rowID time s, ?_, ?_, h1, h2⟩
    · rw [hrows]; exact btree.item_mem_Set _ _
    · unfold RowEntry.isAt at *
      omega
  · refine ⟨v, ?_, ⟨rfl, rfl, rfl⟩, rfl, rfl⟩
    rw [hrows, mem_Set_rows hs]
    right
    refine ⟨hv, ?_⟩
    unfold RowEntry.isAt at *
    omega

theorem HandleRowsDelete_loop {env : Env} {s s' : St} {input : Batch} {d : RowsDeleteInput}
    (hd : HandleRowsDelete.decode input = .ok d) (h : HandleRowsDelete env s input = .done s') :
    forRange (HandleRowsDelete.row env d) 0 d.rowIDVector s = .done s' := by
  unfold HandleRowsDelete at h
  rw [hd] at h
  exact h

/-- C17: a `HandleRowsDelete` call that returns leaves `PrimaryIndex`, `Blocks`
and `Checkpoints` unchanged; for each row `(r, t)` of the batch the version at
`(blockIDFromRowID(r), r, t)` afterwards has `Deleted = true`, has the `ID` and
the `PrimaryIndexBytes` of the version that was at the triple before the call
when there was one, and otherwise has empty `PrimaryIndexBytes` and, counter
overflow aside, an `ID` taken from the counter during the call; and the versions
at triples that the batch does not name are the ones that were there. -/
theorem HandleRowsDelete_marks_rows_and_keeps_the_rest (env : Env) (s s' : St) (input : Batch)
    (d : RowsDeleteInput) (hs : btree.Sorted RowEntry.Less s.p.Rows)
    (hd : HandleRowsDelete.decode input = .ok d)
    (h : HandleRowsDelete env s input = .done s') :
    s'.p.PrimaryIndex = s.p.PrimaryIndex ∧ s'.p.Blocks = s.p.Blocks ∧
    s'.p.Checkpoints = s.p.Checkpoints ∧
    (∀ i r t : Nat, d.rowIDVector[i]? = some r → d.timeVector[i]? = some t →
      ∃ v' ∈ s'.p.Rows, v'.isAt (env.blockIDFromRowID r) r t ∧ v'.Deleted = true ∧
        (∀ w ∈ s'.p.Rows, w.isAt (env.blockIDFromRowID r) r t → w = v') ∧
        (∀ v ∈ s.p.Rows, v.isAt (env.blockIDFromRowID r) r t →
          v'.ID = v.ID ∧ v'.PrimaryIndexBytes = v.PrimaryIndexBytes) ∧
        ((∀ v ∈ s.p.Rows, ¬ v.isAt (env.blockIDFromRowID r) r t) →
          v'.PrimaryIndexBytes = [] ∧
          (counterHasRoom s.nextRowEntryID d.rowIDVector.length →
            s.nextRowEntryID < v'.ID ∧ v'.ID ≤ s'.nextRowEntryID))) ∧
    (∀ v : RowEntry, (∀ i r t : Nat, d.rowIDVector[i]? = some r → d.timeVector[i]? = some t →
        ¬ v.isAt (env.blockIDFromRowID r) r t) →
      (v ∈ s'.p.Rows ↔ v ∈ s.p.Rows)) := by
  have hloop := HandleRowsDelete_loop hd h
  have hstate : (forRange (HandleRowsDelete.row env d) 0 d.rowIDVector s).state = s' := by
    rw [hloop]; rfl
  have hframe := forRange_invariant (HandleRowsDelete.row env d)
    (fun t => t.p.PrimaryIndex = s.p.PrimaryIndex ∧ t.p.Blocks = s.p.Blocks ∧
      t.p.Checkpoints = s.p.Checkpoints)
    (fun _ _ t t' hP hrow => by
      obtain ⟨_, -, -, h1, h2, h3, -⟩ := deleteRow_ok hrow
      rw [h1, h2, h3]
      exact hP) 0 d.rowIDVector s ⟨rfl, rfl, rfl⟩
  rw [hstate] at hframe
  have hs' : btree.Sorted RowEntry.Less s'.p.Rows := by
    have := forRange_invariant (HandleRowsDelete.row env d)
      (fun t => btree.Sorted RowEntry.Less t.p.Rows)
      (fun _ _ _ _ hP hrow => deleteRow_sorted hP hrow) 0 d.rowIDVector s hs
    rw [hstate] at this
    exact this
  refine ⟨hframe.1, hframe.2.1, hframe.2.2, ?_, ?_⟩
  · intro i r t hr ht
    obtain ⟨id, -, v', hv', hat', hdel', -⟩ :=
      HandleRowsDelete_marks env s s' input d i r t hs hd hr ht h
    have huniq : ∀ w ∈ s'.p.Rows, w.isAt (env.blockIDFromRowID r) r t → w = v' :=
      fun w hw hwat => isAt_unique hs' hw hv' hwat hat'
    refine ⟨v', hv', hat', hdel', huniq, ?_, ?_⟩
    · intro v hv hvat
      have := forRange_invariant (HandleRowsDelete.row env d)
        (fun u => btree.Sorted RowEntry.Less u.p.Rows ∧
          ∃ w ∈ u.p.Rows, w.isAt (env.blockIDFromRowID r) r t ∧ w.ID = v.ID ∧
            w.PrimaryIndexBytes = v.PrimaryIndexBytes)
        (fun _ _ u u' hP hrow => by
          obtain ⟨hsu, w, hw, hwat, hwid, hwb⟩ := hP
          obtain ⟨w', hw', hwat', hwid', hwb'⟩ := deleteRow_keeps_version_bytes hsu hrow w hw
          refine ⟨deleteRow_sorted hsu hrow, w', hw', ?_, by rw [hwid', hwid],
            by rw [hwb', hwb]⟩
          unfold RowEntry.isAt at *
          omega) 0 d.rowIDVector s ⟨hs, v, hv, hvat, rfl, rfl⟩
      rw [hstate] at this
      obtain ⟨-, w, hw, hwat, hwid, hwb⟩ := this
      rw [← huniq w hw hwat]
      exact ⟨hwid, hwb⟩
    · intro hnone
      constructor
      · have := forRange_invariant (HandleRowsDelete.row env d)
          (fun u => btree.Sorted RowEntry.Less u.p.Rows ∧
            ∀ w ∈ u.p.Rows, w.isAt (env.blockIDFromRowID r) r t → w.PrimaryIndexBytes = [])
          (fun j x u u' hP hrow => by
            obtain ⟨hsu, hall⟩ := hP
            refine ⟨deleteRow_sorted hsu hrow, ?_⟩
            obtain ⟨time, -, hrows, -⟩ := deleteRow_ok hrow
            intro w hw hwat
            rw [hrows] at hw
            rcases btree.mem_Set_imp hw with rfl | hw'
            · cases hg : btree.Get RowEntry.Less
                  { BlockID := env.blockIDFromRowID x, RowID := x, Time := time } u.p.Rows with
              | none => exact (deleteEntry_fresh env d j x time u hg).2
              | some e =>
                rw [(deleteEntry_found env d j x time u e hg).2]
                obtain ⟨he, heat⟩ := Get_pivot_some_imp hg
                have hent := deleteEntry_isAt env d j x time u
                refine hall e he ?_
                unfold RowEntry.isAt at *
                omega
            · exact hall w hw' hwat) 0 d.rowIDVector s
          ⟨hs, fun w hw hwat => absurd hwat (hnone w hw)⟩
        rw [hstate] at this
        exact this.2 v' hv' hat'
      · intro hroom
        have := forRange_invariant_indexed (HandleRowsDelete.row env d) d.rowIDVector
          (fun k u => btree.Sorted RowEntry.Less u.p.Rows ∧
            s.nextRowEntryID ≤ u.nextRowEntryID ∧ u.nextRowEntryID ≤ s.nextRowEntryID + k ∧
            ∀ w ∈ u.p.Rows, w.isAt (env.blockIDFromRowID r) r t →
              s.nextRowEntryID < w.ID ∧ w.ID ≤ u.nextRowEntryID) 0 s s'
          (fun k x u u' hx hP hrow => by
            obtain ⟨hsu, hlo, hhi, hall⟩ := hP
            have hk : k < d.rowIDVector.length := by
              rcases Nat.lt_or_ge k d.rowIDVector.length with hlt | hge
              · exact hlt
              · rw [List.getElem?_eq_none hge] at hx
                cases hx
            have hroomu : counterHasRoom u.nextRowEntryID (0 + 1) := by
              unfold counterHasRoom at hroom ⊢
              push_cast
              omega
            have hadd := atomicAddInt64_one hroomu
            obtain ⟨time, -, hrows, -, -, -, hnext⟩ := deleteRow_ok hrow
            rcases nextAfterRow_cases env x time u with ⟨e, hg, hn⟩ | ⟨hg, hn⟩
            · rw [hn] at hnext
              refine ⟨deleteRow_sorted hsu hrow, by rw [hnext]; exact hlo,
                by rw [hnext]; push_cast; omega, ?_⟩
              intro w hw hwat
              rw [hrows] at hw
              rw [hnext]
              rcases btree.mem_Set_imp hw with rfl | hw'
              · rw [(deleteEntry_found env d (0 + k) x time u e hg).1]
                obtain ⟨he, heat⟩ := Get_pivot_some_imp hg
                have hent := deleteEntry_isAt env d (0 + k) x time u
                refine hall e he ?_
                unfold RowEntry.isAt at *
                omega
              · exact hall w hw' hwat
            · rw [hn, hadd] at hnext
              refine ⟨deleteRow_sorted hsu hrow, by rw [hnext]; omega,
                by rw [hnext]; push_cast; omega, ?_⟩
              intro w hw hwat
              rw [hrows] at hw
              rw [hnext]
              rcases btree.mem_Set_imp hw with rfl | hw'
              · rw [(deleteEntry_fresh env d (0 + k) x time u hg).1, hadd]
                omega
              · have := hall w hw' hwat
                omega)
          ⟨hs, le_refl _, by simp, fun w hw hwat => absurd hwat (hnone w hw)⟩ hloop
        exact this.2.2.2 v' hv' hat'
  · intro v hun
    have := forRange_invariant_indexed (HandleRowsDelete.row env d) d.rowIDVector
      (fun _ u => btree.Sorted RowEntry.Less u.p.Rows ∧ (v ∈ u.p.Rows ↔ v ∈ s.p.Rows)) 0 s s'
      (fun k x u u' hx hP hrow => by
        obtain ⟨hsu, hiff⟩ := hP
        refine ⟨deleteRow_sorted hsu hrow, ?_⟩
        obtain ⟨time, htime, hrows, -⟩ := deleteRow_ok hrow
        simp only [Nat.zero_add] at htime
        have hent := deleteEntry_isAt env d (0 + k) x time u
        have hnot := hun k x time hx htime
        rw [← hiff, hrows, mem_Set_rows hsu]
        constructor
        · rintro (rfl | ⟨hv, -⟩)
          · exact absurd hent hnot
          · exact hv
        · intro hv
          refine Or.inr ⟨hv, ?_⟩
          unfold RowEntry.isAt at *
          omega)
      ⟨hs, Iff.rfl⟩ hloop
    exact this.2

theorem HandleRowsDelete_marks_rows_and_keeps_the_rest_witness :
    btree.Sorted RowEntry.Less afterInsertA.p.Rows ∧
    HandleRowsDelete.decode deleteTenAndTwenty = .ok deleteTenAndTwentyDecoded ∧
    HandleRowsDelete exampleEnv afterInsertA deleteTenAndTwenty =
      .done (HandleRowsDelete exampleEnv afterInsertA deleteTenAndTwenty).state ∧
    (HandleRowsDelete exampleEnv afterInsertA deleteTenAndTwenty).state.p.PrimaryIndex =
      afterInsertA.p.PrimaryIndex ∧
    (∃ v' ∈ (HandleRowsDelete exampleEnv afterInsertA deleteTenAndTwenty).state.p.Rows,
      v'.isAt (exampleEnv.blockIDFromRowID rowA) rowA 10 ∧ v'.Deleted = true ∧
      v'.ID = 2 ∧ v'.PrimaryIndexBytes = [107]) ∧
    (∃ v' ∈ (HandleRowsDelete exampleEnv afterInsertA deleteTenAndTwenty).state.p.Rows,
      v'.isAt (exampleEnv.blockIDFromRowID rowA) rowA 20 ∧ v'.Deleted = true ∧
      v'.ID = 3 ∧ v'.PrimaryIndexBytes = []) :=
  ⟨by decide, rfl, by decide,
   (HandleRowsDelete_marks_rows_and_keeps_the_rest exampleEnv afterInsertA _ deleteTenAndTwenty
     deleteTenAndTwentyDecoded (by decide) rfl (by decide)).1,
   by decide, by decide⟩

/-! ## The order of the primary-key index -/

theorem bytesCompare_eq_iff (a b : Bytes) : bytesCompare a b = .eq ↔ a = b := by
  induction a generalizing b with
  | nil => cases b <;> simp [bytesCompare]
  | cons x xs ih =>
    cases b with
    | nil => simp [bytesCompare]
    | cons y ys =>
      unfold bytesCompare
      split_ifs with h1 h2
      · simp only [List.cons.injEq, false_iff, not_and]
        intro hxy
        omega
      · simp only [List.cons.injEq, false_iff, not_and]
        intro hxy
        omega
      · rw [ih]
        have : x = y := by omega
        simp [this]

theorem bytesCompare_lt_iff_gt (a b : Bytes) : bytesCompare a b = .lt ↔ bytesCompare b a = .gt := by
  induction a generalizing b with
  | nil => cases b <;> simp [bytesCompare]
  | cons x xs ih =>
    cases b with
    | nil => simp [bytesCompare]
    | cons y ys =>
      unfold bytesCompare
      by_cases h1 : x < y
      · have h2 : ¬ y < x := by omega
        simp [h1, h2]
      · by_cases h2 : y < x
        · simp [h1, h2]
        · simp only [h1, h2, if_false]
          exact ih ys

/-- Two index entries that the order does not separate have the same key bytes
and the same row entry id. -/
theorem primaryIndexEntry_incomparable (a b : PrimaryIndexEntry) (h1 : a.Less b = false)
    (h2 : b.Less a = false) : a.Bytes = b.Bytes ∧ a.RowEntryID = b.RowEntryID := by
  unfold PrimaryIndexEntry.Less at h1 h2
  cases hab : bytesCompare a.Bytes b.Bytes with
  | lt => rw [hab] at h1; cases h1
  | gt =>
    have := (bytesCompare_lt_iff_gt b.Bytes a.Bytes).2 hab
    rw [this] at h2
    cases h2
  | eq =>
    have hb := (bytesCompare_eq_iff _ _).1 hab
    rw [hab] at h1
    rw [← hb, bytesCompare_self] at h2
    simp only [decide_eq_false_iff_not] at h1 h2
    exact ⟨hb, by omega⟩

/-! ## What a data insert writes to the primary-key index -/

theorem HandleRowsInsert_loop {env : Env} {s s' : St} {input : Batch} {primaryKeyIndex : Int}
    {d : RowsInsertInput} (hd : HandleRowsInsert.decode env input primaryKeyIndex = .ok d)
    (h : HandleRowsInsert env s input primaryKeyIndex = .done s') :
    forRange (HandleRowsInsert.row env d) 0 d.rowIDVector s = .done s' := by
  unfold HandleRowsInsert at h
  rw [hd] at h
  exact h

theorem ProtoBatchToBatch_ok {input batch : Batch} (h : ProtoBatchToBatch input = .ok batch) :
    batch = input := by
  unfold ProtoBatchToBatch at h
  split_ifs at h
  simp only [Except.ok.injEq] at h
  exact h.symm

/-- The key bytes that `HandleRowsInsert` decodes: none when the table has no
primary key, the encoded keys of the primary-key column otherwise. -/
theorem HandleRowsInsert_decode_keys {env : Env} {input : Batch} {primaryKeyIndex : Int}
    {d : RowsInsertInput} (hd : HandleRowsInsert.decode env input primaryKeyIndex = .ok d) :
    (primaryKeyIndex < 0 → d.primaryKeyBytesSet = []) ∧
    (0 ≤ primaryKeyIndex → ∃ col, input.Vecs[(2 + primaryKeyIndex).toNat]? = some col ∧
      d.primaryKeyBytesSet = env.encodePrimaryKeyVector col) := by
  unfold HandleRowsInsert.decode at hd
  cases h0 : mustVectorFromProto input.Vecs[0]? >>= MustFixedCol.rowid with
  | error w => rw [h0] at hd; cases hd
  | ok rowIDVector =>
    rw [h0] at hd
    simp only at hd
    cases h1 : mustVectorFromProto input.Vecs[1]? >>= MustFixedCol.ts with
    | error w => rw [h1] at hd; cases hd
    | ok timeVector =>
      rw [h1] at hd
      simp only at hd
      cases hb : ProtoBatchToBatch input with
      | error w => rw [hb] at hd; cases hd
      | ok batch =>
        rw [hb] at hd
        simp only at hd
        have hbatch := ProtoBatchToBatch_ok hb
        subst hbatch
        by_cases hpk : primaryKeyIndex ≥ 0
        · simp only [hpk, if_true] at hd
          cases hc : batch.Vecs[(2 + primaryKeyIndex).toNat]? with
          | none => rw [hc] at hd; cases hd
          | some col =>
            rw [hc] at hd
            simp only [Except.ok.injEq] at hd
            subst hd
            exact ⟨fun h => absurd h (by omega), fun _ => ⟨col, rfl, rfl⟩⟩
        · simp only [hpk, if_false, Except.ok.injEq] at hd
          subst hd
          exact ⟨fun _ => rfl, fun h => absurd h (by omega)⟩

theorem getElem?_lt_length {α : Type} {xs : List α} {k : Nat} {x : α} (h : xs[k]? = some x) :
    k < xs.length := by
  rcases Nat.lt_or_ge k xs.length with hlt | hge
  · exact hlt
  · rw [List.getElem?_eq_none hge] at h
    cases h

/-- The loop of `HandleRowsInsert` keeps the version ids in order, and the
counter grows by one for each row at most. -/
theorem insertLoop_keeps_IdsInOrder {env : Env} (d : RowsInsertInput) (xs : List Nat)
    (i n : Nat) (s0 s s' : St) (hn : i + xs.length ≤ n) (hroom : counterHasRoom s0.nextRowEntryID n)
    (hP : IdsInOrder s) (hlo : s0.nextRowEntryID ≤ s.nextRowEntryID)
    (hhi : s.nextRowEntryID ≤ s0.nextRowEntryID + i)
    (h : forRange (HandleRowsInsert.row env d) i xs s = .done s') :
    IdsInOrder s' ∧ s0.nextRowEntryID ≤ s'.nextRowEntryID ∧
      s'.nextRowEntryID ≤ s0.nextRowEntryID + (i + xs.length : Nat) := by
  have := forRange_invariant_indexed (HandleRowsInsert.row env d) xs
    (fun k t => IdsInOrder t ∧ s0.nextRowEntryID ≤ t.nextRowEntryID ∧
      t.nextRowEntryID ≤ s0.nextRowEntryID + (i + k : Nat)) i s s'
    (fun k x t t' hx hQ hrow => by
      obtain ⟨hI, h1, h2⟩ := hQ
      have hk := getElem?_lt_length hx
      have hroomt : counterHasRoom t.nextRowEntryID (0 + 1) := by
        unfold counterHasRoom at hroom ⊢
        push_cast at h2 ⊢
        omega
      obtain ⟨hI', h3, h4⟩ := insertRow_keeps_IdsInOrder d (i + k) x t t' 0 hroomt hI hrow
      refine ⟨hI', by omega, ?_⟩
      push_cast at h2 ⊢
      omega)
    ⟨hP, hlo, by simpa using hhi⟩ h
  exact this

/-- C16: after a `HandleRowsInsert` call that returns, on a state whose version
ids are in order and whose counter does not overflow during the call, for
every row `i` of the batch whose encoded primary key is non-empty,
`PrimaryIndex` contains the entry with `Bytes` = that key, `RowEntryID` = the
`ID` of the row version stored at the row's triple,
`BlockID = blockIDFromRowID(rowID_i)` and `RowID = rowID_i`; every entry of
`PrimaryIndex` was there before or is the entry of a row with a non-empty key;
when `primaryKeyIndex < 0` the index is unchanged; and when
`primaryKeyIndex >= 0` the keys are the encoded keys of column
`2 + primaryKeyIndex`. -/
theorem HandleRowsInsert_writes_key_entries (env : Env) (s s' : St) (input : Batch)
    (primaryKeyIndex : Int) (d : RowsInsertInput) (hP : IdsInOrder s)
    (hroom : counterHasRoom s.nextRowEntryID d.rowIDVector.length)
    (hd : HandleRowsInsert.decode env input primaryKeyIndex = .ok d)
    (h : HandleRowsInsert env s input primaryKeyIndex = .done s') :
    (∀ (i rowID time : Nat) (key : Bytes), d.rowIDVector[i]? = some rowID →
      d.timeVector[i]? = some time → d.primaryKeyBytesSet[i]? = some key → key ≠ [] →
      ∃ v ∈ s'.p.Rows, v.isAt (env.blockIDFromRowID rowID) rowID time ∧
        keyEntry env key v.ID rowID ∈ s'.p.PrimaryIndex) ∧
    (∀ e ∈ s'.p.PrimaryIndex, e ∈ s.p.PrimaryIndex ∨
      ∃ (i rowID : Nat) (key : Bytes), d.rowIDVector[i]? = some rowID ∧
        d.primaryKeyBytesSet[i]? = some key ∧ key ≠ [] ∧ e.Bytes = key ∧
        e.BlockID = env.blockIDFromRowID rowID ∧ e.RowID = rowID) ∧
    (primaryKeyIndex < 0 → s'.p.PrimaryIndex = s.p.PrimaryIndex) ∧
    (0 ≤ primaryKeyIndex → ∃ col, input.Vecs[(2 + primaryKeyIndex).toNat]? = some col ∧
      d.primaryKeyBytesSet = env.encodePrimaryKeyVector col) := by
  have hloop := HandleRowsInsert_loop hd h
  refine ⟨?_, ?_, ?_, (HandleRowsInsert_decode_keys hd).2⟩
  · intro i rowID time key hr ht hk hne
    obtain ⟨s1, s2, h1, h2, h3⟩ := forRange_done_getElem _ 0 i _ rowID s s' hloop hr
    simp only [Nat.zero_add] at h2 h3
    have hi := getElem?_lt_length hr
    have htake : (d.rowIDVector.take i).length = i := by
      rw [List.length_take]
      omega
    have hdrop : (d.rowIDVector.drop (i + 1)).length = d.rowIDVector.length - (i + 1) := by
      rw [List.length_drop]
    -- the rows before row `i`
    obtain ⟨hI1, hlo1, hhi1⟩ := insertLoop_keeps_IdsInOrder d (d.rowIDVector.take i) 0
      d.rowIDVector.length s s s1 (by rw [htake]; omega) hroom hP (le_refl _) (by simp) h1
    rw [htake] at hhi1
    -- row `i`
    have hroom1 : counterHasRoom s1.nextRowEntryID (0 + 1) := by
      unfold counterHasRoom at hroom ⊢
      push_cast at hhi1 ⊢
      omega
    obtain ⟨hI2, hlo2, hhi2⟩ := insertRow_keeps_IdsInOrder d i rowID s1 s2 0 hroom1 hI1 h2
    obtain ⟨time', htime', hrows2, hpidx2, -⟩ := insertRow_ok h2
    rw [ht] at htime'
    simp only [Option.some.injEq] at htime'
    subst htime'
    obtain ⟨hklt, hkey⟩ := List.getElem?_eq_some.1 hk
    have hat := insertEntry_isAt env d i rowID time s1
    have hv2 : HandleRowsInsert.entry env d i rowID time s1 ∈ s2.p.Rows := by
      rw [hrows2]; exact btree.item_mem_Set _ _
    have hlen : (d.primaryKeyBytesSet[i]).length > 0 := by
      rw [hkey]
      exact List.length_pos.2 hne
    have he2 : keyEntry env key (HandleRowsInsert.entry env d i rowID time s1).ID rowID
        ∈ s2.p.PrimaryIndex := by
      rw [hpidx2]
      simp only [hklt, dite_true, hkey]
      rw [if_pos (List.length_pos.2 hne)]
      exact btree.item_mem_Set _ _
    -- the rows after row `i`
    have := forRange_invariant_indexed (HandleRowsInsert.row env d) (d.rowIDVector.drop (i + 1))
      (fun k t => (IdsInOrder t ∧ s.nextRowEntryID ≤ t.nextRowEntryID ∧
          t.nextRowEntryID ≤ s.nextRowEntryID + (i + 1 + k : Nat)) ∧
        (∃ v ∈ t.p.Rows, v.isAt (env.blockIDFromRowID rowID) rowID time ∧
          v.ID = (HandleRowsInsert.entry env d i rowID time s1).ID) ∧
        keyEntry env key (HandleRowsInsert.entry env d i rowID time s1).ID rowID
          ∈ t.p.PrimaryIndex) (i + 1) s2 s'
      (fun k x t t' hx hQ hrow => by
        obtain ⟨⟨hI, hlo, hhi⟩, ⟨v, hv, hvat, hvid⟩, he⟩ := hQ
        have hkk := getElem?_lt_length hx
        rw [hdrop] at hkk
        have hroomt : counterHasRoom t.nextRowEntryID (0 + 1) := by
          unfold counterHasRoom at hroom ⊢
          push_cast at hhi ⊢
          omega
        obtain ⟨hI', hlo', hhi'⟩ := insertRow_keeps_IdsInOrder d (i + 1 + k) x t t' 0 hroomt hI
          hrow
        obtain ⟨v', hv', hvat', hvid', -⟩ := insertRow_keeps_version hI.1 hrow v hv
        have hv'at : v'.isAt (env.blockIDFromRowID rowID) rowID time := by
          unfold RowEntry.isAt at *
          omega
        refine ⟨⟨hI', by omega, by push_cast at hhi ⊢; omega⟩,
          ⟨v', hv', hv'at, by rw [hvid', hvid]⟩, ?_⟩
        obtain ⟨timex, -, hrowsx, hpidx, -⟩ := insertRow_ok hrow
        rw [hpidx]
        split_ifs with hj hjlen
        · -- the row writes an index entry of its own
          show keyEntry env key (HandleRowsInsert.entry env d i rowID time s1).ID rowID ∈
            btree.Set PrimaryIndexEntry.Less
              (keyEntry env d.primaryKeyBytesSet[i + 1 + k]
                (HandleRowsInsert.entry env d (i + 1 + k) x timex t).ID x) t.p.PrimaryIndex
          cases hc1 : PrimaryIndexEntry.Less
              (keyEntry env key (HandleRowsInsert.entry env d i rowID time s1).ID rowID)
              (keyEntry env d.primaryKeyBytesSet[i + 1 + k]
                (HandleRowsInsert.entry env d (i + 1 + k) x timex t).ID x) with
          | true => exact btree.mem_Set_of_mem he (Or.inl hc1)
          | false =>
            cases hc2 : PrimaryIndexEntry.Less
                (keyEntry env d.primaryKeyBytesSet[i + 1 + k]
                  (HandleRowsInsert.entry env d (i + 1 + k) x timex t).ID x)
                (keyEntry env key (HandleRowsInsert.entry env d i rowID time s1).ID rowID) with
            | true => exact btree.mem_Set_of_mem he (Or.inr hc2)
            | false =>
              obtain ⟨hbytes, hids⟩ := primaryIndexEntry_incomparable _ _ hc1 hc2
              simp only [keyEntry] at hbytes hids
              -- the two rows wrote the same version, so they name the same row id
              have hxin : HandleRowsInsert.entry env d (i + 1 + k) x timex t ∈ t'.p.Rows := by
                rw [hrowsx]; exact btree.item_mem_Set _ _
              have hxat := insertEntry_isAt env d (i + 1 + k) x timex t
              have hsame := hI'.2.2 _ hxin v' hv' (by rw [← hids, hvid', hvid])
              have hxr : x = rowID := by
                unfold RowEntry.isAt at *
                omega
              subst hxr
              rw [← hbytes, ← hids]
              exact btree.item_mem_Set _ _
        · exact he
        · exact he)
      ⟨⟨hI2, by omega, by push_cast at hhi1 ⊢; omega⟩, ⟨_, hv2, hat, rfl⟩, he2⟩ h3
    obtain ⟨-, ⟨v, hv, hvat, hvid⟩, he⟩ := this
    refine ⟨v, hv, hvat, ?_⟩
    rw [hvid]
    exact he
  · have := forRange_invariant_indexed (HandleRowsInsert.row env d) d.rowIDVector
      (fun _ t => ∀ e ∈ t.p.PrimaryIndex, e ∈ s.p.PrimaryIndex ∨
        ∃ (i rowID : Nat) (key : Bytes), d.rowIDVector[i]? = some rowID ∧
          d.primaryKeyBytesSet[i]? = some key ∧ key ≠ [] ∧ e.Bytes = key ∧
          e.BlockID = env.blockIDFromRowID rowID ∧ e.RowID = rowID) 0 s s'
      (fun k x t t' hx hQ hrow => by
        obtain ⟨timex, -, -, hpidx, -⟩ := insertRow_ok hrow
        simp only [Nat.zero_add] at hpidx
        rw [hpidx]
        split_ifs with hj hjlen
        · intro e he
          rcases btree.mem_Set_imp he with rfl | he'
          · refine Or.inr ⟨k, x, d.primaryKeyBytesSet[k], hx, ?_, ?_, rfl, rfl, rfl⟩
            · exact List.getElem?_eq_getElem hj
            · intro hnil
              rw [hnil] at hjlen
              simp at hjlen
          · exact hQ e he'
        · exact hQ
        · exact hQ)
      (fun e he => Or.inl he) hloop
    exact this
  · intro hneg
    have hkeys := (HandleRowsInsert_decode_keys hd).1 hneg
    have := forRange_invariant (HandleRowsInsert.row env d)
      (fun t => t.p.PrimaryIndex = s.p.PrimaryIndex)
      (fun k x t t' hQ hrow => by
        obtain ⟨timex, -, -, hpidx, -⟩ := insertRow_ok hrow
        rw [hpidx, ← hQ]
        simp [hkeys]) 0 d.rowIDVector s rfl
    rw [hloop] at this
    exact this

theorem HandleRowsInsert_writes_key_entries_witness :
    IdsInOrder afterInsertA ∧
    counterHasRoom afterInsertA.nextRowEntryID insertADecoded.rowIDVector.length ∧
    HandleRowsInsert.decode exampleEnv insertA 0 = .ok insertADecoded ∧
    HandleRowsInsert exampleEnv afterInsertA insertA 0 =
      .done (HandleRowsInsert exampleEnv afterInsertA insertA 0).state ∧
    ∃ v ∈ (HandleRowsInsert exampleEnv afterInsertA insertA 0).state.p.Rows,
      v.isAt (exampleEnv.blockIDFromRowID rowA) rowA 10 ∧
        keyEntry exampleEnv [107] v.ID rowA ∈
          (HandleRowsInsert exampleEnv afterInsertA insertA 0).state.p.PrimaryIndex :=
  ⟨by unfold IdsInOrder; decide, by decide, rfl, by decide,
   (HandleRowsInsert_writes_key_entries exampleEnv afterInsertA _ insertA 0 insertADecoded
     (by unfold IdsInOrder; decide) (by decide) rfl (by decide)).1 0 rowA 10 [107] rfl rfl rfl
     (by decide)⟩

/-! ## Invariants of checked runs -/

theorem HandleLogtailEntry_invariant_checked (env : Env) (c : RowChecks) (P : St → Prop)
    (hins : ∀ d i x s s', P s → c.rowsInsert d i x s = true →
      HandleRowsInsert.row env d i x s = .ok s' → P s')
    (hdel : ∀ d i x s s', P s → c.rowsDelete d i x s = true →
      HandleRowsDelete.row env d i x s = .ok s' → P s')
    (hmi : ∀ d i x s s', P s → c.metadataInsert d i x s = true →
      HandleMetadataInsert.row d i x s = .ok s' → P s')
    (hmd : ∀ d i x s s', P s → c.metadataDelete d i x s = true →
      HandleMetadataDelete.row env d i x s = .ok s' → P s')
    (s : St) (entry : Entry) (primaryKeyIndex : Int) (h : P s)
    (hk : rowsChecked env c s entry primaryKeyIndex = true) :
    P (HandleLogtailEntry env s entry primaryKeyIndex).state := by
  unfold HandleLogtailEntry
  unfold rowsChecked at hk
  cases hty : entry.EntryType with
  | Insert =>
    rw [hty] at hk
    simp only at hk ⊢
    split_ifs with hmeta
    · unfold HandleMetadataInsert
      simp only [hmeta, if_true] at hk
      cases hd : HandleMetadataInsert.decode entry.Bat with
      | error why => exact h
      | ok d =>
        rw [hd] at hk
        exact forRange_invariant_checked _ _ P (hmi d) 0 _ s h hk
    · unfold HandleRowsInsert
      simp only [hmeta, Bool.false_eq_true, if_false] at hk
      cases hd : HandleRowsInsert.decode env entry.Bat primaryKeyIndex with
      | error why => exact h
      | ok d =>
        rw [hd] at hk
        exact forRange_invariant_checked _ _ P (hins d) 0 _ s h hk
  | Delete =>
    rw [hty] at hk
    simp only at hk ⊢
    split_ifs with hmeta
    · unfold HandleMetadataDelete
      simp only [hmeta, if_true] at hk
      cases hd : HandleMetadataDelete.decode entry.Bat with
      | error why => exact h
      | ok d =>
        rw [hd] at hk
        exact forRange_invariant_checked _ _ P (hmd d) 0 _ s h hk
    · unfold HandleRowsDelete
      simp only [hmeta, Bool.false_eq_true, if_false] at hk
      cases hd : HandleRowsDelete.decode entry.Bat with
      | error why => exact h
      | ok d =>
        rw [hd] at hk
        exact forRange_invariant_checked _ _ P (hdel d) 0 _ s h hk
  | Update => exact h

theorem ReachableChecked.invariant {env : Env} {c : RowChecks} (P : St → Prop)
    (h0 : ∀ next, P { nextRowEntryID := next, p := NewPartitionState })
    (hins : ∀ d i x s s', P s → c.rowsInsert d i x s = true →
      HandleRowsInsert.row env d i x s = .ok s' → P s')
    (hdel : ∀ d i x s s', P s → c.rowsDelete d i x s = true →
      HandleRowsDelete.row env d i x s = .ok s' → P s')
    (hmi : ∀ d i x s s', P s → c.metadataInsert d i x s = true →
      HandleMetadataInsert.row d i x s = .ok s' → P s')
    (hmd : ∀ d i x s s', P s → c.metadataDelete d i x s = true →
      HandleMetadataDelete.row env d i x s = .ok s' → P s')
    {s : St} (h : ReachableChecked env c s) : P s := by
  induction h with
  | init next => exact h0 next
  | step s entry primaryKeyIndex _ hk ih =>
    exact HandleLogtailEntry_invariant_checked env c P hins hdel hmi hmd s entry
      primaryKeyIndex ih hk

/-! ## Create and delete times of blocks -/

theorem metaInsertRow_keeps_TimesInOrder (d : MetadataInsertInput) (i blockID : Nat)
    (s s' : St) (hP : TimesInOrder s)
    (hc : HandleMetadataInsert.createdInTime d i blockID s = true)
    (h : HandleMetadataInsert.row d i blockID s = .ok s') : TimesInOrder s' := by
  obtain ⟨r, hcells, -, hblocks, -, -⟩ := metaInsertRow_ok h
  simp only [HandleMetadataInsert.createdInTime, hcells, Bool.or_eq_true] at hc
  obtain ⟨entry, hentry, hmem⟩ : ∃ entry,
      (btree.Get BlockEntry.Less { BlockID := blockID } s.p.Blocks).getD { BlockID := blockID }
        = entry ∧ (entry ∈ s.p.Blocks ∨ entry.DeleteTime = 0) := by
    cases hg : btree.Get BlockEntry.Less { BlockID := blockID } s.p.Blocks with
    | none => exact ⟨_, rfl, Or.inr rfl⟩
    | some e => exact ⟨_, rfl, Or.inl (btree.Get_eq_some_imp hg).1⟩
  rw [hentry] at hblocks hc
  intro b hb hcre hdel
  rw [hblocks] at hb
  rcases btree.mem_Set_imp hb with rfl | hb'
  · rw [merge_eq] at hcre hdel ⊢
    simp only at hcre hdel ⊢
    by_cases hr : r.createTime = 0
    · simp only [hr, if_true] at hcre ⊢
      rcases hmem with hmem | hmem
      · exact hP entry hmem hcre hdel
      · simp [TS.IsEmpty, hmem] at hdel
    · simp only [hr, if_false] at hcre ⊢
      rcases hc with (hc | hc) | hc
      · simp [TS.IsEmpty, hr] at hc
      · rw [hc] at hdel
        cases hdel
      · exact hc
  · exact hP b hb' hcre hdel

theorem metaDeleteRow_keeps_TimesInOrder {env : Env} (d : MetadataDeleteInput) (i rowID : Nat)
    (s s' : St) (hP : TimesInOrder s)
    (hc : HandleMetadataDelete.deletedInTime env d i rowID s = true)
    (h : HandleMetadataDelete.row env d i rowID s = .ok s') : TimesInOrder s' := by
  obtain ⟨entry, deleteTime, hg, ht, -, hblocks, -, -, -⟩ := metaDeleteRow_ok h
  intro b hb hcre hdel
  rw [hblocks] at hb
  rcases btree.mem_Set_imp hb with rfl | hb'
  · simp only [HandleMetadataDelete.deletedInTime, hg, ht, Bool.or_eq_true] at hc
    simp only at hcre hdel ⊢
    rcases hc with (hc | hc) | hc
    · rw [hc] at hdel
      cases hdel
    · rw [hc] at hcre
      cases hcre
    · exact hc
  · exact hP b hb' hcre hdel

/-- C19 (counterexample): a metadata-insert that creates block 9 at time 10
followed by a metadata-delete that names block 9 with the delete time 5 both
return, and the block entry stored afterwards has both times non-empty and
`CreateTime = 10 > DeleteTime = 5`. -/
theorem block_deleted_before_it_was_created :
    Reachable exampleEnv (applyEntries exampleEnv {} lateCreateRun).state ∧
    (applyEntries exampleEnv {} lateCreateRun).failed = false ∧
    ∃ b ∈ (applyEntries exampleEnv {} lateCreateRun).state.p.Blocks,
      TS.IsEmpty b.CreateTime = false ∧ TS.IsEmpty b.DeleteTime = false ∧
        b.CreateTime = 10 ∧ b.DeleteTime = 5 ∧ TS.LessEq b.CreateTime b.DeleteTime = false :=
  ⟨Reachable.applyEntries_state (Reachable.init 1) lateCreateRun, by decide, by decide⟩

/-- C19 (amended): in every partition state reached from `NewPartitionState()`
by `HandleLogtailEntry` calls in which each metadata-delete row carries a delete
time that is empty or not before the non-empty `CreateTime` stored for its
block, and each metadata-insert row carries a create time that is empty or not
after the non-empty `DeleteTime` stored for its block, every block entry whose
`CreateTime` and `DeleteTime` are both non-empty has `CreateTime <= DeleteTime`.
The handlers themselves compare no times. -/
theorem ordered_times_stay_ordered (env : Env) (s : St)
    (h : ReachableChecked env (timesInOrder env) s) :
    ∀ b ∈ s.p.Blocks, TS.IsEmpty b.CreateTime = false → TS.IsEmpty b.DeleteTime = false →
      TS.LessEq b.CreateTime b.DeleteTime = true := by
  have := ReachableChecked.invariant TimesInOrder
    (fun next b hb => by cases hb)
    (fun d i x s s' hP _ hrow => by
      obtain ⟨_, -, -, -, hb, -, -⟩ := insertRow_ok hrow
      unfold TimesInOrder at hP ⊢
      rw [hb]
      exact hP)
    (fun d i x s s' hP _ hrow => by
      obtain ⟨_, -, -, -, hb, -, -⟩ := deleteRow_ok hrow
      unfold TimesInOrder at hP ⊢
      rw [hb]
      exact hP)
    (fun d i x s s' hP hc hrow => metaInsertRow_keeps_TimesInOrder d i x s s' hP hc hrow)
    (fun d i x s s' hP hc hrow => metaDeleteRow_keeps_TimesInOrder d i x s s' hP hc hrow) h
  exact this

theorem ordered_times_stay_ordered_witness :
    ReachableChecked exampleEnv (timesInOrder exampleEnv)
      (HandleLogtailEntry exampleEnv blockNineCreated ⟨.Delete, "meta", deleteNine⟩ 0).state ∧
    (HandleLogtailEntry exampleEnv blockNineCreated ⟨.Delete, "meta", deleteNine⟩ 0).state.p.Blocks
      = [{ BlockID := 9, MetaLoc := "m1", CommitTs := 10, CreateTime := 10, DeleteTime := 20 }] ∧
    ∀ b ∈ (HandleLogtailEntry exampleEnv blockNineCreated
        ⟨.Delete, "meta", deleteNine⟩ 0).state.p.Blocks,
      TS.IsEmpty b.CreateTime = false → TS.IsEmpty b.DeleteTime = false →
        TS.LessEq b.CreateTime b.DeleteTime = true :=
  ⟨ReachableChecked.step _ _ _ (ReachableChecked.step _ _ _ (ReachableChecked.init 1)
      (by decide)) (by decide), by decide,
   ordered_times_stay_ordered exampleEnv _
     (ReachableChecked.step _ _ _ (ReachableChecked.step _ _ _ (ReachableChecked.init 1)
       (by decide)) (by decide))⟩

/-! ## Promoted blocks and their row versions -/

theorem promoted_of_mem {p : PartitionState} {b : BlockEntry} (hb : b ∈ p.Blocks)
    (hE : b.EntryState = true) : p.promoted b.BlockID = true := by
  unfold PartitionState.promoted
  rw [List.any_eq_true]
  exact ⟨b, hb, by simp [hE]⟩

theorem insertRow_keeps_PromotedBlocksCompacted {env : Env} (d : RowsInsertInput)
    (i rowID : Nat) (s s' : St) (hP : PromotedBlocksCompacted s)
    (hc : (!s.p.promoted (env.blockIDFromRowID rowID)) = true)
    (h : HandleRowsInsert.row env d i rowID s = .ok s') : PromotedBlocksCompacted s' := by
  obtain ⟨hs, hblk⟩ := hP
  refine ⟨insertRow_sorted hs h, ?_⟩
  obtain ⟨time, -, hrows, -, hblocks, -, -⟩ := insertRow_ok h
  intro b hb hE v hv hvB
  rw [hblocks] at hb
  rw [hrows] at hv
  rcases btree.mem_Set_imp hv with rfl | hv'
  · have hat := insertEntry_isAt env d i rowID time s
    have := promoted_of_mem hb hE
    rw [← hvB, hat.1] at this
    rw [this] at hc
    cases hc
  · exact hblk b hb hE v hv' hvB

theorem deleteRow_keeps_PromotedBlocksCompacted {env : Env} (d : RowsDeleteInput)
    (i rowID : Nat) (s s' : St) (hP : PromotedBlocksCompacted s)
    (hc : (!s.p.promoted (env.blockIDFromRowID rowID)) = true)
    (h : HandleRowsDelete.row env d i rowID s = .ok s') : PromotedBlocksCompacted s' := by
  obtain ⟨hs, hblk⟩ := hP
  refine ⟨deleteRow_sorted hs h, ?_⟩
  obtain ⟨time, -, hrows, -, hblocks, -, -⟩ := deleteRow_ok h
  intro b hb hE v hv hvB
  rw [hblocks] at hb
  rw [hrows] at hv
  rcases btree.mem_Set_imp hv with rfl | hv'
  · have hat := deleteEntry_isAt env d i rowID time s
    have := promoted_of_mem hb hE
    rw [← hvB, hat.1] at this
    rw [this] at hc
    cases hc
  · exact hblk b hb hE v hv' hvB

theorem metaInsertRow_keeps_PromotedBlocksCompacted (d : MetadataInsertInput)
    (i blockID : Nat) (s s' : St) (hP : PromotedBlocksCompacted s)
    (h : HandleMetadataInsert.row d i blockID s = .ok s') : PromotedBlocksCompacted s' := by
  obtain ⟨hs, hblk⟩ := hP
  refine ⟨metaInsertRow_sorted hs h, ?_⟩
  obtain ⟨r, hcells, -, hblocks, -, -⟩ := metaInsertRow_ok h
  intro b hb hE v hv hvB
  rw [hblocks] at hb
  rcases btree.mem_Set_imp hb with rfl | hb'
  · rw [merge_BlockID, getD_pivot_BlockID] at hvB
    have hr : r.entryState = true := by
      rw [merge_eq] at hE
      exact hE
    obtain ⟨r', q, hcells', -, hq1, -, -, -, hp⟩ := metaInsertRow_eq h
    rw [hcells] at hcells'
    simp only [Option.some.injEq] at hcells'
    subst hcells'
    rw [hp] at hv
    simp only [hr, if_true] at hv
    exact deleteLoop_Rows_block blockID q (by rw [hq1]; exact hs) v hv hvB
  · exact hblk b hb' hE v ((metaInsertRow_Rows_sublist h).subset hv) hvB

theorem metaDeleteRow_keeps_PromotedBlocksCompacted {env : Env} (d : MetadataDeleteInput)
    (i rowID : Nat) (s s' : St) (hP : PromotedBlocksCompacted s)
    (h : HandleMetadataDelete.row env d i rowID s = .ok s') : PromotedBlocksCompacted s' := by
  obtain ⟨hs, hblk⟩ := hP
  refine ⟨metaDeleteRow_sorted hs h, ?_⟩
  obtain ⟨entry, deleteTime, hg, -, -, hblocks, hrows, -, -⟩ := metaDeleteRow_ok h
  intro b hb hE v hv hvB
  rw [hblocks] at hb
  rw [hrows] at hv
  rcases btree.mem_Set_imp hb with rfl | hb'
  · exact hblk entry (btree.Get_eq_some_imp hg).1 hE v hv hvB
  · exact hblk b hb' hE v hv hvB

/-- C18 (counterexample): block 1 is promoted by a metadata-insert with
`entry_state = true`, then a data-insert of `rowA` of block 1 at time 10
arrives; both calls return, the block entry still has `EntryState = true`, and
`Rows` holds the version of block 1. -/
theorem row_inserted_after_promotion_is_stored :
    Reachable exampleEnv (applyEntries exampleEnv {} insertAfterPromotionRun).state ∧
    (applyEntries exampleEnv {} insertAfterPromotionRun).failed = false ∧
    ∃ b ∈ (applyEntries exampleEnv {} insertAfterPromotionRun).state.p.Blocks,
      b.EntryState = true ∧
        ∃ v ∈ (applyEntries exampleEnv {} insertAfterPromotionRun).state.p.Rows,
          v.BlockID = b.BlockID ∧ v.RowID = rowA ∧ v.Time = 10 :=
  ⟨Reachable.applyEntries_state (Reachable.init 1) insertAfterPromotionRun, by decide,
   by decide⟩

/-- C18 (amended): in every partition state reached from `NewPartitionState()`
by `HandleLogtailEntry` calls in which no data-insert or data-delete row names a
row id whose block is stored with `EntryState = true` when the row is applied,
for each block entry with `EntryState = true`, `Rows` contains no row version
whose `BlockID` is that block's id, other than versions of the zero row id with
a non-zero time (which the compaction of `HandleMetadataInsert` does not
visit). The data handlers themselves do not look at `Blocks`. -/
theorem promoted_blocks_hold_no_row_versions (env : Env) (s : St)
    (h : ReachableChecked env (sparesPromoted env) s) :
    ∀ b ∈ s.p.Blocks, b.EntryState = true →
      ∀ v ∈ s.p.Rows, v.BlockID = b.BlockID → v.RowID = 0 ∧ 0 < v.Time := by
  have := ReachableChecked.invariant PromotedBlocksCompacted
    (fun next => ⟨btree.sorted_nil, fun b hb => by cases hb⟩)
    (fun d i x s s' hP hc hrow => insertRow_keeps_PromotedBlocksCompacted d i x s s' hP hc hrow)
    (fun d i x s s' hP hc hrow => deleteRow_keeps_PromotedBlocksCompacted d i x s s' hP hc hrow)
    (fun d i x s s' hP _ hrow => metaInsertRow_keeps_PromotedBlocksCompacted d i x s s' hP hrow)
    (fun d i x s s' hP _ hrow => metaDeleteRow_keeps_PromotedBlocksCompacted d i x s s' hP hrow)
    h
  exact this.2

theorem promoted_blocks_hold_no_row_versions_witness :
    ReachableChecked exampleEnv (sparesPromoted exampleEnv) afterPromoteOne ∧
    afterInsertA.p.Rows.length = 1 ∧
    (∃ b ∈ afterPromoteOne.p.Blocks, b.BlockID = 1 ∧ b.EntryState = true) ∧
    afterPromoteOne.p.Rows = [] ∧
    ∀ b ∈ afterPromoteOne.p.Blocks, b.EntryState = true →
      ∀ v ∈ afterPromoteOne.p.Rows, v.BlockID = b.BlockID → v.RowID = 0 ∧ 0 < v.Time :=
  ⟨ReachableChecked.step _ _ _ (ReachableChecked.step _ _ _ (ReachableChecked.init 1)
      (by decide)) (by decide), by decide, by decide, by decide,
   promoted_blocks_hold_no_row_versions exampleEnv afterPromoteOne
     (ReachableChecked.step _ _ _ (ReachableChecked.step _ _ _ (ReachableChecked.init 1)
       (by decide)) (by decide))⟩

/-! ## Two inserts of one row -/

theorem two_inserts_row_exists (env : Env) (next : Int) (r t1 t2 ts : Nat) (hne : t1 ≠ t2)
    (a b : Entry) (pka pkb : Int) (da db : RowsInsertInput)
    (haty : a.EntryType = .Insert) (hameta : env.isMetaTable a.TableName = false)
    (hadec : HandleRowsInsert.decode env a.Bat pka = .ok da)
    (har : da.rowIDVector = [r]) (hat : da.timeVector = [t1])
    (hbty : b.EntryType = .Insert) (hbmeta : env.isMetaTable b.TableName = false)
    (hbdec : HandleRowsInsert.decode env b.Bat pkb = .ok db)
    (hbr : db.rowIDVector = [r]) (hbt : db.timeVector = [t2]) :
    ∃ s, applyEntries env { nextRowEntryID := next, p := NewPartitionState }
        [(a, pka), (b, pkb)] = .done s ∧
      (s.p.RowExists env r ts = true ↔ t1 ≤ ts ∨ t2 ≤ ts) := by
  obtain ⟨s1, hrow1⟩ := insertRow_returns env da 0 r t1
    { nextRowEntryID := next, p := NewPartitionState } (by rw [hat]; rfl)
  obtain ⟨s2, hrow2⟩ := insertRow_returns env db 0 r t2 s1 (by rw [hbt]; rfl)
  have hstep1 : HandleLogtailEntry env { nextRowEntryID := next, p := NewPartitionState } a pka
      = .done s1 := by
    unfold HandleLogtailEntry HandleRowsInsert
    rw [haty]
    simp only [hameta, Bool.false_eq_true, if_false, hadec, har]
    exact forRange_singleton _ 0 r _ s1 hrow1
  have hstep2 : HandleLogtailEntry env s1 b pkb = .done s2 := by
    unfold HandleLogtailEntry HandleRowsInsert
    rw [hbty]
    simp only [hbmeta, Bool.false_eq_true, if_false, hbdec, hbr]
    exact forRange_singleton _ 0 r _ s2 hrow2
  refine ⟨s2, by simp [applyEntries, hstep1, hstep2], ?_⟩
  obtain ⟨time1, htime1, hrows1, -⟩ := insertRow_ok hrow1
  rw [hat] at htime1
  simp only [List.getElem?_cons_zero, Option.some.injEq] at htime1
  subst htime1
  obtain ⟨time2, htime2, hrows2, -⟩ := insertRow_ok hrow2
  rw [hbt] at htime2
  simp only [List.getElem?_cons_zero, Option.some.injEq] at htime2
  subst htime2
  have hnew : ({ nextRowEntryID := next, p := NewPartitionState } : St).p.Rows = [] := rfl
  have hget1 : btree.Get RowEntry.Less
      { BlockID := env.blockIDFromRowID r, RowID := r, Time := t1 }
      ({ nextRowEntryID := next, p := NewPartitionState } : St).p.Rows = none := by
    rw [hnew]; rfl
  have he1at := insertEntry_isAt env da 0 r t1 { nextRowEntryID := next, p := NewPartitionState }
  have he1del := (insertEntry_fresh env da 0 r t1 _ hget1).2.1
  have hs1 : btree.Sorted RowEntry.Less s1.p.Rows := by
    rw [hrows1]
    exact btree.sorted_Set rowEntry_isOrder btree.sorted_nil _
  have hmem1 : ∀ y, y ∈ s1.p.Rows ↔
      y = HandleRowsInsert.entry env da 0 r t1
        { nextRowEntryID := next, p := NewPartitionState } := by
    intro y
    rw [hrows1, hnew]
    simp [btree.Set]
  have hget2 : btree.Get RowEntry.Less
      { BlockID := env.blockIDFromRowID r, RowID := r, Time := t2 } s1.p.Rows = none := by
    cases hg : btree.Get RowEntry.Less
        { BlockID := env.blockIDFromRowID r, RowID := r, Time := t2 } s1.p.Rows with
    | none => rfl
    | some e =>
      obtain ⟨hmem, hat2⟩ := Get_pivot_some_imp hg
      rw [(hmem1 e).1 hmem] at hat2
      unfold RowEntry.isAt at he1at hat2
      omega
  have he2at := insertEntry_isAt env db 0 r t2 s1
  have he2del := (insertEntry_fresh env db 0 r t2 s1 hget2).2.1
  have hs2 : btree.Sorted RowEntry.Less s2.p.Rows := by
    rw [hrows2]
    exact btree.sorted_Set rowEntry_isOrder hs1 _
  have hmem2 : ∀ y, y ∈ s2.p.Rows ↔
      y = HandleRowsInsert.entry env db 0 r t2 s1 ∨
      y = HandleRowsInsert.entry env da 0 r t1
        { nextRowEntryID := next, p := NewPartitionState } := by
    intro y
    rw [hrows2, mem_Set_rows hs1, hmem1]
    constructor
    · rintro (h | ⟨h, -⟩)
      · exact Or.inl h
      · exact Or.inr h
    · rintro (h | h)
      · exact Or.inl h
      · refine Or.inr ⟨h, ?_⟩
        rw [h]
        unfold RowEntry.isAt at *
        omega
  unfold PartitionState.RowExists
  rw [RowExists.loop_seek_iff _ _ _ _ hs2]
  constructor
  · rintro ⟨v, hv, -, -, hT, -, -⟩
    rcases (hmem2 v).1 hv with rfl | rfl
    · rw [he2at.2.2] at hT
      exact Or.inr hT
    · rw [he1at.2.2] at hT
      exact Or.inl hT
  · intro hts
    by_cases hc : t2 ≤ ts ∧ (t1 ≤ ts → t1 ≤ t2)
    · refine ⟨_, (hmem2 _).2 (Or.inl rfl), he2at.1, he2at.2.1, by rw [he2at.2.2]; exact hc.1,
        he2del, ?_⟩
      intro w hw _ _ hwT
      rcases (hmem2 w).1 hw with rfl | rfl
      · exact le_refl _
      · rw [he1at.2.2] at hwT ⊢
        rw [he2at.2.2]
        exact hc.2 hwT
    · refine ⟨_, (hmem2 _).2 (Or.inr rfl), he1at.1, he1at.2.1, by rw [he1at.2.2]; omega,
        he1del, ?_⟩
      intro w hw _ _ hwT
      rcases (hmem2 w).1 hw with rfl | rfl
      · rw [he2at.2.2] at hwT ⊢
        rw [he1at.2.2]
        omega
      · exact le_refl _

/-- C21: for one row `r` and two distinct times `t1` and `t2`, starting from
`NewPartitionState()`, a data-insert of `r` at `t1` followed by one at `t2`, and
the two inserts in the opposite order, all return, and for every `ts` the two
resulting states give the same `RowExists(r, ts)`, which is true exactly when
`ts >= min(t1, t2)`. -/
theorem inserts_in_either_order_give_same_RowExists (env : Env) (next : Int)
    (r t1 t2 ts : Nat) (hne : t1 ≠ t2)
    (a b : Entry) (pka pkb : Int) (da db : RowsInsertInput)
    (haty : a.EntryType = .Insert) (hameta : env.isMetaTable a.TableName = false)
    (hadec : HandleRowsInsert.decode env a.Bat pka = .ok da)
    (har : da.rowIDVector = [r]) (hat : da.timeVector = [t1])
    (hbty : b.EntryType = .Insert) (hbmeta : env.isMetaTable b.TableName = false)
    (hbdec : HandleRowsInsert.decode env b.Bat pkb = .ok db)
    (hbr : db.rowIDVector = [r]) (hbt : db.timeVector = [t2]) :
    ∃ s12 s21,
      applyEntries env { nextRowEntryID := next, p := NewPartitionState }
        [(a, pka), (b, pkb)] = .done s12 ∧
      applyEntries env { nextRowEntryID := next, p := NewPartitionState }
        [(b, pkb), (a, pka)] = .done s21 ∧
      s12.p.RowExists env r ts = s21.p.RowExists env r ts ∧
      (s12.p.RowExists env r ts = true ↔ min t1 t2 ≤ ts) := by
  obtain ⟨s12, hrun12, h12⟩ := two_inserts_row_exists env next r t1 t2 ts hne a b pka pkb da db
    haty hameta hadec har hat hbty hbmeta hbdec hbr hbt
  obtain ⟨s21, hrun21, h21⟩ := two_inserts_row_exists env next r t2 t1 ts (Ne.symm hne) b a pkb
    pka db da hbty hbmeta hbdec hbr hbt haty hameta hadec har hat
  refine ⟨s12, s21, hrun12, hrun21, ?_, ?_⟩
  · rw [Bool.eq_iff_iff, h12, h21]
    exact Or.comm
  · rw [h12, min_le_iff]

theorem inserts_in_either_order_give_same_RowExists_witness :
    (10 : Nat) ≠ 5 ∧
    HandleRowsInsert.decode exampleEnv insertA 0 = .ok insertADecoded ∧
    HandleRowsInsert.decode exampleEnv insertAAtFive 0 = .ok insertAAtFiveDecoded ∧
    (applyEntries exampleEnv {}
      [(⟨.Insert, "t", insertA⟩, 0), (⟨.Insert, "t", insertAAtFive⟩, 0)]).state.p.RowExists
        exampleEnv rowA 5 = true ∧
    (applyEntries exampleEnv {}
      [(⟨.Insert, "t", insertA⟩, 0), (⟨.Insert, "t", insertAAtFive⟩, 0)]).state.p.RowExists
        exampleEnv rowA 10 = true ∧
    (applyEntries exampleEnv {}
      [(⟨.Insert, "t", insertA⟩, 0), (⟨.Insert, "t", insertAAtFive⟩, 0)]).state.p.RowExists
        exampleEnv rowA 4 = false ∧
    ∃ s12 s21,
      applyEntries exampleEnv { nextRowEntryID := 1, p := NewPartitionState }
        [(⟨.Insert, "t", insertA⟩, 0), (⟨.Insert, "t", insertAAtFive⟩, 0)] = .done s12 ∧
      applyEntries exampleEnv { nextRowEntryID := 1, p := NewPartitionState }
        [(⟨.Insert, "t", insertAAtFive⟩, 0), (⟨.Insert, "t", insertA⟩, 0)] = .done s21 ∧
      s12.p.RowExists exampleEnv rowA 5 = s21.p.RowExists exampleEnv rowA 5 ∧
      (s12.p.RowExists exampleEnv rowA 5 = true ↔ min 10 5 ≤ 5) :=
  ⟨by decide, rfl, rfl, by decide, by decide, by decide,
   inserts_in_either_order_give_same_RowExists exampleEnv 1 rowA 10 5 5 (by decide)
     ⟨.Insert, "t", insertA⟩ ⟨.Insert, "t", insertAAtFive⟩ 0 0 insertADecoded
     insertAAtFiveDecoded rfl rfl rfl rfl rfl rfl rfl rfl rfl rfl⟩

/-! ## Block ids of row versions and index entries -/

/-- C25: in every partition state reachable from `NewPartitionState()` by
`HandleLogtailEntry` calls, every row version in `Rows` has
`BlockID = blockIDFromRowID(RowID)`, and every `PrimaryIndex` entry has
`BlockID = blockIDFromRowID(RowID)`. -/
theorem reachable_block_ids_come_from_row_ids (env : Env) (s : St) (h : Reachable env s) :
    (∀ v ∈ s.p.Rows, v.BlockID = env.blockIDFromRowID v.RowID) ∧
    (∀ e ∈ s.p.PrimaryIndex, e.BlockID = env.blockIDFromRowID e.RowID) := by
  induction h with
  | init next =>
    exact ⟨fun v hv => (by cases hv), fun e he => (by cases he)⟩
  | step s entry primaryKeyIndex _ ih =>
    refine HandleLogtailEntry_invariant env
      (fun s => (∀ v ∈ s.p.Rows, v.BlockID = env.blockIDFromRowID v.RowID) ∧
        (∀ e ∈ s.p.PrimaryIndex, e.BlockID = env.blockIDFromRowID e.RowID))
      ?_ ?_ ?_ ?_ s entry primaryKeyIndex ih
    · intro d i x s s' hP hrow
      obtain ⟨time, -, hrows, hpidx, -⟩ := insertRow_ok hrow
      have hat := insertEntry_isAt env d i x time s
      constructor
      · intro v hv
        rw [hrows] at hv
        rcases btree.mem_Set_imp hv with rfl | hv'
        · rw [hat.1, hat.2.1]
        · exact hP.1 v hv'
      · intro e he
        rw [hpidx] at he
        split_ifs at he with h1 h2
        · rcases btree.mem_Set_imp he with rfl | he'
          · rfl
          · exact hP.2 e he'
        · exact hP.2 e he
        · exact hP.2 e he
    · intro d i x s s' hP hrow
      obtain ⟨time, -, hrows, hpidx, -⟩ := deleteRow_ok hrow
      have hat := deleteEntry_isAt env d i x time s
      constructor
      · intro v hv
        rw [hrows] at hv
        rcases btree.mem_Set_imp hv with rfl | hv'
        · rw [hat.1, hat.2.1]
        · exact hP.1 v hv'
      · rw [hpidx]
        exact hP.2
    · intro d i x s s' hP hrow
      exact ⟨fun v hv => hP.1 v ((metaInsertRow_Rows_sublist hrow).subset hv),
        fun e he => hP.2 e ((metaInsertRow_PrimaryIndex_sublist hrow).subset he)⟩
    · intro d i x s s' hP hrow
      obtain ⟨_, _, -, -, -, -, hrows, hpidx, -⟩ := metaDeleteRow_ok hrow
      rw [hrows, hpidx]
      exact hP

theorem reachable_block_ids_come_from_row_ids_witness :
    Reachable exampleEnv afterInsertA ∧
    afterInsertA.p.Rows.length = 1 ∧ afterInsertA.p.PrimaryIndex.length = 1 ∧
    (∀ v ∈ afterInsertA.p.Rows, v.BlockID = exampleEnv.blockIDFromRowID v.RowID) ∧
    (∀ e ∈ afterInsertA.p.PrimaryIndex, e.BlockID = exampleEnv.blockIDFromRowID e.RowID) :=
  ⟨Reachable.step _ _ _ (Reachable.init 1), by decide, by decide,
   reachable_block_ids_come_from_row_ids exampleEnv afterInsertA
     (Reachable.step _ _ _ (Reachable.init 1))⟩

/-! ## The order of primary-key index entries -/

theorem bytesCompare_lt_iff_lex (a b : Bytes) :
    bytesCompare a b = .lt ↔ List.Lex (fun x y : Nat => x < y) a b := by
  induction a generalizing b with
  | nil =>
    cases b with
    | nil => simp [bytesCompare]
    | cons y ys => simp [bytesCompare, List.Lex.nil]
  | cons x xs ih =>
    cases b with
    | nil => simp [bytesCompare]
    | cons y ys =>
      unfold bytesCompare
      by_cases h1 : x < y
      · simp only [h1, if_true, true_iff]
        exact List.Lex.rel h1
      · by_cases h2 : y < x
        · simp only [h1, h2, if_false, if_true]
          refine ⟨fun h => (by cases h), ?_⟩
          intro h
          cases h with
          | cons h => omega
          | rel h => omega
        · have hxy : x = y := by omega
          subst hxy
          simp only [h1, if_false]
          rw [ih]
          constructor
          · intro h
            exact List.Lex.cons h
          · intro h
            cases h with
            | cons h => exact h
            | rel h => omega

theorem primaryIndexEntry_less_iff (p q : PrimaryIndexEntry) :
    p.Less q = true ↔ List.Lex (fun x y : Nat => x < y) p.Bytes q.Bytes ∨
      (p.Bytes = q.Bytes ∧ p.RowEntryID < q.RowEntryID) := by
  unfold PrimaryIndexEntry.Less
  cases hc : bytesCompare p.Bytes q.Bytes with
  | lt =>
    simp only [true_iff]
    exact Or.inl ((bytesCompare_lt_iff_lex _ _).1 hc)
  | gt =>
    simp only [Bool.false_eq_true, false_iff, not_or, not_and]
    constructor
    · rw [← bytesCompare_lt_iff_lex, hc]
      simp
    · intro hb
      rw [← bytesCompare_eq_iff, hc] at hb
      cases hb
  | eq =>
    have hb := (bytesCompare_eq_iff _ _).1 hc
    simp only [decide_eq_true_eq]
    constructor
    · intro h
      exact Or.inr ⟨hb, h⟩
    · rintro (h | h)
      · rw [← bytesCompare_lt_iff_lex, hc] at h
        cases h
      · exact h.2

/-- C27: `PrimaryIndexEntry.Less(p, q)` holds if and only if `p.Bytes` precedes
`q.Bytes` in bytewise lexicographic order, or the two byte strings are equal
and `p.RowEntryID < q.RowEntryID`; it is irreflexive, transitive and total on
`(Bytes, RowEntryID)`; two entries are equivalent exactly when they share
`Bytes` and `RowEntryID`; entries with the same key are ordered by ascending
`RowEntryID`; and `BlockID` and `RowID` play no part. -/
theorem PrimaryIndexEntry_Less_orders_keys_then_ids :
    (∀ p q : PrimaryIndexEntry, p.Less q = true ↔
      List.Lex (fun x y : Nat => x < y) p.Bytes q.Bytes ∨
        (p.Bytes = q.Bytes ∧ p.RowEntryID < q.RowEntryID)) ∧
    (∀ p : PrimaryIndexEntry, p.Less p = false) ∧
    (∀ p q r : PrimaryIndexEntry, p.Less q = true → q.Less r = true → p.Less r = true) ∧
    (∀ p q : PrimaryIndexEntry, p.Less q = true ∨ q.Less p = true ∨
      (p.Bytes = q.Bytes ∧ p.RowEntryID = q.RowEntryID)) ∧
    (∀ p q : PrimaryIndexEntry, (p.Less q = false ∧ q.Less p = false) ↔
      (p.Bytes = q.Bytes ∧ p.RowEntryID = q.RowEntryID)) ∧
    (∀ p q : PrimaryIndexEntry, p.Bytes = q.Bytes →
      (p.Less q = true ↔ p.RowEntryID < q.RowEntryID)) ∧
    (∀ (p q : PrimaryIndexEntry) (b1 r1 b2 r2 : Nat),
      PrimaryIndexEntry.Less { p with BlockID := b1, RowID := r1 }
        { q with BlockID := b2, RowID := r2 } = p.Less q) := by
  have hirr : ∀ b : Bytes, ¬ List.Lex (fun x y : Nat => x < y) b b := by
    intro b h
    rw [← bytesCompare_lt_iff_lex, bytesCompare_self] at h
    cases h
  have hequiv : ∀ p q : PrimaryIndexEntry, (p.Less q = false ∧ q.Less p = false) ↔
      (p.Bytes = q.Bytes ∧ p.RowEntryID = q.RowEntryID) := by
    intro p q
    constructor
    · rintro ⟨h1, h2⟩
      exact primaryIndexEntry_incomparable p q h1 h2
    · rintro ⟨h1, h2⟩
      exact ⟨primaryIndexEntry_less_same p q h1 h2,
        primaryIndexEntry_less_same q p h1.symm h2.symm⟩
  refine ⟨primaryIndexEntry_less_iff, ?_, ?_, ?_, hequiv, ?_, ?_⟩
  · intro p
    exact primaryIndexEntry_less_same p p rfl rfl
  · intro p q r hpq hqr
    rw [primaryIndexEntry_less_iff] at hpq hqr ⊢
    rcases hpq with h1 | ⟨h1, h1id⟩
    · rcases hqr with h2 | ⟨h2, -⟩
      · exact Or.inl (IsTrans.trans _ _ _ h1 h2)
      · rw [← h2]
        exact Or.inl h1
    · rcases hqr with h2 | ⟨h2, h2id⟩
      · rw [h1]
        exact Or.inl h2
      · exact Or.inr ⟨h1.trans h2, by omega⟩
  · intro p q
    cases h1 : p.Less q with
    | true => exact Or.inl rfl
    | false =>
      cases h2 : q.Less p with
      | true => exact Or.inr (Or.inl rfl)
      | false => exact Or.inr (Or.inr ((hequiv p q).1 ⟨h1, h2⟩))
  · intro p q hb
    rw [primaryIndexEntry_less_iff]
    constructor
    · rintro (h | h)
      · rw [hb] at h
        exact absurd h (hirr _)
      · exact h.2
    · intro h
      exact Or.inr ⟨hb, h⟩
  · intro p q b1 r1 b2 r2
    rfl

/-! ## Re-inserting an existing version -/

/-- The batch that `HandleRowsInsert` stores in the versions is the input
batch. -/
theorem HandleRowsInsert_decode_batch {env : Env} {input : Batch} {primaryKeyIndex : Int}
    {d : RowsInsertInput} (hd : HandleRowsInsert.decode env input primaryKeyIndex = .ok d) :
    d.batch = input := by
  unfold HandleRowsInsert.decode at hd
  cases h0 : mustVectorFromProto input.Vecs[0]? >>= MustFixedCol.rowid with
  | error w => rw [h0] at hd; cases hd
  | ok rowIDVector =>
    rw [h0] at hd
    simp only at hd
    cases h1 : mustVectorFromProto input.Vecs[1]? >>= MustFixedCol.ts with
    | error w => rw [h1] at hd; cases hd
    | ok timeVector =>
      rw [h1] at hd
      simp only at hd
      cases hb : ProtoBatchToBatch input with
      | error w => rw [hb] at hd; cases hd
      | ok batch =>
        rw [hb] at hd
        simp only at hd
        have hbatch := ProtoBatchToBatch_ok hb
        subst hbatch
        by_cases hpk : primaryKeyIndex ≥ 0
        · simp only [hpk, if_true] at hd
          cases hc : batch.Vecs[(2 + primaryKeyIndex).toNat]? with
          | none => rw [hc] at hd; cases hd
          | some col =>
            rw [hc] at hd
            simp only [Except.ok.injEq] at hd
            subst hd
            rfl
        · simp only [hpk, if_false, Except.ok.injEq] at hd
          subst hd
          rfl

theorem insertEntry_payload (env : Env) (d : RowsInsertInput) (i rowID time : Nat) (s : St) :
    (HandleRowsInsert.entry env d i rowID time s).Batch = some d.batch ∧
      (HandleRowsInsert.entry env d i rowID time s).Offset = (i : Int) := by
  unfold HandleRowsInsert.entry
  simp only
  split_ifs <;> exact ⟨rfl, rfl⟩

/-- When `HandleRowsInsert` applies row `i` of a batch and the row's
`(BlockID, RowID, Time)` triple already holds the version `e` (in an ordered
`Rows` tree), the one version stored at the triple afterwards has `Batch` = the
new batch, `Offset = i`, the `ID` and the `Deleted` flag of `e`, and as
`PrimaryIndexBytes` the row's encoded key when the batch has a key for row `i`,
and the key bytes of `e` otherwise. -/
theorem reinserted_version_takes_payload_and_available_key (env : Env) (s s' : St)
    (input : Batch) (primaryKeyIndex : Int) (d : RowsInsertInput) (i rowID time : Nat)
    (e : RowEntry) (hs : btree.Sorted RowEntry.Less s.p.Rows)
    (hd : HandleRowsInsert.decode env input primaryKeyIndex = .ok d)
    (ht : d.timeVector[i]? = some time)
    (he : e ∈ s.p.Rows) (hat : e.isAt (env.blockIDFromRowID rowID) rowID time)
    (hrow : HandleRowsInsert.row env d i rowID s = .ok s') :
    ∃ v ∈ s'.p.Rows, v.isAt (env.blockIDFromRowID rowID) rowID time ∧
      (∀ w ∈ s'.p.Rows, w.isAt (env.blockIDFromRowID rowID) rowID time → w = v) ∧
      v.Batch = some input ∧ v.Offset = (i : Int) ∧ v.ID = e.ID ∧ v.Deleted = e.Deleted ∧
      (∀ key, d.primaryKeyBytesSet[i]? = some key → v.PrimaryIndexBytes = key) ∧
      (d.primaryKeyBytesSet[i]? = none → v.PrimaryIndexBytes = e.PrimaryIndexBytes) ∧
      (primaryKeyIndex < 0 → v.PrimaryIndexBytes = e.PrimaryIndexBytes) ∧
      (0 ≤ primaryKeyIndex → ∃ col, input.Vecs[(2 + primaryKeyIndex).toNat]? = some col ∧
        d.primaryKeyBytesSet = env.encodePrimaryKeyVector col) := by
  obtain ⟨time', htime', hrows, -⟩ := insertRow_ok hrow
  rw [ht] at htime'
  simp only [Option.some.injEq] at htime'
  subst htime'
  have hg := Get_pivot_some_of_mem hs he hat
  obtain ⟨hid, hdel, hbytes⟩ := insertEntry_found env d i rowID time s e hg
  obtain ⟨hbatch, hoff⟩ := insertEntry_payload env d i rowID time s
  have hentry := insertEntry_isAt env d i rowID time s
  have hin : HandleRowsInsert.entry env d i rowID time s ∈ s'.p.Rows := by
    rw [hrows]
    exact btree.item_mem_Set _ _
  have hs' : btree.Sorted RowEntry.Less s'.p.Rows := insertRow_sorted hs hrow
  have hnone : d.primaryKeyBytesSet[i]? = none →
      (HandleRowsInsert.entry env d i rowID time s).PrimaryIndexBytes = e.PrimaryIndexBytes := by
    intro hk
    rw [hbytes]
    have : ¬ i < d.primaryKeyBytesSet.length := by
      intro hlt
      rw [List.getElem?_eq_getElem hlt] at hk
      cases hk
    simp [this]
  refine ⟨_, hin, hentry, ?_, ?_, hoff, hid, hdel, ?_, hnone, ?_,
    (HandleRowsInsert_decode_keys hd).2⟩
  · intro w hw hwat
    exact isAt_unique hs' hw hin hwat hentry
  · rw [hbatch, HandleRowsInsert_decode_batch hd]
  · intro key hk
    obtain ⟨hlt, hkey⟩ := List.getElem?_eq_some.1 hk
    rw [hbytes]
    simp [hlt, hkey]
  · intro hneg
    apply hnone
    rw [(HandleRowsInsert_decode_keys hd).1 hneg]
    rfl

/-! ## Fresh version ids -/

theorem atomicAddInt64_ne (next : Int) : atomicAddInt64 next 1 ≠ next := by
  unfold atomicAddInt64 wrapInt64
  omega

/-- Storing a version at a triple keeps `IdsInOrder` when the version has the
id of the version found there and the counter stays, or the triple was free,
the version has the new value of the counter as its id, and the counter went
up. -/
theorem storeVersion_keeps_IdsInOrder {s s' : St} {entry : RowEntry} {blockID rowID time : Nat}
    (hP : IdsInOrder s) (hat : entry.isAt blockID rowID time)
    (hrows : s'.p.Rows = btree.Set RowEntry.Less entry s.p.Rows)
    (hcases : (∃ e, btree.Get RowEntry.Less
          { BlockID := blockID, RowID := rowID, Time := time } s.p.Rows = some e ∧
        entry.ID = e.ID ∧ s'.nextRowEntryID = s.nextRowEntryID) ∨
      (entry.ID = s'.nextRowEntryID ∧ s.nextRowEntryID < s'.nextRowEntryID)) :
    IdsInOrder s' := by
  obtain ⟨hs, hbound, hdist⟩ := hP
  have hs' : btree.Sorted RowEntry.Less s'.p.Rows := by
    rw [hrows]
    exact btree.sorted_Set rowEntry_isOrder hs _
  rcases hcases with ⟨e, hg, hid, hnext⟩ | ⟨hid, hlt⟩
  · obtain ⟨he, heat⟩ := Get_pivot_some_imp hg
    refine ⟨hs', ?_, ?_⟩
    · intro v hv
      rw [hrows] at hv
      rw [hnext]
      rcases btree.mem_Set_imp hv with rfl | hv'
      · rw [hid]; exact hbound e he
      · exact hbound v hv'
    · intro a ha b hb hab
      rw [hrows] at ha hb
      have key : ∀ x ∈ btree.Set RowEntry.Less entry s.p.Rows,
          ∃ y ∈ s.p.Rows, y.ID = x.ID ∧ y.isAt x.BlockID x.RowID x.Time := by
        intro x hx
        rcases btree.mem_Set_imp hx with rfl | hx'
        · refine ⟨e, he, hid.symm, ?_⟩
          unfold RowEntry.isAt at *
          omega
        · exact ⟨x, hx', rfl, rfl, rfl, rfl⟩
      obtain ⟨a', ha', haid, haat⟩ := key a ha
      obtain ⟨b', hb', hbid, hbat⟩ := key b hb
      have := hdist a' ha' b' hb' (by rw [haid, hbid, hab])
      unfold RowEntry.isAt at *
      omega
  · refine ⟨hs', ?_, ?_⟩
    · intro v hv
      rw [hrows] at hv
      rcases btree.mem_Set_imp hv with rfl | hv'
      · rw [hid]
      · have := hbound v hv'
        omega
    · intro a ha b hb hab
      rw [hrows] at ha hb
      rcases btree.mem_Set_imp ha with rfl | ha'
      · rcases btree.mem_Set_imp hb with rfl | hb'
        · exact ⟨rfl, rfl, rfl⟩
        · have := hbound b hb'
          rw [hid] at hab
          omega
      · rcases btree.mem_Set_imp hb with rfl | hb'
        · have := hbound a ha'
          rw [hid] at hab
          omega
        · exact hdist a ha' b hb' hab

theorem insertRow_keeps_IdsInOrder_of_growth {env : Env} (d : RowsInsertInput) (i rowID : Nat)
    (s s' : St) (hP : IdsInOrder s)
    (hc : (withoutOverflow env).rowsInsert d i rowID s = true)
    (h : HandleRowsInsert.row env d i rowID s = .ok s') : IdsInOrder s' := by
  obtain ⟨time, htime, hrows, -, -, -, hnext⟩ := insertRow_ok h
  simp only [withoutOverflow, htime, decide_eq_true_eq] at hc
  refine storeVersion_keeps_IdsInOrder hP (insertEntry_isAt env d i rowID time s) hrows ?_
  rcases nextAfterRow_cases env rowID time s with ⟨e, hg, hn⟩ | ⟨hg, hn⟩
  · exact Or.inl ⟨e, hg, (insertEntry_found env d i rowID time s e hg).1, by rw [hnext, hn]⟩
  · right
    rw [hn] at hc hnext
    have := atomicAddInt64_ne s.nextRowEntryID
    refine ⟨by rw [hnext]; exact (insertEntry_fresh env d i rowID time s hg).1, ?_⟩
    rw [hnext]
    omega

theorem deleteRow_keeps_IdsInOrder_of_growth {env : Env} (d : RowsDeleteInput) (i rowID : Nat)
    (s s' : St) (hP : IdsInOrder s)
    (hc : (withoutOverflow env).rowsDelete d i rowID s = true)
    (h : HandleRowsDelete.row env d i rowID s = .ok s') : IdsInOrder s' := by
  obtain ⟨time, htime, hrows, -, -, -, hnext⟩ := deleteRow_ok h
  simp only [withoutOverflow, htime, decide_eq_true_eq] at hc
  refine storeVersion_keeps_IdsInOrder hP (deleteEntry_isAt env d i rowID time s) hrows ?_
  rcases nextAfterRow_cases env rowID time s with ⟨e, hg, hn⟩ | ⟨hg, hn⟩
  · exact Or.inl ⟨e, hg, (deleteEntry_found env d i rowID time s e hg).1, by rw [hnext, hn]⟩
  · right
    rw [hn] at hc hnext
    have := atomicAddInt64_ne s.nextRowEntryID
    refine ⟨by rw [hnext]; exact (deleteEntry_fresh env d i rowID time s hg).1, ?_⟩
    rw [hnext]
    omega

theorem metaInsertRow_keeps_IdsInOrder (d : MetadataInsertInput) (i blockID : Nat)
    (s s' : St) (hP : IdsInOrder s)
    (h : HandleMetadataInsert.row d i blockID s = .ok s') : IdsInOrder s' := by
  obtain ⟨hs, hbound, hdist⟩ := hP
  have hsub := (metaInsertRow_Rows_sublist h).subset
  obtain ⟨r, -, hnext, -⟩ := metaInsertRow_ok h
  refine ⟨metaInsertRow_sorted hs h, ?_, ?_⟩
  · intro v hv
    rw [hnext]
    exact hbound v (hsub hv)
  · intro a ha b hb hab
    exact hdist a (hsub ha) b (hsub hb) hab

theorem metaDeleteRow_keeps_IdsInOrder {env : Env} (d : MetadataDeleteInput) (i rowID : Nat)
    (s s' : St) (hP : IdsInOrder s)
    (h : HandleMetadataDelete.row env d i rowID s = .ok s') : IdsInOrder s' := by
  obtain ⟨_, _, -, -, hnext, -, hrows, -, -⟩ := metaDeleteRow_ok h
  unfold IdsInOrder at hP ⊢
  rw [hrows, hnext]
  exact hP

theorem ReachableChecked.idsInOrder {env : Env} {s : St}
    (h : ReachableChecked env (withoutOverflow env) s) : IdsInOrder s :=
  ReachableChecked.invariant IdsInOrder
    (fun next => ⟨btree.sorted_nil, fun v hv => (by cases hv), fun a ha => (by cases ha)⟩)
    (fun d i x s s' hP hc hrow => insertRow_keeps_IdsInOrder_of_growth d i x s s' hP hc hrow)
    (fun d i x s s' hP hc hrow => deleteRow_keeps_IdsInOrder_of_growth d i x s s' hP hc hrow)
    (fun d i x s s' hP _ hrow => metaInsertRow_keeps_IdsInOrder d i x s s' hP hrow)
    (fun d i x s s' hP _ hrow => metaDeleteRow_keeps_IdsInOrder d i x s s' hP hrow) h

/-- C24: in every state reached from `NewPartitionState()` by
`HandleLogtailEntry` calls during which the counter `nextRowEntryID` does not
wrap around, two row versions with the same `ID` sit at the same triple and no
version has an `ID` above the counter; and when `HandleRowsInsert` applies, in
such a state, a row whose `(BlockID, RowID, Time)` triple is absent from `Rows`
(the counter having room for one more id), the version stored at the triple has
`Deleted = false` and the `ID` `nextRowEntryID + 1`, which becomes the new value
of the counter and is strictly greater than the `ID` of every version stored
before. -/
theorem fresh_versions_get_fresh_ids (env : Env) (s : St)
    (h : ReachableChecked env (withoutOverflow env) s) :
    (∀ a ∈ s.p.Rows, ∀ b ∈ s.p.Rows, a.ID = b.ID → a.isAt b.BlockID b.RowID b.Time) ∧
    (∀ v ∈ s.p.Rows, v.ID ≤ s.nextRowEntryID) ∧
    ∀ (d : RowsInsertInput) (i rowID time : Nat) (s' : St),
      d.timeVector[i]? = some time →
      (∀ v ∈ s.p.Rows, ¬ v.isAt (env.blockIDFromRowID rowID) rowID time) →
      counterHasRoom s.nextRowEntryID 1 →
      HandleRowsInsert.row env d i rowID s = .ok s' →
      ∃ v ∈ s'.p.Rows, v.isAt (env.blockIDFromRowID rowID) rowID time ∧
        (∀ w ∈ s'.p.Rows, w.isAt (env.blockIDFromRowID rowID) rowID time → w = v) ∧
        v.Deleted = false ∧ v.ID = s.nextRowEntryID + 1 ∧ s'.nextRowEntryID = v.ID ∧
        ∀ w ∈ s.p.Rows, w.ID < v.ID := by
  obtain ⟨hs, hbound, hdist⟩ := h.idsInOrder
  refine ⟨hdist, hbound, ?_⟩
  intro d i rowID time s' ht habsent hroom hrow
  obtain ⟨time', htime', hrows, -, -, -, hnext⟩ := insertRow_ok hrow
  rw [ht] at htime'
  simp only [Option.some.injEq] at htime'
  subst htime'
  have hg : btree.Get RowEntry.Less
      { BlockID := env.blockIDFromRowID rowID, RowID := rowID, Time := time } s.p.Rows = none := by
    cases hg : btree.Get RowEntry.Less
        { BlockID := env.blockIDFromRowID rowID, RowID := rowID, Time := time } s.p.Rows with
    | none => rfl
    | some e =>
      obtain ⟨he, heat⟩ := Get_pivot_some_imp hg
      exact absurd heat (habsent e he)
  obtain ⟨hid, hdel, -⟩ := insertEntry_fresh env d i rowID time s hg
  have hadd := atomicAddInt64_one hroom
  rw [hadd] at hid
  have hin : HandleRowsInsert.entry env d i rowID time s ∈ s'.p.Rows := by
    rw [hrows]
    exact btree.item_mem_Set _ _
  have hat := insertEntry_isAt env d i rowID time s
  refine ⟨_, hin, hat, ?_, hdel, hid, ?_, ?_⟩
  · intro w hw hwat
    exact isAt_unique (insertRow_sorted hs hrow) hw hin hwat hat
  · rw [hnext, hid]
    simp [nextAfterRow, hg, hadd]
  · intro w hw
    have := hbound w hw
    rw [hid]
    omega

theorem fresh_versions_get_fresh_ids_witness :
    ReachableChecked exampleEnv (withoutOverflow exampleEnv) afterInsertA ∧
    afterInsertA.nextRowEntryID = 2 ∧
    (∃ v ∈ (HandleRowsInsert exampleEnv afterInsertA insertAAtFive 0).state.p.Rows,
      v.isAt (exampleEnv.blockIDFromRowID rowA) rowA 5 ∧
      (∀ w ∈ (HandleRowsInsert exampleEnv afterInsertA insertAAtFive 0).state.p.Rows,
        w.isAt (exampleEnv.blockIDFromRowID rowA) rowA 5 → w = v) ∧
      v.Deleted = false ∧ v.ID = afterInsertA.nextRowEntryID + 1 ∧
      (HandleRowsInsert exampleEnv afterInsertA insertAAtFive 0).state.nextRowEntryID = v.ID ∧
      ∀ w ∈ afterInsertA.p.Rows, w.ID < v.ID) :=
  ⟨ReachableChecked.step _ _ _ (ReachableChecked.init 1) (by decide), by decide,
   (fresh_versions_get_fresh_ids exampleEnv afterInsertA
     (ReachableChecked.step _ _ _ (ReachableChecked.init 1) (by decide))).2.2
     insertAAtFiveDecoded 0 rowA 5 _ rfl (by decide) (by decide) rfl⟩

/-! ## What a metadata delete writes -/

theorem map_eq_self_of_fixed {α : Type} (f : α → α) (xs : List α) (h : ∀ x ∈ xs, f x = x) :
    xs.map f = xs := by
  induction xs with
  | nil => rfl
  | cons x xs ih =>
    rw [List.map_cons, h x (List.mem_cons_self _ _),
      ih (fun y hy => h y (List.mem_cons_of_mem _ hy))]

theorem Set_block_eq_map (item : BlockEntry) (blocks : List BlockEntry)
    (hs : btree.Sorted BlockEntry.Less blocks)
    (hex : ∃ e ∈ blocks, e.BlockID = item.BlockID) :
    btree.Set BlockEntry.Less item blocks =
      blocks.map (fun b => if b.BlockID = item.BlockID then item else b) := by
  induction blocks with
  | nil =>
    obtain ⟨e, he, -⟩ := hex
    cases he
  | cons x xs ih =>
    rw [btree.sorted_cons] at hs
    obtain ⟨hx, hxs⟩ := hs
    have hgt : ∀ y ∈ xs, x.BlockID < y.BlockID := fun y hy => (blockEntry_less_iff x y).1 (hx y hy)
    obtain ⟨e, he, heid⟩ := hex
    unfold btree.Set
    by_cases h1 : x.BlockID < item.BlockID
    · have hl : x.Less item = true := (blockEntry_less_iff _ _).2 h1
      have hein : e ∈ xs := by
        rcases List.mem_cons.1 he with rfl | h
        · omega
        · exact h
      simp only [hl, if_true, List.map_cons]
      rw [ih hxs ⟨e, hein, heid⟩]
      have : x.BlockID ≠ item.BlockID := by omega
      simp [this]
    · have hl : x.Less item = false := by
        rw [← Bool.not_eq_true, blockEntry_less_iff]
        exact h1
      have h2 : ¬ item.BlockID < x.BlockID := by
        intro h2
        rcases List.mem_cons.1 he with rfl | h
        · omega
        · have := hgt e h
          omega
      have hl2 : item.Less x = false := by
        rw [← Bool.not_eq_true, blockEntry_less_iff]
        exact h2
      have hxid : x.BlockID = item.BlockID := by omega
      simp only [hl, hl2, Bool.false_eq_true, if_false, List.map_cons, hxid, if_true,
        List.cons.injEq, true_and]
      symm
      apply map_eq_self_of_fixed
      intro y hy
      have := hgt y hy
      have hne : y.BlockID ≠ item.BlockID := by omega
      simp [hne]

theorem stampDeleteTime_BlockID (env : Env) (rows : List (Nat × Nat)) (b : BlockEntry) :
    (stampDeleteTime env rows b).BlockID = b.BlockID := by
  unfold stampDeleteTime
  cases lastDeleteTime env rows b.BlockID <;> rfl

theorem stampDeleteTime_nil (env : Env) (b : BlockEntry) : stampDeleteTime env [] b = b := rfl

theorem stampDeleteTime_cons (env : Env) (x t : Nat) (rows : List (Nat × Nat)) (b : BlockEntry) :
    stampDeleteTime env ((x, t) :: rows) b =
      stampDeleteTime env rows
        (if b.BlockID = env.DecodeUint64 x then { b with DeleteTime := t } else b) := by
  unfold stampDeleteTime lastDeleteTime
  by_cases hx : b.BlockID = env.DecodeUint64 x
  · have hx' : (env.DecodeUint64 x == b.BlockID) = true := by simp [hx]
    have hfil : List.filter (fun rt : Nat × Nat => env.DecodeUint64 rt.1 == b.BlockID)
        ((x, t) :: rows) =
        (x, t) :: List.filter (fun rt : Nat × Nat => env.DecodeUint64 rt.1 == b.BlockID) rows := by
      simp [List.filter_cons, hx]
    rw [if_pos hx, hfil]
    show _ = match Option.map (fun rt => rt.2)
        (rows.filter (fun rt => env.DecodeUint64 rt.1 == b.BlockID)).getLast? with
      | none => { b with DeleteTime := t }
      | some t' => { b with DeleteTime := t' }
    cases hf : rows.filter (fun rt => env.DecodeUint64 rt.1 == b.BlockID) with
    | nil => rfl
    | cons y ys =>
      rw [List.getLast?_cons_cons, List.getLast?_eq_getLast _ (List.cons_ne_nil y ys)]
      rfl
  · have hx' : ¬ (env.DecodeUint64 x == b.BlockID) = true := by
      simp only [beq_iff_eq]
      exact fun h => hx h.symm
    have hfil : List.filter (fun rt : Nat × Nat => env.DecodeUint64 rt.1 == b.BlockID)
        ((x, t) :: rows) =
        List.filter (fun rt : Nat × Nat => env.DecodeUint64 rt.1 == b.BlockID) rows := by
      rw [List.filter_cons_of_neg]
      exact hx'
    rw [if_neg hx, hfil]

theorem sorted_map_blocks (f : BlockEntry → BlockEntry) (hf : ∀ b, (f b).BlockID = b.BlockID)
    (blocks : List BlockEntry) (hs : btree.Sorted BlockEntry.Less blocks) :
    btree.Sorted BlockEntry.Less (blocks.map f) := by
  unfold btree.Sorted at *
  rw [List.pairwise_map]
  refine hs.imp ?_
  intro a b hab
  rw [blockEntry_less_iff] at hab ⊢
  rw [hf, hf]
  exact hab

theorem metaDeleteLoop_closed (env : Env) (d : MetadataDeleteInput) (xs : List Nat) (i : Nat)
    (s : St) (hs : btree.Sorted BlockEntry.Less s.p.Blocks)
    (hlen : i + xs.length ≤ d.deleteTimeVector.length)
    (hex : ∀ x ∈ xs, ∃ b ∈ s.p.Blocks, b.BlockID = env.DecodeUint64 x) :
    ∃ s', forRange (HandleMetadataDelete.row env d) i xs s = .done s' ∧
      s'.p.Rows = s.p.Rows ∧ s'.p.PrimaryIndex = s.p.PrimaryIndex ∧
      s'.p.Checkpoints = s.p.Checkpoints ∧ s'.nextRowEntryID = s.nextRowEntryID ∧
      s'.p.Blocks = s.p.Blocks.map (stampDeleteTime env (xs.zip (d.deleteTimeVector.drop i))) := by
  induction xs generalizing i s with
  | nil =>
    refine ⟨s, rfl, rfl, rfl, rfl, rfl, ?_⟩
    simp only [List.zip_nil_left]
    symm
    apply map_eq_self_of_fixed
    intro b _
    rfl
  | cons x xs ih =>
    simp only [List.length_cons] at hlen
    have hi : i < d.deleteTimeVector.length := by omega
    obtain ⟨e0, he0, he0id⟩ := hex x (List.mem_cons_self _ _)
    have hg : ∃ e, btree.Get BlockEntry.Less { BlockID := env.DecodeUint64 x } s.p.Blocks
        = some e := by
      cases hg : btree.Get BlockEntry.Less { BlockID := env.DecodeUint64 x } s.p.Blocks with
      | none => exact absurd he0id ((Get_block_none_iff _ _).1 hg e0 he0)
      | some e => exact ⟨e, rfl⟩
    obtain ⟨e, hg⟩ := hg
    obtain ⟨hemem, he1, he2⟩ := btree.Get_eq_some_imp hg
    have heid : e.BlockID = env.DecodeUint64 x := (blockEntry_equiv_iff e _).1 ⟨he1, he2⟩
    have hret : ∃ s1, HandleMetadataDelete.row env d i x s = .ok s1 := by
      unfold HandleMetadataDelete.row
      simp only [hg, List.getElem?_eq_getElem hi]
      exact ⟨_, rfl⟩
    obtain ⟨s1, hrow⟩ := hret
    obtain ⟨entry, t, hg', ht, hn1, hb1, hr1, hp1, hc1⟩ := metaDeleteRow_ok hrow
    rw [hg] at hg'
    simp only [Option.some.injEq] at hg'
    subst hg'
    have hset : s1.p.Blocks = s.p.Blocks.map (fun b =>
        if b.BlockID = env.DecodeUint64 x then { b with DeleteTime := t } else b) := by
      rw [hb1, Set_block_eq_map { e with DeleteTime := t } _ hs ⟨e, hemem, rfl⟩]
      apply List.map_congr_left
      intro b hb
      rw [← heid]
      show (if b.BlockID = e.BlockID then _ else b) = _
      split_ifs with hbx
      · have : b = e := by
          by_contra hne
          have := hs.comparable hb hemem hne
          rw [blockEntry_less_iff, blockEntry_less_iff] at this
          omega
        rw [this]
      · rfl
    have hs1 : btree.Sorted BlockEntry.Less s1.p.Blocks := by
      rw [hb1]
      exact btree.sorted_Set blockEntry_isOrder hs _
    obtain ⟨s', hrun, h1, h2, h3, h4, h5⟩ := ih (i + 1) s1 hs1 (by omega)
      (by
        intro y hy
        obtain ⟨b, hb, hbid⟩ := hex y (List.mem_cons_of_mem _ hy)
        rw [hset]
        refine ⟨_, List.mem_map_of_mem _ hb, ?_⟩
        split_ifs <;> exact hbid)
    refine ⟨s', ?_, by rw [h1, hr1], by rw [h2, hp1], by rw [h3, hc1], by rw [h4, hn1], ?_⟩
    · rw [forRange_done_cons]
      exact ⟨s1, hrow, hrun⟩
    · have hti : d.deleteTimeVector[i] = t := by
        rw [List.getElem?_eq_getElem hi] at ht
        simpa using ht
      rw [h5, hset, List.map_map, List.drop_eq_getElem_cons hi, List.zip_cons_cons, hti]
      apply List.map_congr_left
      intro b _
      simp only [Function.comp]
      rw [stampDeleteTime_cons]

theorem stampDeleteTime_of_unnamed (env : Env) (rows : List (Nat × Nat)) (b : BlockEntry)
    (h : ∀ rt ∈ rows, env.DecodeUint64 rt.1 ≠ b.BlockID) : stampDeleteTime env rows b = b := by
  unfold stampDeleteTime lastDeleteTime
  have : rows.filter (fun rt => env.DecodeUint64 rt.1 == b.BlockID) = [] := by
    rw [List.filter_eq_nil_iff]
    intro rt hrt
    simpa using h rt hrt
  rw [this]
  rfl

theorem stampDeleteTime_of_last (env : Env) (rows : List (Nat × Nat)) (b : BlockEntry)
    (i r t : Nat) (hi : rows[i]? = some (r, t)) (hr : env.DecodeUint64 r = b.BlockID)
    (hlast : ∀ j rt, i < j → rows[j]? = some rt → env.DecodeUint64 rt.1 ≠ b.BlockID) :
    stampDeleteTime env rows b = { b with DeleteTime := t } := by
  induction rows generalizing i b with
  | nil => simp at hi
  | cons x xs ih =>
    obtain ⟨x1, x2⟩ := x
    rw [stampDeleteTime_cons]
    cases i with
    | zero =>
      simp only [List.getElem?_cons_zero, Option.some.injEq, Prod.mk.injEq] at hi
      obtain ⟨rfl, rfl⟩ := hi
      rw [if_pos hr.symm]
      apply stampDeleteTime_of_unnamed
      intro rt hrt
      obtain ⟨j, hj⟩ := List.getElem?_of_mem hrt
      exact hlast (j + 1) rt (by omega) (by simpa using hj)
    | succ k =>
      simp only [List.getElem?_cons_succ] at hi
      have hlast' : ∀ j rt, k < j → xs[j]? = some rt → env.DecodeUint64 rt.1 ≠ b.BlockID := by
        intro j rt hj hrt
        exact hlast (j + 1) rt (by omega) (by simpa using hrt)
      split_ifs with hx
      · rw [ih { b with DeleteTime := x2 } k hi hr hlast']
      · exact ih b k hi hr hlast'

theorem HandleMetadataDelete_loop {env : Env} {s : St} {input : Batch} {d : MetadataDeleteInput}
    (hd : HandleMetadataDelete.decode input = .ok d) :
    HandleMetadataDelete env s input =
      forRange (HandleMetadataDelete.row env d) 0 d.rowIDVector s := by
  unfold HandleMetadataDelete
  rw [hd]

/-- C26: when every row of a metadata-delete batch has a delete time and names
a block that exists (in an ordered `Blocks` tree), `HandleMetadataDelete`
returns; `Rows`, `PrimaryIndex`, `Checkpoints` and the counter are unchanged;
and `Blocks` holds the same entries in the same order, each with its
`DeleteTime` replaced by the delete time of the last row whose row id decodes
to its block id, every other field unchanged, and the entries that no row names
unchanged. -/
theorem HandleMetadataDelete_sets_delete_times_and_nothing_else (env : Env) (s : St)
    (input : Batch) (d : MetadataDeleteInput)
    (hs : btree.Sorted BlockEntry.Less s.p.Blocks)
    (hd : HandleMetadataDelete.decode input = .ok d)
    (hlen : d.rowIDVector.length ≤ d.deleteTimeVector.length)
    (hex : ∀ rowID ∈ d.rowIDVector, ∃ b ∈ s.p.Blocks, b.BlockID = env.DecodeUint64 rowID) :
    ∃ s', HandleMetadataDelete env s input = .done s' ∧
      s'.p.Rows = s.p.Rows ∧ s'.p.PrimaryIndex = s.p.PrimaryIndex ∧
      s'.p.Checkpoints = s.p.Checkpoints ∧ s'.nextRowEntryID = s.nextRowEntryID ∧
      s'.p.Blocks =
        s.p.Blocks.map (stampDeleteTime env (d.rowIDVector.zip d.deleteTimeVector)) ∧
      (∀ b : BlockEntry, (∀ rowID ∈ d.rowIDVector, env.DecodeUint64 rowID ≠ b.BlockID) →
        stampDeleteTime env (d.rowIDVector.zip d.deleteTimeVector) b = b) ∧
      (∀ (b : BlockEntry) (i rowID t : Nat), d.rowIDVector[i]? = some rowID →
        d.deleteTimeVector[i]? = some t → env.DecodeUint64 rowID = b.BlockID →
        (∀ j rowID', i < j → d.rowIDVector[j]? = some rowID' →
          env.DecodeUint64 rowID' ≠ b.BlockID) →
        stampDeleteTime env (d.rowIDVector.zip d.deleteTimeVector) b =
          { b with DeleteTime := t }) := by
  obtain ⟨s', hrun, h1, h2, h3, h4, h5⟩ := metaDeleteLoop_closed env d d.rowIDVector 0 s hs
    (by omega) hex
  rw [List.drop_zero] at h5
  refine ⟨s', by rw [HandleMetadataDelete_loop hd]; exact hrun, h1, h2, h3, h4, h5, ?_, ?_⟩
  · intro b hb
    apply stampDeleteTime_of_unnamed
    intro rt hrt
    exact hb rt.1 (List.of_mem_zip hrt).1
  · intro b i rowID t hr ht hid hlast
    apply stampDeleteTime_of_last env _ b i rowID t _ hid
    · intro j rt hj hrt
      rw [List.getElem?_zip_eq_some] at hrt
      exact hlast j rt.1 hj hrt.1
    · rw [List.getElem?_zip_eq_some]
      exact ⟨hr, ht⟩

theorem HandleMetadataDelete_sets_delete_times_and_nothing_else_witness :
    btree.Sorted BlockEntry.Less blockNine.p.Blocks ∧
    HandleMetadataDelete.decode deleteNineTwice = .ok deleteNineTwiceDecoded ∧
    blockNine.p.Blocks = [nineLive] ∧
    stampDeleteTime exampleEnv
      (deleteNineTwiceDecoded.rowIDVector.zip deleteNineTwiceDecoded.deleteTimeVector) nineLive =
      { nineLive with DeleteTime := 30 } ∧
    ∃ s', HandleMetadataDelete exampleEnv blockNine deleteNineTwice = .done s' ∧
      s'.p.Rows = blockNine.p.Rows ∧ s'.p.PrimaryIndex = blockNine.p.PrimaryIndex ∧
      s'.p.Checkpoints = blockNine.p.Checkpoints ∧
      s'.nextRowEntryID = blockNine.nextRowEntryID ∧
      s'.p.Blocks = blockNine.p.Blocks.map (stampDeleteTime exampleEnv
        (deleteNineTwiceDecoded.rowIDVector.zip deleteNineTwiceDecoded.deleteTimeVector)) := by
  refine ⟨by decide, rfl, by decide, by decide, ?_⟩
  obtain ⟨s', h1, h2, h3, h4, h5, h6, -⟩ :=
    HandleMetadataDelete_sets_delete_times_and_nothing_else exampleEnv blockNine
      deleteNineTwice deleteNineTwiceDecoded (by decide) rfl (by decide) (by decide)
  exact ⟨s', h1, h2, h3, h4, h5, h6⟩

/-! ## Batches are applied row by row -/

theorem forRange_append {α : Type} (body : Nat → α → St → Except Panic St) (i : Nat)
    (xs ys : List α) (s : St) :
    forRange body i (xs ++ ys) s =
      (forRange body i xs s).andThen (forRange body (i + xs.length) ys) := by
  induction xs generalizing i s with
  | nil => rfl
  | cons x xs ih =>
    simp only [List.cons_append, List.length_cons]
    unfold forRange
    cases hb : body i x s with
    | error why => rfl
    | ok s1 =>
      simp only
      rw [ih (i + 1) s1]
      have : i + 1 + xs.length = i + (xs.length + 1) := by omega
      rw [this]

theorem forRange_congr {α : Type} (body body' : Nat → α → St → Except Panic St) (i j : Nat)
    (xs : List α) (s : St)
    (h : ∀ k x t, xs[k]? = some x → body (i + k) x t = body' (j + k) x t) :
    forRange body i xs s = forRange body' j xs s := by
  induction xs generalizing i j s with
  | nil => rfl
  | cons x xs ih =>
    unfold forRange
    have h0 := h 0 x s (by simp)
    simp only [Nat.add_zero] at h0
    rw [h0]
    cases hb : body' j x s with
    | error why => rfl
    | ok s1 =>
      simp only
      apply ih
      intro k y t hy
      have := h (k + 1) y t (by simpa using hy)
      have e1 : i + (k + 1) = i + 1 + k := by omega
      have e2 : j + (k + 1) = j + 1 + k := by omega
      rw [e1, e2] at this
      exact this

theorem cells_append_left (d1 d2 : MetadataInsertInput) (h : d1.aligned) (k : Nat)
    (hk : k < d1.blockIDVector.length) : (d1.append d2).cells k = d1.cells k := by
  obtain ⟨h1, h2, h3, h4, h5, h6, h7⟩ := h
  unfold MetadataInsertInput.cells MetadataInsertInput.append
  simp only
  rw [List.getElem?_append_left (by omega), List.getElem?_append_left (by omega),
    List.getElem?_append_left (by omega), List.getElem?_append_left (by omega),
    List.getElem?_append_left (by omega), List.getElem?_append_left (by omega),
    List.getElem?_append_left (by omega)]

theorem cells_append_right (d1 d2 : MetadataInsertInput) (h : d1.aligned) (k : Nat) :
    (d1.append d2).cells (d1.blockIDVector.length + k) = d2.cells k := by
  obtain ⟨h1, h2, h3, h4, h5, h6, h7⟩ := h
  unfold MetadataInsertInput.cells MetadataInsertInput.append
  simp only
  rw [List.getElem?_append_right (by omega), List.getElem?_append_right (by omega),
    List.getElem?_append_right (by omega), List.getElem?_append_right (by omega),
    List.getElem?_append_right (by omega), List.getElem?_append_right (by omega),
    List.getElem?_append_right (by omega)]
  simp only [h1, h2, h3, h4, h5, h6, h7, Nat.add_sub_cancel_left]

theorem metaInsertRow_congr (d d' : MetadataInsertInput) (i j x : Nat) (t : St)
    (h : d.cells i = d'.cells j) :
    HandleMetadataInsert.row d i x t = HandleMetadataInsert.row d' j x t := by
  unfold HandleMetadataInsert.row
  rw [h]

theorem metaDeleteRow_congr (env : Env) (d d' : MetadataDeleteInput) (i j x : Nat) (t : St)
    (h : d.deleteTimeVector[i]? = d'.deleteTimeVector[j]?) :
    HandleMetadataDelete.row env d i x t = HandleMetadataDelete.row env d' j x t := by
  unfold HandleMetadataDelete.row
  rw [h]

theorem HandleMetadataInsert_loop {s : St} {input : Batch} {d : MetadataInsertInput}
    (hd : HandleMetadataInsert.decode input = .ok d) :
    HandleMetadataInsert s input = forRange (HandleMetadataInsert.row d) 0 d.blockIDVector s := by
  unfold HandleMetadataInsert
  rw [hd]

/-- C23: for the metadata handlers, handling a batch whose rows are the rows of
`b1` (a batch of whole rows) followed by the rows of `b2` is the same as
handling `b1` and then, when that call returns, handling `b2`: the same
partition state and counter, and the same panic if one of the calls panics.
This holds for `HandleMetadataInsert` and for `HandleMetadataDelete`. -/
theorem metadata_batch_is_applied_row_by_row (env : Env) (s : St) :
    (∀ (b1 b2 b : Batch) (d1 d2 : MetadataInsertInput),
      HandleMetadataInsert.decode b1 = .ok d1 → HandleMetadataInsert.decode b2 = .ok d2 →
      HandleMetadataInsert.decode b = .ok (d1.append d2) → d1.aligned →
      HandleMetadataInsert s b =
        (HandleMetadataInsert s b1).andThen (fun s1 => HandleMetadataInsert s1 b2)) ∧
    (∀ (b1 b2 b : Batch) (d1 d2 : MetadataDeleteInput),
      HandleMetadataDelete.decode b1 = .ok d1 → HandleMetadataDelete.decode b2 = .ok d2 →
      HandleMetadataDelete.decode b = .ok (d1.append d2) → d1.aligned →
      HandleMetadataDelete env s b =
        (HandleMetadataDelete env s b1).andThen (fun s1 => HandleMetadataDelete env s1 b2)) := by
  constructor
  · intro b1 b2 b d1 d2 h1 h2 h12 hal
    rw [HandleMetadataInsert_loop h12, HandleMetadataInsert_loop h1]
    show forRange _ 0 (d1.blockIDVector ++ d2.blockIDVector) s = _
    rw [forRange_append]
    have hfirst : forRange (HandleMetadataInsert.row (d1.append d2)) 0 d1.blockIDVector s =
        forRange (HandleMetadataInsert.row d1) 0 d1.blockIDVector s := by
      apply forRange_congr
      intro k x t hx
      apply metaInsertRow_congr
      simp only [Nat.zero_add]
      exact cells_append_left d1 d2 hal k (getElem?_lt_length hx)
    rw [hfirst]
    congr 1
    funext s1
    rw [HandleMetadataInsert_loop h2]
    apply forRange_congr
    intro k x t _
    apply metaInsertRow_congr
    simp only [Nat.zero_add]
    exact cells_append_right d1 d2 hal k
  · intro b1 b2 b d1 d2 h1 h2 h12 hal
    unfold MetadataDeleteInput.aligned at hal
    rw [HandleMetadataDelete_loop h12, HandleMetadataDelete_loop h1]
    show forRange _ 0 (d1.rowIDVector ++ d2.rowIDVector) s = _
    rw [forRange_append]
    have hfirst : forRange (HandleMetadataDelete.row env (d1.append d2)) 0 d1.rowIDVector s =
        forRange (HandleMetadataDelete.row env d1) 0 d1.rowIDVector s := by
      apply forRange_congr
      intro k x t hx
      apply metaDeleteRow_congr
      have hk := getElem?_lt_length hx
      show (d1.deleteTimeVector ++ d2.deleteTimeVector)[0 + k]? = _
      rw [List.getElem?_append_left (by omega)]
    rw [hfirst]
    congr 1
    funext s1
    rw [HandleMetadataDelete_loop h2]
    apply forRange_congr
    intro k x t _
    apply metaDeleteRow_congr
    show (d1.deleteTimeVector ++ d2.deleteTimeVector)[0 + d1.rowIDVector.length + k]? = _
    rw [List.getElem?_append_right (by omega)]
    congr 1
    omega

theorem metadata_batch_is_applied_row_by_row_witness :
    HandleMetadataInsert.decode (metaBatch 9 false "m1" 0 10) = .ok createNineDecoded ∧
    HandleMetadataInsert.decode (metaBatch 7 false "m2" 0 11) = .ok createSevenDecoded ∧
    HandleMetadataInsert.decode createNineAndSeven =
      .ok (createNineDecoded.append createSevenDecoded) ∧
    createNineDecoded.aligned ∧
    HandleMetadataInsert {} createNineAndSeven =
      (HandleMetadataInsert {} (metaBatch 9 false "m1" 0 10)).andThen
        (fun s1 => HandleMetadataInsert s1 (metaBatch 7 false "m2" 0 11)) ∧
    nineAndSeven.p.Blocks.length = 2 ∧
    HandleMetadataDelete.decode deleteNine = .ok deleteNineDecoded ∧
    HandleMetadataDelete.decode deleteSeven = .ok deleteSevenDecoded ∧
    HandleMetadataDelete.decode deleteNineThenSeven.Bat =
      .ok (deleteNineDecoded.append deleteSevenDecoded) ∧
    deleteNineDecoded.aligned ∧
    HandleMetadataDelete exampleEnv nineAndSeven deleteNineThenSeven.Bat =
      (HandleMetadataDelete exampleEnv nineAndSeven deleteNine).andThen
        (fun s1 => HandleMetadataDelete exampleEnv s1 deleteSeven) ∧
    (HandleMetadataDelete exampleEnv nineAndSeven deleteNineThenSeven.Bat).failed = false :=
  ⟨rfl, rfl, rfl, by decide,
   (metadata_batch_is_applied_row_by_row exampleEnv {}).1 _ _ _ createNineDecoded
     createSevenDecoded rfl rfl rfl (by decide),
   by decide, rfl, rfl, rfl, by decide,
   (metadata_batch_is_applied_row_by_row exampleEnv nineAndSeven).2 _ _ _ deleteNineDecoded
     deleteSevenDecoded rfl rfl rfl (by decide),
   by decide⟩

/-! ## Applying a metadata insert twice -/

theorem Get_Set_block (item : BlockEntry) (blocks : List BlockEntry) (id : Nat)
    (hs : btree.Sorted BlockEntry.Less blocks) :
    btree.Get BlockEntry.Less { BlockID := id } (btree.Set BlockEntry.Less item blocks) =
      if item.BlockID = id then some item
      else btree.Get BlockEntry.Less { BlockID := id } blocks := by
  have hs' := btree.sorted_Set blockEntry_isOrder hs item
  split_ifs with hid
  · rw [btree.Get_eq_some_iff blockEntry_isOrder hs']
    exact ⟨btree.item_mem_Set _ _, (blockEntry_equiv_iff _ _).2 hid⟩
  · cases hg : btree.Get BlockEntry.Less { BlockID := id } blocks with
    | none =>
      rw [Get_block_none_iff] at hg ⊢
      intro b hb
      rcases btree.mem_Set_imp hb with rfl | hb'
      · exact hid
      · exact hg b hb'
    | some e =>
      obtain ⟨he, h1, h2⟩ := btree.Get_eq_some_imp hg
      have heid : e.BlockID = id := (blockEntry_equiv_iff e _).1 ⟨h1, h2⟩
      rw [btree.Get_eq_some_iff blockEntry_isOrder hs']
      refine ⟨?_, h1, h2⟩
      rw [btree.mem_Set_iff blockEntry_isOrder hs]
      right
      refine ⟨he, ?_⟩
      rw [blockEntry_less_iff, blockEntry_less_iff]
      omega

theorem blocks_ext (b1 b2 : List BlockEntry) (h1 : btree.Sorted BlockEntry.Less b1)
    (h2 : btree.Sorted BlockEntry.Less b2)
    (h : ∀ id, btree.Get BlockEntry.Less { BlockID := id } b1 =
      btree.Get BlockEntry.Less { BlockID := id } b2) : b1 = b2 := by
  have hsub : ∀ (c1 c2 : List BlockEntry), btree.Sorted BlockEntry.Less c1 →
      (∀ id, btree.Get BlockEntry.Less { BlockID := id } c1 =
        btree.Get BlockEntry.Less { BlockID := id } c2) → ∀ x ∈ c1, x ∈ c2 := by
    intro c1 c2 hc1 hc x hx
    have : btree.Get BlockEntry.Less { BlockID := x.BlockID } c1 = some x := by
      rw [btree.Get_eq_some_iff blockEntry_isOrder hc1]
      exact ⟨hx, (blockEntry_equiv_iff _ _).2 rfl⟩
    rw [hc] at this
    exact (btree.Get_eq_some_imp this).1
  have hnd : ∀ c : List BlockEntry, btree.Sorted BlockEntry.Less c → c.Nodup := by
    intro c hc
    refine List.Pairwise.imp ?_ hc
    intro a b hab hne
    rw [hne, blockEntry_less_iff] at hab
    omega
  have hperm : b1.Perm b2 := by
    rw [List.perm_ext_iff_of_nodup (hnd b1 h1) (hnd b2 h2)]
    intro x
    exact ⟨hsub b1 b2 h1 h x, hsub b2 b1 h2 (fun id => (h id).symm) x⟩
  haveI : IsAntisymm BlockEntry (fun a b => a.Less b = true) := ⟨by
    intro a b hab hba
    rw [blockEntry_less_iff] at hab hba
    omega⟩
  exact List.eq_of_perm_of_sorted hperm h1 h2

theorem merge_merge (r R : MetadataRow) :
    ∃ R' : MetadataRow, ∀ e, HandleMetadataInsert.merge (HandleMetadataInsert.merge e r) R =
      HandleMetadataInsert.merge e R' := by
  refine ⟨MetadataRow.mk (if R.createTime = 0 then r.createTime else R.createTime)
    R.entryState R.sortedState
    (if R.metaLocation = "" then r.metaLocation else R.metaLocation)
    (if R.deltaLocation = "" then r.deltaLocation else R.deltaLocation)
    (if R.commitTime = 0 then r.commitTime else R.commitTime)
    (if R.segmentID = 0 then r.segmentID else R.segmentID), ?_⟩
  intro e
  rw [merge_eq, merge_eq, merge_eq]
  simp only [BlockEntry.mk.injEq, true_and]
  refine ⟨?_, ?_, ?_, ?_, ?_, trivial⟩ <;> split_ifs <;> simp_all

theorem merge_idem (e : BlockEntry) (R : MetadataRow) :
    HandleMetadataInsert.merge (HandleMetadataInsert.merge e R) R =
      HandleMetadataInsert.merge e R := by
  rw [merge_eq, merge_eq]
  simp only [BlockEntry.mk.injEq, true_and]
  refine ⟨?_, ?_, ?_, ?_, ?_, trivial⟩ <;> split_ifs <;> rfl

theorem metaInsertRow_of_cells_none {d : MetadataInsertInput} {i : Nat} (blockID : Nat) (s : St)
    (h : d.cells i = none) : HandleMetadataInsert.row d i blockID s = .error .indexOutOfRange := by
  unfold HandleMetadataInsert.row
  rw [h]

theorem metaInsertRow_of_cells_some {d : MetadataInsertInput} {i : Nat} {r : MetadataRow}
    (blockID : Nat) (s : St) (h : d.cells i = some r) :
    ∃ s', HandleMetadataInsert.row d i blockID s = .ok s' := by
  unfold HandleMetadataInsert.row
  rw [h]
  exact ⟨_, rfl⟩

theorem forRange_state_cons_ok {α : Type} (body : Nat → α → St → Except Panic St) (i : Nat)
    (x : α) (xs : List α) (s s1 : St) (h : body i x s = .ok s1) :
    forRange body i (x :: xs) s = forRange body (i + 1) xs s1 := by
  rw [forRange, h]

theorem forRange_state_cons_error {α : Type} (body : Nat → α → St → Except Panic St) (i : Nat)
    (x : α) (xs : List α) (s : St) (why : Panic) (h : body i x s = .error why) :
    forRange body i (x :: xs) s = .panicked why s := by
  rw [forRange, h]

/-- What the rows of a metadata-insert batch do to the entry of one block does
not depend on the state: they leave it as it is, or they merge one combined row
into it. -/
theorem metaInsertLoop_block (d : MetadataInsertInput) (xs : List Nat) (i id : Nat) :
    ∃ M : Option BlockEntry → Option BlockEntry,
      ((∀ o, M o = o) ∨ ∃ R, ∀ o, M o =
        some (HandleMetadataInsert.merge (o.getD { BlockID := id }) R)) ∧
      ∀ s : St, btree.Sorted BlockEntry.Less s.p.Blocks →
        btree.Sorted BlockEntry.Less (forRange (HandleMetadataInsert.row d) i xs s).state.p.Blocks ∧
        btree.Get BlockEntry.Less { BlockID := id }
          (forRange (HandleMetadataInsert.row d) i xs s).state.p.Blocks =
          M (btree.Get BlockEntry.Less { BlockID := id } s.p.Blocks) := by
  induction xs generalizing i with
  | nil => exact ⟨fun o => o, Or.inl (fun _ => rfl), fun s hs => ⟨hs, rfl⟩⟩
  | cons x xs ih =>
    cases hc : d.cells i with
    | none =>
      refine ⟨fun o => o, Or.inl (fun _ => rfl), fun s hs => ?_⟩
      rw [forRange_state_cons_error _ _ _ _ _ _ (metaInsertRow_of_cells_none x s hc)]
      exact ⟨hs, rfl⟩
    | some r =>
      obtain ⟨M', hshape, hM'⟩ := ih (i + 1)
      have hstep : ∀ s : St, btree.Sorted BlockEntry.Less s.p.Blocks →
          ∃ s1, HandleMetadataInsert.row d i x s = .ok s1 ∧
            btree.Sorted BlockEntry.Less s1.p.Blocks ∧
            btree.Get BlockEntry.Less { BlockID := id } s1.p.Blocks =
              if x = id then
                some (HandleMetadataInsert.merge
                  ((btree.Get BlockEntry.Less { BlockID := id } s.p.Blocks).getD
                    { BlockID := id }) r)
              else btree.Get BlockEntry.Less { BlockID := id } s.p.Blocks := by
        intro s hs
        obtain ⟨s1, hrow⟩ := metaInsertRow_of_cells_some x s hc
        obtain ⟨r', hc', -, hblocks, -, -⟩ := metaInsertRow_ok hrow
        rw [hc] at hc'
        simp only [Option.some.injEq] at hc'
        subst hc'
        refine ⟨s1, hrow, ?_, ?_⟩
        · rw [hblocks]
          exact btree.sorted_Set blockEntry_isOrder hs _
        · rw [hblocks, Get_Set_block _ _ _ hs, merge_BlockID, getD_pivot_BlockID]
          split_ifs with hx
          · rw [hx]
          · rfl
      by_cases hx : x = id
      · rcases hshape with hid | ⟨R, hR⟩
        · refine ⟨fun o => some (HandleMetadataInsert.merge (o.getD { BlockID := id }) r),
            Or.inr ⟨r, fun _ => rfl⟩, fun s hs => ?_⟩
          obtain ⟨s1, hrow, hs1, hg1⟩ := hstep s hs
          rw [forRange_state_cons_ok _ _ _ _ _ _ hrow]
          refine ⟨(hM' s1 hs1).1, ?_⟩
          rw [(hM' s1 hs1).2, hid, hg1, if_pos hx]
        · obtain ⟨R', hR'⟩ := merge_merge r R
          refine ⟨fun o => some (HandleMetadataInsert.merge (o.getD { BlockID := id }) R'),
            Or.inr ⟨R', fun _ => rfl⟩, fun s hs => ?_⟩
          obtain ⟨s1, hrow, hs1, hg1⟩ := hstep s hs
          rw [forRange_state_cons_ok _ _ _ _ _ _ hrow]
          refine ⟨(hM' s1 hs1).1, ?_⟩
          rw [(hM' s1 hs1).2, hR, hg1, if_pos hx]
          simp only [Option.getD_some]
          rw [hR']
      · refine ⟨M', hshape, fun s hs => ?_⟩
        obtain ⟨s1, hrow, hs1, hg1⟩ := hstep s hs
        rw [forRange_state_cons_ok _ _ _ _ _ _ hrow]
        refine ⟨(hM' s1 hs1).1, ?_⟩
        rw [(hM' s1 hs1).2, hg1, if_neg hx]

/-- Running the rows of a metadata-insert batch a second time leaves `Blocks`
as the first run left it. -/
theorem metaInsertLoop_Blocks_idem (d : MetadataInsertInput) (xs : List Nat) (i : Nat) (s : St)
    (hs : btree.Sorted BlockEntry.Less s.p.Blocks) :
    (forRange (HandleMetadataInsert.row d) i xs
      (forRange (HandleMetadataInsert.row d) i xs s).state).state.p.Blocks =
      (forRange (HandleMetadataInsert.row d) i xs s).state.p.Blocks := by
  have hs1 : btree.Sorted BlockEntry.Less
      (forRange (HandleMetadataInsert.row d) i xs s).state.p.Blocks := by
    obtain ⟨M, -, hM⟩ := metaInsertLoop_block d xs i 0
    exact (hM s hs).1
  have hs2 : btree.Sorted BlockEntry.Less (forRange (HandleMetadataInsert.row d) i xs
      (forRange (HandleMetadataInsert.row d) i xs s).state).state.p.Blocks := by
    obtain ⟨M, -, hM⟩ := metaInsertLoop_block d xs i 0
    exact (hM _ hs1).1
  apply blocks_ext _ _ hs2 hs1
  intro id
  obtain ⟨M, hshape, hM⟩ := metaInsertLoop_block d xs i id
  rw [(hM _ hs1).2, (hM s hs).2]
  rcases hshape with hid | ⟨R, hR⟩
  · rw [hid]
  · rw [hR, hR]
    simp only [Option.getD_some]
    rw [merge_idem]

theorem deleteLoop_of_compacted (blockID : Nat) (q : PartitionState)
    (hq : ∀ v ∈ q.Rows, v.BlockID = blockID → v.RowID = 0 ∧ 0 < v.Time) :
    HandleMetadataInsert.deleteLoop blockID
      (btree.Seek RowEntry.Less { BlockID := blockID } (btree.Copy q.Rows)) q = q := by
  unfold btree.Seek btree.Copy
  have hhead := List.head?_dropWhile_not
    (fun x : RowEntry => x.Less { BlockID := blockID }) q.Rows
  have hsub := (List.dropWhile_suffix
    (fun x : RowEntry => x.Less { BlockID := blockID }) (l := q.Rows)).subset
  cases hL : List.dropWhile (fun x : RowEntry => x.Less { BlockID := blockID }) q.Rows with
  | nil => rfl
  | cons y ys =>
    rw [hL] at hhead hsub
    simp only [List.head?_cons] at hhead
    have hy : y ∈ q.Rows := hsub (List.mem_cons_self _ _)
    have hne : y.BlockID ≠ blockID := by
      intro hB
      obtain ⟨h1, h2⟩ := hq y hy hB
      have : y.Less { BlockID := blockID } = true := by
        rw [rowEntry_less_pivot_iff]
        right
        exact ⟨hB, Or.inr ⟨h1, h2⟩⟩
      rw [this] at hhead
      cases hhead
    unfold HandleMetadataInsert.deleteLoop
    simp [hne]

/-- Running the rows of a metadata-insert batch on a state whose row versions
all survived a run of the same rows changes neither `Rows` nor `PrimaryIndex`,
and panics if and only if that run did. -/
theorem metaInsertLoop_second_run (d : MetadataInsertInput) (xs : List Nat) (i : Nat)
    (s t : St) (hs : btree.Sorted RowEntry.Less s.p.Rows)
    (ht : ∀ v ∈ t.p.Rows, v ∈ (forRange (HandleMetadataInsert.row d) i xs s).state.p.Rows) :
    (forRange (HandleMetadataInsert.row d) i xs t).state.p.Rows = t.p.Rows ∧
    (forRange (HandleMetadataInsert.row d) i xs t).state.p.PrimaryIndex = t.p.PrimaryIndex ∧
    (forRange (HandleMetadataInsert.row d) i xs t).state.p.Checkpoints = t.p.Checkpoints ∧
    (forRange (HandleMetadataInsert.row d) i xs t).state.nextRowEntryID = t.nextRowEntryID ∧
    (forRange (HandleMetadataInsert.row d) i xs t).failed =
      (forRange (HandleMetadataInsert.row d) i xs s).failed := by
  induction xs generalizing i s t with
  | nil => exact ⟨rfl, rfl, rfl, rfl, rfl⟩
  | cons x xs ih =>
    cases hc : d.cells i with
    | none =>
      rw [forRange_state_cons_error _ _ _ _ _ _ (metaInsertRow_of_cells_none x t hc),
        forRange_state_cons_error _ _ _ _ _ _ (metaInsertRow_of_cells_none x s hc)]
      exact ⟨rfl, rfl, rfl, rfl, rfl⟩
    | some r =>
      obtain ⟨s1, hrows⟩ := metaInsertRow_of_cells_some x s hc
      obtain ⟨t1, hrowt⟩ := metaInsertRow_of_cells_some x t hc
      rw [forRange_state_cons_ok _ _ _ _ _ _ hrows] at ht
      rw [forRange_state_cons_ok _ _ _ _ _ _ hrows, forRange_state_cons_ok _ _ _ _ _ _ hrowt]
      have hs1 : btree.Sorted RowEntry.Less s1.p.Rows := metaInsertRow_sorted hs hrows
      have hfinal : ∀ v ∈ (forRange (HandleMetadataInsert.row d) (i + 1) xs s1).state.p.Rows,
          v ∈ s1.p.Rows :=
        forRange_invariant (HandleMetadataInsert.row d) (fun u => ∀ v ∈ u.p.Rows, v ∈ s1.p.Rows)
          (fun _ _ _ _ hP h v hv => hP v ((metaInsertRow_Rows_sublist h).subset hv))
          (i + 1) xs s1 (fun v hv => hv)
      obtain ⟨r1, q, hc1, hn, hq1, hq2, hq3, -, hp⟩ := metaInsertRow_eq hrowt
      rw [hc] at hc1
      simp only [Option.some.injEq] at hc1
      subst hc1
      have ht1 : t1.p = q := by
        rw [hp]
        split_ifs with hE
        · apply deleteLoop_of_compacted
          intro v hv hB
          rw [hq1] at hv
          have hv1 := hfinal v (ht v hv)
          obtain ⟨r2, q2, hc2, -, hq21, -, -, -, hp2⟩ := metaInsertRow_eq hrows
          rw [hc] at hc2
          simp only [Option.some.injEq] at hc2
          subst hc2
          rw [hp2] at hv1
          simp only [hE, if_true] at hv1
          exact deleteLoop_Rows_block x q2 (by rw [hq21]; exact hs) v hv1 hB
        · rfl
      obtain ⟨h1, h2, h3, h4, h5⟩ := ih (i + 1) s1 t1 hs1
        (by
          intro v hv
          rw [ht1, hq1] at hv
          exact ht v hv)
      refine ⟨?_, ?_, ?_, ?_, h5⟩
      · rw [h1, ht1, hq1]
      · rw [h2, ht1, hq2]
      · rw [h3, ht1, hq3]
      · rw [h4, hn]

/-- C22: for every partition state (with ordered `Rows` and `Blocks` trees) and
every metadata-insert batch, applying the batch a second time leaves `Blocks`,
`Rows` and `PrimaryIndex` (and `Checkpoints` and the counter) as the first
application left them, and the second call panics exactly when the first one
did. -/
theorem HandleMetadataInsert_twice_is_once (s : St) (input : Batch)
    (hsr : btree.Sorted RowEntry.Less s.p.Rows) (hsb : btree.Sorted BlockEntry.Less s.p.Blocks) :
    (HandleMetadataInsert (HandleMetadataInsert s input).state input).state.p.Blocks =
      (HandleMetadataInsert s input).state.p.Blocks ∧
    (HandleMetadataInsert (HandleMetadataInsert s input).state input).state.p.Rows =
      (HandleMetadataInsert s input).state.p.Rows ∧
    (HandleMetadataInsert (HandleMetadataInsert s input).state input).state.p.PrimaryIndex =
      (HandleMetadataInsert s input).state.p.PrimaryIndex ∧
    (HandleMetadataInsert (HandleMetadataInsert s input).state input).state.p.Checkpoints =
      (HandleMetadataInsert s input).state.p.Checkpoints ∧
    (HandleMetadataInsert (HandleMetadataInsert s input).state input).state.nextRowEntryID =
      (HandleMetadataInsert s input).state.nextRowEntryID ∧
    (HandleMetadataInsert (HandleMetadataInsert s input).state input).failed =
      (HandleMetadataInsert s input).failed := by
  unfold HandleMetadataInsert
  cases hd : HandleMetadataInsert.decode input with
  | error why => exact ⟨rfl, rfl, rfl, rfl, rfl, rfl⟩
  | ok d =>
    simp only
    obtain ⟨h1, h2, h3, h4, h5⟩ := metaInsertLoop_second_run d d.blockIDVector 0 s
      (forRange (HandleMetadataInsert.row d) 0 d.blockIDVector s).state hsr (fun v hv => hv)
    exact ⟨metaInsertLoop_Blocks_idem d d.blockIDVector 0 s hsb, h1, h2, h3, h4, h5⟩

theorem HandleMetadataInsert_twice_is_once_witness :
    btree.Sorted RowEntry.Less afterInsertA.p.Rows ∧
    btree.Sorted BlockEntry.Less afterInsertA.p.Blocks ∧
    afterInsertA.p.Rows.length = 1 ∧
    (HandleMetadataInsert afterInsertA promoteOne.Bat).state.p.Rows = [] ∧
    (HandleMetadataInsert afterInsertA promoteOne.Bat).state.p.Blocks.length = 1 ∧
    (HandleMetadataInsert (HandleMetadataInsert afterInsertA promoteOne.Bat).state
        promoteOne.Bat).state.p.Blocks =
      (HandleMetadataInsert afterInsertA promoteOne.Bat).state.p.Blocks ∧
    (HandleMetadataInsert (HandleMetadataInsert afterInsertA promoteOne.Bat).state
        promoteOne.Bat).state.p.Rows =
      (HandleMetadataInsert afterInsertA promoteOne.Bat).state.p.Rows ∧
    (HandleMetadataInsert (HandleMetadataInsert afterInsertA promoteOne.Bat).state
        promoteOne.Bat).state.p.PrimaryIndex =
      (HandleMetadataInsert afterInsertA promoteOne.Bat).state.p.PrimaryIndex := by
  refine ⟨by decide, by decide, by decide, by decide, by decide, ?_⟩
  obtain ⟨h1, h2, h3, -⟩ := HandleMetadataInsert_twice_is_once afterInsertA promoteOne.Bat
    (by decide) (by decide)
  exact ⟨h1, h2, h3⟩

end disttae

namespace colexec

/-! ## Filter lists -/

theorem RewriteFilterExprList_cons_cons (ids : FunctionIds) (left next : Expr)
    (rest : List Expr) :
    RewriteFilterExprList ids (left :: next :: rest) =
      (RewriteFilterExprList ids (next :: rest)).map (andOf ids left) := rfl

theorem RewriteFilterExprList_eq_andChain (ids : FunctionIds) (l : List Expr) (h : l ≠ []) :
    RewriteFilterExprList ids l = some (andChain ids l.dropLast (l.getLast h)) := by
  induction l with
  | nil => exact absurd rfl h
  | cons e rest ih =>
    cases rest with
    | nil => rfl
    | cons next rest =>
      rw [RewriteFilterExprList_cons_cons, ih (List.cons_ne_nil _ _)]
      simp only [Option.map_some', List.dropLast_cons₂, List.getLast_cons_cons]
      rfl

/-- C29: `RewriteFilterExprList` returns nil for an empty list, the sole
element itself for a one-element list, and for a list `e0 .. e(n-1)` with
`n >= 2` the right-nested chain `and(e0, and(e1, ... and(e(n-2), e(n-1))))`:
each node is the function call that `makeAndExpr` builds (the AND function's
encoded id and name, two arguments), with the type of its left operand, its
left operand is a list element and its right operand is the result for the
rest of the list, so the leaves are the list elements in their original
order. -/
theorem RewriteFilterExprList_builds_right_nested_and_chain (ids : FunctionIds) :
    RewriteFilterExprList ids [] = none ∧
    (∀ e : Expr, RewriteFilterExprList ids [e] = some e) ∧
    (∀ (l : List Expr) (h : l ≠ []),
      RewriteFilterExprList ids l = some (andChain ids l.dropLast (l.getLast h))) ∧
    (∀ (e0 e1 : Expr) (rest : List Expr), ∃ right : Expr,
      RewriteFilterExprList ids (e1 :: rest) = some right ∧
      RewriteFilterExprList ids (e0 :: e1 :: rest) =
        some (.F e0.Typ (makeAndExpr ids e0 right).Func (makeAndExpr ids e0 right).Args) ∧
      (makeAndExpr ids e0 right).Func =
        { Obj := ids.AndFunctionEncodedID, ObjName := ids.AndFunctionName } ∧
      (makeAndExpr ids e0 right).Args = [e0, right]) := by
  refine ⟨rfl, fun _ => rfl, RewriteFilterExprList_eq_andChain ids, ?_⟩
  intro e0 e1 rest
  refine ⟨_, RewriteFilterExprList_eq_andChain ids (e1 :: rest) (List.cons_ne_nil _ _), ?_,
    rfl, rfl⟩
  rw [RewriteFilterExprList_cons_cons,
    RewriteFilterExprList_eq_andChain ids (e1 :: rest) (List.cons_ne_nil _ _)]
  rfl

theorem RewriteFilterExprList_builds_right_nested_and_chain_witness :
    RewriteFilterExprList exampleIds [col 0, col 1, col 2] =
      some (.F (some { Id := 10 }) { Obj := 7, ObjName := "and" }
        [col 0, .F (some { Id := 10 }) { Obj := 7, ObjName := "and" } [col 1, col 2]]) ∧
    RewriteFilterExprList exampleIds [col 0, col 1, col 2] =
      some (andChain exampleIds [col 0, col 1, col 2].dropLast
        ([col 0, col 1, col 2].getLast (List.cons_ne_nil _ _))) :=
  ⟨rfl, (RewriteFilterExprList_builds_right_nested_and_chain exampleIds).2.2.1
    [col 0, col 1, col 2] (List.cons_ne_nil _ _)⟩

/-! ## Comparisons by zone map -/

theorem EvalExprByZonemapBat_F (deps : Deps) (bat bat' : ZmBatch) (typ : Option PlanType)
    (func : ObjectRef) (args : List Expr) (f : Nat) (functionParameters : List Vector)
    (hlen : bat.Zs.length ≠ 0) (hf : deps.GetFunctionByID func.Obj = .ok f)
    (hargs : evalParameters deps bat args = (bat', .ok functionParameters)) :
    EvalExprByZonemapBat deps bat (.F typ func args) =
      (bat', callByZonemap deps func.ObjName f functionParameters bat.Zs.length) := by
  simp only [EvalExprByZonemapBat, hlen, if_false, hf, hargs]

/-- C30: in `EvalExprByZonemapBat`, for a call of one of the comparison
functions `>`, `<`, `=`, `>=` and `<=` on a non-empty batch, once the function
is found and the arguments are evaluated, the result is the boolean constant
true of length 1, with no error, when the vector comparison
(`CompareAndCheckIntersect` for `=`, `CompareAndCheckAnyResultIsTrue` with the
operator otherwise) returns an error, and the boolean constant of length 1 of
the comparison's outcome when it succeeds; this is what the closure
`compareAndReturn` returns. -/
theorem failed_comparison_evaluates_to_true (deps : Deps) :
    (∀ (isTrue : Bool) (e : Error),
      compareAndReturn isTrue (some e) = .ok (.ConstFixedBool true 1)) ∧
    (∀ isTrue : Bool, compareAndReturn isTrue none = .ok (.ConstFixedBool isTrue 1)) ∧
    ∀ (bat bat' : ZmBatch) (typ : Option PlanType) (func : ObjectRef) (args : List Expr)
      (f : Nat) (p0 p1 : Vector) (rest : List Vector),
      bat.Zs.length ≠ 0 → deps.GetFunctionByID func.Obj = .ok f →
      evalParameters deps bat args = (bat', .ok (p0 :: p1 :: rest)) →
      func.ObjName ∈ [">", "<", "=", ">=", "<="] →
      ((if func.ObjName = "=" then deps.CompareAndCheckIntersect p0 p1
          else deps.CompareAndCheckAnyResultIsTrue p0 p1 func.ObjName).2 ≠ none →
        EvalExprByZonemapBat deps bat (.F typ func args) =
          (bat', .ok (.ConstFixedBool true 1))) ∧
      ((if func.ObjName = "=" then deps.CompareAndCheckIntersect p0 p1
          else deps.CompareAndCheckAnyResultIsTrue p0 p1 func.ObjName).2 = none →
        EvalExprByZonemapBat deps bat (.F typ func args) =
          (bat', .ok (.ConstFixedBool
            (if func.ObjName = "=" then deps.CompareAndCheckIntersect p0 p1
              else deps.CompareAndCheckAnyResultIsTrue p0 p1 func.ObjName).1 1))) := by
  refine ⟨fun _ _ => rfl, fun _ => rfl, ?_⟩
  intro bat bat' typ func args f p0 p1 rest hlen hf hargs hname
  rw [EvalExprByZonemapBat_F deps bat bat' typ func args f _ hlen hf hargs]
  have hcr : ∀ r : Bool × Option Error,
      (r.2 ≠ none → compareAndReturn r.1 r.2 = .ok (.ConstFixedBool true 1)) ∧
      (r.2 = none → compareAndReturn r.1 r.2 = .ok (.ConstFixedBool r.1 1)) := by
    rintro ⟨b, e⟩
    cases e with
    | none => exact ⟨fun h => absurd rfl h, fun _ => rfl⟩
    | some e => exact ⟨fun _ => rfl, fun h => by cases h⟩
  simp only [List.mem_cons, List.mem_singleton, List.not_mem_nil, or_false] at hname
  rcases hname with h | h | h | h | h <;> rw [h] <;>
    simp only [callByZonemap, String.reduceEq, if_false, if_true] <;>
    exact ⟨fun hc => by rw [(hcr _).1 hc], fun hc => by rw [(hcr _).2 hc]⟩

theorem failed_comparison_evaluates_to_true_witness :
    exampleBat.Zs.length ≠ 0 ∧
    evalParameters exampleDeps exampleBat [col 0, col 1] =
      (exampleBat, .ok [.Data 0, .Data 3]) ∧
    (exampleDeps.CompareAndCheckAnyResultIsTrue (.Data 0) (.Data 3) ">").2 ≠ none ∧
    EvalExprByZonemapBat exampleDeps exampleBat
        (.F (some { Id := 1 }) { Obj := 1, ObjName := ">" } [col 0, col 1]) =
      (exampleBat, .ok (.ConstFixedBool true 1)) ∧
    evalParameters exampleDeps exampleBat [col 2, col 1] =
      (exampleBat, .ok [.Data 5, .Data 3]) ∧
    (exampleDeps.CompareAndCheckAnyResultIsTrue (.Data 5) (.Data 3) "<") = (false, none) ∧
    EvalExprByZonemapBat exampleDeps exampleBat
        (.F (some { Id := 1 }) { Obj := 1, ObjName := "<" } [col 2, col 1]) =
      (exampleBat, .ok (.ConstFixedBool false 1)) :=
  ⟨by decide, rfl, by decide,
   ((failed_comparison_evaluates_to_true exampleDeps).2.2 exampleBat exampleBat
     (some { Id := 1 }) { Obj := 1, ObjName := ">" } [col 0, col 1] 1 (.Data 0) (.Data 3) []
     (by decide) rfl rfl (by decide)).1 (by decide),
   rfl, rfl,
   ((failed_comparison_evaluates_to_true exampleDeps).2.2 exampleBat exampleBat
     (some { Id := 1 }) { Obj := 1, ObjName := "<" } [col 2, col 1] 1 (.Data 5) (.Data 3) []
     (by decide) rfl rfl (by decide)).2 (by decide)⟩

/-! ## Conjunctions by zone map -/

theorem rightHasTrue_iff (cols : List Bool) : rightHasTrue cols = true ↔ true ∈ cols := by
  induction cols with
  | nil => simp [rightHasTrue]
  | cons flag rest ih =>
    unfold rightHasTrue
    cases flag <;> simp [ih]

theorem andLoop_iff (cols1 cols2 : List Bool) :
    andLoop cols1 cols2 = true ↔ true ∈ cols1 ∧ true ∈ cols2 := by
  induction cols1 with
  | nil => simp [andLoop]
  | cons flag rest ih =>
    unfold andLoop
    cases flag
    · simp [ih]
    · simp [rightHasTrue_iff]

/-- C31: in `EvalExprByZonemapBat`, for a call of the function named `and` on a
non-empty batch, once the function is found, the arguments are evaluated and
the first two parameters are read as the boolean columns `cols1` and `cols2`,
the result is the boolean constant of length 1 that is true if and only if
`cols1` contains a true and `cols2` contains a true, and false otherwise; the
loops of the source compute exactly that condition. -/
theorem and_by_zonemap_needs_a_true_on_each_side (deps : Deps) :
    (∀ cols1 cols2 : List Bool, andLoop cols1 cols2 = true ↔ true ∈ cols1 ∧ true ∈ cols2) ∧
    ∀ (bat bat' : ZmBatch) (typ : Option PlanType) (func : ObjectRef) (args : List Expr)
      (f : Nat) (p0 p1 : Vector) (rest : List Vector) (cols1 cols2 : List Bool),
      bat.Zs.length ≠ 0 → deps.GetFunctionByID func.Obj = .ok f →
      evalParameters deps bat args = (bat', .ok (p0 :: p1 :: rest)) →
      func.ObjName = "and" →
      deps.MustFixedColBool p0 = some cols1 → deps.MustFixedColBool p1 = some cols2 →
      EvalExprByZonemapBat deps bat (.F typ func args) =
        (bat', .ok (.ConstFixedBool (decide (true ∈ cols1 ∧ true ∈ cols2)) 1)) := by
  refine ⟨andLoop_iff, ?_⟩
  intro bat bat' typ func args f p0 p1 rest cols1 cols2 hlen hf hargs hname h0 h1
  rw [EvalExprByZonemapBat_F deps bat bat' typ func args f _ hlen hf hargs, hname]
  simp only [callByZonemap, h0, h1]
  congr 3
  rw [Bool.eq_iff_iff, andLoop_iff]
  simp

theorem and_by_zonemap_needs_a_true_on_each_side_witness :
    evalParameters exampleDeps exampleBat
        [.F none { Obj := 1, ObjName := ">" } [col 2, col 1],
         .F none { Obj := 1, ObjName := "<" } [col 2, col 1]] =
      (exampleBat, .ok [.ConstFixedBool true 1, .ConstFixedBool false 1]) ∧
    EvalExprByZonemapBat exampleDeps exampleBat
        (.F none { Obj := 7, ObjName := "and" }
          [.F none { Obj := 1, ObjName := ">" } [col 2, col 1],
           .F none { Obj := 1, ObjName := "<" } [col 2, col 1]]) =
      (exampleBat, .ok (.ConstFixedBool (decide (true ∈ [true] ∧ true ∈ [false])) 1)) ∧
    decide (true ∈ [true] ∧ true ∈ [false]) = false ∧
    EvalExprByZonemapBat exampleDeps exampleBat
        (.F none { Obj := 7, ObjName := "and" }
          [.F none { Obj := 1, ObjName := ">" } [col 2, col 1],
           .F none { Obj := 1, ObjName := ">=" } [col 2, col 1]]) =
      (exampleBat, .ok (.ConstFixedBool true 1)) :=
  ⟨rfl,
   (and_by_zonemap_needs_a_true_on_each_side exampleDeps).2 exampleBat exampleBat none
     { Obj := 7, ObjName := "and" } _ 7 (.ConstFixedBool true 1) (.ConstFixedBool false 1) []
     [true] [false] (by decide) rfl rfl rfl rfl rfl,
   by decide,
   (and_by_zonemap_needs_a_true_on_each_side exampleDeps).2 exampleBat exampleBat none
     { Obj := 7, ObjName := "and" } _ 7 (.ConstFixedBool true 1) (.ConstFixedBool true 1) []
     [true] [true] (by decide) rfl rfl rfl rfl rfl⟩

end colexec

namespace disttae

/-! ## RowExists in one step -/

theorem Seek_head_not_less {α : Type} (less : α → α → Bool) (pivot y : α) (xs : List α)
    (h : (btree.Seek less pivot xs).head? = some y) : less y pivot = false := by
  unfold btree.Seek at h
  have := List.head?_dropWhile_not (fun x => less x pivot) xs
  rw [h] at this
  exact this

/-- C35: for every partition state, row id `r` and timestamp `ts`, the first
item that the seek to `(blockIDFromRowID(r), r, ts)` returns never has the
BlockID and the RowID of the row together with `Time > ts`, so the
"not visible, continue" branch of `RowExists` is not taken, and `RowExists`
equals the single-step function: seek, then return true iff an item was found
whose BlockID and RowID match and whose `Deleted` flag is false. -/
theorem RowExists_never_continues (env : Env) (p : PartitionState) (r ts : Nat) :
    (∀ y, (btree.Seek RowEntry.Less
        { BlockID := env.blockIDFromRowID r, RowID := r, Time := ts } p.Rows).head? = some y →
      ¬ (y.BlockID = env.blockIDFromRowID r ∧ y.RowID = r ∧ TS.Greater y.Time ts = true)) ∧
    p.RowExists env r ts = p.RowExistsSingleStep env r ts := by
  have hfirst : ∀ y, (btree.Seek RowEntry.Less
        { BlockID := env.blockIDFromRowID r, RowID := r, Time := ts } p.Rows).head? = some y →
      ¬ (y.BlockID = env.blockIDFromRowID r ∧ y.RowID = r ∧ TS.Greater y.Time ts = true) := by
    intro y hy hcon
    have hnl := Seek_head_not_less _ _ _ _ hy
    have hl : y.Less { BlockID := env.blockIDFromRowID r, RowID := r, Time := ts } = true := by
      rw [rowEntry_less_pivot_iff]
      obtain ⟨h1, h2, h3⟩ := hcon
      unfold TS.Greater at h3
      simp only [decide_eq_true_eq] at h3
      exact Or.inr ⟨h1, Or.inr ⟨h2, h3⟩⟩
    rw [hl] at hnl
    cases hnl
  refine ⟨hfirst, ?_⟩
  unfold PartitionState.RowExists PartitionState.RowExistsSingleStep
  simp only
  cases hL : btree.Seek RowEntry.Less
      { BlockID := env.blockIDFromRowID r, RowID := r, Time := ts } p.Rows with
  | nil => rfl
  | cons y ys =>
    have hy := hfirst y (by rw [hL]; rfl)
    simp only [List.head?_cons]
    unfold RowExists.loop
    by_cases hb : y.BlockID = env.blockIDFromRowID r
    · by_cases hr : y.RowID = r
      · have hg : TS.Greater y.Time ts = false := by
          cases hgt : TS.Greater y.Time ts with
          | false => rfl
          | true => exact absurd ⟨hb, hr, hgt⟩ hy
        cases hd : y.Deleted <;> simp [hb, hr, hg, hd]
      · simp [hb, hr]
    · simp [hb]

/-! ## What a metadata insert removes -/

theorem forRange_state_invariant_indexed {α : Type} (body : Nat → α → St → Except Panic St)
    (xs : List α) (P : St → Prop) (i : Nat) (s : St)
    (hbody : ∀ k x t t', xs[k]? = some x → P t → body (i + k) x t = .ok t' → P t')
    (h0 : P s) : P (forRange body i xs s).state := by
  induction xs generalizing i s with
  | nil => exact h0
  | cons x xs ih =>
    unfold forRange
    cases hb : body i x s with
    | error why => exact h0
    | ok s1 =>
      refine ih (i + 1) s1 ?_ (hbody 0 x s s1 (by simp) h0 (by simpa using hb))
      intro k y t t' hy hP hrow
      refine hbody (k + 1) y t t' (by simpa using hy) hP ?_
      have : i + (k + 1) = i + 1 + k := by omega
      rw [this]
      exact hrow

/-- What one metadata-insert row removes: versions of its block, when its
entry state is true, and the index entries keyed by the key bytes and the id of
a version it removes. -/
theorem metaInsertRow_removes {d : MetadataInsertInput} {i blockID : Nat} {t t' : St}
    (h : HandleMetadataInsert.row d i blockID t = .ok t') :
    (∀ v ∈ t.p.Rows, v ∉ t'.p.Rows →
      v.BlockID = blockID ∧ d.entryStateVector[i]? = some true) ∧
    (∀ e ∈ t.p.PrimaryIndex, e ∉ t'.p.PrimaryIndex →
      ∃ v ∈ t.p.Rows, v ∉ t'.p.Rows ∧ e.Bytes = v.PrimaryIndexBytes ∧ e.RowEntryID = v.ID) := by
  obtain ⟨r, q, hc, -, hq1, hq2, -, -, hp⟩ := metaInsertRow_eq h
  have hE := cells_entryState hc
  cases hr : r.entryState with
  | false =>
    rw [hr] at hp
    simp only [Bool.false_eq_true, if_false] at hp
    constructor
    · intro v hv hv'
      rw [hp, hq1] at hv'
      exact absurd hv hv'
    · intro e he he'
      rw [hp, hq2] at he'
      exact absurd he he'
  | true =>
    rw [hr] at hp hE
    simp only [if_true] at hp
    have hseek : ∀ w ∈ (btree.Seek RowEntry.Less { BlockID := blockID }
        (btree.Copy q.Rows)).takeWhile (fun e => e.BlockID == blockID),
        w ∈ t.p.Rows ∧ w.BlockID = blockID ∧ w ∉ t'.p.Rows := by
      intro w hw
      have hw1 : w ∈ q.Rows :=
        (btree.Seek_sublist _ _ _).subset ((List.takeWhile_sublist _).subset hw)
      have hw2 : w.BlockID = blockID := by
        have := List.mem_takeWhile_imp hw
        simpa using this
      refine ⟨by rw [← hq1]; exact hw1, hw2, ?_⟩
      rw [hp, mem_deleteLoop_Rows]
      rintro ⟨-, hall⟩
      have := hall w hw
      have hirr := rowEntry_isOrder.irrefl w
      rw [hirr] at this
      simp at this
    constructor
    · intro v hv hv'
      rw [hp, mem_deleteLoop_Rows] at hv'
      rw [← hq1] at hv
      simp only [hv, true_and, not_forall] at hv'
      obtain ⟨w, hw, hcmp⟩ := hv'
      have heq : v.isAt w.BlockID w.RowID w.Time := by
        by_contra hne
        exact hcmp ((rowEntry_comparable_iff v w).2 hne)
      exact ⟨heq.1.trans (hseek w hw).2.1, hE⟩
    · intro e he he'
      rw [hp, mem_deleteLoop_PrimaryIndex] at he'
      rw [← hq2] at he
      simp only [he, true_and, not_forall] at he'
      obtain ⟨w, hw, hlen, hcmp⟩ := he'
      simp only [not_or, Bool.not_eq_true] at hcmp
      obtain ⟨hb, hid⟩ := primaryIndexEntry_incomparable _ _ hcmp.1 hcmp.2
      exact ⟨w, (hseek w hw).1, (hseek w hw).2.2, hb, hid⟩

/-- C36: `HandleMetadataInsert`, whether it returns or panics, leaves
`Checkpoints` unchanged and only removes items from `Rows` and `PrimaryIndex`;
a version it removes from `Rows` has the block id of a row of the batch with
`entry_state = true`; an entry it removes from `PrimaryIndex` has the `Bytes`
and the `RowEntryID` that are the `PrimaryIndexBytes` and the `ID` of a version
removed in the same call; and when no row of the batch has
`entry_state = true`, `Rows` and `PrimaryIndex` are unchanged. -/
theorem HandleMetadataInsert_removes_only_versions_of_promoted_blocks (s : St)
    (input : Batch) :
    (HandleMetadataInsert s input).state.p.Checkpoints = s.p.Checkpoints ∧
    (HandleMetadataInsert s input).state.p.Rows.Sublist s.p.Rows ∧
    (HandleMetadataInsert s input).state.p.PrimaryIndex.Sublist s.p.PrimaryIndex ∧
    (∀ v ∈ s.p.Rows, v ∉ (HandleMetadataInsert s input).state.p.Rows →
      ∃ (d : MetadataInsertInput) (i : Nat), HandleMetadataInsert.decode input = .ok d ∧
        d.blockIDVector[i]? = some v.BlockID ∧ d.entryStateVector[i]? = some true) ∧
    (∀ e ∈ s.p.PrimaryIndex, e ∉ (HandleMetadataInsert s input).state.p.PrimaryIndex →
      ∃ v ∈ s.p.Rows, v ∉ (HandleMetadataInsert s input).state.p.Rows ∧
        e.Bytes = v.PrimaryIndexBytes ∧ e.RowEntryID = v.ID) ∧
    (∀ d, HandleMetadataInsert.decode input = .ok d →
      (∀ i : Nat, d.entryStateVector[i]? ≠ some true) →
      (HandleMetadataInsert s input).state.p.Rows = s.p.Rows ∧
      (HandleMetadataInsert s input).state.p.PrimaryIndex = s.p.PrimaryIndex) := by
  unfold HandleMetadataInsert
  cases hd : HandleMetadataInsert.decode input with
  | error why =>
    refine ⟨rfl, List.Sublist.refl _, List.Sublist.refl _, ?_, ?_, ?_⟩
    · intro v hv hv'
      exact absurd hv hv'
    · intro e he he'
      exact absurd he he'
    · intro d hd'
      cases hd'
  | ok d =>
    simp only
    have hinv := forRange_state_invariant_indexed (HandleMetadataInsert.row d) d.blockIDVector
      (fun t => t.p.Checkpoints = s.p.Checkpoints ∧ t.p.Rows.Sublist s.p.Rows ∧
        t.p.PrimaryIndex.Sublist s.p.PrimaryIndex ∧
        (∀ v ∈ s.p.Rows, v ∉ t.p.Rows → ∃ i : Nat, d.blockIDVector[i]? = some v.BlockID ∧
          d.entryStateVector[i]? = some true) ∧
        (∀ e ∈ s.p.PrimaryIndex, e ∉ t.p.PrimaryIndex →
          ∃ v ∈ s.p.Rows, v ∉ t.p.Rows ∧ e.Bytes = v.PrimaryIndexBytes ∧ e.RowEntryID = v.ID))
      0 s
      (fun k x t t' hx hP hrow => by
        obtain ⟨h1, h2, h3, h4, h5⟩ := hP
        simp only [Nat.zero_add] at hrow
        obtain ⟨hr1, hr2⟩ := metaInsertRow_removes hrow
        have hsubR := metaInsertRow_Rows_sublist hrow
        have hsubP := metaInsertRow_PrimaryIndex_sublist hrow
        obtain ⟨r, -, -, -, hchk, -⟩ := metaInsertRow_ok hrow
        refine ⟨by rw [hchk, h1], hsubR.trans h2, hsubP.trans h3, ?_, ?_⟩
        · intro v hv hv'
          by_cases hvt : v ∈ t.p.Rows
          · obtain ⟨hB, hE⟩ := hr1 v hvt hv'
            exact ⟨k, by rw [hB]; exact hx, hE⟩
          · exact h4 v hv hvt
        · intro e he he'
          by_cases het : e ∈ t.p.PrimaryIndex
          · obtain ⟨v, hv, hv', hb, hid⟩ := hr2 e het he'
            exact ⟨v, h2.subset hv, hv', hb, hid⟩
          · obtain ⟨v, hv, hv', hb, hid⟩ := h5 e he het
            exact ⟨v, hv, fun hin => hv' (hsubR.subset hin), hb, hid⟩)
      ⟨rfl, List.Sublist.refl _, List.Sublist.refl _, fun v hv hv' => absurd hv hv',
        fun e he he' => absurd he he'⟩
    obtain ⟨h1, h2, h3, h4, h5⟩ := hinv
    refine ⟨h1, h2, h3, ?_, h5, ?_⟩
    · intro v hv hv'
      obtain ⟨i, hi1, hi2⟩ := h4 v hv hv'
      exact ⟨d, i, rfl, hi1, hi2⟩
    · intro d' hd' hnone
      simp only [Except.ok.injEq] at hd'
      subst hd'
      exact forRange_invariant (HandleMetadataInsert.row d)
        (fun t => t.p.Rows = s.p.Rows ∧ t.p.PrimaryIndex = s.p.PrimaryIndex)
        (fun i x t t' hP hrow => by
          obtain ⟨r, hc, -, -, -, hkeep⟩ := metaInsertRow_ok hrow
          have hE := cells_entryState hc
          have hr : r.entryState = false := by
            cases hr : r.entryState with
            | false => rfl
            | true =>
              rw [hr] at hE
              exact absurd hE (hnone i)
          obtain ⟨k1, k2⟩ := hkeep hr
          exact ⟨k1.trans hP.1, k2.trans hP.2⟩) 0 d.blockIDVector s ⟨rfl, rfl⟩

theorem HandleMetadataInsert_removes_only_versions_of_promoted_blocks_witness :
    afterInsertA.p.Rows = [versionA] ∧
    (HandleMetadataInsert afterInsertA promoteOne.Bat).state.p.Rows = [] ∧
    afterInsertA.p.PrimaryIndex.length = 1 ∧
    (HandleMetadataInsert afterInsertA promoteOne.Bat).state.p.PrimaryIndex = [] ∧
    HandleMetadataInsert.decode promoteOne.Bat = .ok promoteOneDecoded ∧
    (∃ (d : MetadataInsertInput) (i : Nat), HandleMetadataInsert.decode promoteOne.Bat = .ok d ∧
      d.blockIDVector[i]? = some versionA.BlockID ∧ d.entryStateVector[i]? = some true) :=
  ⟨by decide, by decide, by decide, by decide, rfl,
   (HandleMetadataInsert_removes_only_versions_of_promoted_blocks afterInsertA
     promoteOne.Bat).2.2.2.1 versionA (by decide) (by decide)⟩

/-! ## A data insert removes nothing -/

theorem insertRow_version_id {env : Env} {d : RowsInsertInput} {i rowID time : Nat} {s s' : St}
    (hc : (withoutOverflow env).rowsInsert d i rowID s = true)
    (ht : d.timeVector[i]? = some time)
    (h : HandleRowsInsert.row env d i rowID s = .ok s') :
    (∃ e, btree.Get RowEntry.Less
        { BlockID := env.blockIDFromRowID rowID, RowID := rowID, Time := time } s.p.Rows = some e ∧
      (HandleRowsInsert.entry env d i rowID time s).ID = e.ID ∧
      s'.nextRowEntryID = s.nextRowEntryID) ∨
    ((HandleRowsInsert.entry env d i rowID time s).ID = s'.nextRowEntryID ∧
      s.nextRowEntryID < s'.nextRowEntryID) := by
  obtain ⟨time', htime, -, -, -, -, hnext⟩ := insertRow_ok h
  rw [ht] at htime
  simp only [Option.some.injEq] at htime
  subst htime
  simp only [withoutOverflow, ht, decide_eq_true_eq] at hc
  rcases nextAfterRow_cases env rowID time s with ⟨e, hg, hn⟩ | ⟨hg, hn⟩
  · exact Or.inl ⟨e, hg, (insertEntry_found env d i rowID time s e hg).1, by rw [hnext, hn]⟩
  · right
    rw [hn] at hc hnext
    have := atomicAddInt64_ne s.nextRowEntryID
    refine ⟨by rw [hnext]; exact (insertEntry_fresh env d i rowID time s hg).1, ?_⟩
    rw [hnext]
    omega

theorem deleteRow_version_id {env : Env} {d : RowsDeleteInput} {i rowID time : Nat} {s s' : St}
    (hc : (withoutOverflow env).rowsDelete d i rowID s = true)
    (ht : d.timeVector[i]? = some time)
    (h : HandleRowsDelete.row env d i rowID s = .ok s') :
    (∃ e, btree.Get RowEntry.Less
        { BlockID := env.blockIDFromRowID rowID, RowID := rowID, Time := time } s.p.Rows = some e ∧
      (HandleRowsDelete.entry env d i rowID time s).ID = e.ID ∧
      s'.nextRowEntryID = s.nextRowEntryID) ∨
    ((HandleRowsDelete.entry env d i rowID time s).ID = s'.nextRowEntryID ∧
      s.nextRowEntryID < s'.nextRowEntryID) := by
  obtain ⟨time', htime, -, -, -, -, hnext⟩ := deleteRow_ok h
  rw [ht] at htime
  simp only [Option.some.injEq] at htime
  subst htime
  simp only [withoutOverflow, ht, decide_eq_true_eq] at hc
  rcases nextAfterRow_cases env rowID time s with ⟨e, hg, hn⟩ | ⟨hg, hn⟩
  · exact Or.inl ⟨e, hg, (deleteEntry_found env d i rowID time s e hg).1, by rw [hnext, hn]⟩
  · right
    rw [hn] at hc hnext
    have := atomicAddInt64_ne s.nextRowEntryID
    refine ⟨by rw [hnext]; exact (deleteEntry_fresh env d i rowID time s hg).1, ?_⟩
    rw [hnext]
    omega

/-- Storing a version keeps the link between the entries already in the index
and the versions with their row entry ids. -/
theorem storeVersion_keeps_index_link {s s' : St} {entry : RowEntry} {blockID rowID time : Nat}
    (hJ : IndexFollowsIds s) (hat : entry.isAt blockID rowID time)
    (hrows : s'.p.Rows = btree.Set RowEntry.Less entry s.p.Rows)
    (hcases : (∃ e, btree.Get RowEntry.Less
          { BlockID := blockID, RowID := rowID, Time := time } s.p.Rows = some e ∧
        entry.ID = e.ID ∧ s'.nextRowEntryID = s.nextRowEntryID) ∨
      (entry.ID = s'.nextRowEntryID ∧ s.nextRowEntryID < s'.nextRowEntryID)) :
    s.nextRowEntryID ≤ s'.nextRowEntryID ∧
    ∀ e ∈ s.p.PrimaryIndex, ∀ v ∈ s'.p.Rows, v.ID = e.RowEntryID →
      v.BlockID = e.BlockID ∧ v.RowID = e.RowID := by
  obtain ⟨-, hJ2, hJ3⟩ := hJ
  constructor
  · rcases hcases with ⟨_, -, -, hn⟩ | ⟨-, hlt⟩
    · rw [hn]
    · omega
  · intro e he v hv hid
    rw [hrows] at hv
    rcases btree.mem_Set_imp hv with rfl | hv'
    · rcases hcases with ⟨e0, hg, hid0, -⟩ | ⟨hid0, hlt⟩
      · obtain ⟨he0, he0at⟩ := Get_pivot_some_imp hg
        have := hJ3 e he e0 he0 (by rw [← hid0, hid])
        unfold RowEntry.isAt at hat he0at
        constructor <;> omega
      · have := hJ2 e he
        omega
    · exact hJ3 e he v hv' hid

theorem primaryIndexEntry_ext (a b : PrimaryIndexEntry) (h1 : a.Bytes = b.Bytes)
    (h2 : a.RowEntryID = b.RowEntryID) (h3 : a.BlockID = b.BlockID) (h4 : a.RowID = b.RowID) :
    a = b := by
  cases a
  cases b
  simp only at h1 h2 h3 h4
  subst h1 h2 h3 h4
  rfl

/-- A data-insert row that does not wrap the counter keeps `IndexFollowsIds`
and every entry of the primary-key index. -/
theorem insertRow_keeps_IndexFollowsIds {env : Env} (d : RowsInsertInput) (i rowID : Nat)
    (s s' : St) (hJ : IndexFollowsIds s)
    (hc : (withoutOverflow env).rowsInsert d i rowID s = true)
    (h : HandleRowsInsert.row env d i rowID s = .ok s') :
    IndexFollowsIds s' ∧ ∀ e ∈ s.p.PrimaryIndex, e ∈ s'.p.PrimaryIndex := by
  have hI' := insertRow_keeps_IdsInOrder_of_growth d i rowID s s' hJ.1 hc h
  obtain ⟨time, htime, hrows, hpidx, -, -, -⟩ := insertRow_ok h
  have hat := insertEntry_isAt env d i rowID time s
  obtain ⟨hmono, hlink⟩ := storeVersion_keeps_index_link hJ hat hrows
    (insertRow_version_id hc htime h)
  have hin : HandleRowsInsert.entry env d i rowID time s ∈ s'.p.Rows := by
    rw [hrows]
    exact btree.item_mem_Set _ _
  have hcases : s'.p.PrimaryIndex = s.p.PrimaryIndex ∨
      ∃ key, s'.p.PrimaryIndex = btree.Set PrimaryIndexEntry.Less
        (keyEntry env key (HandleRowsInsert.entry env d i rowID time s).ID rowID)
        s.p.PrimaryIndex := by
    rw [hpidx]
    split_ifs
    · exact Or.inr ⟨_, rfl⟩
    · exact Or.inl rfl
    · exact Or.inl rfl
  rcases hcases with hsame | ⟨key, hset⟩
  · refine ⟨⟨hI', ?_, ?_⟩, fun e he => by rw [hsame]; exact he⟩
    · intro e he
      rw [hsame] at he
      have := hJ.2.1 e he
      omega
    · intro e he v hv hid
      rw [hsame] at he
      exact hlink e he v hv hid
  · have hkeep : ∀ e ∈ s.p.PrimaryIndex, e ∈ s'.p.PrimaryIndex := by
      intro e he
      rw [hset]
      cases hc1 : e.Less (keyEntry env key (HandleRowsInsert.entry env d i rowID time s).ID rowID) with
      | true => exact btree.mem_Set_of_mem he (Or.inl hc1)
      | false =>
        cases hc2 : PrimaryIndexEntry.Less
            (keyEntry env key (HandleRowsInsert.entry env d i rowID time s).ID rowID) e with
        | true => exact btree.mem_Set_of_mem he (Or.inr hc2)
        | false =>
          obtain ⟨hb, hid⟩ := primaryIndexEntry_incomparable _ _ hc1 hc2
          have hl := hlink e he _ hin (by rw [hid]; rfl)
          have : e = keyEntry env key (HandleRowsInsert.entry env d i rowID time s).ID rowID := by
            apply primaryIndexEntry_ext _ _ hb hid
            · rw [← hl.1, hat.1]
              rfl
            · rw [← hl.2, hat.2.1]
              rfl
          rw [this]
          exact btree.item_mem_Set _ _
    refine ⟨⟨hI', ?_, ?_⟩, hkeep⟩
    · intro e he
      rw [hset] at he
      rcases btree.mem_Set_imp he with rfl | he'
      · exact hI'.2.1 _ hin
      · have := hJ.2.1 e he'
        omega
    · intro e he v hv hid
      rw [hset] at he
      rcases btree.mem_Set_imp he with rfl | he'
      · have := hI'.2.2 v hv _ hin hid
        unfold RowEntry.isAt at this hat
        exact ⟨by rw [this.1, hat.1]; rfl, by rw [this.2.1, hat.2.1]; rfl⟩
      · exact hlink e he' v hv hid

theorem deleteRow_keeps_IndexFollowsIds {env : Env} (d : RowsDeleteInput) (i rowID : Nat)
    (s s' : St) (hJ : IndexFollowsIds s)
    (hc : (withoutOverflow env).rowsDelete d i rowID s = true)
    (h : HandleRowsDelete.row env d i rowID s = .ok s') : IndexFollowsIds s' := by
  have hI' := deleteRow_keeps_IdsInOrder_of_growth d i rowID s s' hJ.1 hc h
  obtain ⟨time, htime, hrows, hpidx, -, -, -⟩ := deleteRow_ok h
  have hat := deleteEntry_isAt env d i rowID time s
  obtain ⟨hmono, hlink⟩ := storeVersion_keeps_index_link hJ hat hrows
    (deleteRow_version_id hc htime h)
  refine ⟨hI', ?_, ?_⟩
  · intro e he
    rw [hpidx] at he
    have := hJ.2.1 e he
    omega
  · intro e he v hv hid
    rw [hpidx] at he
    exact hlink e he v hv hid

theorem metaInsertRow_keeps_IndexFollowsIds (d : MetadataInsertInput) (i blockID : Nat)
    (s s' : St) (hJ : IndexFollowsIds s)
    (h : HandleMetadataInsert.row d i blockID s = .ok s') : IndexFollowsIds s' := by
  have hsubR := (metaInsertRow_Rows_sublist h).subset
  have hsubP := (metaInsertRow_PrimaryIndex_sublist h).subset
  obtain ⟨r, -, hnext, -⟩ := metaInsertRow_ok h
  refine ⟨metaInsertRow_keeps_IdsInOrder d i blockID s s' hJ.1 h, ?_, ?_⟩
  · intro e he
    rw [hnext]
    exact hJ.2.1 e (hsubP he)
  · intro e he v hv hid
    exact hJ.2.2 e (hsubP he) v (hsubR hv) hid

theorem metaDeleteRow_keeps_IndexFollowsIds {env : Env} (d : MetadataDeleteInput)
    (i rowID : Nat) (s s' : St) (hJ : IndexFollowsIds s)
    (h : HandleMetadataDelete.row env d i rowID s = .ok s') : IndexFollowsIds s' := by
  have hI' := metaDeleteRow_keeps_IdsInOrder d i rowID s s' hJ.1 h
  obtain ⟨_, _, -, -, hnext, -, hrows, hpidx, -⟩ := metaDeleteRow_ok h
  refine ⟨hI', ?_, ?_⟩
  · rw [hpidx, hnext]
    exact hJ.2.1
  · rw [hpidx, hrows]
    exact hJ.2.2

theorem ReachableChecked.indexFollowsIds {env : Env} {s : St}
    (h : ReachableChecked env (withoutOverflow env) s) : IndexFollowsIds s :=
  ReachableChecked.invariant IndexFollowsIds
    (fun next => ⟨⟨btree.sorted_nil, fun v hv => (by cases hv), fun a ha => (by cases ha)⟩,
      fun e he => (by cases he), fun e he => (by cases he)⟩)
    (fun d i x s s' hP hc hrow => (insertRow_keeps_IndexFollowsIds d i x s s' hP hc hrow).1)
    (fun d i x s s' hP hc hrow => deleteRow_keeps_IndexFollowsIds d i x s s' hP hc hrow)
    (fun d i x s s' hP _ hrow => metaInsertRow_keeps_IndexFollowsIds d i x s s' hP hrow)
    (fun d i x s s' hP _ hrow => metaDeleteRow_keeps_IndexFollowsIds d i x s s' hP hrow) h

theorem insertRow_keeps_index_keys {env : Env} {d : RowsInsertInput} {i rowID : Nat}
    {s s' : St} (h : HandleRowsInsert.row env d i rowID s = .ok s') (e : PrimaryIndexEntry)
    (he : e ∈ s.p.PrimaryIndex) :
    ∃ e' ∈ s'.p.PrimaryIndex, e'.Bytes = e.Bytes ∧ e'.RowEntryID = e.RowEntryID := by
  obtain ⟨time, -, -, hpidx, -⟩ := insertRow_ok h
  have hcases : s'.p.PrimaryIndex = s.p.PrimaryIndex ∨
      ∃ item, s'.p.PrimaryIndex = btree.Set PrimaryIndexEntry.Less item s.p.PrimaryIndex := by
    rw [hpidx]
    split_ifs
    · exact Or.inr ⟨_, rfl⟩
    · exact Or.inl rfl
    · exact Or.inl rfl
  rcases hcases with hsame | ⟨item, hset⟩
  · exact ⟨e, by rw [hsame]; exact he, rfl, rfl⟩
  · rw [hset]
    cases hc1 : e.Less item with
    | true => exact ⟨e, btree.mem_Set_of_mem he (Or.inl hc1), rfl, rfl⟩
    | false =>
      cases hc2 : item.Less e with
      | true => exact ⟨e, btree.mem_Set_of_mem he (Or.inr hc2), rfl, rfl⟩
      | false =>
        obtain ⟨hb, hid⟩ := primaryIndexEntry_incomparable _ _ hc1 hc2
        exact ⟨item, btree.item_mem_Set _ _, hb.symm, hid.symm⟩

/-- C37: `HandleRowsInsert`, whether it returns or panics, leaves `Blocks` and
`Checkpoints` unchanged and removes nothing: every row version present before
has a version at its triple afterwards, with the same `ID` and `Deleted` flag
(the version is replaced in place when the batch names its triple), and is
itself still there when no row of the batch names its triple; every entry of
`PrimaryIndex` present before has an entry with its `(Bytes, RowEntryID)`
afterwards, and, in states reached without counter overflow and when the call
does not overflow the counter either, is itself still present: an index entry
written by an earlier insert of a triple under other key bytes stays. -/
theorem HandleRowsInsert_removes_nothing (env : Env) (s : St) (input : Batch)
    (primaryKeyIndex : Int) :
    (HandleRowsInsert env s input primaryKeyIndex).state.p.Blocks = s.p.Blocks ∧
    (HandleRowsInsert env s input primaryKeyIndex).state.p.Checkpoints = s.p.Checkpoints ∧
    (btree.Sorted RowEntry.Less s.p.Rows → ∀ v ∈ s.p.Rows,
      ∃ v' ∈ (HandleRowsInsert env s input primaryKeyIndex).state.p.Rows,
        v'.isAt v.BlockID v.RowID v.Time ∧ v'.ID = v.ID ∧ v'.Deleted = v.Deleted) ∧
    (∀ d, HandleRowsInsert.decode env input primaryKeyIndex = .ok d → ∀ v ∈ s.p.Rows,
      (∀ i rowID time : Nat, d.rowIDVector[i]? = some rowID → d.timeVector[i]? = some time →
        ¬ v.isAt (env.blockIDFromRowID rowID) rowID time) →
      v ∈ (HandleRowsInsert env s input primaryKeyIndex).state.p.Rows) ∧
    (∀ e ∈ s.p.PrimaryIndex,
      ∃ e' ∈ (HandleRowsInsert env s input primaryKeyIndex).state.p.PrimaryIndex,
        e'.Bytes = e.Bytes ∧ e'.RowEntryID = e.RowEntryID) ∧
    (∀ d, ReachableChecked env (withoutOverflow env) s →
      HandleRowsInsert.decode env input primaryKeyIndex = .ok d →
      forRangeAll (HandleRowsInsert.row env d) ((withoutOverflow env).rowsInsert d) 0
        d.rowIDVector s = true →
      ∀ e ∈ s.p.PrimaryIndex,
        e ∈ (HandleRowsInsert env s input primaryKeyIndex).state.p.PrimaryIndex) := by
  unfold HandleRowsInsert
  cases hd : HandleRowsInsert.decode env input primaryKeyIndex with
  | error why =>
    refine ⟨rfl, rfl, ?_, ?_, ?_, ?_⟩
    · intro _ v hv
      exact ⟨v, hv, ⟨rfl, rfl, rfl⟩, rfl, rfl⟩
    · intro d hd'
      cases hd'
    · intro e he
      exact ⟨e, he, rfl, rfl⟩
    · intro d _ hd'
      cases hd'
  | ok d =>
    simp only
    have hframe := forRange_invariant (HandleRowsInsert.row env d)
      (fun t => t.p.Blocks = s.p.Blocks ∧ t.p.Checkpoints = s.p.Checkpoints)
      (fun _ _ t t' hP hrow => by
        obtain ⟨_, -, -, -, h1, h2, -⟩ := insertRow_ok hrow
        rw [h1, h2]
        exact hP) 0 d.rowIDVector s ⟨rfl, rfl⟩
    refine ⟨hframe.1, hframe.2, ?_, ?_, ?_, ?_⟩
    · intro hs
      have := forRange_invariant (HandleRowsInsert.row env d)
        (fun t => btree.Sorted RowEntry.Less t.p.Rows ∧ ∀ v ∈ s.p.Rows, ∃ v' ∈ t.p.Rows,
          v'.isAt v.BlockID v.RowID v.Time ∧ v'.ID = v.ID ∧ v'.Deleted = v.Deleted)
        (fun _ _ t t' hP hrow => by
          refine ⟨insertRow_sorted hP.1 hrow, ?_⟩
          intro v hv
          obtain ⟨v1, hv1, hat1, hid1, hdel1⟩ := hP.2 v hv
          obtain ⟨v2, hv2, hat2, hid2, hdel2⟩ := insertRow_keeps_version hP.1 hrow v1 hv1
          refine ⟨v2, hv2, ?_, hid2.trans hid1, hdel2.trans hdel1⟩
          unfold RowEntry.isAt at *
          omega) 0 d.rowIDVector s
        ⟨hs, fun v hv => ⟨v, hv, ⟨rfl, rfl, rfl⟩, rfl, rfl⟩⟩
      exact this.2
    · intro d' hd' v hv hnot
      simp only [Except.ok.injEq] at hd'
      subst hd'
      exact forRange_state_invariant_indexed (HandleRowsInsert.row env d) d.rowIDVector
        (fun t => v ∈ t.p.Rows) 0 s
        (fun k x t t' hx hP hrow => by
          simp only [Nat.zero_add] at hrow
          obtain ⟨time, htime, hrows, -⟩ := insertRow_ok hrow
          have hat := insertEntry_isAt env d k x time t
          rw [hrows]
          apply btree.mem_Set_of_mem hP
          rw [rowEntry_comparable_iff]
          intro hv'
          apply hnot k x time hx htime
          unfold RowEntry.isAt at *
          omega) hv
    · intro e he
      exact forRange_invariant (HandleRowsInsert.row env d)
        (fun t => ∃ e' ∈ t.p.PrimaryIndex, e'.Bytes = e.Bytes ∧ e'.RowEntryID = e.RowEntryID)
        (fun _ _ t t' hP hrow => by
          obtain ⟨e1, he1, hb1, hid1⟩ := hP
          obtain ⟨e2, he2, hb2, hid2⟩ := insertRow_keeps_index_keys hrow e1 he1
          exact ⟨e2, he2, hb2.trans hb1, hid2.trans hid1⟩) 0 d.rowIDVector s
        ⟨e, he, rfl, rfl⟩
    · intro d' hreach hd' hcheck e he
      simp only [Except.ok.injEq] at hd'
      subst hd'
      have := forRange_invariant_checked (HandleRowsInsert.row env d)
        ((withoutOverflow env).rowsInsert d)
        (fun t => IndexFollowsIds t ∧ ∀ e ∈ s.p.PrimaryIndex, e ∈ t.p.PrimaryIndex)
        (fun i x t t' hP hc hrow => by
          obtain ⟨hJ', hkeep⟩ := insertRow_keeps_IndexFollowsIds d i x t t' hP.1 hc hrow
          exact ⟨hJ', fun e he => hkeep e (hP.2 e he)⟩) 0 d.rowIDVector s
        ⟨hreach.indexFollowsIds, fun e he => he⟩ hcheck
      exact this.2 e he

theorem HandleRowsInsert_removes_nothing_witness :
    ReachableChecked exampleEnv (withoutOverflow exampleEnv) afterInsertA ∧
    HandleRowsInsert.decode exampleEnv insertARekeyed 0 = .ok insertARekeyedDecoded ∧
    afterInsertA.p.PrimaryIndex = [keyEntry exampleEnv [107] 2 rowA] ∧
    (HandleRowsInsert exampleEnv afterInsertA insertARekeyed 0).state.p.PrimaryIndex.length = 2 ∧
    keyEntry exampleEnv [107] 2 rowA ∈
      (HandleRowsInsert exampleEnv afterInsertA insertARekeyed 0).state.p.PrimaryIndex :=
  ⟨ReachableChecked.step _ _ _ (ReachableChecked.init 1) (by decide), rfl, by decide,
   by decide,
   (HandleRowsInsert_removes_nothing exampleEnv afterInsertA insertARekeyed 0).2.2.2.2.2
     insertARekeyedDecoded (ReachableChecked.step _ _ _ (ReachableChecked.init 1) (by decide))
     rfl (by decide) _ (by decide)⟩

end disttae

namespace colexec

/-! ## Splitting conjunctions -/

theorem splitAndArgs_nil (ids : FunctionIds) : splitAndArgs ids [] = none := rfl

theorem splitAndArgs_singleton (ids : FunctionIds) (arg0 : Expr) :
    splitAndArgs ids [arg0] = none := by
  show (match splitAndExpr ids arg0 with
    | none => none
    | some _ => none) = none
  cases splitAndExpr ids arg0 <;> rfl

theorem splitAndArgs_cons_cons (ids : FunctionIds) (arg0 arg1 : Expr) (rest : List Expr) :
    splitAndArgs ids (arg0 :: arg1 :: rest) =
      match splitAndExpr ids arg0 with
      | none => none
      | some exprs0 =>
        match splitAndExpr ids arg1 with
        | none => none
        | some exprs1 => some (exprs0 ++ exprs1) := rfl

mutual

theorem splitAndExpr_result (ids : FunctionIds) :
    ∀ (e : Expr) (l : List Expr), splitAndExpr ids e = some l →
      l ≠ [] ∧ ∀ x ∈ l, x.isAnd ids = false
  | .F typ func args, l, h => by
    simp only [splitAndExpr] at h
    split_ifs at h with hand
    · exact splitAndArgs_result ids args l h
    · simp only [Option.some.injEq] at h
      subst h
      refine ⟨by simp, ?_⟩
      intro x hx
      simp only [List.mem_singleton] at hx
      subst hx
      simp [Expr.isAnd, hand]
  | .C typ c, l, h => by
    simp only [splitAndExpr, Option.some.injEq] at h
    subst h
    simp [Expr.isAnd]
  | .T typ t, l, h => by
    simp only [splitAndExpr, Option.some.injEq] at h
    subst h
    simp [Expr.isAnd]
  | .Col typ pos, l, h => by
    simp only [splitAndExpr, Option.some.injEq] at h
    subst h
    simp [Expr.isAnd]
  | .Other typ kind, l, h => by
    simp only [splitAndExpr, Option.some.injEq] at h
    subst h
    simp [Expr.isAnd]

theorem splitAndArgs_result (ids : FunctionIds) :
    ∀ (args : List Expr) (l : List Expr), splitAndArgs ids args = some l →
      l ≠ [] ∧ ∀ x ∈ l, x.isAnd ids = false
  | [], l, h => by simp [splitAndArgs_nil] at h
  | [arg0], l, h => by simp [splitAndArgs_singleton] at h
  | arg0 :: arg1 :: rest, l, h => by
    rw [splitAndArgs_cons_cons] at h
    cases h0 : splitAndExpr ids arg0 with
    | none => simp [h0] at h
    | some exprs0 =>
      cases h1 : splitAndExpr ids arg1 with
      | none => simp [h0, h1] at h
      | some exprs1 =>
        simp only [h0, h1, Option.some.injEq] at h
        subst h
        obtain ⟨hne0, hall0⟩ := splitAndExpr_result ids arg0 exprs0 h0
        obtain ⟨-, hall1⟩ := splitAndExpr_result ids arg1 exprs1 h1
        refine ⟨by simp [hne0], ?_⟩
        intro x hx
        rcases List.mem_append.1 hx with hx | hx
        · exact hall0 x hx
        · exact hall1 x hx

end

mutual

theorem splitAndExpr_isSome (ids : FunctionIds) :
    ∀ e : Expr, (splitAndExpr ids e).isSome = e.andsHaveTwoArgs ids
  | .F typ func args => by
    simp only [splitAndExpr, Expr.andsHaveTwoArgs]
    split_ifs with hand
    · exact splitAndArgs_isSome ids args
    · rfl
  | .C typ c => by simp [splitAndExpr, Expr.andsHaveTwoArgs]
  | .T typ t => by simp [splitAndExpr, Expr.andsHaveTwoArgs]
  | .Col typ pos => by simp [splitAndExpr, Expr.andsHaveTwoArgs]
  | .Other typ kind => by simp [splitAndExpr, Expr.andsHaveTwoArgs]

theorem splitAndArgs_isSome (ids : FunctionIds) :
    ∀ args : List Expr, (splitAndArgs ids args).isSome = andArgsHaveTwo ids args
  | [] => by simp [splitAndArgs_nil, andArgsHaveTwo]
  | [arg0] => by simp [splitAndArgs_singleton, andArgsHaveTwo]
  | arg0 :: arg1 :: rest => by
    have h0 := splitAndExpr_isSome ids arg0
    have h1 := splitAndExpr_isSome ids arg1
    rw [splitAndArgs_cons_cons]
    simp only [andArgsHaveTwo, ← h0, ← h1]
    cases splitAndExpr ids arg0 <;> cases splitAndExpr ids arg1 <;> rfl

end

theorem splitAndExpr_of_not_and (ids : FunctionIds) (e : Expr) (h : e.isAnd ids = false) :
    splitAndExpr ids e = some [e] := by
  cases e with
  | F typ func args =>
    simp only [Expr.isAnd, decide_eq_false_iff_not] at h
    simp [splitAndExpr, h]
  | C typ c => simp [splitAndExpr]
  | T typ t => simp [splitAndExpr]
  | Col typ pos => simp [splitAndExpr]
  | Other typ kind => simp [splitAndExpr]

theorem splitAndExpr_andChain (ids : FunctionIds)
    (hdec : ids.DecodeOverloadID ids.AndFunctionEncodedID = ids.AND) (es : List Expr)
    (last : Expr) (hes : ∀ e ∈ es, e.isAnd ids = false) (hlast : last.isAnd ids = false) :
    splitAndExpr ids (andChain ids es last) = some (es ++ [last]) := by
  induction es with
  | nil => exact splitAndExpr_of_not_and ids last hlast
  | cons e rest ih =>
    have hrest := ih (fun x hx => hes x (List.mem_cons_of_mem _ hx))
    have he := splitAndExpr_of_not_and ids e (hes e (List.mem_cons_self _ _))
    have hchain : andChain ids (e :: rest) last = andOf ids e (andChain ids rest last) := rfl
    rw [hchain]
    simp only [andOf, splitAndExpr, hdec, if_true, splitAndArgs_cons_cons, he, hrest]
    rfl

theorem SplitAndExprs_singleton (ids : FunctionIds) (e : Expr) (l : List Expr)
    (h : splitAndExpr ids e = some l) : SplitAndExprs ids [e] = some l := by
  simp [SplitAndExprs, SplitAndExprs.loop, h]

/-- C38 (counterexample): the overload id that `makeAndExpr` writes decodes to
`function.AND`, and `splitAndExpr` has no result on `andWithoutArgs`, a call of
AND without arguments, where indexing `e.F.Args[0]` panics: it does not return
a non-empty list on every expression. -/
theorem splitAndExpr_panics_on_and_without_arguments :
    exampleIds.DecodeOverloadID exampleIds.AndFunctionEncodedID = exampleIds.AND ∧
    splitAndExpr exampleIds andWithoutArgs = none ∧
    ¬ ∀ e : Expr, ∃ l, splitAndExpr exampleIds e = some l ∧ l ≠ [] ∧
      ∀ x ∈ l, x.isAnd exampleIds = false := by
  refine ⟨by decide, rfl, ?_⟩
  intro h
  obtain ⟨l, hl, -⟩ := h andWithoutArgs
  have hnone : splitAndExpr exampleIds andWithoutArgs = none := rfl
  rw [hnone] at hl
  cases hl

/-- C38 (amended): when the overload id written by `makeAndExpr` decodes to
`function.AND`, `SplitAndExprs` applied to `[RewriteFilterExprList(l)]` returns
`l` for every non-empty list `l` of expressions none of which is a call of
AND; and `splitAndExpr` returns, with a non-empty result that holds no call of
AND, on every expression in which each call of AND reached has at least two
arguments, and panics on every other expression. -/
theorem SplitAndExprs_undoes_RewriteFilterExprList (ids : FunctionIds)
    (hdec : ids.DecodeOverloadID ids.AndFunctionEncodedID = ids.AND) :
    (∀ l : List Expr, l ≠ [] → (∀ e ∈ l, e.isAnd ids = false) →
      ∃ e, RewriteFilterExprList ids l = some e ∧ SplitAndExprs ids [e] = some l) ∧
    (∀ e : Expr, e.andsHaveTwoArgs ids = true →
      ∃ l, splitAndExpr ids e = some l ∧ l ≠ [] ∧ ∀ x ∈ l, x.isAnd ids = false) ∧
    (∀ e : Expr, e.andsHaveTwoArgs ids = false → splitAndExpr ids e = none) := by
  refine ⟨?_, ?_, ?_⟩
  · intro l hne hl
    refine ⟨_, RewriteFilterExprList_eq_andChain ids l hne, ?_⟩
    apply SplitAndExprs_singleton
    rw [splitAndExpr_andChain ids hdec _ _
      (fun e he => hl e (List.mem_of_mem_dropLast he)) (hl _ (List.getLast_mem hne))]
    rw [List.dropLast_append_getLast hne]
  · intro e he
    have hsome := splitAndExpr_isSome ids e
    rw [he] at hsome
    obtain ⟨l, hl⟩ := Option.isSome_iff_exists.1 hsome
    exact ⟨l, hl, splitAndExpr_result ids e l hl⟩
  · intro e he
    have hsome := splitAndExpr_isSome ids e
    rw [he] at hsome
    cases hs : splitAndExpr ids e with
    | none => rfl
    | some l => rw [hs] at hsome; cases hsome

theorem SplitAndExprs_undoes_RewriteFilterExprList_witness :
    exampleIds.DecodeOverloadID exampleIds.AndFunctionEncodedID = exampleIds.AND ∧
    (∀ e ∈ [col 0, col 1, col 2], e.isAnd exampleIds = false) ∧
    ∃ e, RewriteFilterExprList exampleIds [col 0, col 1, col 2] = some e ∧
      SplitAndExprs exampleIds [e] = some [col 0, col 1, col 2] :=
  ⟨by decide, by decide,
   (SplitAndExprs_undoes_RewriteFilterExprList exampleIds (by decide)).1
     [col 0, col 1, col 2] (by simp) (by decide)⟩

/-! ## Timestamp constants -/

theorem constTimestampTypes_get (tids : TypeIds) (k : Nat) (hk : k < 7) :
    (constTimestampTypes tids)[k]? = some ⟨tids.T_timestamp, 0, (k : Int)⟩ := by
  interval_cases k <;> rfl

/-- C39: for a non-null timestamp constant whose expression has a type,
`getConstVec` returns the error "invalid timestamp scale" exactly when the
`Scale` of the type is below 0 or above 6; `constTimestampTypes` has 7 entries,
entry `k` being the timestamp type with `Scale` `k`; and for a `Scale` from 0 to
6 the index is within the table and the result is a constant vector of the
timestamp type with that `Scale`. -/
theorem getConstVec_checks_timestamp_scale (tids : TypeIds) (ToType : Int → VecType)
    (typ : PlanType) (c : Const) (length : Nat) (hnull : c.Isnull = false)
    (hkind : c.kind = .Timestampval) :
    (getConstVec tids ToType (.C (some typ) c) length = .err (.Internal "invalid timestamp scale") ↔
      typ.Scale < 0 ∨ typ.Scale > 6) ∧
    (constTimestampTypes tids).length = 7 ∧
    (∀ k : Nat, k < 7 → (constTimestampTypes tids)[k]? = some ⟨tids.T_timestamp, 0, (k : Int)⟩) ∧
    (¬ (typ.Scale < 0 ∨ typ.Scale > 6) →
      typ.Scale.toNat < (constTimestampTypes tids).length ∧
      getConstVec tids ToType (.C (some typ) c) length =
        .ok (.ConstFixed ⟨tids.T_timestamp, 0, typ.Scale⟩ c.value length c.IsBin)) := by
  have hin : ¬ (typ.Scale < 0 ∨ typ.Scale > 6) →
      typ.Scale.toNat < (constTimestampTypes tids).length ∧
      getConstVec tids ToType (.C (some typ) c) length =
        .ok (.ConstFixed ⟨tids.T_timestamp, 0, typ.Scale⟩ c.value length c.IsBin) := by
    intro hs
    have hlt : typ.Scale.toNat < 7 := by omega
    have hcast : ((typ.Scale.toNat : Nat) : Int) = typ.Scale := Int.toNat_of_nonneg (by omega)
    refine ⟨hlt, ?_⟩
    simp only [getConstVec, hnull, hkind, hs, if_false, Bool.false_eq_true,
      constTimestampTypes_get tids _ hlt, hcast]
  refine ⟨⟨?_, ?_⟩, rfl, constTimestampTypes_get tids, hin⟩
  · intro h
    by_contra hs
    rw [(hin hs).2] at h
    cases h
  · intro hs
    simp only [getConstVec, hnull, hkind, hs, if_true, if_false, Bool.false_eq_true]

theorem getConstVec_checks_timestamp_scale_witness :
    timestampConst.Isnull = false ∧ timestampConst.kind = .Timestampval ∧
    getConstVec exampleTypeIds exampleDeps.ToType (.C (some { Id := 53, Scale := 3 }) timestampConst)
        2 = .ok (.ConstFixed ⟨53, 0, 3⟩ 4 2 false) ∧
    getConstVec exampleTypeIds exampleDeps.ToType (.C (some { Id := 53, Scale := 7 }) timestampConst)
        2 = .err (.Internal "invalid timestamp scale") :=
  ⟨rfl, rfl,
   ((getConstVec_checks_timestamp_scale exampleTypeIds exampleDeps.ToType { Id := 53, Scale := 3 }
      timestampConst 2 rfl rfl).2.2.2 (by decide)).2,
   by decide⟩

end colexec

namespace tree

/-! ## The text of `alter ... configuration` -/

theorem string_append_data (a b : String) : (a ++ b).data = a.data ++ b.data := by
  cases a; cases b; rfl

/-- C40: `AlterDataBaseConfig.Format` appends to what is written so far exactly
`alter account configuration for <AccountName> as <UpdateConfig> ` when
`IsAccountLevel` is true and
`alter database configuration for <DbName> as <UpdateConfig> ` otherwise; the
last character written is a space, written once after `UpdateConfig`; the
account-level text is the same whatever `DbName` is, and the database-level
text is the same whatever `AccountName` is. -/
theorem AlterDataBaseConfig_Format_writes_the_statement (account db config : String)
    (ctx : FmtCtx) :
    ((AlterDataBaseConfig.mk account db true config).Format ctx).buf =
      ctx.buf ++ ("alter account configuration for " ++ account ++ " as " ++ config ++ " ") ∧
    ((AlterDataBaseConfig.mk account db false config).Format ctx).buf =
      ctx.buf ++ ("alter database configuration for " ++ db ++ " as " ++ config ++ " ") ∧
    (∀ level : Bool, ∃ text : String,
      ((AlterDataBaseConfig.mk account db level config).Format ctx).buf =
        ctx.buf ++ text ++ config ++ " " ∧
      ((AlterDataBaseConfig.mk account db level config).Format ctx).buf.data.getLast? =
        some (Char.ofNat 32)) ∧
    (∀ other : String, (AlterDataBaseConfig.mk account other true config).Format ctx =
      (AlterDataBaseConfig.mk account db true config).Format ctx) ∧
    (∀ other : String, (AlterDataBaseConfig.mk other db false config).Format ctx =
      (AlterDataBaseConfig.mk account db false config).Format ctx) := by
  have h1 : ((AlterDataBaseConfig.mk account db true config).Format ctx).buf =
      ctx.buf ++ ("alter account configuration for " ++ account ++ " as " ++ config ++ " ") := by
    apply String.ext
    simp only [AlterDataBaseConfig.Format, FmtCtx.WriteString, sprintfS, if_true,
      string_append_data, List.append_assoc]
    rfl
  have h2 : ((AlterDataBaseConfig.mk account db false config).Format ctx).buf =
      ctx.buf ++ ("alter database configuration for " ++ db ++ " as " ++ config ++ " ") := by
    apply String.ext
    simp only [AlterDataBaseConfig.Format, FmtCtx.WriteString, sprintfS, if_false,
      Bool.false_eq_true, string_append_data, List.append_assoc]
    rfl
  refine ⟨h1, h2, ?_, fun _ => rfl, fun _ => rfl⟩
  intro level
  cases level
  · refine ⟨"alter database configuration for " ++ db ++ " as ", ?_, ?_⟩
    · rw [h2]
      apply String.ext
      simp only [string_append_data, List.append_assoc]
    · rw [h2]
      simp only [string_append_data, ← List.append_assoc]
      exact List.getLast?_concat _
  · refine ⟨"alter account configuration for " ++ account ++ " as ", ?_, ?_⟩
    · rw [h1]
      apply String.ext
      simp only [string_append_data, List.append_assoc]
    · rw [h1]
      simp only [string_append_data, ← List.append_assoc]
      exact List.getLast?_concat _

/-- The two texts of `AlterDataBaseConfig.Format` on an example. -/
theorem AlterDataBaseConfig_Format_examples :
    ((AlterDataBaseConfig.mk "acc1" "db1" true "0.7").Format {}).buf =
      "alter account configuration for acc1 as 0.7 " ∧
    ((AlterDataBaseConfig.mk "acc1" "db1" false "0.7").Format {}).buf =
      "alter database configuration for db1 as 0.7 " := by
  decide

end tree

namespace disttae

/-! ## Snapshots and the objects they point to -/

theorem Process.load_eq_some_iff (w : Process) (a : Nat) (p : PartitionState) :
    w.load a = some p ↔ ∃ o, w.states[a]? = some o ∧ w.rowTrees[o.Rows]? = some p.Rows ∧
      w.blockTrees[o.Blocks]? = some p.Blocks ∧
      w.indexTrees[o.PrimaryIndex]? = some p.PrimaryIndex ∧
      w.arrays[o.Checkpoints]? = some p.Checkpoints := by
  unfold Process.load
  constructor
  · intro h
    cases ho : w.states[a]? with
    | none => simp [ho] at h
    | some o =>
      cases hr : w.rowTrees[o.Rows]? with
      | none => simp [ho, hr] at h
      | some rows =>
        cases hb : w.blockTrees[o.Blocks]? with
        | none => simp [ho, hr, hb] at h
        | some blocks =>
          cases hi : w.indexTrees[o.PrimaryIndex]? with
          | none => simp [ho, hr, hb, hi] at h
          | some index =>
            cases hc : w.arrays[o.Checkpoints]? with
            | none => simp [ho, hr, hb, hi, hc] at h
            | some cps =>
              simp only [ho, hr, hb, hi, hc, Option.some_bind, Option.map_some',
                Option.some.injEq] at h
              subst h
              exact ⟨o, rfl, hr, hb, hi, hc⟩
  · rintro ⟨o, ho, hr, hb, hi, hc⟩
    simp [ho, hr, hb, hi, hc]

theorem Process.HandleLogtailEntry_states (env : Env) (w : Process) (a : Nat) (entry : Entry)
    (primaryKeyIndex : Int) :
    (w.HandleLogtailEntry env a entry primaryKeyIndex).states = w.states := by
  unfold Process.HandleLogtailEntry
  cases w.states[a]? <;> cases w.load a <;> rfl

theorem getElem?_set_some {α : Type} (l : List α) (i : Nat) (x y : α) (h : l[i]? = some x) :
    (l.set i y)[i]? = some y := by
  have hlt : i < l.length := by
    rcases Nat.lt_or_ge i l.length with h' | h'
    · exact h'
    · rw [List.getElem?_eq_none h'] at h
      cases h
  simp [List.getElem?_set, hlt]

/-- A call on one object is seen in the state that the object holds. -/
theorem Process.HandleLogtailEntry_self (env : Env) (w : Process) (a : Nat) (p : PartitionState)
    (entry : Entry) (primaryKeyIndex : Int) (hp : w.load a = some p) :
    (w.HandleLogtailEntry env a entry primaryKeyIndex).load a =
      some (disttae.HandleLogtailEntry env { nextRowEntryID := w.nextRowEntryID, p := p } entry
        primaryKeyIndex).state.p := by
  obtain ⟨o, ho, hr, hb, hi, hc⟩ := (Process.load_eq_some_iff w a p).1 hp
  rw [Process.load_eq_some_iff]
  refine ⟨o, ?_, ?_, ?_, ?_, ?_⟩
  · rw [Process.HandleLogtailEntry_states]
    exact ho
  all_goals
    unfold Process.HandleLogtailEntry
    simp only [ho, hp]
  · exact getElem?_set_some _ _ _ _ hr
  · exact getElem?_set_some _ _ _ _ hb
  · exact getElem?_set_some _ _ _ _ hi
  · exact getElem?_set_some _ _ _ _ hc

/-- A call on one object leaves what a separate object holds. -/
theorem Process.HandleLogtailEntry_other (env : Env) (w : Process) (a b : Nat) (entry : Entry)
    (primaryKeyIndex : Int) (hab : w.Separate a b) :
    (w.HandleLogtailEntry env a entry primaryKeyIndex).load b = w.load b ∧
      (w.HandleLogtailEntry env a entry primaryKeyIndex).Separate a b := by
  obtain ⟨oa, ob, hoa, hob, h1, h2, h3, h4⟩ := hab
  refine ⟨?_, ⟨oa, ob, ?_, ?_, h1, h2, h3, h4⟩⟩
  · unfold Process.HandleLogtailEntry
    cases hp : w.load a with
    | none => simp only [hoa]
    | some p =>
      simp only [hoa]
      unfold Process.load
      simp only [hob, Option.some_bind, List.getElem?_set_ne h1, List.getElem?_set_ne h2,
        List.getElem?_set_ne h3, List.getElem?_set_ne h4]
  · rw [Process.HandleLogtailEntry_states]
    exact hoa
  · rw [Process.HandleLogtailEntry_states]
    exact hob

theorem Process.applyEntries_other (env : Env) (a b : Nat) (w : Process) (hab : w.Separate a b)
    (entries : List (Entry × Int)) :
    (Process.applyEntries env a w entries).load b = w.load b := by
  induction entries generalizing w with
  | nil => rfl
  | cons e rest ih =>
    obtain ⟨entry, primaryKeyIndex⟩ := e
    unfold Process.applyEntries
    obtain ⟨h1, h2⟩ := Process.HandleLogtailEntry_other env w a b entry primaryKeyIndex hab
    rw [ih _ h2, h1]

theorem Process.Separate.symm {w : Process} {a b : Nat} (h : w.Separate a b) :
    w.Separate b a := by
  obtain ⟨oa, ob, hoa, hob, h1, h2, h3, h4⟩ := h
  exact ⟨ob, oa, hob, hoa, Ne.symm h1, Ne.symm h2, Ne.symm h3, Ne.symm h4⟩

theorem getElem?_lt {α : Type} {l : List α} {i : Nat} {x : α} (h : l[i]? = some x) :
    i < l.length := by
  rcases Nat.lt_or_ge i l.length with h' | h'
  · exact h'
  · rw [List.getElem?_eq_none h'] at h
    cases h

/-- What `Copy` returns: a new object, separate from its source, that holds what
the source holds, and the source still holds it. -/
theorem Process.Copy_spec (w : Process) (a : Nat) (s : PartitionState)
    (hs : w.load a = some s) :
    ∃ w1 c, w.Copy a = some (w1, c) ∧ w1.load a = some s ∧ w1.load c = some s ∧
      w1.Separate a c ∧ w1.nextRowEntryID = w.nextRowEntryID := by
  obtain ⟨o, ho, hr, hb, hi, hc⟩ := (Process.load_eq_some_iff w a s).1 hs
  have ha := getElem?_lt ho
  have hr' := getElem?_lt hr
  have hb' := getElem?_lt hb
  have hi' := getElem?_lt hi
  have hc' := getElem?_lt hc
  unfold Process.Copy
  simp only [ho, hs]
  refine ⟨_, _, rfl, ?_, ?_, ?_, rfl⟩
  · rw [Process.load_eq_some_iff]
    refine ⟨o, ?_, ?_, ?_, ?_, ?_⟩
    · simp only [List.getElem?_append_left ha]
      exact ho
    · simp only [List.getElem?_append_left hr']
      exact hr
    · simp only [List.getElem?_append_left hb']
      exact hb
    · simp only [List.getElem?_append_left hi']
      exact hi
    · simp only [List.getElem?_append_left hc']
      exact hc
  · rw [Process.load_eq_some_iff]
    refine ⟨PartitionStateObject.mk w.rowTrees.length w.blockTrees.length w.indexTrees.length
      w.arrays.length, by simp, ?_, ?_, ?_, ?_⟩
    all_goals simp [PartitionState.Copy_eq]
  · refine ⟨o, PartitionStateObject.mk w.rowTrees.length w.blockTrees.length
      w.indexTrees.length w.arrays.length, ?_, by simp, ?_, ?_, ?_, ?_⟩
    · simp only [List.getElem?_append_left ha]
      exact ho
    all_goals simp only; omega

/-- C5: for the partition state object `s` at address `a` of a process,
`s.Copy()` yields a new object that holds exactly the row versions, block
entries, primary-key entries and checkpoints that `s` holds, in trees and an
array of its own; a `HandleLogtailEntry` call on `s` is seen in what `s` holds,
and whatever entries are then applied to `s`, the snapshot holds what it held,
so its `RowExists` answers and its block entries, with their `Visible` answers,
are unchanged; and whatever entries are applied to the snapshot, `s` holds what
it held. -/
theorem snapshot_is_independent (env : Env) (w : Process) (a : Nat) (s : PartitionState)
    (hs : w.load a = some s) :
    ∃ w1 c, w.Copy a = some (w1, c) ∧
      w1.load a = some s ∧
      w1.load c = some s ∧
      (∀ entry primaryKeyIndex,
        (w1.HandleLogtailEntry env a entry primaryKeyIndex).load a =
          some (HandleLogtailEntry env { nextRowEntryID := w.nextRowEntryID, p := s } entry
            primaryKeyIndex).state.p ∧
        (w1.HandleLogtailEntry env c entry primaryKeyIndex).load c =
          some (HandleLogtailEntry env { nextRowEntryID := w.nextRowEntryID, p := s } entry
            primaryKeyIndex).state.p) ∧
      (∀ entries, (Process.applyEntries env a w1 entries).load c = some s) ∧
      (∀ entries, (Process.applyEntries env c w1 entries).load a = some s) ∧
      (∀ entries r ts, ∃ snap, (Process.applyEntries env a w1 entries).load c = some snap ∧
        snap.RowExists env r ts = s.RowExists env r ts ∧
        ∀ b, b ∈ snap.Blocks ↔ b ∈ s.Blocks) := by
  obtain ⟨w1, c, hcopy, ha, hc, hsep, hnext⟩ := Process.Copy_spec w a s hs
  refine ⟨w1, c, hcopy, ha, hc, ?_, ?_, ?_, ?_⟩
  · intro entry primaryKeyIndex
    rw [← hnext]
    exact ⟨Process.HandleLogtailEntry_self env w1 a s entry primaryKeyIndex ha,
      Process.HandleLogtailEntry_self env w1 c s entry primaryKeyIndex hc⟩
  · intro entries
    rw [Process.applyEntries_other env a c w1 hsep entries]
    exact hc
  · intro entries
    rw [Process.applyEntries_other env c a w1 hsep.symm entries]
    exact ha
  · intro entries r ts
    refine ⟨s, ?_, rfl, fun _ => Iff.rfl⟩
    rw [Process.applyEntries_other env a c w1 hsep entries]
    exact hc

theorem snapshot_is_independent_witness :
    oneLive.load 0 = some afterInsertA.p ∧
    snapshotScenario = some (some true, some false) ∧
    sharedTreesScenario = some (some false, some false) ∧
    ∃ w1 c, oneLive.Copy 0 = some (w1, c) ∧
      w1.load 0 = some afterInsertA.p ∧
      w1.load c = some afterInsertA.p ∧
      (∀ entry primaryKeyIndex,
        (w1.HandleLogtailEntry exampleEnv 0 entry primaryKeyIndex).load 0 =
          some (HandleLogtailEntry exampleEnv
            { nextRowEntryID := oneLive.nextRowEntryID, p := afterInsertA.p } entry
            primaryKeyIndex).state.p ∧
        (w1.HandleLogtailEntry exampleEnv c entry primaryKeyIndex).load c =
          some (HandleLogtailEntry exampleEnv
            { nextRowEntryID := oneLive.nextRowEntryID, p := afterInsertA.p } entry
            primaryKeyIndex).state.p) ∧
      (∀ entries, (Process.applyEntries exampleEnv 0 w1 entries).load c = some afterInsertA.p) ∧
      (∀ entries, (Process.applyEntries exampleEnv c w1 entries).load 0 = some afterInsertA.p) ∧
      (∀ entries r ts, ∃ snap,
        (Process.applyEntries exampleEnv 0 w1 entries).load c = some snap ∧
        snap.RowExists exampleEnv r ts = afterInsertA.p.RowExists exampleEnv r ts ∧
        ∀ b, b ∈ snap.Blocks ↔ b ∈ afterInsertA.p.Blocks) :=
  ⟨by decide, by decide, by decide,
   snapshot_is_independent exampleEnv oneLive 0 afterInsertA.p (by decide)⟩

/-- Two objects that share their trees are not independent: after the struct
assignment `q := *p` a delete applied to `p` is seen through `q`, whereas it is
not seen through `p.Copy()`. -/
theorem shared_trees_are_not_independent :
    sharedTreesScenario = some (some false, some false) ∧
    snapshotScenario = some (some true, some false) := by
  decide

/-! ## What a failed call leaves -/

theorem forRange_panicked_iff {α : Type} (body : Nat → α → St → Except Panic St)
    (xs : List α) (s s' : St) (why : Panic) :
    forRange body 0 xs s = .panicked why s' ↔
      (forRange body 0 (xs.take 0) s = .panicked why s' ∨
        ∃ k, forRange body 0 (xs.take k) s = .done s' ∧
          (xs[k]?).map (fun x => body k x s') = some (.error why)) := by
  constructor
  · intro h
    obtain ⟨k, x, hk, hdone, herr⟩ := forRange_panicked body 0 xs s s' why h
    refine Or.inr ⟨k, hdone, ?_⟩
    rw [hk]
    simpa using herr
  · rintro (h | ⟨k, hdone, herr⟩)
    · simp [forRange] at h
    · cases hk : xs[k]? with
      | none => simp [hk] at herr
      | some x =>
        simp only [hk, Option.map_some', Option.some.injEq] at herr
        exact forRange_panicked_at body 0 k xs x s s' why hdone hk (by simpa using herr)

theorem panicked_before_loop_iff (w why : Panic) (s s' : St) :
    Outcome.panicked w s = .panicked why s' ↔
      (Outcome.panicked w s = .panicked why s' ∨
        ∃ _k : Nat, Outcome.panicked w s = .done s' ∧
          (none : Option (Except Panic St)) = some (.error why)) := by
  constructor
  · exact Or.inl
  · rintro (h | ⟨_, h, -⟩)
    · exact h
    · cases h

theorem HandleLogtailEntry_panicked_iff (env : Env) (s : St) (entry : Entry)
    (primaryKeyIndex : Int) (why : Panic) (s' : St) :
    HandleLogtailEntry env s entry primaryKeyIndex = .panicked why s' ↔
      (HandleLogtailEntry.firstRows env s entry primaryKeyIndex 0 = .panicked why s' ∨
        ∃ k, HandleLogtailEntry.firstRows env s entry primaryKeyIndex k = .done s' ∧
          HandleLogtailEntry.rowAt env entry primaryKeyIndex k s' = some (.error why)) := by
  unfold HandleLogtailEntry HandleLogtailEntry.firstRows HandleLogtailEntry.rowAt
  cases hty : entry.EntryType with
  | Insert =>
    simp only
    by_cases hmeta : env.isMetaTable entry.TableName = true
    · simp only [hmeta, if_true]
      unfold HandleMetadataInsert
      cases hd : HandleMetadataInsert.decode entry.Bat with
      | error w => exact panicked_before_loop_iff w why s s'
      | ok d => exact forRange_panicked_iff _ _ s s' why
    · simp only [hmeta, Bool.false_eq_true, if_false]
      unfold HandleRowsInsert
      cases hd : HandleRowsInsert.decode env entry.Bat primaryKeyIndex with
      | error w => exact panicked_before_loop_iff w why s s'
      | ok d => exact forRange_panicked_iff _ _ s s' why
  | Delete =>
    simp only
    by_cases hmeta : env.isMetaTable entry.TableName = true
    · simp only [hmeta, if_true]
      unfold HandleMetadataDelete
      cases hd : HandleMetadataDelete.decode entry.Bat with
      | error w => exact panicked_before_loop_iff w why s s'
      | ok d => exact forRange_panicked_iff _ _ s s' why
    · simp only [hmeta, Bool.false_eq_true, if_false]
      unfold HandleRowsDelete
      cases hd : HandleRowsDelete.decode entry.Bat with
      | error w => exact panicked_before_loop_iff w why s s'
      | ok d => exact forRange_panicked_iff _ _ s s' why
  | Update => exact panicked_before_loop_iff _ why s s'

theorem firstRows_zero_panicked (env : Env) (s : St) (entry : Entry)
    (primaryKeyIndex : Int) (why : Panic) (s' : St)
    (h : HandleLogtailEntry.firstRows env s entry primaryKeyIndex 0 = .panicked why s') :
    s' = s ∧ HandleLogtailEntry env s entry primaryKeyIndex = .panicked why s := by
  have hcall := (HandleLogtailEntry_panicked_iff env s entry primaryKeyIndex why s').2 (Or.inl h)
  suffices hs : s' = s by
    subst hs
    exact ⟨rfl, hcall⟩
  unfold HandleLogtailEntry.firstRows at h
  cases hty : entry.EntryType with
  | Insert =>
    rw [hty] at h
    simp only at h
    split_ifs at h
    · cases hd : HandleMetadataInsert.decode entry.Bat with
      | error w =>
        rw [hd] at h
        simp only [Outcome.panicked.injEq] at h
        exact h.2.symm
      | ok d =>
        rw [hd] at h
        simp [forRange] at h
    · cases hd : HandleRowsInsert.decode env entry.Bat primaryKeyIndex with
      | error w =>
        rw [hd] at h
        simp only [Outcome.panicked.injEq] at h
        exact h.2.symm
      | ok d =>
        rw [hd] at h
        simp [forRange] at h
  | Delete =>
    rw [hty] at h
    simp only at h
    split_ifs at h
    · cases hd : HandleMetadataDelete.decode entry.Bat with
      | error w =>
        rw [hd] at h
        simp only [Outcome.panicked.injEq] at h
        exact h.2.symm
      | ok d =>
        rw [hd] at h
        simp [forRange] at h
    · cases hd : HandleRowsDelete.decode entry.Bat with
      | error w =>
        rw [hd] at h
        simp only [Outcome.panicked.injEq] at h
        exact h.2.symm
      | ok d =>
        rw [hd] at h
        simp [forRange] at h
  | Update =>
    rw [hty] at h
    simp only [Outcome.panicked.injEq] at h
    exact h.2.symm

/-- A metadata-delete whose first row names a stored block and whose second row
names a block that is not stored fails at the second row with the delete time
of the first row written. -/
theorem metadataDelete_second_row_missing (env : Env) (s : St) (d : MetadataDeleteInput)
    (r0 r1 : Nat) (rest : List Nat) (t0 : Nat) (hrows : d.rowIDVector = r0 :: r1 :: rest)
    (ht0 : d.deleteTimeVector[0]? = some t0)
    (h0 : ∃ b ∈ s.p.Blocks, b.BlockID = env.DecodeUint64 r0)
    (h1 : ∀ b ∈ s.p.Blocks, b.BlockID ≠ env.DecodeUint64 r1) :
    ∃ b ∈ s.p.Blocks, b.BlockID = env.DecodeUint64 r0 ∧
      forRange (HandleMetadataDelete.row env d) 0 d.rowIDVector s =
        .panicked (.invalidBlockID r1)
          { s with p := { s.p with
              Blocks := btree.Set BlockEntry.Less { b with DeleteTime := t0 } s.p.Blocks } } := by
  cases hg : btree.Get BlockEntry.Less { BlockID := env.DecodeUint64 r0 } s.p.Blocks with
  | none =>
    obtain ⟨b, hb, hid⟩ := h0
    exact absurd hid ((Get_block_none_iff _ _).1 hg b hb)
  | some b =>
    obtain ⟨hb, hlt1, hlt2⟩ := btree.Get_eq_some_imp hg
    have hid : b.BlockID = env.DecodeUint64 r0 := (blockEntry_equiv_iff _ _).1 ⟨hlt1, hlt2⟩
    refine ⟨b, hb, hid, ?_⟩
    have hrow0 : HandleMetadataDelete.row env d 0 r0 s =
        .ok { s with p := { s.p with
          Blocks := btree.Set BlockEntry.Less { b with DeleteTime := t0 } s.p.Blocks } } := by
      unfold HandleMetadataDelete.row
      simp only [hg, ht0]
    have hrow1 : HandleMetadataDelete.row env d 1 r1
        { s with p := { s.p with
          Blocks := btree.Set BlockEntry.Less { b with DeleteTime := t0 } s.p.Blocks } } =
        .error (.invalidBlockID r1) := by
      apply metaDeleteRow_error_of_missing
      rw [Get_block_none_iff]
      intro x hx
      rcases btree.mem_Set_imp hx with rfl | hx'
      · intro hx1
        exact h1 b hb hx1
      · exact h1 x hx'
    rw [hrows]
    simp only [forRange, hrow0, Nat.zero_add, hrow1]

/-- C10 (amended): `HandleLogtailEntry` fails exactly when it fails before the
first row of the batch (an unknown entry type, a column that is missing, cannot
be decoded or has the wrong type, a batch that cannot be decoded), and then the
state is what it was before the call, or when, for some `k`, the first `k` rows
of the batch were applied in full and row `k` fails in the state they left, and
then the state is that state: `Rows`, `Blocks` and `PrimaryIndex` are what the
rows before the failing row made of them. `Checkpoints` is what it was before
the call. A metadata-delete batch whose first row names a stored block and
whose second row names a block that is not stored fails at the second row, and
the first block keeps the delete time written for it, so that `Blocks` is not
what it was when that delete time is new. -/
theorem panic_keeps_rows_before_failing_row (env : Env) (s : St) (entry : Entry)
    (primaryKeyIndex : Int) :
    (∀ why s', HandleLogtailEntry env s entry primaryKeyIndex = .panicked why s' ↔
      (HandleLogtailEntry.firstRows env s entry primaryKeyIndex 0 = .panicked why s' ∨
        ∃ k, HandleLogtailEntry.firstRows env s entry primaryKeyIndex k = .done s' ∧
          HandleLogtailEntry.rowAt env entry primaryKeyIndex k s' = some (.error why))) ∧
    (∀ why s', HandleLogtailEntry.firstRows env s entry primaryKeyIndex 0 = .panicked why s' →
      s' = s) ∧
    (∀ why s', HandleLogtailEntry env s entry primaryKeyIndex = .panicked why s' →
      why = .unknownEntryType ∨ why = .badVector ∨ why = .typeMismatch ∨ why = .decodeError →
      s' = s) ∧
    (HandleLogtailEntry env s entry primaryKeyIndex).state.p.Checkpoints = s.p.Checkpoints ∧
    (∀ d r0 r1 rest t0, entry.EntryType = .Delete → env.isMetaTable entry.TableName = true →
      HandleMetadataDelete.decode entry.Bat = .ok d → d.rowIDVector = r0 :: r1 :: rest →
      d.deleteTimeVector[0]? = some t0 →
      (∃ b ∈ s.p.Blocks, b.BlockID = env.DecodeUint64 r0) →
      (∀ b ∈ s.p.Blocks, b.BlockID ≠ env.DecodeUint64 r1) →
      ∃ b ∈ s.p.Blocks, b.BlockID = env.DecodeUint64 r0 ∧
        ∃ s', HandleLogtailEntry env s entry primaryKeyIndex =
            .panicked (.invalidBlockID r1) s' ∧
          s'.p.Blocks = btree.Set BlockEntry.Less { b with DeleteTime := t0 } s.p.Blocks ∧
          { b with DeleteTime := t0 } ∈ s'.p.Blocks ∧
          s'.p.Rows = s.p.Rows ∧ s'.p.PrimaryIndex = s.p.PrimaryIndex ∧
          (btree.Sorted BlockEntry.Less s.p.Blocks → b.DeleteTime ≠ t0 →
            s'.p.Blocks ≠ s.p.Blocks)) := by
  refine ⟨fun why s' => HandleLogtailEntry_panicked_iff env s entry primaryKeyIndex why s',
    fun why s' h => (firstRows_zero_panicked env s entry primaryKeyIndex why s' h).1, ?_,
    HandleLogtailEntry_Checkpoints env s entry primaryKeyIndex, ?_⟩
  · intro why s' h hwhy
    rcases HandleLogtailEntry_panicked_cases env s s' entry primaryKeyIndex why h with
      e | ⟨hr, -⟩
    · exact e
    · exfalso
      rcases hr with e | ⟨rowID, e⟩ <;> subst e <;> simp at hwhy
  · intro d r0 r1 rest t0 hty hmeta hd hrows ht0 h0 h1
    obtain ⟨b, hb, hid, hloop⟩ :=
      metadataDelete_second_row_missing env s d r0 r1 rest t0 hrows ht0 h0 h1
    have hcall : HandleLogtailEntry env s entry primaryKeyIndex =
        .panicked (.invalidBlockID r1)
          { s with p := { s.p with
              Blocks := btree.Set BlockEntry.Less { b with DeleteTime := t0 } s.p.Blocks } } := by
      unfold HandleLogtailEntry
      simp only [hty, hmeta, if_true]
      unfold HandleMetadataDelete
      simp only [hd]
      exact hloop
    refine ⟨b, hb, hid, _, hcall, rfl, btree.item_mem_Set _ _, rfl, rfl, ?_⟩
    · intro hs hne heq
      have hmem : ({ b with DeleteTime := t0 } : BlockEntry) ∈ s.p.Blocks := by
        have : ({ b with DeleteTime := t0 } : BlockEntry) ∈
            btree.Set BlockEntry.Less ({ b with DeleteTime := t0 } : BlockEntry) s.p.Blocks :=
          btree.item_mem_Set _ _
        have heq' : btree.Set BlockEntry.Less ({ b with DeleteTime := t0 } : BlockEntry)
            s.p.Blocks = s.p.Blocks := heq
        rw [heq'] at this
        exact this
      by_cases hsame : ({ b with DeleteTime := t0 } : BlockEntry) = b
      · apply hne
        have := congrArg BlockEntry.DeleteTime hsame
        exact this.symm
      · have hcmp := hs.comparable hmem hb hsame
        rw [blockEntry_less_iff, blockEntry_less_iff] at hcmp
        simp only at hcmp
        omega

theorem panic_keeps_rows_before_failing_row_witness :
    deleteNineThenSeven.EntryType = .Delete ∧
    exampleEnv.isMetaTable deleteNineThenSeven.TableName = true ∧
    (∃ b ∈ blockNine.p.Blocks, b.BlockID = 9) ∧
    (∀ b ∈ blockNine.p.Blocks, b.BlockID ≠ 7) ∧
    HandleLogtailEntry exampleEnv blockNine deleteNineThenSeven 0 =
      .panicked (.invalidBlockID (7 * 18446744073709551616)) blockNineDeleted ∧
    HandleLogtailEntry.firstRows exampleEnv blockNine deleteNineThenSeven 0 1 =
      .done blockNineDeleted ∧
    HandleLogtailEntry.rowAt exampleEnv deleteNineThenSeven 0 1 blockNineDeleted =
      some (.error (.invalidBlockID (7 * 18446744073709551616))) ∧
    ∃ b ∈ blockNine.p.Blocks, b.BlockID = exampleEnv.DecodeUint64 (9 * 18446744073709551616) ∧
      ∃ s', HandleLogtailEntry exampleEnv blockNine deleteNineThenSeven 0 =
          .panicked (.invalidBlockID (7 * 18446744073709551616)) s' ∧
        s'.p.Blocks = btree.Set BlockEntry.Less { b with DeleteTime := 20 } blockNine.p.Blocks ∧
        { b with DeleteTime := 20 } ∈ s'.p.Blocks ∧
        s'.p.Rows = blockNine.p.Rows ∧ s'.p.PrimaryIndex = blockNine.p.PrimaryIndex ∧
        (btree.Sorted BlockEntry.Less blockNine.p.Blocks → b.DeleteTime ≠ 20 →
          s'.p.Blocks ≠ blockNine.p.Blocks) :=
  ⟨rfl, by decide, by decide, by decide, by decide, by decide, rfl,
   (panic_keeps_rows_before_failing_row exampleEnv blockNine deleteNineThenSeven 0).2.2.2.2
     { rowIDVector := [9 * 18446744073709551616, 7 * 18446744073709551616],
       deleteTimeVector := [20, 30] }
     (9 * 18446744073709551616) (7 * 18446744073709551616) [] 20 rfl (by decide) rfl rfl rfl
     (by decide) (by decide)⟩

/-! ## Key bytes in the partition of one table -/

theorem ReachableForTable.reachable {env : Env} {primaryKeyIndex : Int} {s : St}
    (h : ReachableForTable env primaryKeyIndex s) : Reachable env s := by
  induction h with
  | init next => exact Reachable.init next
  | step s entry _ ih => exact Reachable.step s entry primaryKeyIndex ih

theorem insertRow_keeps_NoKeyBytes {env : Env} {d : RowsInsertInput} {i rowID : Nat}
    {s s' : St} (hk : d.primaryKeyBytesSet = []) (hP : NoKeyBytes s)
    (h : HandleRowsInsert.row env d i rowID s = .ok s') : NoKeyBytes s' := by
  obtain ⟨time, -, hrows, -⟩ := insertRow_ok h
  intro v hv
  rw [hrows] at hv
  rcases btree.mem_Set_imp hv with rfl | hv'
  · have hlen : ¬ i < d.primaryKeyBytesSet.length := by simp [hk]
    cases hg : btree.Get RowEntry.Less
        { BlockID := env.blockIDFromRowID rowID, RowID := rowID, Time := time } s.p.Rows with
    | none =>
      rw [(insertEntry_fresh env d i rowID time s hg).2.2]
      simp [hlen]
    | some e =>
      rw [(insertEntry_found env d i rowID time s e hg).2.2]
      simp only [hlen, dite_false]
      exact hP e (btree.Get_eq_some_imp hg).1
  · exact hP v hv'

theorem deleteRow_keeps_NoKeyBytes {env : Env} {d : RowsDeleteInput} {i rowID : Nat}
    {s s' : St} (hP : NoKeyBytes s)
    (h : HandleRowsDelete.row env d i rowID s = .ok s') : NoKeyBytes s' := by
  obtain ⟨time, -, hrows, -⟩ := deleteRow_ok h
  intro v hv
  rw [hrows] at hv
  rcases btree.mem_Set_imp hv with rfl | hv'
  · cases hg : btree.Get RowEntry.Less
        { BlockID := env.blockIDFromRowID rowID, RowID := rowID, Time := time } s.p.Rows with
    | none => exact (deleteEntry_fresh env d i rowID time s hg).2
    | some e =>
      rw [(deleteEntry_found env d i rowID time s e hg).2]
      exact hP e (btree.Get_eq_some_imp hg).1
  · exact hP v hv'

theorem metaInsertRow_keeps_NoKeyBytes {d : MetadataInsertInput} {i blockID : Nat}
    {s s' : St} (hP : NoKeyBytes s)
    (h : HandleMetadataInsert.row d i blockID s = .ok s') : NoKeyBytes s' :=
  fun v hv => hP v ((metaInsertRow_Rows_sublist h).subset hv)

theorem metaDeleteRow_keeps_NoKeyBytes {env : Env} {d : MetadataDeleteInput} {i rowID : Nat}
    {s s' : St} (hP : NoKeyBytes s)
    (h : HandleMetadataDelete.row env d i rowID s = .ok s') : NoKeyBytes s' := by
  obtain ⟨_, _, -, -, -, -, hrows, -, -⟩ := metaDeleteRow_ok h
  intro v hv
  rw [hrows] at hv
  exact hP v hv

/-- In the partition of a table that has no primary key, no row version has key
bytes. -/
theorem ReachableForTable.noKeyBytes {env : Env} {primaryKeyIndex : Int} {s : St}
    (hneg : primaryKeyIndex < 0) (h : ReachableForTable env primaryKeyIndex s) :
    NoKeyBytes s := by
  induction h with
  | init next =>
    intro v hv
    cases hv
  | step s entry _ ih =>
    unfold HandleLogtailEntry
    cases entry.EntryType with
    | Insert =>
      simp only
      split_ifs
      · unfold HandleMetadataInsert
        cases hd : HandleMetadataInsert.decode entry.Bat with
        | error why => exact ih
        | ok d =>
          exact forRange_invariant _ NoKeyBytes
            (fun _ _ _ _ hP hrow => metaInsertRow_keeps_NoKeyBytes hP hrow) 0 _ s ih
      · unfold HandleRowsInsert
        cases hd : HandleRowsInsert.decode env entry.Bat primaryKeyIndex with
        | error why => exact ih
        | ok d =>
          exact forRange_invariant _ NoKeyBytes
            (fun _ _ _ _ hP hrow =>
              insertRow_keeps_NoKeyBytes ((HandleRowsInsert_decode_keys hd).1 hneg) hP hrow)
            0 _ s ih
    | Delete =>
      simp only
      split_ifs
      · unfold HandleMetadataDelete
        cases hd : HandleMetadataDelete.decode entry.Bat with
        | error why => exact ih
        | ok d =>
          exact forRange_invariant _ NoKeyBytes
            (fun _ _ _ _ hP hrow => metaDeleteRow_keeps_NoKeyBytes hP hrow) 0 _ s ih
      · unfold HandleRowsDelete
        cases hd : HandleRowsDelete.decode entry.Bat with
        | error why => exact ih
        | ok d =>
          exact forRange_invariant _ NoKeyBytes
            (fun _ _ _ _ hP hrow => deleteRow_keeps_NoKeyBytes hP hrow) 0 _ s ih
    | Update => exact ih

/-- C28: in the partition of a table, whose log tail is applied with the index
of the primary key column of the table, when `HandleRowsInsert` applies row `i`
of a batch (the rows before it applied, and, for a table with a primary key, the
encoder having yielded one key per row) and the row's `(BlockID, RowID, Time)`
triple already holds the version `e`, the row is applied and the one version
stored at the triple afterwards has as `Batch` the new batch, as `Offset` the
index `i`, the `ID` and the `Deleted` flag of `e`, and as `PrimaryIndexBytes`
the encoded key of row `i`, which is row `i` of the encoding of column
`2 + primaryKeyIndex` when `primaryKeyIndex >= 0` and is empty when the table
has no primary key (`primaryKeyIndex < 0`). -/
theorem reinserted_version_takes_payload_and_key (env : Env) (primaryKeyIndex : Int)
    (s0 s : St) (input : Batch) (d : RowsInsertInput) (i rowID time : Nat) (e : RowEntry)
    (hreach : ReachableForTable env primaryKeyIndex s0)
    (hd : HandleRowsInsert.decode env input primaryKeyIndex = .ok d)
    (hkeys : 0 ≤ primaryKeyIndex → d.primaryKeyBytesSet.length = d.rowIDVector.length)
    (hbefore : forRange (HandleRowsInsert.row env d) 0 (d.rowIDVector.take i) s0 = .done s)
    (hx : d.rowIDVector[i]? = some rowID) (ht : d.timeVector[i]? = some time)
    (he : e ∈ s.p.Rows) (hat : e.isAt (env.blockIDFromRowID rowID) rowID time) :
    ∃ s', HandleRowsInsert.row env d i rowID s = .ok s' ∧
      ∃ v ∈ s'.p.Rows, v.isAt (env.blockIDFromRowID rowID) rowID time ∧
        (∀ w ∈ s'.p.Rows, w.isAt (env.blockIDFromRowID rowID) rowID time → w = v) ∧
        v.Batch = some input ∧ v.Offset = (i : Int) ∧ v.ID = e.ID ∧ v.Deleted = e.Deleted ∧
        (0 ≤ primaryKeyIndex → ∃ col key, input.Vecs[(2 + primaryKeyIndex).toNat]? = some col ∧
          (env.encodePrimaryKeyVector col)[i]? = some key ∧ v.PrimaryIndexBytes = key) ∧
        (primaryKeyIndex < 0 → v.PrimaryIndexBytes = []) := by
  have hinv := forRange_invariant (HandleRowsInsert.row env d)
    (fun t => btree.Sorted RowEntry.Less t.p.Rows ∧ (primaryKeyIndex < 0 → NoKeyBytes t))
    (fun _ _ t t' hP hrow => ⟨insertRow_sorted hP.1 hrow, fun hneg =>
      insertRow_keeps_NoKeyBytes ((HandleRowsInsert_decode_keys hd).1 hneg) (hP.2 hneg) hrow⟩)
    0 (d.rowIDVector.take i) s0
    ⟨hreach.reachable.sorted, fun hneg => hreach.noKeyBytes hneg⟩
  rw [hbefore] at hinv
  obtain ⟨hs, hno⟩ := hinv
  obtain ⟨s', hrow⟩ := insertRow_returns env d i rowID time s ht
  obtain ⟨v, hv, hvat, huniq, hbatch, hoff, hid, hdel, hkey, -, hkeep, hcol⟩ :=
    reinserted_version_takes_payload_and_available_key env s s' input primaryKeyIndex d i
      rowID time e hs hd ht he hat hrow
  refine ⟨s', hrow, v, hv, hvat, huniq, hbatch, hoff, hid, hdel, ?_, ?_⟩
  · intro hpos
    obtain ⟨col, hcolv, hset⟩ := hcol hpos
    have hlt : i < d.primaryKeyBytesSet.length := by
      rw [hkeys hpos]
      rcases Nat.lt_or_ge i d.rowIDVector.length with h | h
      · exact h
      · rw [List.getElem?_eq_none h] at hx
        cases hx
    have hget : d.primaryKeyBytesSet[i]? = some (d.primaryKeyBytesSet.get ⟨i, hlt⟩) :=
      List.getElem?_eq_getElem hlt
    refine ⟨col, _, hcolv, ?_, hkey _ hget⟩
    rw [← hset]
    exact hget
  · intro hneg
    rw [hkeep hneg]
    exact hno hneg e he

theorem reinserted_version_takes_payload_and_key_witness :
    (ReachableForTable exampleEnv (-1) afterInsertAUnkeyed ∧
      HandleRowsInsert.decode exampleEnv insertA (-1) = .ok insertAUnkeyedDecoded ∧
      versionAUnkeyed ∈ afterInsertAUnkeyed.p.Rows ∧
      ∃ s', HandleRowsInsert.row exampleEnv insertAUnkeyedDecoded 0 rowA afterInsertAUnkeyed =
          .ok s' ∧
        ∃ v ∈ s'.p.Rows, v.isAt (exampleEnv.blockIDFromRowID rowA) rowA 10 ∧
          v.Batch = some insertA ∧ v.Offset = ((0 : Nat) : Int) ∧ v.PrimaryIndexBytes = []) ∧
    (ReachableForTable exampleEnv 0 afterInsertA ∧
      HandleRowsInsert.decode exampleEnv insertARekeyed 0 = .ok insertARekeyedDecoded ∧
      versionA ∈ afterInsertA.p.Rows ∧
      ∃ s', HandleRowsInsert.row exampleEnv insertARekeyedDecoded 0 rowA afterInsertA = .ok s' ∧
        ∃ v ∈ s'.p.Rows, v.isAt (exampleEnv.blockIDFromRowID rowA) rowA 10 ∧
          v.Batch = some insertARekeyed ∧ v.Offset = ((0 : Nat) : Int) ∧
          v.PrimaryIndexBytes = [98]) := by
  refine ⟨⟨ReachableForTable.step _ _ (ReachableForTable.init 1), rfl, by decide, ?_⟩,
    ⟨ReachableForTable.step _ _ (ReachableForTable.init 1), rfl, by decide, ?_⟩⟩
  · obtain ⟨s', hrow, v, hv, hat, -, hb, ho, -, -, -, hkey⟩ :=
      reinserted_version_takes_payload_and_key exampleEnv (-1) afterInsertAUnkeyed
        afterInsertAUnkeyed insertA insertAUnkeyedDecoded 0 rowA 10 versionAUnkeyed
        (ReachableForTable.step _ _ (ReachableForTable.init 1)) rfl (by decide) rfl rfl rfl
        (by decide) (by decide)
    exact ⟨s', hrow, v, hv, hat, hb, ho, hkey (by decide)⟩
  · obtain ⟨s', hrow, v, hv, hat, -, hb, ho, -, -, hkey, -⟩ :=
      reinserted_version_takes_payload_and_key exampleEnv 0 afterInsertA
        afterInsertA insertARekeyed insertARekeyedDecoded 0 rowA 10 versionA
        (ReachableForTable.step _ _ (ReachableForTable.init 1)) rfl (by decide) rfl rfl rfl
        (by decide) (by decide)
    obtain ⟨col, key, hcol, hk, hvk⟩ := hkey (by decide)
    refine ⟨s', hrow, v, hv, hat, hb, ho, ?_⟩
    rw [hvk]
    have hcol' : col = Vec.strs ["b"] := by
      have : insertARekeyed.Vecs[(2 + (0 : Int)).toNat]? = some (Vec.strs ["b"]) := rfl
      rw [this] at hcol
      exact (Option.some.inj hcol).symm
    subst hcol'
    have : (exampleEnv.encodePrimaryKeyVector (Vec.strs ["b"]))[0]? = some [98] := rfl
    rw [this] at hk
    exact (Option.some.inj hk).symm

end disttae
